import Mathlib

/-!
The Monkey bytecode virtual machine (package vm).

A shallow embedding of `src/vm/vm.go`.  Go values of interface type
`object.Object` are pointers: every heap object carries the address it was
allocated at, so that Go's pointer comparison (`right == left`,
`switch operand { case True: ... }`) can be expressed.  A Go run-time panic
(index out of range, nil dereference, failed type assertion, integer division
by zero) is the result `none`; a returned `error` is a value.

The packages `code`, `object`, `ast` and `compiler` are not among the sources.
What the development needs of them (the instruction encoding, the values, the
syntax tree and the compiler with its symbol table and scope stack) is modelled
from the specification; each such definition says so.
-/

namespace Monkey

/-! ## Go primitives -/

/-- A Go `error`: `none` is the nil error, `some msg` an error with that message. -/
abbrev error := Option String

/-- Go `s[i]` on a slice, for a signed index: `none` is the index-out-of-range panic. -/
def index {α : Type} (s : List α) (i : Int) : Option α :=
  if 0 ≤ i then s[i.toNat]? else none

/-- Go `s[i] = v` on a slice: `none` is the index-out-of-range panic. -/
def assign {α : Type} (s : List α) (i : Int) (v : α) : Option (List α) :=
  if 0 ≤ i ∧ i < s.length then some (s.set i.toNat v) else none

/-- Go `s[low:]` on a slice whose capacity is its length: `none` is the bounds panic. -/
def sliceFrom {α : Type} (s : List α) (low : Int) : Option (List α) :=
  if 0 ≤ low ∧ low ≤ s.length then some (s.drop low.toNat) else none

/-- The value an `int64` holds after a computation whose exact result is `x`
(two's-complement wrap-around). -/
def wrap64 (x : Int) : Int := (x + 2 ^ 63) % 2 ^ 64 - 2 ^ 63

/-- The conversion `uint64(x)` of an `int64`. -/
def toUint64 (x : Int) : Nat := (x % 2 ^ 64).toNat

/-! ## Package code (opcodes) -/

/-- Modelled from the spec: package `code` is not among the sources; these are the
opcodes of the table in section 4.1, by the names `vm.go` and the compiler tests use. -/
inductive Opcode
  | OpConstant | OpAdd | OpSub | OpMul | OpDiv | OpPop | OpTrue | OpFalse | OpNull
  | OpEqual | OpNotEqual | OpGreaterThan | OpBang | OpMinus | OpJump | OpJumpNotTruthy
  | OpSetGlobal | OpGetGlobal | OpArray | OpHash | OpIndex | OpCall | OpReturnValue
  | OpReturn | OpSetLocal | OpGetLocal | OpGetBuiltin | OpClosure | OpGetFree
  | OpCurrentClosure
  deriving DecidableEq, Repr

/-- Every opcode of the instruction set. -/
def Opcode.all : List Opcode :=
  [.OpConstant, .OpAdd, .OpSub, .OpMul, .OpDiv, .OpPop, .OpTrue, .OpFalse, .OpNull,
   .OpEqual, .OpNotEqual, .OpGreaterThan, .OpBang, .OpMinus, .OpJump, .OpJumpNotTruthy,
   .OpSetGlobal, .OpGetGlobal, .OpArray, .OpHash, .OpIndex, .OpCall, .OpReturnValue,
   .OpReturn, .OpSetLocal, .OpGetLocal, .OpGetBuiltin, .OpClosure, .OpGetFree,
   .OpCurrentClosure]

/-- Modelled from the spec: what `vm.go` takes from the packages `code` and `object`
that are not among the sources and that the spec leaves open.  `byte` is the value of
each opcode constant (one byte each, pairwise different, as the `switch` of `Run`
requires); `strHash` is the 64-bit digest of a string used for its hash key. -/
structure Params where
  byte : Opcode → Nat
  byte_lt : ∀ o, byte o < 256
  byte_inj : ∀ a b, byte a = byte b → a = b
  strHash : String → Nat

/-- The conversion `code.Opcode(b)` followed by the comparison with the opcode
constants: the opcode whose constant is the byte `b`, if any. -/
def Params.lookup (P : Params) (b : Nat) : Option Opcode :=
  Opcode.all.find? (fun o => P.byte o == b)

/-- Modelled from the spec: `code.ReadUint16` decodes a big-endian two-byte operand from
the start of a byte slice; `none` is the bounds panic on a slice shorter than two. -/
def ReadUint16 (ins : List Nat) : Option Nat :=
  match ins with
  | hi :: lo :: _ => some (hi * 256 + lo)
  | _ => none

/-- Modelled from the spec: `code.Make` for an opcode without operand. -/
def Make0 (P : Params) (op : Opcode) : List Nat := [P.byte op]

/-- Modelled from the spec: `code.Make` for an opcode with one two-byte operand,
stored big-endian. -/
def Make16 (P : Params) (op : Opcode) (x : Nat) : List Nat :=
  [P.byte op, x / 256 % 256, x % 256]

/-! ## Package object (values) -/

/-- The Go type `object.ObjectType`, a string. -/
abbrev ObjectType := String

/-- Modelled from the spec: the type names of package `object`.  The spec fixes
`INTEGER` and `BOOLEAN` (section 8); the others are the upper-case names of the
variants of section 3. -/
def INTEGER_OBJ : ObjectType := "INTEGER"
/-- Modelled from the spec: see `INTEGER_OBJ`. -/
def BOOLEAN_OBJ : ObjectType := "BOOLEAN"
/-- Modelled from the spec: see `INTEGER_OBJ`. -/
def NULL_OBJ : ObjectType := "NULL"
/-- Modelled from the spec: see `INTEGER_OBJ`. -/
def STRING_OBJ : ObjectType := "STRING"
/-- Modelled from the spec: see `INTEGER_OBJ`. -/
def ARRAY_OBJ : ObjectType := "ARRAY"
/-- Modelled from the spec: see `INTEGER_OBJ`. -/
def HASH_OBJ : ObjectType := "HASH"
/-- Modelled from the spec: see `INTEGER_OBJ`. -/
def COMPILED_FUNCTION_OBJ : ObjectType := "COMPILED_FUNCTION"
/-- Modelled from the spec: see `INTEGER_OBJ`. -/
def CLOSURE_OBJ : ObjectType := "CLOSURE"
/-- Modelled from the spec: see `INTEGER_OBJ`. -/
def BUILTIN_OBJ : ObjectType := "BUILTIN"
/-- Modelled from the spec: see `INTEGER_OBJ`. -/
def ERROR_OBJ : ObjectType := "ERROR"

/-- Modelled from the spec: `object.HashKey`, the pair of a type tag (the Go field `Type`) and a
64-bit digest. -/
structure HashKey where
  Kind : ObjectType
  Value : Nat
  deriving DecidableEq, Repr

/-- Modelled from the spec: `object.CompiledFunction`; `addr` is the address of the
object (`*object.CompiledFunction` is a pointer). -/
structure CompiledFunction where
  addr : Nat
  Instructions : List Nat
  NumLocals : Nat
  NumParameters : Nat
  deriving DecidableEq, Repr

/-- Modelled from the spec: a value of the interface type `object.Object`, with the
variants of section 3.  `nil` is the nil interface value (what a fresh stack or
globals slot holds); every other value is a pointer, and `addr` is its address. -/
inductive Object
  | nil
  | Integer (addr : Nat) (Value : Int)
  | Boolean (addr : Nat) (Value : Bool)
  | Null (addr : Nat)
  | String (addr : Nat) (Value : String)
  | Array (addr : Nat) (Elements : List Object)
  | Hash (addr : Nat) (Pairs : List (HashKey × Object × Object))
  | CompiledFunction (fn : CompiledFunction)
  | Closure (addr : Nat) (Fn : CompiledFunction) (Free : List Object)
  | Builtin (addr : Nat) (Name : String)
  | Error (addr : Nat) (Message : String)

/-- The method `Type()`; `none` is the nil-dereference panic of a call on the nil
interface value. -/
def Object.typ : Object → Option ObjectType
  | .nil => none
  | .Integer _ _ => some INTEGER_OBJ
  | .Boolean _ _ => some BOOLEAN_OBJ
  | .Null _ => some NULL_OBJ
  | .String _ _ => some STRING_OBJ
  | .Array _ _ => some ARRAY_OBJ
  | .Hash _ _ => some HASH_OBJ
  | .CompiledFunction _ => some COMPILED_FUNCTION_OBJ
  | .Closure _ _ _ => some CLOSURE_OBJ
  | .Builtin _ _ => some BUILTIN_OBJ
  | .Error _ _ => some ERROR_OBJ

/-- The address an interface value points to (`none` for the nil interface value). -/
def Object.addr? : Object → Option Nat
  | .nil => none
  | .Integer a _ => some a
  | .Boolean a _ => some a
  | .Null a => some a
  | .String a _ => some a
  | .Array a _ => some a
  | .Hash a _ => some a
  | .CompiledFunction fn => some fn.addr
  | .Closure a _ _ => some a
  | .Builtin a _ => some a
  | .Error a _ => some a

/-- Go's `a == b` on two values of type `object.Object`: both nil, or the same dynamic
type and the same pointer. -/
def Object.same (a b : Object) : Bool :=
  a.typ == b.typ && a.addr? == b.addr?

/-- Modelled from the spec: the method `HashKey()` of the `object.Hashable` values
(Integer, Boolean, String); `none` for a value that is not `Hashable`. -/
def Object.hashKey (P : Params) : Object → Option HashKey
  | .Integer _ v => some ⟨INTEGER_OBJ, toUint64 v⟩
  | .Boolean _ v => some ⟨BOOLEAN_OBJ, if v then 1 else 0⟩
  | .String _ s => some ⟨STRING_OBJ, P.strHash s % 2 ^ 64⟩
  | _ => none

/-! ## Package vm -/

/-- The constant `StackSize`. -/
def StackSize : Nat := 2048
/-- The constant `GlobalsSize`. -/
def GlobalsSize : Nat := 65536
/-- The constant `MaxFrame`. -/
def MaxFrame : Nat := 1024

/-- The struct `Frame`: the compiled function the frame refers to and the instruction
pointer in this frame. -/
structure Frame where
  fn : CompiledFunction
  ip : Int

/-- The function `NewFrame`. -/
def NewFrame (fn : CompiledFunction) : Frame := { fn := fn, ip := -1 }

/-- The method `Instructions` of a frame. -/
def Frame.Instructions (f : Frame) : List Nat := f.fn.Instructions

/-- The struct `VM`.  An entry `none` of `frames` is a nil `*Frame`.  `heap` is not a
field of the Go struct: it is the next address the Go allocator hands out, used where
`vm.go` allocates an object (`&object.Integer{...}`). -/
structure VM where
  constants : List Object
  stack : List Object
  sp : Int
  globals : List Object
  frames : List (Option Frame)
  frameIndex : Int
  heap : Nat

/-- The package variable `True`, the canonical true Boolean. -/
def True : Object := .Boolean 0 true
/-- The package variable `False`, the canonical false Boolean. -/
def False : Object := .Boolean 1 false
/-- The package variable `Null`, the canonical Null. -/
def Null : Object := .Null 2

/-- Modelled from the spec: `compiler.Bytecode`, the instructions and the constant pool. -/
structure Bytecode where
  Instructions : List Nat
  Constants : List Object

/-- The function `New`.  `heap` is the first address the Go allocator has not used
yet; the main function is allocated there. -/
def New (bytecode : Bytecode) (heap : Nat) : VM :=
  let mainFn : CompiledFunction :=
    { addr := heap, Instructions := bytecode.Instructions, NumLocals := 0, NumParameters := 0 }
  let mainFrame := NewFrame mainFn
  let frames := (List.replicate MaxFrame (none : Option Frame)).set 0 (some mainFrame)
  { constants := bytecode.Constants
    stack := List.replicate StackSize Object.nil
    sp := 0
    globals := List.replicate GlobalsSize Object.nil
    frames := frames
    frameIndex := 1
    heap := heap + 1 }

/-- The function `NewWithGlobalsStore`. -/
def NewWithGlobalsStore (bytecode : Bytecode) (s : List Object) (heap : Nat) : VM :=
  let vm := New bytecode heap
  { vm with globals := s }

/-- The method `LastPoppedStackElem`; `none` is the index panic. -/
def VM.LastPoppedStackElem (vm : VM) : Option Object := index vm.stack vm.sp

/-- The method `push`. -/
def VM.push (vm : VM) (o : Object) : Option (error × VM) :=
  if vm.sp ≥ StackSize then some (some "stack overflow", vm)
  else do
    let stack ← assign vm.stack vm.sp o
    some (none, { vm with stack := stack, sp := vm.sp + 1 })

/-- The method `pop`. -/
def VM.pop (vm : VM) : Option (Object × VM) := do
  let o ← index vm.stack (vm.sp - 1)
  some (o, { vm with sp := vm.sp - 1 })

/-- The method `currentFrame`, followed by the dereference of the frame pointer it
returns (every use in `vm.go` dereferences it). -/
def VM.currentFrame (vm : VM) : Option Frame := do
  let f ← index vm.frames (vm.frameIndex - 1)
  f

/-- The assignment `vm.currentFrame().ip = ip`. -/
def VM.setIp (vm : VM) (ip : Int) : Option VM := do
  let f ← vm.currentFrame
  let frames ← assign vm.frames (vm.frameIndex - 1) (some { f with ip := ip })
  some { vm with frames := frames }

/-- The method `pushFrame`. -/
def VM.pushFrame (vm : VM) (f : Frame) : Option VM := do
  let frames ← assign vm.frames vm.frameIndex (some f)
  some { vm with frames := frames, frameIndex := vm.frameIndex + 1 }

/-- The method `popFrame` (its result is never used by `Run`). -/
def VM.popFrame (vm : VM) : Option VM := do
  let _ ← index vm.frames (vm.frameIndex - 1)
  some { vm with frameIndex := vm.frameIndex - 1 }

/-- The function `nativeBoolToBooleanObject`. -/
def nativeBoolToBooleanObject (input : Bool) : Object :=
  if input then True else False

/-- The function `isTruthy`. -/
def isTruthy (obj : Object) : Bool :=
  match obj with
  | .Boolean _ v => v
  | .Null _ => false
  | _ => true

/-- The type assertion `o.(*object.Integer).Value`; `none` is its panic. -/
def integerValue : Object → Option Int
  | .Integer _ v => some v
  | _ => none

/-- The type assertion `o.(*object.String).Value`; `none` is its panic. -/
def stringValue : Object → Option String
  | .String _ v => some v
  | _ => none

/-- The method `executeBinaryIntegerOperation`. -/
def VM.executeBinaryIntegerOperation (P : Params) (vm : VM) (op : Opcode)
    (left right : Object) : Option (error × VM) := do
  let leftValue ← integerValue left
  let rightValue ← integerValue right
  let push (result : Int) : Option (error × VM) :=
    ({ vm with heap := vm.heap + 1 } : VM).push (.Integer vm.heap result)
  match op with
  | .OpAdd => push (wrap64 (leftValue + rightValue))
  | .OpSub => push (wrap64 (leftValue - rightValue))
  | .OpMul => push (wrap64 (leftValue * rightValue))
  | .OpDiv =>
    if rightValue = 0 then none
    else push (wrap64 (Int.tdiv leftValue rightValue))
  | _ => some (some ("unknown operator: " ++ toString (P.byte op)), vm)

/-- The method `executeBinaryStringOperation`. -/
def VM.executeBinaryStringOperation (P : Params) (vm : VM) (op : Opcode)
    (left right : Object) : Option (error × VM) :=
  if op ≠ .OpAdd then some (some ("unknown string operator: " ++ toString (P.byte op)), vm)
  else do
    let leftValue ← stringValue left
    let rightValue ← stringValue right
    ({ vm with heap := vm.heap + 1 } : VM).push (.String vm.heap (leftValue ++ rightValue))

/-- The method `executeBinaryOperation`. -/
def VM.executeBinaryOperation (P : Params) (vm : VM) (op : Opcode) : Option (error × VM) := do
  let (right, vm) ← vm.pop
  let (left, vm) ← vm.pop
  let leftType ← left.typ
  let rightType ← right.typ
  if leftType = INTEGER_OBJ ∧ rightType = INTEGER_OBJ then
    vm.executeBinaryIntegerOperation P op left right
  else if leftType = STRING_OBJ ∧ rightType = STRING_OBJ then
    vm.executeBinaryStringOperation P op left right
  else
    some (some ("unsupported types for binary operation: " ++ leftType ++ " " ++ rightType), vm)

/-- The method `executeIntegerComparison`. -/
def VM.executeIntegerComparison (P : Params) (vm : VM) (op : Opcode)
    (left right : Object) : Option (error × VM) := do
  let leftValue ← integerValue left
  let rightValue ← integerValue right
  match op with
  | .OpEqual => vm.push (nativeBoolToBooleanObject (decide (leftValue = rightValue)))
  | .OpNotEqual => vm.push (nativeBoolToBooleanObject (decide (leftValue ≠ rightValue)))
  | .OpGreaterThan => vm.push (nativeBoolToBooleanObject (decide (leftValue > rightValue)))
  | _ => some (some ("unknown operator: " ++ toString (P.byte op)), vm)

/-- The condition `left.Type() == object.INTEGER_OBJ || right.Type() == object.INTEGER_OBJ`
of `executeComparison`, with Go's left-to-right short-circuit evaluation. -/
def eitherInteger (left right : Object) : Option Bool := do
  let leftType ← left.typ
  if leftType = INTEGER_OBJ then some true
  else do
    let rightType ← right.typ
    some (decide (rightType = INTEGER_OBJ))

/-- The method `executeComparison`. -/
def VM.executeComparison (P : Params) (vm : VM) (op : Opcode) : Option (error × VM) := do
  let (right, vm) ← vm.pop
  let (left, vm) ← vm.pop
  if (← eitherInteger left right) then
    vm.executeIntegerComparison P op left right
  else
    match op with
    | .OpEqual => vm.push (nativeBoolToBooleanObject (right.same left))
    | .OpNotEqual => vm.push (nativeBoolToBooleanObject (!(right.same left)))
    | _ => do
      let leftType ← left.typ
      let rightType ← right.typ
      some (some ("unknown operator: " ++ toString (P.byte op) ++ " (" ++ leftType ++ " "
        ++ rightType ++ ")"), vm)

/-- The method `executeBangOperator`. -/
def VM.executeBangOperator (vm : VM) : Option (error × VM) := do
  let (operand, vm) ← vm.pop
  if operand.same True then vm.push False
  else if operand.same False then vm.push True
  else if operand.same Null then vm.push True
  else vm.push False

/-- The method `executeMinusOperator`. -/
def VM.executeMinusOperator (vm : VM) : Option (error × VM) := do
  let (operand, vm) ← vm.pop
  let t ← operand.typ
  if t ≠ INTEGER_OBJ then
    some (some ("unsupported type for negation: " ++ t), vm)
  else do
    let value ← integerValue operand
    ({ vm with heap := vm.heap + 1 } : VM).push (.Integer vm.heap (wrap64 (-value)))

/-- The loop of `buildArray`: the values `stack[i]`, ..., `stack[i+n-1]` in this order. -/
def readStack (stack : List Object) (i : Int) : Nat → Option (List Object)
  | 0 => some []
  | n + 1 => do
    let o ← index stack i
    let rest ← readStack stack (i + 1) n
    some (o :: rest)

/-- The method `buildArray`; `make` panics on a negative length. -/
def VM.buildArray (vm : VM) (startIndex endIndex : Int) : Option (Object × VM) :=
  if endIndex - startIndex < 0 then none
  else do
    let elements ← readStack vm.stack startIndex (endIndex - startIndex).toNat
    some (.Array vm.heap elements, { vm with heap := vm.heap + 1 })

/-- The Go map assignment `m[k] = pair` on `map[object.HashKey]object.HashPair`. -/
def mapAssign (m : List (HashKey × Object × Object)) (k : HashKey) (pair : Object × Object) :
    List (HashKey × Object × Object) :=
  (k, pair) :: m.filter (fun e => e.1 != k)

/-- The Go map read `pair, ok := m[k]`. -/
def mapIndex (m : List (HashKey × Object × Object)) (k : HashKey) : Option (Object × Object) :=
  (m.find? (fun e => e.1 == k)).map (fun e => e.2)

/-- The loop of `buildHash`, for `n` more iterations from index `i`. -/
def buildHashLoop (P : Params) (stack : List Object) :
    Nat → Int → List (HashKey × Object × Object) →
      Option (error × List (HashKey × Object × Object))
  | 0, _, hashedPairs => some (none, hashedPairs)
  | n + 1, i, hashedPairs => do
    let key ← index stack i
    let value ← index stack (i + 1)
    match key.hashKey P with
    | none => do
      let t ← key.typ
      some (some ("unusable as hash key: " ++ t), hashedPairs)
    | some hashKey => buildHashLoop P stack n (i + 2) (mapAssign hashedPairs hashKey (key, value))

/-- The method `buildHash`: the loop runs for `i = startIndex, startIndex + 2, ...` while
`i < endIndex`.  On an error the returned object is nil. -/
def VM.buildHash (P : Params) (vm : VM) (startIndex endIndex : Int) :
    Option (Object × error × VM) := do
  let (err, hashedPairs) ←
    buildHashLoop P vm.stack ((endIndex - startIndex + 1) / 2).toNat startIndex []
  match err with
  | some e => some (.nil, some e, vm)
  | none => some (.Hash vm.heap hashedPairs, none, { vm with heap := vm.heap + 1 })

/-- The method `executeArrayIndex`. -/
def VM.executeArrayIndex (vm : VM) (array idx : Object) : Option (error × VM) :=
  match array with
  | .Array _ elements => do
    let i ← integerValue idx
    let max : Int := (elements.length : Int) - 1
    if i < 0 ∨ i > max then vm.push Null
    else do
      let e ← index elements i
      vm.push e
  | _ => none

/-- The method `executeHashIndex`. -/
def VM.executeHashIndex (P : Params) (vm : VM) (hash idx : Object) : Option (error × VM) :=
  match hash with
  | .Hash _ pairs =>
    match idx.hashKey P with
    | none => do
      let t ← idx.typ
      some (some ("unusable as hash key: " ++ t), vm)
    | some key =>
      match mapIndex pairs key with
      | none => vm.push Null
      | some pair => vm.push pair.2
  | _ => none

/-- The method `executeIndexExpression`. -/
def VM.executeIndexExpression (P : Params) (vm : VM) (left idx : Object) :
    Option (error × VM) := do
  let leftType ← left.typ
  let arrayCase ←
    if leftType = ARRAY_OBJ then (do
      let indexType ← idx.typ
      some (decide (indexType = INTEGER_OBJ)))
    else some false
  if arrayCase then vm.executeArrayIndex left idx
  else if leftType = HASH_OBJ then vm.executeHashIndex P left idx
  else some (some ("index operator not supported: " ++ leftType), vm)

/-- The statement `vm.currentFrame().ip += d`. -/
def VM.addIp (vm : VM) (d : Int) : Option VM := do
  let f ← vm.currentFrame
  vm.setIp (f.ip + d)

/-- The expression `code.ReadUint16(ins[ip+1:])`. -/
def readOperand (ins : List Nat) (ip : Int) : Option Nat := do
  let rest ← sliceFrom ins (ip + 1)
  ReadUint16 rest

/-- The loop condition of `Run`:
`vm.currentFrame().ip < len(vm.currentFrame().Instructions())-1`. -/
def VM.running (vm : VM) : Option Bool := do
  let f ← vm.currentFrame
  let g ← vm.currentFrame
  some (decide (f.ip < (g.Instructions.length : Int) - 1))

/-- The `switch op` of `Run`, entered with the opcode `op` fetched at offset `ip` of the
instructions `ins` (`none`: the byte is no opcode constant).  The result `(some e, vm)`
is `return e`; `(none, vm)` is the end of the iteration.  A byte that no `case` lists
falls through the `switch`, which has no `default`. -/
def VM.dispatch (P : Params) (vm : VM) (ins : List Nat) (ip : Int) :
    Option Opcode → Option (error × VM)
  | some .OpConstant => do
    let constIndex ← readOperand ins ip
    let vm ← vm.addIp 2
    let c ← index vm.constants constIndex
    vm.push c
  | some .OpAdd => vm.executeBinaryOperation P .OpAdd
  | some .OpSub => vm.executeBinaryOperation P .OpSub
  | some .OpMul => vm.executeBinaryOperation P .OpMul
  | some .OpDiv => vm.executeBinaryOperation P .OpDiv
  | some .OpPop => do
    let (_, vm) ← vm.pop
    some (none, vm)
  | some .OpTrue => vm.push True
  | some .OpFalse => vm.push False
  | some .OpEqual => vm.executeComparison P .OpEqual
  | some .OpNotEqual => vm.executeComparison P .OpNotEqual
  | some .OpGreaterThan => vm.executeComparison P .OpGreaterThan
  | some .OpBang => vm.executeBangOperator
  | some .OpMinus => vm.executeMinusOperator
  | some .OpJump => do
    let pos ← readOperand ins ip
    let vm ← vm.setIp ((pos : Int) - 1)
    some (none, vm)
  | some .OpJumpNotTruthy => do
    let pos ← readOperand ins ip
    let vm ← vm.addIp 2
    let (condition, vm) ← vm.pop
    if !isTruthy condition then do
      let vm ← vm.setIp ((pos : Int) - 1)
      some (none, vm)
    else some (none, vm)
  | some .OpNull => vm.push Null
  | some .OpSetGlobal => do
    let globalIndex ← readOperand ins ip
    let vm ← vm.addIp 2
    let (v, vm) ← vm.pop
    let globals ← assign vm.globals globalIndex v
    some (none, { vm with globals := globals })
  | some .OpGetGlobal => do
    let globalIndex ← readOperand ins ip
    let vm ← vm.addIp 2
    let g ← index vm.globals globalIndex
    vm.push g
  | some .OpArray => do
    let numElements ← readOperand ins ip
    let vm ← vm.addIp 2
    let (array, vm) ← vm.buildArray (vm.sp - numElements) vm.sp
    let vm := { vm with sp := vm.sp - numElements }
    vm.push array
  | some .OpHash => do
    let numElements ← readOperand ins ip
    let vm ← vm.addIp 2
    let (hash, err, vm) ← vm.buildHash P (vm.sp - numElements) vm.sp
    match err with
    | some e => some (some e, vm)
    | none =>
      let vm := { vm with sp := vm.sp - numElements }
      vm.push hash
  | some .OpIndex => do
    let (idx, vm) ← vm.pop
    let (left, vm) ← vm.pop
    vm.executeIndexExpression P left idx
  | some .OpCall => do
    let callee ← index vm.stack (vm.sp - 1)
    match callee with
    | .CompiledFunction fn => do
      let vm ← vm.pushFrame (NewFrame fn)
      some (none, vm)
    | _ => some (some "calling non-function", vm)
  | some .OpReturnValue => do
    let (returnValue, vm) ← vm.pop
    let vm ← vm.popFrame
    let (_, vm) ← vm.pop
    vm.push returnValue
  | some .OpReturn => do
    let vm ← vm.popFrame
    let (_, vm) ← vm.pop
    vm.push Null
  | _ => some (none, vm)

/-- The body of the loop of `Run`: one fetch-decode-execute cycle. -/
def VM.cycle (P : Params) (vm : VM) : Option (error × VM) := do
  let vm ← vm.addIp 1
  let f ← vm.currentFrame
  let ip := f.ip
  let ins := f.Instructions
  let op ← index ins ip
  vm.dispatch P ins ip (P.lookup op)

/-- How a call of `Run` ends: it returns (with an error or nil), it panics, or it is
still running when the fuel of the model is used up. -/
inductive Outcome
  | returned (err : error) (vm : VM)
  | panicked
  | unfinished (vm : VM)

/-- The method `Run`, for at most `fuel` evaluations of the loop condition. -/
def VM.Run (P : Params) : Nat → VM → Outcome
  | 0, vm => .unfinished vm
  | fuel + 1, vm =>
    match vm.running with
    | none => .panicked
    | some false => .returned none vm
    | some true =>
      match vm.cycle P with
      | none => .panicked
      | some (some e, vm) => .returned (some e) vm
      | some (none, vm) => VM.Run P fuel vm

/-- Modelled from the spec: an opcode numbering, the opcodes numbered from 0 in the
order of the table of section 4.1, and a string digest (the sum of the characters). -/
def tableParams : Params where
  byte := fun o => (Opcode.all.indexOf o)
  byte_lt := by intro o; cases o <;> decide
  byte_inj := by intro a b; cases a <;> cases b <;> decide
  strHash := fun s => (s.toList.map Char.toNat).sum

/-! ## A global store shared through a slice -/

/-- Go slices are references: a slice value holds the address of a backing array, and
slice values assigned from one another share that array.  `Memory` holds the backing
arrays of the slices of objects of a program, by address. -/
abbrev Memory := List (List Object)

/-- A VM whose field `globals` is a slice, given by the address of its backing array.  The
other fields are those of `vm`, whose own field `globals` is not read. -/
structure StoreVM where
  vm : VM
  globals : Nat

/-- The machine as the methods of `vm.go` see it: `vm.globals[i]` is element `i` of the
backing array of the slice.  `none`: the memory holds no array at the address. -/
def StoreVM.view (m : StoreVM) (mem : Memory) : Option VM := do
  let gs ← mem[m.globals]?
  some { m.vm with globals := gs }

/-- The function `NewWithGlobalsStore`, called with a slice `s` that is given by the
address of its backing array: `vm.globals = s` copies the slice value, not the array, so
the global store of the machine is the array of the caller's `s`. -/
def StoreVM.NewWithGlobalsStore (bytecode : Bytecode) (s : Nat) (heap : Nat) : StoreVM :=
  { vm := New bytecode heap, globals := s }

/-- How a call of `Run` on a machine over a slice in memory ends, with the memory it
leaves. -/
inductive StoreOutcome
  | returned (err : error) (m : StoreVM) (mem : Memory)
  | panicked
  | unfinished (m : StoreVM) (mem : Memory)

/-- The method `Run` on a machine whose global store lies in memory, for at most `fuel`
evaluations of the loop condition: every cycle reads the store from the backing array,
and an assignment `vm.globals[i] = v` is made in that array. -/
def StoreVM.Run (P : Params) : Nat → StoreVM → Memory → StoreOutcome
  | 0, m, mem => .unfinished m mem
  | fuel + 1, m, mem =>
    match m.view mem with
    | none => .panicked
    | some v =>
      match v.running with
      | none => .panicked
      | some false => .returned none ⟨v, m.globals⟩ mem
      | some true =>
        match v.cycle P with
        | none => .panicked
        | some (some e, v') => .returned (some e) ⟨v', m.globals⟩ (mem.set m.globals v'.globals)
        | some (none, v') => StoreVM.Run P fuel ⟨v', m.globals⟩ (mem.set m.globals v'.globals)

/-! ## Configurations, sample programs and sample machines -/

/-- The machine `vm` with the instruction pointer of its current frame `f` set to `ip`. -/
def VM.withIp (vm : VM) (f : Frame) (ip : Int) : VM :=
  { vm with frames := vm.frames.set (vm.frameIndex - 1).toNat (some { f with ip := ip }) }

/-- The byte the next iteration of the loop of `Run` fetches, if it fetches one. -/
def VM.nextByte (vm : VM) : Option Nat := do
  let f ← vm.currentFrame
  index f.Instructions (f.ip + 1)

/-- The exact result of the integer operation of an arithmetic opcode. -/
def arith (op : Opcode) (a b : Int) : Int :=
  match op with
  | .OpAdd => a + b
  | .OpSub => a - b
  | .OpMul => a * b
  | _ => Int.tdiv a b

/-- A machine in the middle of a run of the main frame: the machine `New` makes for the
instructions `ins` and the constants `cs`, with the instruction pointer at `ip` and
`values` on the stack (bottom first). -/
def machine (cs : List Object) (ins : List Nat) (ip : Int) (values : List Object)
    (heap : Nat) : VM :=
  { constants := cs
    stack := values ++ List.replicate (StackSize - values.length) Object.nil
    sp := values.length
    globals := List.replicate GlobalsSize Object.nil
    frames := (List.replicate MaxFrame (none : Option Frame)).set 0
      (some { fn := { addr := heap, Instructions := ins, NumLocals := 0, NumParameters := 0 },
              ip := ip })
    frameIndex := 1
    heap := heap + 1 }

/-- The machine about to execute `OpDiv` on Integer -2^63 (left) and Integer -1 (right). -/
def divOverflow : VM :=
  machine [] [tableParams.byte .OpDiv] (-1) [.Integer 10 (-2 ^ 63), .Integer 11 (-1)] 20

/-- The machine `b` with its current frame replaced by `f` and with the given stack,
stack pointer, globals and allocator state. -/
def conf (b : VM) (f : Frame) (st : List Object) (sp : Int) (gs : List Object)
    (heap : Nat) : VM :=
  { constants := b.constants
    stack := st
    sp := sp
    globals := gs
    frames := b.frames.set (b.frameIndex - 1).toNat (some f)
    frameIndex := b.frameIndex
    heap := heap }

/-- The current frame index of `b` points into its frame array. -/
def VM.framed (b : VM) : Prop := 0 ≤ b.frameIndex - 1 ∧ b.frameIndex - 1 < b.frames.length

/-- The value the opcodes OpTrue, OpFalse and OpNull push. -/
def pushed : Opcode → Object
  | .OpTrue => True
  | .OpFalse => False
  | _ => Null

/-- The native comparison of a comparison opcode on two `int64` values. -/
def compared (op : Opcode) (a b : Int) : Bool :=
  match op with
  | .OpEqual => decide (a = b)
  | .OpNotEqual => decide (a ≠ b)
  | _ => decide (a > b)

/-- The instructions `OpConstant k; OpPop`. -/
def constantPop (P : Params) (k : Nat) : List Nat :=
  Make16 P .OpConstant k ++ Make0 P .OpPop

/-- The instructions the compiler produces for `a < b`:
`OpConstant 0; OpConstant 1; OpGreaterThan; OpPop`. -/
def lessThan (P : Params) : List Nat :=
  Make16 P .OpConstant 0 ++ Make16 P .OpConstant 1 ++ Make0 P .OpGreaterThan ++ Make0 P .OpPop

/-- The offsets at which `Run` fetches an opcode, in the order of the fetches, for at most
`fuel` evaluations of the loop condition. -/
def VM.fetched (P : Params) : Nat → VM → List Int
  | 0, _ => []
  | fuel + 1, vm =>
    match vm.running, vm.currentFrame with
    | some true, some f =>
      (f.ip + 1) :: (match vm.cycle P with
        | some (none, vm') => VM.fetched P fuel vm'
        | _ => [])
    | _, _ => []

/-- The layout of `if (cond) { constants[0] } else { constants[1] }` checked by
`TestConditionals`. -/
def ifElse (P : Params) (cond : Opcode) : List Nat :=
  Make0 P cond ++ Make16 P .OpJumpNotTruthy 10 ++ Make16 P .OpConstant 0 ++
    Make16 P .OpJump 13 ++ Make16 P .OpConstant 1 ++ Make0 P .OpPop

/-- The layout of `if (cond) { constants[0] }` checked by `TestConditionals`. -/
def ifOnly (P : Params) (cond : Opcode) : List Nat :=
  Make0 P cond ++ Make16 P .OpJumpNotTruthy 10 ++ Make16 P .OpConstant 0 ++
    Make16 P .OpJump 11 ++ Make0 P .OpNull ++ Make0 P .OpPop

/-- The machine `vm'` has the globals and the constants of `vm`. -/
def VM.keeps (vm vm' : VM) : Prop :=
  vm'.globals = vm.globals ∧ vm'.constants = vm.constants

/-- The operand of the instruction the next iteration of the loop of `Run` fetches. -/
def VM.nextOperand (vm : VM) : Option Nat := do
  let f ← vm.currentFrame
  readOperand f.Instructions (f.ip + 1)

/-- The instructions the compiler produces for `let one = 1; let two = one; two;`
(checked by `TestGlobalLetStatements`). -/
def letChain (P : Params) : List Nat :=
  Make16 P .OpConstant 0 ++ Make16 P .OpSetGlobal 0 ++ Make16 P .OpGetGlobal 0 ++
    Make16 P .OpSetGlobal 1 ++ Make16 P .OpGetGlobal 1 ++ Make0 P .OpPop

/-- The machine about to execute `OpSetGlobal 3` with Integer 7 on top of the stack. -/
def setGlobalThree : VM :=
  machine [] (Make16 tableParams .OpSetGlobal 3) (-1) [.Integer 10 7] 20

/-- The machine about to execute `OpJumpNotTruthy 7` at offset 0 with the canonical
False on top of the stack. -/
def jumpOnFalse : VM :=
  machine [] (Make16 tableParams .OpJumpNotTruthy 7) (-1) [False] 20

/-- The machine `vm` after `OpCall` at the current frame `f` has entered `fn`: the
caller's instruction pointer stands on the opcode and a new frame follows it. -/
def VM.entered (vm : VM) (f : Frame) (fn : CompiledFunction) : VM :=
  { vm with
    frames := (vm.frames.set (vm.frameIndex - 1).toNat (some ⟨f.fn, f.ip + 1⟩)).set
      vm.frameIndex.toNat (some (NewFrame fn))
    frameIndex := vm.frameIndex + 1 }

/-- The machine `vm` after `OpReturnValue` at the current frame `f` has returned `v`. -/
def VM.returnedTo (vm : VM) (f : Frame) (v : Object) : VM :=
  { vm with
    frames := vm.frames.set (vm.frameIndex - 1).toNat (some ⟨f.fn, f.ip + 1⟩)
    frameIndex := vm.frameIndex - 1
    stack := vm.stack.set (vm.sp - 2).toNat v
    sp := vm.sp - 1 }

/-- A compiled function with two parameters whose body is `OpReturn`. -/
def twoParams : CompiledFunction :=
  { addr := 30, Instructions := [tableParams.byte .OpReturn], NumLocals := 2, NumParameters := 2 }

/-- The machine about to execute `OpCall 0` with `twoParams` on top of the stack. -/
def callNoArg : VM :=
  machine [] [tableParams.byte .OpCall, 0] (-1) [.CompiledFunction twoParams] 20

/-- The instructions of a top-level `return e;` whose value is `constants[0]`:
`OpConstant 0; OpReturnValue`. -/
def topReturn (P : Params) : List Nat :=
  Make16 P .OpConstant 0 ++ Make0 P .OpReturnValue

/-- The machine about to execute `OpCall 0` with Integer 5 on top of the stack. -/
def callInteger : VM :=
  machine [] [tableParams.byte .OpCall, 0] (-1) [.Integer 10 5] 20

/-- Whether the `switch` of `Run` has no `case` for the opcode found for a byte
(`none`: the byte is no opcode constant at all). -/
def unhandled : Option Opcode → Bool
  | none => true
  | some .OpSetLocal => true
  | some .OpGetLocal => true
  | some .OpGetBuiltin => true
  | some .OpClosure => true
  | some .OpGetFree => true
  | some .OpCurrentClosure => true
  | _ => false

/-- The instructions of `1 / 0`: `OpConstant 0; OpConstant 1; OpDiv; OpPop`. -/
def divide (P : Params) : List Nat :=
  Make16 P .OpConstant 0 ++ Make16 P .OpConstant 1 ++ Make0 P .OpDiv ++ Make0 P .OpPop

/-- The instructions of `(1 < 2) == true`:
`OpConstant 0; OpConstant 1; OpGreaterThan; OpTrue; OpEqual; OpPop`. -/
def lessIsTrue (P : Params) : List Nat :=
  Make16 P .OpConstant 0 ++ Make16 P .OpConstant 1 ++ Make0 P .OpGreaterThan ++
    Make0 P .OpTrue ++ Make0 P .OpEqual ++ Make0 P .OpPop

/-- The machine about to execute `OpGetLocal 0` on an empty stack. -/
def getLocalOnEmpty : VM :=
  machine [] [tableParams.byte .OpGetLocal, 0] (-1) [] 20

/-- The machine about to execute `OpTrue` with a full stack (`sp = StackSize`). -/
def fullStack : VM :=
  { machine [] [tableParams.byte .OpTrue] (-1) [] 20 with sp := StackSize }

/-- The machine about to execute `OpBang; OpBang; OpBang` on Integer 5 (`!!!5`). -/
def bangThrice : VM :=
  machine [] [tableParams.byte .OpBang, tableParams.byte .OpBang, tableParams.byte .OpBang]
    (-1) [.Integer 10 5] 20

/-- The machine about to execute `OpArray 2` with Integer 1 and Integer 2 on the
stack. -/
def arrayOfTwo : VM :=
  machine [] [tableParams.byte .OpArray, 0, 2] (-1) [.Integer 10 1, .Integer 11 2] 20

/-- The machine about to execute `OpHash 4` on the keys and values 1, 10, 1, 20 (the key
1 twice). -/
def hashTwice : VM :=
  machine [] [tableParams.byte .OpHash, 0, 4] (-1)
    [.Integer 10 1, .Integer 11 10, .Integer 12 1, .Integer 13 20] 20

/-- The instructions the compiler produces for `[1, 2, 3][1 + 1]` (checked by
`TestIndexExpressions`). -/
def arrayIndex (P : Params) : List Nat :=
  Make16 P .OpConstant 0 ++ Make16 P .OpConstant 1 ++ Make16 P .OpConstant 2 ++
    Make16 P .OpArray 3 ++ Make16 P .OpConstant 3 ++ Make16 P .OpConstant 4 ++
    Make0 P .OpAdd ++ Make0 P .OpIndex ++ Make0 P .OpPop

/-- The instructions the compiler produces for `{1: 2}[2 - 1]` (checked by
`TestIndexExpressions`). -/
def hashIndex (P : Params) : List Nat :=
  Make16 P .OpConstant 0 ++ Make16 P .OpConstant 1 ++ Make16 P .OpHash 2 ++
    Make16 P .OpConstant 2 ++ Make16 P .OpConstant 3 ++ Make0 P .OpSub ++
    Make0 P .OpIndex ++ Make0 P .OpPop

/-- The body of `fn() { f() }` for a global `f` with index 0, as this VM executes calls
(`OpCall` reads no operand): `OpGetGlobal 0; OpCall; OpReturnValue`. -/
def callSelf (P : Params) : List Nat :=
  Make16 P .OpGetGlobal 0 ++ Make0 P .OpCall ++ Make0 P .OpReturnValue

/-- The main instructions of `let f = fn() { f() }; f();`:
`OpConstant 0; OpSetGlobal 0; OpGetGlobal 0; OpCall; OpPop`. -/
def callForever (P : Params) : List Nat :=
  Make16 P .OpConstant 0 ++ Make16 P .OpSetGlobal 0 ++ Make16 P .OpGetGlobal 0 ++
    Make0 P .OpCall ++ Make0 P .OpPop

/-- The machine has `n` active frames, the last one about to start the function `F` that
calls itself through global 0. -/
def VM.deep (vm : VM) (F : CompiledFunction) (n : Nat) : Prop :=
  vm.frameIndex = n ∧ vm.currentFrame = some ⟨F, -1⟩ ∧ vm.frames.length = MaxFrame ∧
    vm.sp = (n : Int) - 1 ∧ vm.stack.length = StackSize ∧
    index vm.globals 0 = some (.CompiledFunction F) ∧ 2 ≤ n

/-- The instructions `OpConstant k; OpSetGlobal i` (the bytecode of `let x = c;`). -/
def constantSetGlobal (P : Params) (k i : Nat) : List Nat :=
  Make16 P .OpConstant k ++ Make16 P .OpSetGlobal i

/-- The instructions `OpGetGlobal i; OpPop` (the bytecode of `x;`). -/
def getGlobalPop (P : Params) (i : Nat) : List Nat :=
  Make16 P .OpGetGlobal i ++ Make0 P .OpPop

/-- The machine `vm'` has the frame array and the frame index of `vm`. -/
def VM.sameFrames (vm vm' : VM) : Prop :=
  vm'.frames = vm.frames ∧ vm'.frameIndex = vm.frameIndex

/-- The opcodes that set the instruction pointer or change the frame stack: OpJump,
OpJumpNotTruthy, OpCall, OpReturn and OpReturnValue. -/
def jumpLike : Option Opcode → Bool
  | some .OpJump => true
  | some .OpJumpNotTruthy => true
  | some .OpCall => true
  | some .OpReturn => true
  | some .OpReturnValue => true
  | _ => false

/-- No fetch of the first `fuel` iterations of the loop of `Run` fetches a byte of
`jumpLike`. -/
def VM.straight (P : Params) : Nat → VM → Bool
  | 0, _ => true
  | fuel + 1, vm =>
    match vm.running with
    | some true =>
      (match vm.nextByte with
        | some bt => !jumpLike (P.lookup bt)
        | none => true) &&
      (match vm.cycle P with
        | some (none, vm') => VM.straight P fuel vm'
        | _ => true)
    | _ => true

/-- The current frame of `vm'` is the frame `g` with an instruction pointer that is not
smaller, and the frame index is that of `vm`. -/
def VM.advanced (vm vm' : VM) (g : Frame) : Prop :=
  ∃ ip', vm'.currentFrame = some ⟨g.fn, ip'⟩ ∧ g.ip ≤ ip' ∧ vm'.frameIndex = vm.frameIndex

/-- The machine about to execute the single instruction `OpTrue` in the main frame. -/
def onlyTrue : Bytecode := ⟨Make0 tableParams .OpTrue, []⟩

/-- The main instructions of a call with one argument, the function and the argument
loaded from the constant pool: `OpConstant 0; OpConstant 1; OpCall 1; OpPop` (the layout
`TestFunctionCalls` expects for `oneArg(24);`: the function, then the argument, then
`OpCall 1`). -/
def callWithArgument (P : Params) : List Nat :=
  Make16 P .OpConstant 0 ++ Make16 P .OpConstant 1 ++ [P.byte .OpCall, 1] ++ Make0 P .OpPop

/-- The main instructions of a call without arguments of the function `constants[0]`:
`OpConstant 0; OpCall 0; OpPop`. -/
def callConstant (P : Params) : List Nat :=
  Make16 P .OpConstant 0 ++ [P.byte .OpCall, 0] ++ Make0 P .OpPop

/-- A function body that pushes `constants[1]`, then `constants[2]`, and returns the
latter: `OpConstant 1; OpConstant 2; OpReturnValue`. -/
def returnSecond (P : Params) : List Nat :=
  Make16 P .OpConstant 1 ++ Make16 P .OpConstant 2 ++ Make0 P .OpReturnValue

/-- The machine about to execute `OpConstant 0` with a full stack (`sp = StackSize`). -/
def fullStackConstant : VM :=
  { machine [.Integer 10 7] (Make16 tableParams .OpConstant 0) (-1) [] 20 with sp := StackSize }

/-- The opcodes whose case of the `switch` of `Run` pushes without popping first:
OpConstant, OpTrue, OpFalse, OpNull, OpGetGlobal, OpArray and OpHash. -/
def pushesFirst : Option Opcode → Bool
  | some .OpConstant => true
  | some .OpTrue => true
  | some .OpFalse => true
  | some .OpNull => true
  | some .OpGetGlobal => true
  | some .OpArray => true
  | some .OpHash => true
  | _ => false

/-- The result of a step of the machine is no error message that starts with the
letter `w` (as `wrong number of arguments: ...` does). -/
def noArityError (r : error × VM) : Prop :=
  ∀ e : String, r.1 = some e → e.data.head? ≠ some 'w'

/-! ## Package ast -/

mutual
/-- Modelled from the spec: an expression node of the AST (section 6).  `Name` of a
function literal is the name of the let-binding that encloses it, empty if there is
none. -/
inductive Expression
  | IntegerLiteral (Value : Int)
  | Boolean (Value : Bool)
  | StringLiteral (Value : String)
  | Identifier (Value : String)
  | PrefixExpression (Operator : String) (Right : Expression)
  | InfixExpression (Left : Expression) (Operator : String) (Right : Expression)
  | IfExpression (Condition : Expression) (Consequence : Block) (Else : Alternative)
  | FunctionLiteral (Name : String) (Parameters : List String) (Body : Block)
  | CallExpression (Function : Expression) (Arguments : Expressions)
  | ArrayLiteral (Elements : Expressions)
  | HashLiteral (Entries : Pairs)
  | IndexExpression (Left : Expression) (Index : Expression)
/-- Modelled from the spec: a statement node of the AST (section 6). -/
inductive Statement
  | LetStatement (Name : String) (Value : Expression)
  | ReturnStatement (ReturnValue : Expression)
  | ExpressionStatement (Value : Expression)
/-- Modelled from the spec: a program or a block, a sequence of statements. -/
inductive Block
  | nil
  | cons (first : Statement) (rest : Block)
/-- Modelled from the spec: the optional `else` block of an if-expression. -/
inductive Alternative
  | none
  | some (block : Block)
/-- Modelled from the spec: a sequence of expressions (call arguments, array elements). -/
inductive Expressions
  | nil
  | cons (first : Expression) (rest : Expressions)
/-- Modelled from the spec: the entries of a hash literal, in the order of the textual
form of their keys (the order in which the compiler compiles them). -/
inductive Pairs
  | nil
  | cons (key : Expression) (value : Expression) (rest : Pairs)
end

/-- Modelled from the spec: the number of expressions of a sequence. -/
def Expressions.length : Expressions → Nat
  | .nil => 0
  | .cons _ rest => rest.length + 1

/-- Modelled from the spec: the number of entries of a hash literal. -/
def Pairs.length : Pairs → Nat
  | .nil => 0
  | .cons _ _ rest => rest.length + 1

/-- Modelled from the spec: the last statement of a block, if it has one. -/
def Block.last? : Block → Option Statement
  | .nil => none
  | .cons s .nil => some s
  | .cons _ (.cons s rest) => Block.last? (.cons s rest)

/-! ## Package compiler: symbol table -/

/-- Modelled from the spec: the scope of a symbol (section 3, Symbol Table). -/
inductive SymbolScope
  | GlobalScope | LocalScope | BuiltinScope | FreeScope | FunctionScope
  deriving DecidableEq, Repr

/-- Modelled from the spec: `Symbol = (name, scope, index)`. -/
structure Symbol where
  Name : String
  Scope : SymbolScope
  Index : Nat
  deriving DecidableEq, Repr

/-- Modelled from the spec: a symbol table, a linked chain of scopes.  Each scope holds
the mapping `name -> Symbol` (`store`, the latest definition of a name first), the
counter `numDefinitions` and the list `FreeSymbols`; `enclosed` has a parent `Outer`,
`top` has none. -/
inductive SymbolTable
  | top (store : List (String × Symbol)) (numDefinitions : Nat) (FreeSymbols : List Symbol)
  | enclosed (Outer : SymbolTable) (store : List (String × Symbol)) (numDefinitions : Nat)
      (FreeSymbols : List Symbol)
  deriving Repr

/-- Modelled from the spec: the parent pointer of a symbol table. -/
def SymbolTable.Outer : SymbolTable → Option SymbolTable
  | .top _ _ _ => none
  | .enclosed o _ _ _ => some o

/-- Modelled from the spec: the mapping `name -> Symbol` of the innermost scope. -/
def SymbolTable.store : SymbolTable → List (String × Symbol)
  | .top s _ _ => s
  | .enclosed _ s _ _ => s

/-- Modelled from the spec: the counter `numDefinitions` of the innermost scope. -/
def SymbolTable.numDefinitions : SymbolTable → Nat
  | .top _ n _ => n
  | .enclosed _ _ n _ => n

/-- Modelled from the spec: the list `FreeSymbols` of the innermost scope. -/
def SymbolTable.FreeSymbols : SymbolTable → List Symbol
  | .top _ _ f => f
  | .enclosed _ _ _ f => f

/-- Modelled from the spec: the table with the fields of its innermost scope replaced. -/
def SymbolTable.rebuild (t : SymbolTable) (store : List (String × Symbol)) (n : Nat)
    (free : List Symbol) : SymbolTable :=
  match t with
  | .top _ _ _ => .top store n free
  | .enclosed o _ _ _ => .enclosed o store n free

/-- Modelled from the spec: the symbol a mapping holds for a name. -/
def lookupSymbol (store : List (String × Symbol)) (name : String) : Option Symbol :=
  (store.find? (fun e => e.1 == name)).map (fun e => e.2)

/-- Modelled from the spec: a fresh top-level symbol table. -/
def NewSymbolTable : SymbolTable := .top [] 0 []

/-- Modelled from the spec: a fresh child symbol table of `outer`. -/
def NewEnclosedSymbolTable (outer : SymbolTable) : SymbolTable := .enclosed outer [] 0 []

/-- Modelled from the spec: `Define`: a Global symbol in the top-level scope, a Local
symbol in every other scope, with the next index of the scope. -/
def SymbolTable.Define (t : SymbolTable) (name : String) : Symbol × SymbolTable :=
  let scope := match t with
    | .top _ _ _ => SymbolScope.GlobalScope
    | .enclosed _ _ _ _ => SymbolScope.LocalScope
  let symbol : Symbol := ⟨name, scope, t.numDefinitions⟩
  (symbol, t.rebuild ((name, symbol) :: t.store) (t.numDefinitions + 1) t.FreeSymbols)

/-- Modelled from the spec: `DefineBuiltin`: a Builtin symbol with the given index. -/
def SymbolTable.DefineBuiltin (t : SymbolTable) (i : Nat) (name : String) :
    Symbol × SymbolTable :=
  let symbol : Symbol := ⟨name, .BuiltinScope, i⟩
  (symbol, t.rebuild ((name, symbol) :: t.store) t.numDefinitions t.FreeSymbols)

/-- Modelled from the spec: `DefineFunctionName`: the Function-scope symbol of the
function being compiled. -/
def SymbolTable.DefineFunctionName (t : SymbolTable) (name : String) : Symbol × SymbolTable :=
  let symbol : Symbol := ⟨name, .FunctionScope, 0⟩
  (symbol, t.rebuild ((name, symbol) :: t.store) t.numDefinitions t.FreeSymbols)

/-- Modelled from the spec: `defineFree`: the original is appended to `FreeSymbols` and
the name now maps to a Free symbol whose index is the position of the original in that
list. -/
def SymbolTable.defineFree (t : SymbolTable) (original : Symbol) : Symbol × SymbolTable :=
  let symbol : Symbol := ⟨original.Name, .FreeScope, t.FreeSymbols.length⟩
  (symbol, t.rebuild ((original.Name, symbol) :: t.store) t.numDefinitions
    (t.FreeSymbols ++ [original]))

/-- Modelled from the spec: `Resolve`, walking outward: a name found in an enclosing
scope is returned as it is when it is Global or Builtin, and is otherwise marked as a
free symbol of every scope on the way.  The result is the symbol and the updated table. -/
def SymbolTable.Resolve (name : String) : SymbolTable → Option (Symbol × SymbolTable)
  | .top store n free => (lookupSymbol store name).map (fun s => (s, .top store n free))
  | .enclosed outer store n free =>
    match lookupSymbol store name with
    | some s => some (s, .enclosed outer store n free)
    | none =>
      match SymbolTable.Resolve name outer with
      | none => none
      | some (obj, outer') =>
        if obj.Scope = .GlobalScope ∨ obj.Scope = .BuiltinScope then
          some (obj, .enclosed outer' store n free)
        else some ((SymbolTable.enclosed outer' store n free).defineFree obj)

/-! ## Package compiler: scopes and emission -/

/-- Modelled from the spec: the operand widths in bytes of each opcode, by the table of
section 4.1 (u16 is two bytes, u8 one byte). -/
def OperandWidths : Opcode → List Nat
  | .OpConstant => [2]
  | .OpJump => [2]
  | .OpJumpNotTruthy => [2]
  | .OpSetGlobal => [2]
  | .OpGetGlobal => [2]
  | .OpArray => [2]
  | .OpHash => [2]
  | .OpCall => [1]
  | .OpSetLocal => [1]
  | .OpGetLocal => [1]
  | .OpGetBuiltin => [1]
  | .OpClosure => [2, 1]
  | .OpGetFree => [1]
  | _ => []

/-- Modelled from the spec: the big-endian encoding of `x` in `w` bytes (most
significant byte first). -/
def bigEndian : Nat → Nat → List Nat
  | 0, _ => []
  | w + 1, x => (x / 256 ^ w % 256) :: bigEndian w x

/-- Modelled from the spec: the number a big-endian byte sequence encodes. -/
def readBigEndian : List Nat → Nat
  | [] => 0
  | b :: rest => b * 256 ^ rest.length + readBigEndian rest

/-- Modelled from the spec: the operands of `encode`, each in its declared width; an
operand that is not given is zero. -/
def encodeOperands : List Nat → List Nat → List Nat
  | [], _ => []
  | w :: ws, [] => bigEndian w 0 ++ encodeOperands ws []
  | w :: ws, x :: xs => bigEndian w x ++ encodeOperands ws xs

/-- Modelled from the spec: `encode(op, operands...)` (`code.Make`) emits the opcode byte,
then each operand in its declared width. -/
def Make (P : Params) (op : Opcode) (operands : List Nat) : List Nat :=
  P.byte op :: encodeOperands (OperandWidths op) operands

/-- Modelled from the spec: the operands of the given widths read from the start of a
byte sequence (`code.ReadOperands`); `none` if the bytes run out. -/
def ReadOperands : List Nat → List Nat → Option (List Nat)
  | [], _ => some []
  | w :: ws, ins =>
    if ins.length < w then none
    else do
      let rest ← ReadOperands ws (ins.drop w)
      some (readBigEndian (ins.take w) :: rest)

/-- Modelled from the spec: `decode`, the inverse of `encode`: the opcode of the first
byte and its operands. -/
def decode (P : Params) (ins : List Nat) : Option (Opcode × List Nat) :=
  match ins with
  | [] => none
  | b :: rest => do
    let op ← P.lookup b
    let operands ← ReadOperands (OperandWidths op) rest
    some (op, operands)

/-- Modelled from the spec: an emitted instruction, its opcode and its offset. -/
structure EmittedInstruction where
  Opcode : Opcode
  Position : Nat

/-- Modelled from the spec: `CompilationScope = { instructions, lastInstruction,
previousInstruction }`; `none` where nothing has been emitted yet. -/
structure CompilationScope where
  instructions : List Nat
  lastInstruction : Option EmittedInstruction
  previousInstruction : Option EmittedInstruction

/-- Modelled from the spec: the compiler: the constant pool, the current symbol table
and the stack of compilation scopes, of which `scopes[scopeIndex]` is the current one. -/
structure Compiler where
  constants : List Object
  symbolTable : SymbolTable
  scopes : List CompilationScope
  scopeIndex : Nat

/-- Modelled from the spec: a fresh compilation scope. -/
def emptyScope : CompilationScope := ⟨[], none, none⟩

/-- Modelled from the spec: the built-in registry of section 6, in its fixed order. -/
def Builtins : List String := ["len", "puts", "first", "last", "rest", "push"]

/-- Modelled from the spec: the top-level symbol table at program start, with the
built-ins registered in order. -/
def builtinSymbolTable : SymbolTable :=
  (Builtins.foldl (fun (acc : Nat × SymbolTable) name =>
    (acc.1 + 1, (acc.2.DefineBuiltin acc.1 name).2)) (0, NewSymbolTable)).2

/-- Modelled from the spec: `New`: no constants, the top-level symbol table, the main
scope. -/
def Compiler.New : Compiler :=
  { constants := [], symbolTable := builtinSymbolTable, scopes := [emptyScope], scopeIndex := 0 }

/-- Modelled from the spec: the current compilation scope `scopes[scopeIndex]`. -/
def Compiler.currentScope (c : Compiler) : CompilationScope :=
  c.scopes.getD c.scopeIndex emptyScope

/-- Modelled from the spec: the instructions of the current scope. -/
def Compiler.currentInstructions (c : Compiler) : List Nat := c.currentScope.instructions

/-- Modelled from the spec: the assignment `scopes[scopeIndex] = s`. -/
def Compiler.setCurrentScope (c : Compiler) (s : CompilationScope) : Compiler :=
  { c with scopes := c.scopes.set c.scopeIndex s }

/-- Modelled from the spec: `emit`: the encoded instruction is appended to the current
scope, whose `lastInstruction` becomes `previousInstruction` and whose new
`lastInstruction` is the emitted one; the result is the offset of the instruction. -/
def Compiler.emit (P : Params) (c : Compiler) (op : Opcode) (operands : List Nat) :
    Nat × Compiler :=
  let s := c.currentScope
  (s.instructions.length,
    c.setCurrentScope { instructions := s.instructions ++ Make P op operands
                        lastInstruction := some ⟨op, s.instructions.length⟩
                        previousInstruction := s.lastInstruction })

/-- Modelled from the spec: a constant is appended to the pool; the result is its
index. -/
def Compiler.addConstant (c : Compiler) (obj : Object) : Nat × Compiler :=
  (c.constants.length, { c with constants := c.constants ++ [obj] })

/-- Modelled from the spec: the last emitted instruction of the current scope has the
opcode `op` (false if nothing was emitted). -/
def Compiler.lastInstructionIs (c : Compiler) (op : Opcode) : Bool :=
  if c.currentInstructions.length = 0 then false
  else match c.currentScope.lastInstruction with
    | some e => decide (e.Opcode = op)
    | none => false

/-- Modelled from the spec: the trailing `OpPop` is removed: the instructions are cut at
the offset of the last instruction and `previousInstruction` becomes the last one. -/
def Compiler.removeLastPop (c : Compiler) : Compiler :=
  let s := c.currentScope
  match s.lastInstruction with
  | some last =>
    c.setCurrentScope { s with instructions := s.instructions.take last.Position
                               lastInstruction := s.previousInstruction }
  | none => c

/-- Modelled from the spec: the bytes at offset `pos` are overwritten in place by `new`
(nothing is written where `new` does not fit). -/
def replaceBytes (ins : List Nat) (pos : Nat) (new : List Nat) : List Nat :=
  if pos + new.length ≤ ins.length then ins.take pos ++ new ++ ins.drop (pos + new.length)
  else ins

/-- Modelled from the spec: `replaceInstruction` on the current scope. -/
def Compiler.replaceInstruction (c : Compiler) (pos : Nat) (new : List Nat) : Compiler :=
  let s := c.currentScope
  c.setCurrentScope { s with instructions := replaceBytes s.instructions pos new }

/-- Modelled from the spec: backpatching: the operand of the instruction at offset
`opPos` of the current scope is overwritten in place. -/
def Compiler.changeOperand (P : Params) (c : Compiler) (opPos : Nat) (operand : Nat) :
    Compiler :=
  match c.currentInstructions[opPos]? with
  | some b =>
    match P.lookup b with
    | some op => c.replaceInstruction opPos (Make P op [operand])
    | none => c
  | none => c

/-- Modelled from the spec: the trailing `OpPop` is replaced by `OpReturnValue`. -/
def Compiler.replaceLastPopWithReturn (P : Params) (c : Compiler) : Compiler :=
  match c.currentScope.lastInstruction with
  | some last =>
    let c := c.replaceInstruction last.Position (Make P .OpReturnValue [])
    c.setCurrentScope { c.currentScope with
      lastInstruction := some ⟨.OpReturnValue, last.Position⟩ }
  | none => c

/-- Modelled from the spec: `enterScope` pushes a fresh scope and a child symbol table. -/
def Compiler.enterScope (c : Compiler) : Compiler :=
  { c with
    scopes := c.scopes ++ [emptyScope]
    scopeIndex := c.scopeIndex + 1
    symbolTable := NewEnclosedSymbolTable c.symbolTable }

/-- Modelled from the spec: `leaveScope` pops the scope and the symbol table and returns
the instructions of the scope it pops. -/
def Compiler.leaveScope (c : Compiler) : List Nat × Compiler :=
  (c.currentInstructions,
    { c with
      scopes := c.scopes.dropLast
      scopeIndex := c.scopeIndex - 1
      symbolTable := c.symbolTable.Outer.getD c.symbolTable })

/-- Modelled from the spec: the opcode and the operands of the load of a symbol:
`OpGetGlobal`, `OpGetLocal`, `OpGetBuiltin`, `OpGetFree` with the index of the symbol, or
`OpCurrentClosure`. -/
def loadInstruction (s : Symbol) : Opcode × List Nat :=
  match s.Scope with
  | .GlobalScope => (.OpGetGlobal, [s.Index])
  | .LocalScope => (.OpGetLocal, [s.Index])
  | .BuiltinScope => (.OpGetBuiltin, [s.Index])
  | .FreeScope => (.OpGetFree, [s.Index])
  | .FunctionScope => (.OpCurrentClosure, [])

/-- Modelled from the spec: `loadSymbol` emits the load of a symbol. -/
def Compiler.loadSymbol (P : Params) (c : Compiler) (s : Symbol) : Compiler :=
  (c.emit P (loadInstruction s).1 (loadInstruction s).2).2

/-- Modelled from the spec: the loads of the free symbols of a function, in order. -/
def Compiler.loadSymbols (P : Params) (c : Compiler) (ss : List Symbol) : Compiler :=
  ss.foldl (fun c s => c.loadSymbol P s) c

/-- Modelled from the spec: the opcode of a prefix operator. -/
def unaryOpcode (op : String) : Option Opcode :=
  if op = "!" then some .OpBang
  else if op = "-" then some .OpMinus
  else none

/-- Modelled from the spec: the opcode of an infix operator other than `<`. -/
def binaryOpcode (op : String) : Option Opcode :=
  if op = "+" then some .OpAdd
  else if op = "-" then some .OpSub
  else if op = "*" then some .OpMul
  else if op = "/" then some .OpDiv
  else if op = ">" then some .OpGreaterThan
  else if op = "==" then some .OpEqual
  else if op = "!=" then some .OpNotEqual
  else none

/-- Modelled from the spec: the compiler on entry to a function literal: a new scope,
the name of the function (if it has one) defined as Function-scope symbol, and each
parameter defined as a local. -/
def Compiler.enterFunction (c : Compiler) (name : String) (params : List String) : Compiler :=
  let c := c.enterScope
  let c := if name = "" then c
    else { c with symbolTable := (c.symbolTable.DefineFunctionName name).2 }
  params.foldl (fun c p => { c with symbolTable := (c.symbolTable.Define p).2 }) c

/-- Modelled from the spec: the end of a function body: a trailing `OpPop` is replaced by
`OpReturnValue`; if then nothing was emitted or the last instruction is neither
`OpReturnValue` nor `OpReturn`, `OpReturn` is appended. -/
def Compiler.endFunction (P : Params) (c : Compiler) : Compiler :=
  let c := if c.lastInstructionIs .OpPop then c.replaceLastPopWithReturn P else c
  if c.lastInstructionIs .OpReturnValue || c.lastInstructionIs .OpReturn then c
  else (c.emit P .OpReturn []).2

/-- Modelled from the spec: the compiler after the body of a function literal with
`numParameters` parameters: the scope is left, the free symbols are loaded in the
enclosing scope, the compiled function is added to the constant pool and `OpClosure`
with its index and the number of free symbols is emitted. -/
def Compiler.closeFunction (P : Params) (c : Compiler) (numParameters : Nat) : Compiler :=
  let freeSymbols := c.symbolTable.FreeSymbols
  let numLocals := c.symbolTable.numDefinitions
  let (instructions, c) := c.leaveScope
  let c := c.loadSymbols P freeSymbols
  let fn : CompiledFunction :=
    { addr := c.constants.length, Instructions := instructions, NumLocals := numLocals
      NumParameters := numParameters }
  let (fnIndex, c) := c.addConstant (.CompiledFunction fn)
  (c.emit P .OpClosure [fnIndex, freeSymbols.length]).2

mutual
/-- Modelled from the spec: the lowering rules of section 4.2 for expressions.  A
constant gets its pool index as address. -/
def compileExpression (P : Params) : Expression → Compiler → Except String Compiler
  | .IntegerLiteral v, c =>
    let (i, c) := c.addConstant (.Integer c.constants.length v)
    .ok (c.emit P .OpConstant [i]).2
  | .Boolean b, c => .ok (c.emit P (if b then .OpTrue else .OpFalse) []).2
  | .StringLiteral s, c =>
    let (i, c) := c.addConstant (.String c.constants.length s)
    .ok (c.emit P .OpConstant [i]).2
  | .Identifier name, c =>
    match c.symbolTable.Resolve name with
    | none => .error ("undefined variable " ++ name)
    | some (symbol, t) => .ok (Compiler.loadSymbol P { c with symbolTable := t } symbol)
  | .PrefixExpression op right, c => do
    let c ← compileExpression P right c
    match unaryOpcode op with
    | some o => .ok (c.emit P o []).2
    | none => .error ("unknown operator: " ++ op)
  | .InfixExpression left op right, c =>
    if op = "<" then do
      let c ← compileExpression P right c
      let c ← compileExpression P left c
      .ok (c.emit P .OpGreaterThan []).2
    else do
      let c ← compileExpression P left c
      let c ← compileExpression P right c
      match binaryOpcode op with
      | some o => .ok (c.emit P o []).2
      | none => .error ("unknown operator: " ++ op)
  | .IfExpression cond cons alt, c => do
    let c ← compileExpression P cond c
    let (jumpNotTruthyPos, c) := c.emit P .OpJumpNotTruthy [9999]
    let c ← compileBlock P cons c
    let c := if c.lastInstructionIs .OpPop then c.removeLastPop else c
    let (jumpPos, c) := c.emit P .OpJump [9999]
    let c := c.changeOperand P jumpNotTruthyPos c.currentInstructions.length
    let c ← compileAlternative P alt c
    .ok (c.changeOperand P jumpPos c.currentInstructions.length)
  | .FunctionLiteral name params body, c => do
    let c ← compileBlock P body (c.enterFunction name params)
    .ok ((c.endFunction P).closeFunction P params.length)
  | .CallExpression fn args, c => do
    let c ← compileExpression P fn c
    let c ← compileExpressions P args c
    .ok (c.emit P .OpCall [args.length]).2
  | .ArrayLiteral elems, c => do
    let c ← compileExpressions P elems c
    .ok (c.emit P .OpArray [elems.length]).2
  | .HashLiteral entries, c => do
    let c ← compilePairs P entries c
    .ok (c.emit P .OpHash [2 * entries.length]).2
  | .IndexExpression left idx, c => do
    let c ← compileExpression P left c
    let c ← compileExpression P idx c
    .ok (c.emit P .OpIndex []).2
/-- Modelled from the spec: the lowering rules of section 4.2 for statements. -/
def compileStatement (P : Params) : Statement → Compiler → Except String Compiler
  | .LetStatement name value, c => do
    let (symbol, t) := c.symbolTable.Define name
    let c ← compileExpression P value { c with symbolTable := t }
    if symbol.Scope = .GlobalScope then .ok (c.emit P .OpSetGlobal [symbol.Index]).2
    else .ok (c.emit P .OpSetLocal [symbol.Index]).2
  | .ReturnStatement v, c => do
    let c ← compileExpression P v c
    .ok (c.emit P .OpReturnValue []).2
  | .ExpressionStatement e, c => do
    let c ← compileExpression P e c
    .ok (c.emit P .OpPop []).2
/-- Modelled from the spec: a program or block: each statement in order. -/
def compileBlock (P : Params) : Block → Compiler → Except String Compiler
  | .nil, c => .ok c
  | .cons s rest, c => do
    let c ← compileStatement P s c
    compileBlock P rest c
/-- Modelled from the spec: the else branch of an if-expression: `OpNull` if absent,
else the block without its trailing `OpPop`. -/
def compileAlternative (P : Params) : Alternative → Compiler → Except String Compiler
  | .none, c => .ok (c.emit P .OpNull []).2
  | .some b, c => do
    let c ← compileBlock P b c
    .ok (if c.lastInstructionIs .OpPop then c.removeLastPop else c)
/-- Modelled from the spec: expressions compiled left to right. -/
def compileExpressions (P : Params) : Expressions → Compiler → Except String Compiler
  | .nil, c => .ok c
  | .cons e rest, c => do
    let c ← compileExpression P e c
    compileExpressions P rest c
/-- Modelled from the spec: the key and the value of each entry, in order. -/
def compilePairs (P : Params) : Pairs → Compiler → Except String Compiler
  | .nil, c => .ok c
  | .cons k v rest, c => do
    let c ← compileExpression P k c
    let c ← compileExpression P v c
    compilePairs P rest c
end

/-- Modelled from the spec: `compile(program)`: the bytecode of a program compiled by a
fresh compiler, or the compile error. -/
def Compile (P : Params) (program : Block) : Except String Bytecode :=
  match compileBlock P program Compiler.New with
  | .ok c => .ok ⟨c.currentInstructions, c.constants⟩
  | .error e => .error e

/-- The scope stack of the compiler is `outer` followed by the current scope `cur`. -/
def Compiler.inScope (c : Compiler) (outer : List CompilationScope) (cur : CompilationScope) :
    Prop :=
  c.scopes = outer ++ [cur] ∧ c.scopeIndex = outer.length

/-- The bytes of the loads of a list of symbols, in order. -/
def loadBytes (P : Params) (ss : List Symbol) : List Nat :=
  (ss.map (fun s => Make P (loadInstruction s).1 (loadInstruction s).2)).flatten

/-- Modelled from the spec: a sequence of `emit` calls, in order. -/
def Compiler.emitAll (P : Params) (c : Compiler) (es : List (Opcode × List Nat)) : Compiler :=
  es.foldl (fun c e => (c.emit P e.1 e.2).2) c

/-- The compilation scope after a sequence of `emit` calls on the scope `s`. -/
def scopeAfter (P : Params) (s : CompilationScope) (es : List (Opcode × List Nat)) :
    CompilationScope :=
  es.foldl (fun s e =>
    { instructions := s.instructions ++ Make P e.1 e.2
      lastInstruction := some ⟨e.1, s.instructions.length⟩
      previousInstruction := s.lastInstruction }) s

/-- The compiler of `TestCompilerScopes` after its first `emit`: a fresh compiler that has
emitted `OpMul`. -/
def afterMul : Compiler := (Compiler.New.emit tableParams .OpMul []).2

/-- The function literal `fn() { 1; 2 }`. -/
def fnOneTwo : Expression :=
  .FunctionLiteral "" [] (.cons (.ExpressionStatement (.IntegerLiteral 1))
    (.cons (.ExpressionStatement (.IntegerLiteral 2)) .nil))

/-- The instructions of the compiled functions among a list of constants, in order. -/
def functionInstructions (cs : List Object) : List (List Nat) :=
  cs.filterMap (fun o => match o with
    | .CompiledFunction fn => some fn.Instructions
    | _ => none)

/-- The function literal `fn(b) { return a + b; }`. -/
def fnInner : Expression :=
  .FunctionLiteral "" ["b"] (.cons (.ReturnStatement
    (.InfixExpression (.Identifier "a") "+" (.Identifier "b"))) .nil)

/-- The program `fn(a) { fn(b) { return a + b; } };` of `TestClosures`. -/
def closureProgram : Block :=
  .cons (.ExpressionStatement (.FunctionLiteral "" ["a"]
    (.cons (.ExpressionStatement fnInner) .nil))) .nil

/-- The program of `TestClosures` with a global, `let global = 55; fn() { let a = 66;
fn() { let b = 77; fn() { let c = 88; return global + a + b + c; } } }`. -/
def nestedProgram : Block :=
  .cons (.LetStatement "global" (.IntegerLiteral 55))
    (.cons (.ExpressionStatement (.FunctionLiteral "" []
      (.cons (.LetStatement "a" (.IntegerLiteral 66))
        (.cons (.ExpressionStatement (.FunctionLiteral "" []
          (.cons (.LetStatement "b" (.IntegerLiteral 77))
            (.cons (.ExpressionStatement (.FunctionLiteral "" []
              (.cons (.LetStatement "c" (.IntegerLiteral 88))
                (.cons (.ReturnStatement
                  (.InfixExpression (.InfixExpression (.InfixExpression (.Identifier "global") "+"
                    (.Identifier "a")) "+" (.Identifier "b")) "+" (.Identifier "c"))) .nil))))
              .nil)))) .nil)))) .nil)

/-- The instructions and the instructions of the compiled functions among the constants
of a compiled program. -/
def compiled (r : Except String Bytecode) : Option (List Nat × List (List Nat)) :=
  match r with
  | .ok b => some (b.Instructions, functionInstructions b.Constants)
  | .error _ => none

/-! ## Package compiler: free symbols and references -/

/-- The free symbols collected in `t` are still the first free symbols of `t'`, in the
same positions, in every scope of the chain from the innermost outward. -/
def SymbolTable.grows : SymbolTable → SymbolTable → Prop
  | .top _ _ f, .top _ _ f' => f <+: f'
  | .enclosed o _ _ f, .enclosed o' _ _ f' => o.grows o' ∧ f <+: f'
  | _, _ => false = true

/-- Every Free symbol that the mapping `store` holds for a name has the index of a
collected free symbol `free[i]` with that name. -/
def freeOk (store : List (String × Symbol)) (free : List Symbol) : Prop :=
  ∀ name sym, lookupSymbol store name = some sym → sym.Scope = .FreeScope →
    ∃ obj, free[sym.Index]? = some obj ∧ obj.Name = name

/-- The innermost `d` scopes of the chain satisfy `freeOk`. -/
def SymbolTable.okDepth : Nat → SymbolTable → Prop
  | 0, _ => true = true
  | _ + 1, .top s _ f => freeOk s f
  | d + 1, .enclosed o s _ f => freeOk s f ∧ o.okDepth d

/-- The table `t'` continues `t`: the collected free symbols keep their positions and
the Free symbols of the innermost scopes stay bound to collected free symbols. -/
def SymbolTable.continues (t t' : SymbolTable) : Prop :=
  t.grows t' ∧ ∀ d, t.okDepth d → t'.okDepth d

/-- Modelled from the spec: the compiler state in which the else branch of an
if-expression is compiled, from the state `c1` after the condition and the state `c3`
after the consequence: the trailing `OpPop` of the consequence is removed, `OpJump` is
emitted and the operand of `OpJumpNotTruthy` is patched. -/
def Compiler.beforeAlternative (P : Params) (c1 c3 : Compiler) : Compiler :=
  (Compiler.emit P (if c3.lastInstructionIs .OpPop then c3.removeLastPop else c3)
      .OpJump [9999]).2.changeOperand P (Compiler.emit P c1 .OpJumpNotTruthy [9999]).1
    (Compiler.emit P (if c3.lastInstructionIs .OpPop then c3.removeLastPop else c3)
      .OpJump [9999]).2.currentInstructions.length

mutual
/-- The expression `e`, compiled from the state `c`, refers to the name `x` in its own
function: compiling `e` compiles an identifier `x` that lies outside every function
literal of `e`, and `c0` is the compiler state in which that identifier is compiled. -/
def Expression.refersAt (P : Params) : Expression → Compiler → String → Compiler → Prop
  | .IntegerLiteral _, _, _, _ => false = true
  | .Boolean _, _, _, _ => false = true
  | .StringLiteral _, _, _, _ => false = true
  | .Identifier name, c, x, c0 => name = x ∧ c0 = c
  | .PrefixExpression _ right, c, x, c0 => right.refersAt P c x c0
  | .InfixExpression left op right, c, x, c0 =>
    if op = "<" then
      right.refersAt P c x c0 ∨
        ∃ c1, compileExpression P right c = .ok c1 ∧ left.refersAt P c1 x c0
    else
      left.refersAt P c x c0 ∨
        ∃ c1, compileExpression P left c = .ok c1 ∧ right.refersAt P c1 x c0
  | .IfExpression cond cons alt, c, x, c0 =>
    cond.refersAt P c x c0 ∨
      ∃ c1, compileExpression P cond c = .ok c1 ∧
        (cons.refersAt P (Compiler.emit P c1 .OpJumpNotTruthy [9999]).2 x c0 ∨
          ∃ c3, compileBlock P cons (Compiler.emit P c1 .OpJumpNotTruthy [9999]).2 = .ok c3 ∧
            alt.refersAt P (Compiler.beforeAlternative P c1 c3) x c0)
  | .FunctionLiteral _ _ _, _, _, _ => false = true
  | .CallExpression fn args, c, x, c0 =>
    fn.refersAt P c x c0 ∨
      ∃ c1, compileExpression P fn c = .ok c1 ∧ args.refersAt P c1 x c0
  | .ArrayLiteral elems, c, x, c0 => elems.refersAt P c x c0
  | .HashLiteral entries, c, x, c0 => entries.refersAt P c x c0
  | .IndexExpression left idx, c, x, c0 =>
    left.refersAt P c x c0 ∨
      ∃ c1, compileExpression P left c = .ok c1 ∧ idx.refersAt P c1 x c0
/-- The statement, compiled from the state `c`, refers to the name `x` in its own
function, the identifier being compiled in the state `c0`. -/
def Statement.refersAt (P : Params) : Statement → Compiler → String → Compiler → Prop
  | .LetStatement name value, c, x, c0 =>
    value.refersAt P { c with symbolTable := (c.symbolTable.Define name).2 } x c0
  | .ReturnStatement v, c, x, c0 => v.refersAt P c x c0
  | .ExpressionStatement e, c, x, c0 => e.refersAt P c x c0
/-- The block, compiled from the state `c`, refers to the name `x` in its own function,
the identifier being compiled in the state `c0`. -/
def Block.refersAt (P : Params) : Block → Compiler → String → Compiler → Prop
  | .nil, _, _, _ => false = true
  | .cons s rest, c, x, c0 =>
    s.refersAt P c x c0 ∨ ∃ c1, compileStatement P s c = .ok c1 ∧ rest.refersAt P c1 x c0
/-- The else branch, compiled from the state `c`, refers to the name `x`. -/
def Alternative.refersAt (P : Params) : Alternative → Compiler → String → Compiler → Prop
  | .none, _, _, _ => false = true
  | .some b, c, x, c0 => b.refersAt P c x c0
/-- The sequence of expressions, compiled from the state `c`, refers to the name `x`. -/
def Expressions.refersAt (P : Params) : Expressions → Compiler → String → Compiler → Prop
  | .nil, _, _, _ => false = true
  | .cons e rest, c, x, c0 =>
    e.refersAt P c x c0 ∨ ∃ c1, compileExpression P e c = .ok c1 ∧ rest.refersAt P c1 x c0
/-- The entries of a hash literal, compiled from the state `c`, refer to the name `x`. -/
def Pairs.refersAt (P : Params) : Pairs → Compiler → String → Compiler → Prop
  | .nil, _, _, _ => false = true
  | .cons k v rest, c, x, c0 =>
    k.refersAt P c x c0 ∨ ∃ c1, compileExpression P k c = .ok c1 ∧
      (v.refersAt P c1 x c0 ∨ ∃ c2, compileExpression P v c1 = .ok c2 ∧
        rest.refersAt P c2 x c0)
end

/-- The identifier `x` is compiled in the state `c0`, in the function scope above `outer`,
between a state with the symbol table `t` and a state with the symbol table `t'`: the
identifier compiles, `c0` continues `t`, and `t'` continues the table after the
identifier. -/
def referenceOk (P : Params) (t t' : SymbolTable) (outer : List CompilationScope) (x : String)
    (c0 : Compiler) : Prop :=
  ∃ cur0 c0', c0.inScope outer cur0 ∧ t.continues c0.symbolTable ∧
    compileExpression P (.Identifier x) c0 = .ok c0' ∧ c0'.symbolTable.continues t'

mutual
/-- The identifier `x` occurs in the expression outside every function literal of the
expression. -/
def Expression.mentions : Expression → String → Prop
  | .IntegerLiteral _, _ => false = true
  | .Boolean _, _ => false = true
  | .StringLiteral _, _ => false = true
  | .Identifier name, x => name = x
  | .PrefixExpression _ right, x => right.mentions x
  | .InfixExpression left _ right, x => left.mentions x ∨ right.mentions x
  | .IfExpression cond cons alt, x => cond.mentions x ∨ cons.mentions x ∨ alt.mentions x
  | .FunctionLiteral _ _ _, _ => false = true
  | .CallExpression fn args, x => fn.mentions x ∨ args.mentions x
  | .ArrayLiteral elems, x => elems.mentions x
  | .HashLiteral entries, x => entries.mentions x
  | .IndexExpression left idx, x => left.mentions x ∨ idx.mentions x
/-- The identifier `x` occurs in the statement outside every function literal. -/
def Statement.mentions : Statement → String → Prop
  | .LetStatement _ value, x => value.mentions x
  | .ReturnStatement v, x => v.mentions x
  | .ExpressionStatement e, x => e.mentions x
/-- The identifier `x` occurs in the block outside every function literal. -/
def Block.mentions : Block → String → Prop
  | .nil, _ => false = true
  | .cons s rest, x => s.mentions x ∨ rest.mentions x
/-- The identifier `x` occurs in the else branch outside every function literal. -/
def Alternative.mentions : Alternative → String → Prop
  | .none, _ => false = true
  | .some b, x => b.mentions x
/-- The identifier `x` occurs in the expressions outside every function literal. -/
def Expressions.mentions : Expressions → String → Prop
  | .nil, _ => false = true
  | .cons e rest, x => e.mentions x ∨ rest.mentions x
/-- The identifier `x` occurs in the entries outside every function literal. -/
def Pairs.mentions : Pairs → String → Prop
  | .nil, _ => false = true
  | .cons k v rest, x => k.mentions x ∨ v.mentions x ∨ rest.mentions x
end

/-! ## Lemmas and claims -/

theorem lookup_find (P : Params) (o : Opcode) (l : List Opcode) (h : o ∈ l) :
    l.find? (fun x => P.byte x == P.byte o) = some o := by
  induction l with
  | nil => cases h
  | cons x xs ih =>
    by_cases hx : P.byte x = P.byte o
    · have := P.byte_inj x o hx
      subst this
      simp [List.find?]
    · have hne : x ≠ o := fun e => hx (by rw [e])
      have hm : o ∈ xs := by
        rcases List.mem_cons.mp h with h1 | h1
        · exact absurd h1.symm hne
        · exact h1
      have hf : (P.byte x == P.byte o) = false := by simp [hx]
      simp [List.find?, hf, ih hm]

@[simp] theorem Params.lookup_byte (P : Params) (o : Opcode) : P.lookup (P.byte o) = some o := by
  unfold Params.lookup
  exact lookup_find P o _ (by cases o <;> simp [Opcode.all])

theorem index_eq_some {α : Type} {s : List α} {i : Int} {a : α} (h : index s i = some a) :
    0 ≤ i ∧ i < s.length ∧ s[i.toNat]? = some a := by
  unfold index at h
  split at h
  · rename_i h0
    refine ⟨h0, ?_, h⟩
    have := (List.getElem?_eq_some.mp h).1
    omega
  · cases h

theorem index_of_nat {α : Type} (s : List α) (n : Nat) : index s (n : Int) = s[n]? := by
  simp [index]

theorem assign_eq {α : Type} {s : List α} {i : Int} (v : α) (h0 : 0 ≤ i) (h1 : i < s.length) :
    assign s i v = some (s.set i.toNat v) := by
  simp [assign, h0, h1]

theorem index_set_same {α : Type} {s : List α} {i : Int} (v : α) (h0 : 0 ≤ i)
    (h1 : i < s.length) : index (s.set i.toNat v) i = some v := by
  have : i.toNat < s.length := by omega
  simp [index, h0, List.getElem?_set, this]

theorem index_set_other {α : Type} {s : List α} {i j : Int} (v : α) (h0 : 0 ≤ i)
    (hij : j ≠ i) : index (s.set i.toNat v) j = index s j := by
  unfold index
  split
  · rename_i hj
    have : i.toNat ≠ j.toNat := by omega
    simp [List.getElem?_set, this]
  · rfl

theorem currentFrame_eq {vm : VM} {f : Frame} (h : vm.currentFrame = some f) :
    index vm.frames (vm.frameIndex - 1) = some (some f) := by
  unfold VM.currentFrame at h
  cases hx : index vm.frames (vm.frameIndex - 1) with
  | none => simp [hx] at h
  | some o => simp [hx] at h; simp [h]

theorem setIp_eq {vm : VM} {f : Frame} (h : vm.currentFrame = some f) (ip : Int) :
    vm.setIp ip = some (vm.withIp f ip) := by
  have h1 := index_eq_some (currentFrame_eq h)
  simp [VM.setIp, h, assign, h1.1, h1.2.1, VM.withIp]

theorem addIp_eq {vm : VM} {f : Frame} (h : vm.currentFrame = some f) (d : Int) :
    vm.addIp d = some (vm.withIp f (f.ip + d)) := by
  simp [VM.addIp, h, setIp_eq h]

theorem currentFrame_withIp {vm : VM} {f : Frame} (h : vm.currentFrame = some f) (ip : Int) :
    (vm.withIp f ip).currentFrame = some { f with ip := ip } := by
  have h1 := index_eq_some (currentFrame_eq h)
  simp only [VM.currentFrame, VM.withIp]
  rw [index_set_same _ h1.1 h1.2.1]
  rfl

@[simp] theorem withIp_stack (vm : VM) (f : Frame) (ip : Int) : (vm.withIp f ip).stack = vm.stack := rfl
@[simp] theorem withIp_sp (vm : VM) (f : Frame) (ip : Int) : (vm.withIp f ip).sp = vm.sp := rfl
@[simp] theorem withIp_globals (vm : VM) (f : Frame) (ip : Int) : (vm.withIp f ip).globals = vm.globals := rfl
@[simp] theorem withIp_constants (vm : VM) (f : Frame) (ip : Int) : (vm.withIp f ip).constants = vm.constants := rfl
@[simp] theorem withIp_frameIndex (vm : VM) (f : Frame) (ip : Int) : (vm.withIp f ip).frameIndex = vm.frameIndex := rfl
@[simp] theorem withIp_heap (vm : VM) (f : Frame) (ip : Int) : (vm.withIp f ip).heap = vm.heap := rfl

/-- One cycle, once the opcode is known: the instruction pointer moves to the opcode and
the `switch` is entered. -/
theorem cycle_fetch (P : Params) {vm : VM} {f : Frame} {op : Opcode}
    (h : vm.currentFrame = some f) (hb : vm.nextByte = some (P.byte op)) :
    vm.cycle P = (vm.withIp f (f.ip + 1)).dispatch P f.Instructions (f.ip + 1) (some op) := by
  have hb2 : index f.Instructions (f.ip + 1) = some (P.byte op) := by
    simpa [VM.nextByte, h] using hb
  simp [VM.cycle, addIp_eq h, currentFrame_withIp h, Frame.Instructions] at hb2 ⊢
  simp [hb2]

theorem running_of_nextByte {vm : VM} {b : Nat} (hb : vm.nextByte = some b) :
    vm.running = some true := by
  unfold VM.nextByte at hb
  cases h : vm.currentFrame with
  | none => simp [h] at hb
  | some f =>
    simp [h] at hb
    have := index_eq_some hb
    simp [VM.running, h, Frame.Instructions] at this ⊢
    omega

theorem pop_eq {vm : VM} {o : Object} (h : index vm.stack (vm.sp - 1) = some o) :
    vm.pop = some (o, { vm with sp := vm.sp - 1 }) := by
  simp [VM.pop, h]

theorem push_eq (vm : VM) (o : Object) (h0 : 0 ≤ vm.sp) (h1 : vm.sp < StackSize)
    (h2 : vm.sp < vm.stack.length) :
    vm.push o = some (none, { vm with stack := vm.stack.set vm.sp.toNat o, sp := vm.sp + 1 }) := by
  have h3 : ¬ (vm.sp ≥ (StackSize : Int)) := by omega
  simp only [VM.push, h3, if_false, assign_eq o h0 h2]
  rfl

theorem wrap64_of_range {x : Int} (h0 : -2 ^ 63 ≤ x) (h1 : x < 2 ^ 63) : wrap64 x = x := by
  unfold wrap64
  omega

theorem tdiv_range {a b : Int} (ha0 : -2 ^ 63 ≤ a) (ha1 : a < 2 ^ 63)
    (hne : ¬ (a = -2 ^ 63 ∧ b = -1)) : -2 ^ 63 ≤ Int.tdiv a b ∧ Int.tdiv a b < 2 ^ 63 := by
  have hq : (Int.tdiv a b).natAbs = a.natAbs / b.natAbs := Int.natAbs_tdiv a b
  have hle : a.natAbs / b.natAbs ≤ a.natAbs := Nat.div_le_self _ _
  by_cases hmin : a = -2 ^ 63
  · subst hmin
    by_cases hb1 : b = 1
    · subst hb1; simp
    · have hbm : b ≠ -1 := fun e => hne ⟨rfl, e⟩
      by_cases hb0 : b = 0
      · subst hb0; simp
      · have h2 : 2 ≤ b.natAbs := by omega
        have h3 : (-2 ^ 63 : Int).natAbs / b.natAbs ≤ (-2 ^ 63 : Int).natAbs / 2 :=
          Nat.div_le_div_left h2 (by decide)
        have h4 : (-2 ^ 63 : Int).natAbs / 2 = 2 ^ 62 := by
          have : (-2 ^ 63 : Int).natAbs = 2 ^ 63 := by simp
          rw [this]; norm_num
        omega
  · omega

theorem pop_two {vm : VM} {l r : Object}
    (hl : index vm.stack (vm.sp - 2) = some l) (hr : index vm.stack (vm.sp - 1) = some r) :
    vm.pop = some (r, { vm with sp := vm.sp - 1 }) ∧
    VM.pop { vm with sp := vm.sp - 1 } = some (l, { vm with sp := vm.sp - 2 }) := by
  have e1 : vm.sp - 1 - 1 = vm.sp - 2 := by ring
  refine ⟨pop_eq hr, ?_⟩
  have := @pop_eq { vm with sp := vm.sp - 1 } l (by simpa only [e1] using hl)
  simpa only [e1] using this

theorem push_after_two (vm : VM) (o : Object) (h : Nat) (hlen : vm.stack.length = StackSize)
    (h0 : 0 ≤ vm.sp - 2) (h1 : vm.sp - 1 < vm.stack.length) :
    VM.push { vm with sp := vm.sp - 2, heap := h } o
      = some (none, { vm with stack := vm.stack.set (vm.sp - 2).toNat o
                              sp := vm.sp - 1
                              heap := h }) := by
  have e2 : vm.sp - 2 + 1 = vm.sp - 1 := by ring
  have hp := push_eq { vm with sp := vm.sp - 2, heap := h } o h0
    (by show vm.sp - 2 < (StackSize : Int); omega) (by show vm.sp - 2 < (vm.stack.length : Int); omega)
  simpa only [e2] using hp

theorem executeBinaryOperation_integer (P : Params) (vm : VM) (op : Opcode) (a b : Int)
    (ka kb : Nat)
    (hop : op = .OpAdd ∨ op = .OpSub ∨ op = .OpMul ∨ op = .OpDiv)
    (hlen : vm.stack.length = StackSize)
    (hl : index vm.stack (vm.sp - 2) = some (.Integer ka a))
    (hr : index vm.stack (vm.sp - 1) = some (.Integer kb b))
    (hdiv : op = .OpDiv → b ≠ 0) :
    vm.executeBinaryOperation P op = some (none,
      { vm with stack := vm.stack.set (vm.sp - 2).toNat (.Integer vm.heap (wrap64 (arith op a b)))
                sp := vm.sp - 1
                heap := vm.heap + 1 }) := by
  have h1 := index_eq_some hl
  have h2 := index_eq_some hr
  have hpp := pop_two hl hr
  have hpush := fun r : Int =>
    push_after_two vm (.Integer vm.heap r) (vm.heap + 1) hlen h1.1 h2.2.1
  unfold VM.executeBinaryOperation
  simp only [hpp.1, hpp.2, Option.bind_eq_bind, Option.some_bind, Object.typ,
    true_and, and_self, if_true, VM.executeBinaryIntegerOperation, integerValue]
  rcases hop with h | h | h | h <;> subst h
  · exact hpush _
  · exact hpush _
  · exact hpush _
  · have hb := hdiv rfl
    simp only [hb, if_false]
    exact hpush _

theorem nextByte_frame {vm : VM} {b : Nat} (hb : vm.nextByte = some b) :
    ∃ f, vm.currentFrame = some f ∧ index f.Instructions (f.ip + 1) = some b := by
  unfold VM.nextByte at hb
  cases h : vm.currentFrame with
  | none => simp [h] at hb
  | some f => exact ⟨f, rfl, by simpa [h] using hb⟩

theorem cycle_arith (P : Params) (vm : VM) (op : Opcode) (a b : Int) (ka kb : Nat)
    (hop : op = .OpAdd ∨ op = .OpSub ∨ op = .OpMul ∨ op = .OpDiv)
    (hb : vm.nextByte = some (P.byte op))
    (hlen : vm.stack.length = StackSize)
    (hl : index vm.stack (vm.sp - 2) = some (.Integer ka a))
    (hr : index vm.stack (vm.sp - 1) = some (.Integer kb b))
    (hdiv : op = .OpDiv → b ≠ 0) :
    ∃ vm', vm.cycle P = some (none, vm') ∧ vm'.sp = vm.sp - 1 ∧
      vm'.stack = vm.stack.set (vm.sp - 2).toNat (.Integer vm.heap (wrap64 (arith op a b))) ∧
      vm'.globals = vm.globals ∧ vm'.frameIndex = vm.frameIndex := by
  obtain ⟨f, hf, _⟩ := nextByte_frame hb
  have hd : (vm.withIp f (f.ip + 1)).dispatch P f.Instructions (f.ip + 1) (some op)
      = (vm.withIp f (f.ip + 1)).executeBinaryOperation P op := by
    rcases hop with h | h | h | h <;> subst h <;> rfl
  rw [cycle_fetch P hf hb, hd,
    executeBinaryOperation_integer P (vm.withIp f (f.ip + 1)) op a b ka kb hop hlen hl hr hdiv]
  exact ⟨_, rfl, rfl, rfl, rfl, rfl⟩

/-- C1 (amended): with Integer `a` below Integer `b` on top of the stack, one cycle on
OpAdd, OpSub, OpMul, or on OpDiv with `b ≠ 0`, returns no error, lowers `sp` by one and
leaves in the slot of the left operand the Integer `a + b`, `a - b`, `a * b` or the
quotient truncated toward zero, each wrapped to 64 bits; the slots below are unchanged.
The wrapped quotient is the exact quotient unless `a = -2^63` and `b = -1`. -/
theorem C1_integer_arithmetic (P : Params) (vm : VM) (op : Opcode) (a b : Int) (ka kb : Nat)
    (hop : op = .OpAdd ∨ op = .OpSub ∨ op = .OpMul ∨ op = .OpDiv)
    (hb : vm.nextByte = some (P.byte op))
    (hlen : vm.stack.length = StackSize)
    (hl : index vm.stack (vm.sp - 2) = some (.Integer ka a))
    (hr : index vm.stack (vm.sp - 1) = some (.Integer kb b))
    (hdiv : op = .OpDiv → b ≠ 0) :
    ∃ vm', vm.cycle P = some (none, vm') ∧ vm'.sp = vm.sp - 1 ∧
      index vm'.stack (vm.sp - 2) = some (.Integer vm.heap (wrap64 (arith op a b))) ∧
      (∀ i : Int, i < vm.sp - 2 → index vm'.stack i = index vm.stack i) ∧
      (op = .OpAdd → arith op a b = a + b) ∧
      (op = .OpSub → arith op a b = a - b) ∧
      (op = .OpMul → arith op a b = a * b) ∧
      (op = .OpDiv → arith op a b = Int.tdiv a b) ∧
      (op = .OpDiv → -2 ^ 63 ≤ a → a < 2 ^ 63 → ¬ (a = -2 ^ 63 ∧ b = -1) →
        wrap64 (arith op a b) = Int.tdiv a b) := by
  obtain ⟨vm', hc, hsp, hst, _, _⟩ := cycle_arith P vm op a b ka kb hop hb hlen hl hr hdiv
  have h1 := index_eq_some hl
  refine ⟨vm', hc, hsp, ?_, ?_, ?_, ?_, ?_, ?_, ?_⟩
  · rw [hst]; exact index_set_same _ h1.1 h1.2.1
  · intro i hi
    rw [hst]; exact index_set_other _ h1.1 (by omega)
  · intro h; subst h; rfl
  · intro h; subst h; rfl
  · intro h; subst h; rfl
  · intro h; subst h; rfl
  · intro h ha0 ha1 hne
    subst h
    have := tdiv_range ha0 ha1 hne
    exact wrap64_of_range this.1 this.2

theorem machine_currentFrame (cs : List Object) (ins : List Nat) (ip : Int) (vs : List Object)
    (heap : Nat) : (machine cs ins ip vs heap).currentFrame =
      some { fn := { addr := heap, Instructions := ins, NumLocals := 0, NumParameters := 0 },
             ip := ip } := by
  have h := @index_set_same _ (List.replicate MaxFrame (none : Option Frame)) 0
    (some ({ fn := { addr := heap, Instructions := ins, NumLocals := 0, NumParameters := 0 },
             ip := ip } : Frame)) (le_refl _) (by rw [List.length_replicate]; decide)
  have e : (machine cs ins ip vs heap).frameIndex - 1 = 0 := rfl
  have h2 : index (machine cs ins ip vs heap).frames 0 = some (some
      ({ fn := { addr := heap, Instructions := ins, NumLocals := 0, NumParameters := 0 },
         ip := ip } : Frame)) := h
  unfold VM.currentFrame
  rw [e, h2]
  rfl

theorem machine_nextByte (cs : List Object) (ins : List Nat) (ip : Int) (vs : List Object)
    (heap : Nat) : (machine cs ins ip vs heap).nextByte = index ins (ip + 1) := by
  unfold VM.nextByte
  rw [machine_currentFrame]
  rfl

theorem machine_length (cs : List Object) (ins : List Nat) (ip : Int) (vs : List Object)
    (heap : Nat) (h : vs.length ≤ StackSize) :
    (machine cs ins ip vs heap).stack.length = StackSize := by
  simp [machine]; omega

theorem machine_index (cs : List Object) (ins : List Nat) (ip : Int) (vs : List Object)
    (heap : Nat) (n : Nat) (h : n < vs.length) :
    index (machine cs ins ip vs heap).stack (n : Int) = vs[n]? := by
  rw [index_of_nat]
  show (vs ++ List.replicate (StackSize - vs.length) Object.nil)[n]? = vs[n]?
  exact List.getElem?_append_left h

@[simp] theorem machine_sp (cs : List Object) (ins : List Nat) (ip : Int) (vs : List Object)
    (heap : Nat) : (machine cs ins ip vs heap).sp = vs.length := rfl

@[simp] theorem machine_heap (cs : List Object) (ins : List Nat) (ip : Int) (vs : List Object)
    (heap : Nat) : (machine cs ins ip vs heap).heap = heap + 1 := rfl

@[simp] theorem machine_constants (cs : List Object) (ins : List Nat) (ip : Int)
    (vs : List Object) (heap : Nat) : (machine cs ins ip vs heap).constants = cs := rfl

/-- C1, a counterexample to the claim as stated: on Integer -2^63 and Integer -1, `OpDiv`
pushes Integer -2^63, which is not the quotient 2^63. -/
theorem C1_counterexample :
    ∃ vm', divOverflow.cycle tableParams = some (none, vm') ∧
      index vm'.stack 0 = some (.Integer 21 (-2 ^ 63)) ∧
      Int.tdiv (-2 ^ 63) (-1) = 2 ^ 63 ∧ (2 ^ 63 : Int) ≠ -2 ^ 63 := by
  have hlen : divOverflow.stack.length = StackSize :=
    machine_length _ _ _ _ _ (by simp [StackSize])
  obtain ⟨vm', hc, _, hst, _, _⟩ := cycle_arith tableParams divOverflow .OpDiv (-2 ^ 63) (-1) 10 11
    (by simp) (by simp [divOverflow, machine_nextByte, index]) hlen
    (machine_index _ _ _ _ _ 0 (by simp)) (machine_index _ _ _ _ _ 1 (by simp))
    (by intro _; decide)
  refine ⟨vm', hc, ?_, by decide, by decide⟩
  rw [hst]
  have hw : wrap64 (arith .OpDiv (-2 ^ 63) (-1)) = -2 ^ 63 := by decide
  rw [hw]
  have h := @index_set_same _ divOverflow.stack 0
    (Object.Integer divOverflow.heap (-2 ^ 63)) (by decide) (by rw [hlen]; simp [StackSize])
  simpa [divOverflow] using h

/-- C1, a witness: `OpMul` on Integer 6 (left) and Integer 7 (right). -/
theorem C1_witness :
    ∃ vm', (machine [] [tableParams.byte .OpMul] (-1) [.Integer 10 6, .Integer 11 7] 20).cycle
        tableParams = some (none, vm') ∧ vm'.sp = 1 ∧
      index vm'.stack 0 = some (.Integer 21 42) := by
  obtain ⟨vm', hc, hsp, hst, _⟩ := C1_integer_arithmetic tableParams
    (machine [] [tableParams.byte .OpMul] (-1) [.Integer 10 6, .Integer 11 7] 20) .OpMul 6 7 10 11
    (by simp) (by simp [machine_nextByte, index])
    (machine_length _ _ _ _ _ (by simp [StackSize]))
    (machine_index _ _ _ _ _ 0 (by simp)) (machine_index _ _ _ _ _ 1 (by simp))
    (by intro h; cases h)
  have hw : wrap64 (arith .OpMul 6 7) = 42 := by decide
  rw [hw] at hst
  exact ⟨vm', hc, by simpa using hsp, by simpa using hst⟩

theorem framed_of_currentFrame {vm : VM} {f : Frame} (h : vm.currentFrame = some f) :
    vm.framed := by
  have h1 := index_eq_some (currentFrame_eq h)
  exact ⟨h1.1, h1.2.1⟩

theorem eq_conf {vm : VM} {f : Frame} (h : vm.currentFrame = some f) :
    vm = conf vm f vm.stack vm.sp vm.globals vm.heap := by
  have h1 := index_eq_some (currentFrame_eq h)
  have h2 : vm.frames.set (vm.frameIndex - 1).toNat (some f) = vm.frames := by
    apply List.ext_getElem?
    intro n
    rw [List.getElem?_set]
    split
    · rename_i e
      subst e
      rw [if_pos (by have := h1.2.1; omega), h1.2.2]
    · rfl
  cases vm
  simp only [conf] at h2 ⊢
  rw [h2]

theorem conf_currentFrame {b : VM} (hb : b.framed) (f : Frame) (st : List Object) (sp : Int)
    (gs : List Object) (h : Nat) : (conf b f st sp gs h).currentFrame = some f := by
  simp only [VM.currentFrame, conf]
  rw [index_set_same _ hb.1 hb.2]
  rfl

theorem conf_nextByte {b : VM} (hb : b.framed) (f : Frame) (st : List Object) (sp : Int)
    (gs : List Object) (h : Nat) :
    (conf b f st sp gs h).nextByte = index f.Instructions (f.ip + 1) := by
  simp only [VM.nextByte, conf_currentFrame hb]
  rfl

theorem conf_withIp (b : VM) (f g : Frame) (ip : Int) (st : List Object) (sp : Int)
    (gs : List Object) (h : Nat) :
    (conf b f st sp gs h).withIp g ip = conf b { g with ip := ip } st sp gs h := by
  simp only [VM.withIp, conf, List.set_set]

theorem conf_cycle (P : Params) {b : VM} (hb : b.framed) (fn : CompiledFunction) (ip : Int)
    (st : List Object) (sp : Int) (gs : List Object) (h : Nat) (op : Opcode)
    (hop : index fn.Instructions (ip + 1) = some (P.byte op)) :
    (conf b ⟨fn, ip⟩ st sp gs h).cycle P =
      (conf b ⟨fn, ip + 1⟩ st sp gs h).dispatch P fn.Instructions (ip + 1) (some op) := by
  rw [cycle_fetch P (conf_currentFrame hb _ _ _ _ _) (by rw [conf_nextByte hb]; exact hop),
    conf_withIp]
  rfl

theorem conf_addIp {b : VM} (hb : b.framed) (fn : CompiledFunction) (ip d : Int)
    (st : List Object) (sp : Int) (gs : List Object) (h : Nat) :
    (conf b ⟨fn, ip⟩ st sp gs h).addIp d = some (conf b ⟨fn, ip + d⟩ st sp gs h) := by
  rw [addIp_eq (conf_currentFrame hb _ _ _ _ _), conf_withIp]

theorem conf_setIp {b : VM} (hb : b.framed) (fn : CompiledFunction) (ip ip2 : Int)
    (st : List Object) (sp : Int) (gs : List Object) (h : Nat) :
    (conf b ⟨fn, ip⟩ st sp gs h).setIp ip2 = some (conf b ⟨fn, ip2⟩ st sp gs h) := by
  rw [setIp_eq (conf_currentFrame hb _ _ _ _ _), conf_withIp]

theorem conf_push (b : VM) (f : Frame) (st : List Object) (sp : Int) (gs : List Object)
    (h : Nat) (o : Object) (h0 : 0 ≤ sp) (h1 : sp < StackSize) (h2 : st.length = StackSize) :
    (conf b f st sp gs h).push o = some (none, conf b f (st.set sp.toNat o) (sp + 1) gs h) := by
  rw [push_eq _ _ h0 h1 (by show sp < (st.length : Int); omega)]
  rfl

theorem conf_pop (b : VM) (f : Frame) (st : List Object) (sp : Int) (gs : List Object)
    (h : Nat) (o : Object) (ho : index st (sp - 1) = some o) :
    (conf b f st sp gs h).pop = some (o, conf b f st (sp - 1) gs h) := by
  rw [@pop_eq (conf b f st sp gs h) o ho]
  rfl

theorem readOperand_eq (ins : List Nat) (ip : Int) (hi lo : Nat)
    (h1 : index ins (ip + 1) = some hi) (h2 : index ins (ip + 2) = some lo) :
    readOperand ins ip = some (hi * 256 + lo) := by
  have a1 := index_eq_some h1
  have a2 := index_eq_some h2
  have e : (ip + 2).toNat = (ip + 1).toNat + 1 := by omega
  have hs : sliceFrom ins (ip + 1) = some (ins.drop (ip + 1).toNat) := by
    simp only [sliceFrom]
    rw [if_pos ⟨a1.1, by omega⟩]
  simp only [readOperand, hs, Option.bind_eq_bind, Option.some_bind]
  have d1 : (ins.drop (ip + 1).toNat)[0]? = some hi := by
    rw [List.getElem?_drop]; simpa using a1.2.2
  have d2 : (ins.drop (ip + 1).toNat)[1]? = some lo := by
    rw [List.getElem?_drop, ← e]; exact a2.2.2
  match hd : ins.drop (ip + 1).toNat, d1, d2 with
  | x :: y :: t, d1, d2 =>
    simp at d1 d2
    subst d1; subst d2
    rfl
  | [x], _, d2 => simp at d2
  | [], d1, _ => simp at d1

theorem running_of_cycle (P : Params) {vm : VM} {r : error × VM} (h : vm.cycle P = some r) :
    vm.running = some true := by
  cases hf : vm.currentFrame with
  | none => simp [VM.cycle, VM.addIp, hf] at h
  | some f =>
    cases hi : index f.Instructions (f.ip + 1) with
    | none =>
      have hi2 : index f.fn.Instructions (f.ip + 1) = none := hi
      simp [VM.cycle, addIp_eq hf, currentFrame_withIp hf, Frame.Instructions, hi2] at h
    | some b =>
      have hn : vm.nextByte = some b := by simp [VM.nextByte, hf, hi]
      exact running_of_nextByte hn

theorem Run_continue (P : Params) {vm vm' : VM} (fuel : Nat)
    (h : vm.cycle P = some (none, vm')) : VM.Run P (fuel + 1) vm = VM.Run P fuel vm' := by
  simp [VM.Run, running_of_cycle P h, h]

theorem Run_error (P : Params) {vm vm' : VM} {e : String} (fuel : Nat)
    (h : vm.cycle P = some (some e, vm')) :
    VM.Run P (fuel + 1) vm = .returned (some e) vm' := by
  simp [VM.Run, running_of_cycle P h, h]

theorem Run_halt (P : Params) {b : VM} (hb : b.framed) (fn : CompiledFunction) (ip : Int)
    (st : List Object) (sp : Int) (gs : List Object) (h : Nat) (fuel : Nat)
    (hip : ip = (fn.Instructions.length : Int) - 1) :
    VM.Run P (fuel + 1) (conf b ⟨fn, ip⟩ st sp gs h) =
      .returned none (conf b ⟨fn, ip⟩ st sp gs h) := by
  have : (conf b ⟨fn, ip⟩ st sp gs h).running = some false := by
    simp [VM.running, conf_currentFrame hb, Frame.Instructions, hip]
  simp [VM.Run, this]

theorem cycle_OpConstant (P : Params) (b : VM) (fn : CompiledFunction) (ip ip' : Int)
    (st : List Object) (sp sp' : Int) (gs : List Object) (h : Nat) (n k : Nat) (c : Object)
    (hb : b.framed) (hop : index fn.Instructions (ip + 1) = some (P.byte .OpConstant))
    (hk : readOperand fn.Instructions (ip + 1) = some k) (hc : index b.constants k = some c)
    (hn : sp = n) (h1 : n < StackSize) (h2 : st.length = StackSize)
    (hip : ip' = ip + 3) (hsp : sp' = sp + 1) :
    (conf b ⟨fn, ip⟩ st sp gs h).cycle P = some (none, conf b ⟨fn, ip'⟩ (st.set n c) sp' gs h) := by
  subst hn hip hsp
  rw [conf_cycle P hb fn ip st _ gs h _ hop]
  simp only [VM.dispatch, hk, Option.bind_eq_bind, Option.some_bind, conf_addIp hb]
  have hc2 : index (conf b ⟨fn, ip + 1 + 2⟩ st n gs h).constants k = some c := hc
  rw [hc2, Option.some_bind, conf_push _ _ _ _ _ _ _ (by omega) (by omega) h2]
  simp only [Int.toNat_ofNat]
  rw [show ip + 1 + 2 = ip + 3 by ring]

theorem cycle_OpPop (P : Params) (b : VM) (fn : CompiledFunction) (ip ip' : Int)
    (st : List Object) (sp sp' : Int) (gs : List Object) (h : Nat) (o : Object)
    (hb : b.framed) (hop : index fn.Instructions (ip + 1) = some (P.byte .OpPop))
    (ho : index st (sp - 1) = some o) (hip : ip' = ip + 1) (hsp : sp' = sp - 1) :
    (conf b ⟨fn, ip⟩ st sp gs h).cycle P = some (none, conf b ⟨fn, ip'⟩ st sp' gs h) := by
  subst hip hsp
  rw [conf_cycle P hb fn ip st _ gs h _ hop]
  simp only [VM.dispatch, conf_pop _ _ _ _ _ _ _ ho, Option.bind_eq_bind, Option.some_bind]

theorem cycle_pushed (P : Params) (b : VM) (fn : CompiledFunction) (ip ip' : Int)
    (st : List Object) (sp sp' : Int) (gs : List Object) (h : Nat) (n : Nat) (op : Opcode)
    (hb : b.framed) (hop : index fn.Instructions (ip + 1) = some (P.byte op))
    (hcase : op = .OpTrue ∨ op = .OpFalse ∨ op = .OpNull)
    (hn : sp = n) (h1 : n < StackSize) (h2 : st.length = StackSize)
    (hip : ip' = ip + 1) (hsp : sp' = sp + 1) :
    (conf b ⟨fn, ip⟩ st sp gs h).cycle P =
      some (none, conf b ⟨fn, ip'⟩ (st.set n (pushed op)) sp' gs h) := by
  subst hn hip hsp
  rw [conf_cycle P hb fn ip st _ gs h _ hop]
  have hp := conf_push b ⟨fn, ip + 1⟩ st n gs h (pushed op) (by omega) (by omega) h2
  simp only [Int.toNat_ofNat] at hp
  rcases hcase with e | e | e <;> subst e <;> exact hp

theorem cycle_OpJump (P : Params) (b : VM) (fn : CompiledFunction) (ip ip' : Int)
    (st : List Object) (sp : Int) (gs : List Object) (h : Nat) (pos : Nat)
    (hb : b.framed) (hop : index fn.Instructions (ip + 1) = some (P.byte .OpJump))
    (hk : readOperand fn.Instructions (ip + 1) = some pos) (hip : ip' = (pos : Int) - 1) :
    (conf b ⟨fn, ip⟩ st sp gs h).cycle P = some (none, conf b ⟨fn, ip'⟩ st sp gs h) := by
  subst hip
  rw [conf_cycle P hb fn ip st _ gs h _ hop]
  simp only [VM.dispatch, hk, Option.bind_eq_bind, Option.some_bind, conf_setIp hb]

theorem cycle_OpJumpNotTruthy (P : Params) (b : VM) (fn : CompiledFunction) (ip ip' : Int)
    (st : List Object) (sp sp' : Int) (gs : List Object) (h : Nat) (pos : Nat) (c : Object)
    (hb : b.framed) (hop : index fn.Instructions (ip + 1) = some (P.byte .OpJumpNotTruthy))
    (hk : readOperand fn.Instructions (ip + 1) = some pos)
    (hc : index st (sp - 1) = some c)
    (hip : ip' = if isTruthy c then ip + 3 else (pos : Int) - 1) (hsp : sp' = sp - 1) :
    (conf b ⟨fn, ip⟩ st sp gs h).cycle P = some (none, conf b ⟨fn, ip'⟩ st sp' gs h) := by
  subst hip hsp
  rw [conf_cycle P hb fn ip st _ gs h _ hop]
  simp only [VM.dispatch, hk, Option.bind_eq_bind, Option.some_bind, conf_addIp hb,
    conf_pop _ _ _ _ _ _ _ hc]
  cases ht : isTruthy c
  · simp [conf_setIp hb]
  · simp
    rw [show ip + 1 + 2 = ip + 3 by ring]

theorem cycle_OpSetGlobal (P : Params) (b : VM) (fn : CompiledFunction) (ip ip' : Int)
    (st : List Object) (sp sp' : Int) (gs : List Object) (h : Nat) (i : Nat) (v : Object)
    (hb : b.framed) (hop : index fn.Instructions (ip + 1) = some (P.byte .OpSetGlobal))
    (hk : readOperand fn.Instructions (ip + 1) = some i)
    (hv : index st (sp - 1) = some v) (hi : i < gs.length)
    (hip : ip' = ip + 3) (hsp : sp' = sp - 1) :
    (conf b ⟨fn, ip⟩ st sp gs h).cycle P = some (none, conf b ⟨fn, ip'⟩ st sp' (gs.set i v) h) := by
  subst hip hsp
  rw [conf_cycle P hb fn ip st _ gs h _ hop]
  simp only [VM.dispatch, hk, Option.bind_eq_bind, Option.some_bind, conf_addIp hb,
    conf_pop _ _ _ _ _ _ _ hv]
  have ha : assign (conf b ⟨fn, ip + 1 + 2⟩ st (sp - 1) gs h).globals (i : Int) v
      = some (gs.set i v) := by
    have := @assign_eq _ gs (i : Int) v (by omega) (by omega)
    simpa using this
  rw [ha, Option.some_bind, show ip + 1 + 2 = ip + 3 by ring]
  rfl

theorem cycle_OpGetGlobal (P : Params) (b : VM) (fn : CompiledFunction) (ip ip' : Int)
    (st : List Object) (sp sp' : Int) (gs : List Object) (h : Nat) (n i : Nat) (g : Object)
    (hb : b.framed) (hop : index fn.Instructions (ip + 1) = some (P.byte .OpGetGlobal))
    (hk : readOperand fn.Instructions (ip + 1) = some i)
    (hg : index gs i = some g)
    (hn : sp = n) (h1 : n < StackSize) (h2 : st.length = StackSize)
    (hip : ip' = ip + 3) (hsp : sp' = sp + 1) :
    (conf b ⟨fn, ip⟩ st sp gs h).cycle P = some (none, conf b ⟨fn, ip'⟩ (st.set n g) sp' gs h) := by
  subst hn hip hsp
  rw [conf_cycle P hb fn ip st _ gs h _ hop]
  simp only [VM.dispatch, hk, Option.bind_eq_bind, Option.some_bind, conf_addIp hb]
  have hg2 : index (conf b ⟨fn, ip + 1 + 2⟩ st n gs h).globals i = some g := hg
  rw [hg2, Option.some_bind, conf_push _ _ _ _ _ _ _ (by omega) (by omega) h2]
  simp only [Int.toNat_ofNat]
  rw [show ip + 1 + 2 = ip + 3 by ring]

theorem conf_pop_two (b : VM) (f : Frame) (st : List Object) (sp : Int) (gs : List Object)
    (h : Nat) (n : Nat) (l r : Object) (hn : sp = n + 2)
    (hl : index st n = some l) (hr : index st (n + 1) = some r) :
    (conf b f st sp gs h).pop = some (r, conf b f st (n + 1) gs h) ∧
    (conf b f st (n + 1) gs h).pop = some (l, conf b f st n gs h) := by
  subst hn
  constructor
  · have := conf_pop b f st (n + 2) gs h r (by rw [show (n : Int) + 2 - 1 = n + 1 by ring]; exact hr)
    rw [this, show (n : Int) + 2 - 1 = n + 1 by ring]
  · have := conf_pop b f st (n + 1) gs h l (by rw [show (n : Int) + 1 - 1 = n by ring]; exact hl)
    rw [this, show (n : Int) + 1 - 1 = n by ring]

theorem cycle_compare_int (P : Params) (b : VM) (fn : CompiledFunction) (ip ip' : Int)
    (st : List Object) (sp sp' : Int) (gs : List Object) (h : Nat) (n : Nat) (op : Opcode)
    (x y : Int) (kx ky : Nat)
    (hb : b.framed) (hop : index fn.Instructions (ip + 1) = some (P.byte op))
    (hcase : op = .OpEqual ∨ op = .OpNotEqual ∨ op = .OpGreaterThan)
    (hn : sp = n + 2) (h2 : st.length = StackSize)
    (hl : index st n = some (.Integer kx x)) (hr : index st (n + 1) = some (.Integer ky y))
    (hip : ip' = ip + 1) (hsp : sp' = sp - 1) :
    (conf b ⟨fn, ip⟩ st sp gs h).cycle P = some (none,
      conf b ⟨fn, ip'⟩ (st.set n (nativeBoolToBooleanObject (compared op x y))) sp' gs h) := by
  subst hip hsp
  have hlt := (index_eq_some hr).2.1
  rw [conf_cycle P hb fn ip st _ gs h _ hop]
  have hpp := conf_pop_two b ⟨fn, ip + 1⟩ st sp gs h n _ _ hn hl hr
  have hpush := fun o : Object =>
    conf_push b ⟨fn, ip + 1⟩ st n gs h o (by omega) (by omega) h2
  simp only [Int.toNat_ofNat] at hpush
  have e : sp - 1 = (n : Int) + 1 := by omega
  have hd : (conf b ⟨fn, ip + 1⟩ st sp gs h).dispatch P fn.Instructions (ip + 1) (some op)
      = (conf b ⟨fn, ip + 1⟩ st sp gs h).executeComparison P op := by
    rcases hcase with c | c | c <;> subst c <;> rfl
  rw [hd, e]
  unfold VM.executeComparison
  simp only [hpp.1, hpp.2, Option.bind_eq_bind, Option.some_bind, eitherInteger, Object.typ,
    if_true, VM.executeIntegerComparison, integerValue]
  rcases hcase with c | c | c <;> subst c <;> exact hpush _

theorem same_canonical (x : Object) :
    (x.same True = true → x.same False = false ∧ x.same Null = false) ∧
    (x.same False = true → x.same Null = false) := by
  cases x <;> simp [Object.same, Object.typ, Object.addr?, True, False, Null, BOOLEAN_OBJ,
    NULL_OBJ, INTEGER_OBJ, STRING_OBJ, ARRAY_OBJ, HASH_OBJ, COMPILED_FUNCTION_OBJ, CLOSURE_OBJ,
    BUILTIN_OBJ, ERROR_OBJ]
  omega

theorem cycle_OpBang (P : Params) (b : VM) (fn : CompiledFunction) (ip ip' : Int)
    (st : List Object) (sp : Int) (gs : List Object) (h : Nat) (n : Nat) (x : Object)
    (hb : b.framed) (hop : index fn.Instructions (ip + 1) = some (P.byte .OpBang))
    (hn : sp = n + 1) (h2 : st.length = StackSize) (hx : index st n = some x)
    (hip : ip' = ip + 1) :
    (conf b ⟨fn, ip⟩ st sp gs h).cycle P = some (none,
      conf b ⟨fn, ip'⟩ (st.set n (if x.same False || x.same Null then True else False)) sp gs h) := by
  subst hip hn
  have hlt := (index_eq_some hx).2.1
  rw [conf_cycle P hb fn ip st _ gs h _ hop]
  have hp := conf_pop b ⟨fn, ip + 1⟩ st (n + 1) gs h x
    (by rw [show (n : Int) + 1 - 1 = n by ring]; exact hx)
  rw [show (n : Int) + 1 - 1 = n by ring] at hp
  have hpush := fun o : Object =>
    conf_push b ⟨fn, ip + 1⟩ st n gs h o (by omega) (by omega) h2
  simp only [Int.toNat_ofNat] at hpush
  simp only [VM.dispatch, VM.executeBangOperator, hp, Option.bind_eq_bind, Option.some_bind]
  have hs := same_canonical x
  cases h1 : x.same True
  · cases h3 : x.same False
    · cases h4 : x.same Null <;> simp [hpush]
    · simp [hpush]
  · simp [hs.1 h1, hpush]

theorem executeBinaryOperation_unsupported (P : Params) (vm : VM) (op : Opcode) (l r : Object)
    (L R : ObjectType)
    (hl : index vm.stack (vm.sp - 2) = some l) (hr : index vm.stack (vm.sp - 1) = some r)
    (hL : l.typ = some L) (hR : r.typ = some R)
    (hI : ¬ (L = INTEGER_OBJ ∧ R = INTEGER_OBJ)) (hS : ¬ (L = STRING_OBJ ∧ R = STRING_OBJ)) :
    vm.executeBinaryOperation P op =
      some (some ("unsupported types for binary operation: " ++ L ++ " " ++ R),
        { vm with sp := vm.sp - 2 }) := by
  have hpp := pop_two hl hr
  unfold VM.executeBinaryOperation
  simp only [hpp.1, hpp.2, Option.bind_eq_bind, Option.some_bind, hL, hR, hI, hS, if_false]

theorem as_conf {vm : VM} {bt : Nat} (hb : vm.nextByte = some bt) :
    ∃ fn ip, vm = conf vm ⟨fn, ip⟩ vm.stack vm.sp vm.globals vm.heap ∧ vm.framed ∧
      vm.currentFrame = some ⟨fn, ip⟩ ∧ index fn.Instructions (ip + 1) = some bt := by
  obtain ⟨f, hf, hi⟩ := nextByte_frame hb
  exact ⟨f.fn, f.ip, eq_conf hf, framed_of_currentFrame hf, hf, hi⟩

theorem slot_of_index {α : Type} {s : List α} {sp : Int} {k : Nat} {a : α}
    (h : index s (sp - k) = some a) : sp = ((sp - k).toNat : Int) + k := by
  have := (index_eq_some h).1
  omega

/-- C2: when the two operands have types that are neither both INTEGER nor both STRING,
`Run` on OpAdd, OpSub, OpMul or OpDiv returns the error
`unsupported types for binary operation: L R` with the type names of the left and the
right operand; both operands are popped and nothing is pushed. -/
theorem C2_unsupported_types (P : Params) (vm : VM) (op : Opcode) (l r : Object)
    (L R : ObjectType) (fuel : Nat)
    (hop : op = .OpAdd ∨ op = .OpSub ∨ op = .OpMul ∨ op = .OpDiv)
    (hb : vm.nextByte = some (P.byte op))
    (hl : index vm.stack (vm.sp - 2) = some l) (hr : index vm.stack (vm.sp - 1) = some r)
    (hL : l.typ = some L) (hR : r.typ = some R)
    (hI : ¬ (L = INTEGER_OBJ ∧ R = INTEGER_OBJ)) (hS : ¬ (L = STRING_OBJ ∧ R = STRING_OBJ)) :
    ∃ vm', VM.Run P (fuel + 1) vm =
        .returned (some ("unsupported types for binary operation: " ++ L ++ " " ++ R)) vm' ∧
      vm'.sp = vm.sp - 2 ∧ vm'.stack = vm.stack ∧ vm'.globals = vm.globals := by
  obtain ⟨f, hf, _⟩ := nextByte_frame hb
  have hd : (vm.withIp f (f.ip + 1)).dispatch P f.Instructions (f.ip + 1) (some op)
      = (vm.withIp f (f.ip + 1)).executeBinaryOperation P op := by
    rcases hop with h | h | h | h <;> subst h <;> rfl
  have hc := cycle_fetch P hf hb
  rw [hd, executeBinaryOperation_unsupported P (vm.withIp f (f.ip + 1)) op l r L R hl hr hL hR
    hI hS] at hc
  exact ⟨_, Run_error P fuel hc, rfl, rfl, rfl⟩

/-- C2, the example of the claim: Integer 5 and Boolean true under `OpAdd`. -/
theorem C2_witness :
    ∃ vm', VM.Run tableParams 1
        (machine [] [tableParams.byte .OpAdd] (-1) [.Integer 10 5, True] 20) =
        .returned (some "unsupported types for binary operation: INTEGER BOOLEAN") vm' ∧
      vm'.sp = 0 := by
  obtain ⟨vm', hrun, hsp, _⟩ := C2_unsupported_types tableParams
    (machine [] [tableParams.byte .OpAdd] (-1) [.Integer 10 5, True] 20) .OpAdd
    (.Integer 10 5) True INTEGER_OBJ BOOLEAN_OBJ 0
    (by simp) (by simp [machine_nextByte, index])
    (machine_index _ _ _ _ _ 0 (by simp)) (machine_index _ _ _ _ _ 1 (by simp))
    rfl rfl (by decide) (by decide)
  exact ⟨vm', hrun, by simpa using hsp⟩

/-- C3: with Integer `a` below Integer `b` on top of the stack, one cycle on OpEqual,
OpNotEqual or OpGreaterThan returns no error, pops both and leaves in the slot of the left
operand the canonical Boolean of `a = b`, `a ≠ b` or `a > b`. -/
theorem C3_integer_comparison (P : Params) (vm : VM) (op : Opcode) (a b : Int) (ka kb : Nat)
    (hop : op = .OpEqual ∨ op = .OpNotEqual ∨ op = .OpGreaterThan)
    (hb : vm.nextByte = some (P.byte op))
    (hlen : vm.stack.length = StackSize)
    (hl : index vm.stack (vm.sp - 2) = some (.Integer ka a))
    (hr : index vm.stack (vm.sp - 1) = some (.Integer kb b)) :
    ∃ vm', vm.cycle P = some (none, vm') ∧ vm'.sp = vm.sp - 1 ∧
      (op = .OpEqual → index vm'.stack (vm.sp - 2) = some (if a = b then True else False)) ∧
      (op = .OpNotEqual → index vm'.stack (vm.sp - 2) = some (if a ≠ b then True else False)) ∧
      (op = .OpGreaterThan → index vm'.stack (vm.sp - 2) = some (if a > b then True else False)) ∧
      (∀ i : Int, i < vm.sp - 2 → index vm'.stack i = index vm.stack i) := by
  obtain ⟨fn, ip, hv, hfr, _, hbyte⟩ := as_conf hb
  have h1 := index_eq_some hl
  have hn : vm.sp = ((vm.sp - 2).toNat : Int) + 2 := by omega
  have hc := cycle_compare_int P vm fn ip (ip + 1) vm.stack vm.sp (vm.sp - 1) vm.globals vm.heap
    (vm.sp - 2).toNat op a b ka kb hfr hbyte hop hn hlen
    (by rw [Int.toNat_of_nonneg h1.1]; exact hl)
    (by rw [Int.toNat_of_nonneg h1.1, show vm.sp - 2 + 1 = vm.sp - 1 by ring]; exact hr)
    rfl rfl
  rw [← hv] at hc
  have hres : ∀ o : Object,
      index (vm.stack.set (vm.sp - 2).toNat o) (vm.sp - 2) = some o :=
    fun o => index_set_same o h1.1 h1.2.1
  refine ⟨_, hc, rfl, ?_, ?_, ?_, ?_⟩
  · intro e; subst e
    show index (vm.stack.set _ _) _ = _
    rw [hres]
    by_cases hab : a = b <;> simp [compared, nativeBoolToBooleanObject, hab]
  · intro e; subst e
    show index (vm.stack.set _ _) _ = _
    rw [hres]
    by_cases hab : a = b <;> simp [compared, nativeBoolToBooleanObject, hab]
  · intro e; subst e
    show index (vm.stack.set _ _) _ = _
    rw [hres]
    by_cases hab : b < a <;> simp [compared, nativeBoolToBooleanObject, hab]
  · intro i hi
    show index (vm.stack.set _ _) _ = _
    exact index_set_other _ h1.1 (by omega)

/-- C3, a witness: `OpGreaterThan` on Integer 2 (left) and Integer 1 (right) gives True. -/
theorem C3_witness :
    ∃ vm', (machine [] [tableParams.byte .OpGreaterThan] (-1) [.Integer 10 2, .Integer 11 1]
        20).cycle tableParams = some (none, vm') ∧ vm'.sp = 1 ∧
      index vm'.stack 0 = some True := by
  obtain ⟨vm', hc, hsp, _, _, hgt, _⟩ := C3_integer_comparison tableParams
    (machine [] [tableParams.byte .OpGreaterThan] (-1) [.Integer 10 2, .Integer 11 1] 20)
    .OpGreaterThan 2 1 10 11
    (by simp) (by simp [machine_nextByte, index])
    (machine_length _ _ _ _ _ (by simp [StackSize]))
    (machine_index _ _ _ _ _ 0 (by simp)) (machine_index _ _ _ _ _ 1 (by simp))
  exact ⟨vm', hc, by simpa using hsp, by simpa using hgt rfl⟩

/-- C8: with any value `x` on top of the stack, one cycle on OpBang returns no error,
leaves `sp` as it was, and replaces `x` by the canonical True when `x` is the canonical
False or the canonical Null and by the canonical False otherwise (so for the canonical
True and for every Integer); the slots below are unchanged. -/
theorem C8_bang (P : Params) (vm : VM) (x : Object)
    (hb : vm.nextByte = some (P.byte .OpBang))
    (hlen : vm.stack.length = StackSize)
    (hx : index vm.stack (vm.sp - 1) = some x) :
    ∃ vm', vm.cycle P = some (none, vm') ∧ vm'.sp = vm.sp ∧
      index vm'.stack (vm.sp - 1) =
        some (if x.same False || x.same Null then True else False) ∧
      (∀ i : Int, i < vm.sp - 1 → index vm'.stack i = index vm.stack i) ∧
      (x.same True = true → index vm'.stack (vm.sp - 1) = some False) ∧
      (∀ k v, x = .Integer k v → index vm'.stack (vm.sp - 1) = some False) := by
  obtain ⟨fn, ip, hv, hfr, _, hbyte⟩ := as_conf hb
  have h1 := index_eq_some hx
  have hn : vm.sp = ((vm.sp - 1).toNat : Int) + 1 := by omega
  have hc := cycle_OpBang P vm fn ip (ip + 1) vm.stack vm.sp vm.globals vm.heap
    (vm.sp - 1).toNat x hfr hbyte hn hlen (by rw [Int.toNat_of_nonneg h1.1]; exact hx) rfl
  rw [← hv] at hc
  have hres : ∀ o : Object,
      index (vm.stack.set (vm.sp - 1).toNat o) (vm.sp - 1) = some o :=
    fun o => index_set_same o h1.1 h1.2.1
  refine ⟨_, hc, rfl, hres _, ?_, ?_, ?_⟩
  · intro i hi
    show index (vm.stack.set _ _) _ = _
    exact index_set_other _ h1.1 (by omega)
  · intro ht
    show index (vm.stack.set _ _) _ = _
    rw [hres]
    have := (same_canonical x).1 ht
    simp [this.1, this.2]
  · intro k v e
    subst e
    show index (vm.stack.set _ _) _ = _
    rw [hres]
    rfl

/-- C8, a witness: `OpBang` on the canonical Null gives the canonical True. -/
theorem C8_witness :
    ∃ vm', (machine [] [tableParams.byte .OpBang] (-1) [Null] 20).cycle tableParams
        = some (none, vm') ∧ vm'.sp = 1 ∧ index vm'.stack 0 = some True := by
  obtain ⟨vm', hc, hsp, hres, _⟩ := C8_bang tableParams
    (machine [] [tableParams.byte .OpBang] (-1) [Null] 20) Null
    (by simp [machine_nextByte, index])
    (machine_length _ _ _ _ _ (by simp [StackSize]))
    (machine_index _ _ _ _ _ 0 (by simp))
  exact ⟨vm', hc, by simpa using hsp, by simpa using hres⟩

theorem New_currentFrame (bc : Bytecode) (heap : Nat) :
    (New bc heap).currentFrame =
      some ⟨⟨heap, bc.Instructions, 0, 0⟩, -1⟩ := by
  have h := @index_set_same _ (List.replicate MaxFrame (none : Option Frame)) 0
    (some (⟨⟨heap, bc.Instructions, 0, 0⟩, -1⟩ : Frame)) (le_refl _)
    (by rw [List.length_replicate]; decide)
  have e : (New bc heap).frameIndex - 1 = 0 := rfl
  have h2 : index (New bc heap).frames 0 =
      some (some (⟨⟨heap, bc.Instructions, 0, 0⟩, -1⟩ : Frame)) := h
  unfold VM.currentFrame
  rw [e, h2]
  rfl

/-- The fresh machine, written as a configuration. -/
theorem New_conf (bc : Bytecode) (heap : Nat) :
    New bc heap = conf (New bc heap) ⟨⟨heap, bc.Instructions, 0, 0⟩, -1⟩
      (List.replicate StackSize Object.nil) 0 (List.replicate GlobalsSize Object.nil)
      (heap + 1) :=
  eq_conf (New_currentFrame bc heap)

theorem New_framed (bc : Bytecode) (heap : Nat) : (New bc heap).framed :=
  framed_of_currentFrame (New_currentFrame bc heap)

theorem run_constantPop (P : Params) (b : VM) (fn : CompiledFunction) (st gs : List Object)
    (h fuel k : Nat) (c : Object) (hb : b.framed) (hins : fn.Instructions = constantPop P k)
    (hk : k < 65536) (hc : index b.constants k = some c) (hlen : st.length = StackSize) :
    VM.Run P (fuel + 3) (conf b ⟨fn, -1⟩ st 0 gs h) =
      .returned none (conf b ⟨fn, 3⟩ (st.set 0 c) 0 gs h) := by
  have hk2 : readOperand fn.Instructions (-1 + 1) = some k := by
    have := readOperand_eq (constantPop P k) 0 (k / 256 % 256) (k % 256) rfl rfl
    rw [hins]
    show readOperand (constantPop P k) 0 = some k
    rw [this]
    congr 1
    omega
  rw [Run_continue P (fuel + 2) (cycle_OpConstant P b fn (-1) 2 st 0 1 gs h 0 k c hb
      (by rw [hins]; rfl) hk2 hc rfl (by decide) hlen rfl rfl),
    Run_continue P (fuel + 1) (cycle_OpPop P b fn 2 3 (st.set 0 c) 1 0 gs h c hb
      (by rw [hins]; rfl) (by simp [index, hlen, StackSize]) rfl rfl),
    Run_halt P hb fn 3 _ 0 gs h fuel (by rw [hins]; rfl)]

theorem readOperand_make (ins : List Nat) (ip : Int) (k : Nat) (hk : k < 65536)
    (h1 : index ins (ip + 1) = some (k / 256 % 256)) (h2 : index ins (ip + 2) = some (k % 256)) :
    readOperand ins ip = some k := by
  rw [readOperand_eq ins ip _ _ h1 h2]
  congr 1
  omega

/-- C10: on a machine with `0 ≤ sp < StackSize`, `push v` followed by `pop` returns `v`
and restores `sp`, and `LastPoppedStackElem` then returns `v`; and running
`OpConstant k; OpPop` on a fresh machine ends normally with `sp = 0` and
`LastPoppedStackElem` equal to `constants[k]`. -/
theorem C10_last_popped (P : Params) (vm : VM) (v : Object) (bc : Bytecode) (heap k fuel : Nat)
    (c : Object)
    (h0 : 0 ≤ vm.sp) (h1 : vm.sp < StackSize) (hlen : vm.stack.length = StackSize)
    (hins : bc.Instructions = constantPop P k) (hk : k < 65536)
    (hc : index bc.Constants k = some c) :
    (∃ vm1 vm2, vm.push v = some (none, vm1) ∧ vm1.pop = some (v, vm2) ∧ vm2.sp = vm.sp ∧
      vm2.LastPoppedStackElem = some v) ∧
    (∃ vm', VM.Run P (fuel + 3) (New bc heap) = .returned none vm' ∧ vm'.sp = 0 ∧
      vm'.LastPoppedStackElem = some c) := by
  constructor
  · have hl : vm.sp < (vm.stack.length : Int) := by omega
    have hi : index (vm.stack.set vm.sp.toNat v) vm.sp = some v := index_set_same v h0 hl
    have hp := @pop_eq { vm with stack := vm.stack.set vm.sp.toNat v, sp := vm.sp + 1 } v
      (by show index (vm.stack.set vm.sp.toNat v) (vm.sp + 1 - 1) = some v
          rw [show vm.sp + 1 - 1 = vm.sp by ring]; exact hi)
    refine ⟨{ vm with stack := vm.stack.set vm.sp.toNat v, sp := vm.sp + 1 },
      { vm with stack := vm.stack.set vm.sp.toNat v, sp := vm.sp + 1 - 1 },
      push_eq vm v h0 h1 hl, hp, ?_, ?_⟩
    · show vm.sp + 1 - 1 = vm.sp
      ring
    · show index (vm.stack.set vm.sp.toNat v) (vm.sp + 1 - 1) = some v
      rw [show vm.sp + 1 - 1 = vm.sp by ring]; exact hi
  · rw [New_conf, run_constantPop P (New bc heap) _ _ _ _ fuel k c (New_framed bc heap) hins hk hc
      (by simp)]
    refine ⟨_, rfl, rfl, ?_⟩
    show index ((List.replicate StackSize Object.nil).set 0 c) 0 = some c
    exact @index_set_same _ (List.replicate StackSize Object.nil) 0 c (le_refl _)
      (by rw [List.length_replicate]; decide)

/-- C10, a witness: a fresh machine, `push` and `pop` of Integer 7, and the program
`OpConstant 0; OpPop` over the constants `[Integer 7]`. -/
theorem C10_witness :
    (∃ vm1 vm2, (New ⟨constantPop tableParams 0, [.Integer 10 7]⟩ 20).push (.Integer 10 7)
        = some (none, vm1) ∧ vm1.pop = some (.Integer 10 7, vm2) ∧ vm2.sp = 0 ∧
      vm2.LastPoppedStackElem = some (.Integer 10 7)) ∧
    (∃ vm', VM.Run tableParams 3 (New ⟨constantPop tableParams 0, [.Integer 10 7]⟩ 20)
        = .returned none vm' ∧ vm'.sp = 0 ∧
      vm'.LastPoppedStackElem = some (.Integer 10 7)) :=
  C10_last_popped tableParams (New ⟨constantPop tableParams 0, [.Integer 10 7]⟩ 20)
    (.Integer 10 7) ⟨constantPop tableParams 0, [.Integer 10 7]⟩ 20 0 0 (.Integer 10 7)
    (le_refl _) (by decide) (by show (List.replicate StackSize Object.nil).length = StackSize
                                rw [List.length_replicate])
    rfl (by decide) rfl

theorem run_lessThan (P : Params) (b : VM) (fn : CompiledFunction) (st gs : List Object)
    (h fuel : Nat) (x y : Int) (kx ky : Nat) (hb : b.framed)
    (hins : fn.Instructions = lessThan P)
    (hcs : b.constants = [.Integer kx x, .Integer ky y]) (hlen : st.length = StackSize) :
    VM.Run P (fuel + 5) (conf b ⟨fn, -1⟩ st 0 gs h) =
      .returned none (conf b ⟨fn, 7⟩
        (((st.set 0 (.Integer kx x)).set 1 (.Integer ky y)).set 0
          (nativeBoolToBooleanObject (compared .OpGreaterThan x y))) 0 gs h) := by
  rw [Run_continue P (fuel + 4) (cycle_OpConstant P b fn (-1) 2 st 0 1 gs h 0 0 (.Integer kx x) hb
      (by rw [hins]; rfl) (by rw [hins]; rfl) (by rw [hcs]; rfl) rfl (by decide) hlen
      (by decide) (by decide)),
    Run_continue P (fuel + 3) (cycle_OpConstant P b fn 2 5 _ 1 2 gs h 1 1 (.Integer ky y) hb
      (by rw [hins]; rfl) (by rw [hins]; rfl) (by rw [hcs]; rfl) rfl (by decide)
      (by simp [hlen]) (by decide) (by decide)),
    Run_continue P (fuel + 2) (cycle_compare_int P b fn 5 6 _ 2 1 gs h 0 .OpGreaterThan x y kx ky
      hb (by rw [hins]; rfl) (by simp) rfl (by simp [hlen])
      (by simp [index, hlen, StackSize]) (by simp [index, hlen, StackSize])
      (by decide) (by decide)),
    Run_continue P (fuel + 1) (cycle_OpPop P b fn 6 7 _ 1 0 gs h
      (nativeBoolToBooleanObject (compared .OpGreaterThan x y)) hb
      (by rw [hins]; rfl) (by simp [index, hlen, StackSize]) (by decide) (by decide)),
    Run_halt P hb fn 7 _ 0 gs h fuel (by rw [hins]; rfl)]

/-- C4: for all integers `a` and `b`, running the bytecode for `a < b` (constants
`[b, a]`, instructions `OpConstant 0; OpConstant 1; OpGreaterThan; OpPop`) on a fresh
machine ends normally with `sp = 0` and `LastPoppedStackElem` equal to True when `a < b`
and to False otherwise. -/
theorem C4_less_than (P : Params) (a b : Int) (ka kb heap fuel : Nat) :
    ∃ vm', VM.Run P (fuel + 5) (New ⟨lessThan P, [.Integer kb b, .Integer ka a]⟩ heap)
        = .returned none vm' ∧ vm'.sp = 0 ∧
      vm'.LastPoppedStackElem = some (if a < b then True else False) := by
  have hlen : (List.replicate StackSize Object.nil).length = StackSize := List.length_replicate _ _
  rw [New_conf, run_lessThan P (New ⟨lessThan P, [.Integer kb b, .Integer ka a]⟩ heap)
    _ _ _ _ fuel b a kb ka (New_framed _ heap) rfl rfl hlen]
  refine ⟨_, rfl, rfl, ?_⟩
  have := @index_set_same _ (((List.replicate StackSize Object.nil).set 0 (.Integer kb b)).set 1
    (.Integer ka a)) 0 (nativeBoolToBooleanObject (compared .OpGreaterThan b a)) (le_refl _)
    (by rw [List.length_set, List.length_set, hlen]; decide)
  have e : (conf (New ⟨lessThan P, [.Integer kb b, .Integer ka a]⟩ heap)
      ⟨⟨heap, lessThan P, 0, 0⟩, 7⟩
      ((((List.replicate StackSize Object.nil).set 0 (.Integer kb b)).set 1 (.Integer ka a)).set 0
        (nativeBoolToBooleanObject (compared .OpGreaterThan b a))) 0
      (List.replicate GlobalsSize Object.nil) (heap + 1)).LastPoppedStackElem
      = some (nativeBoolToBooleanObject (compared .OpGreaterThan b a)) := this
  rw [e]
  by_cases hab : a < b <;> simp [compared, nativeBoolToBooleanObject, hab]

theorem fetched_continue (P : Params) {b : VM} (hb : b.framed) (fn : CompiledFunction)
    (ip : Int) (st : List Object) (sp : Int) (gs : List Object) (h : Nat) (fuel : Nat)
    {vm' : VM} (hc : (conf b ⟨fn, ip⟩ st sp gs h).cycle P = some (none, vm')) :
    VM.fetched P (fuel + 1) (conf b ⟨fn, ip⟩ st sp gs h) = (ip + 1) :: VM.fetched P fuel vm' := by
  simp [VM.fetched, running_of_cycle P hc, conf_currentFrame hb, hc]

theorem fetched_halt (P : Params) {b : VM} (hb : b.framed) (fn : CompiledFunction) (ip : Int)
    (st : List Object) (sp : Int) (gs : List Object) (h : Nat) (fuel : Nat)
    (hip : ip = (fn.Instructions.length : Int) - 1) :
    VM.fetched P (fuel + 1) (conf b ⟨fn, ip⟩ st sp gs h) = [] := by
  have : (conf b ⟨fn, ip⟩ st sp gs h).running = some false := by
    simp [VM.running, conf_currentFrame hb, Frame.Instructions, hip]
  simp [VM.fetched, this]

theorem isTruthy_pushed (op : Opcode) (h : op = .OpFalse ∨ op = .OpNull) :
    isTruthy (pushed op) = false := by
  rcases h with e | e <;> subst e <;> rfl

/-- The run of either layout when the condition is `OpTrue`; `t` is the target of the
`OpJump`, the offset of the final `OpPop`. -/
theorem run_if_truthy (P : Params) (b : VM) (fn : CompiledFunction) (st gs : List Object)
    (h fuel : Nat) (c0 : Object) (t : Nat) (hb : b.framed)
    (i0 : index fn.Instructions 0 = some (P.byte .OpTrue))
    (i1 : index fn.Instructions 1 = some (P.byte .OpJumpNotTruthy))
    (r1 : readOperand fn.Instructions 1 = some 10)
    (i4 : index fn.Instructions 4 = some (P.byte .OpConstant))
    (r4 : readOperand fn.Instructions 4 = some 0)
    (i7 : index fn.Instructions 7 = some (P.byte .OpJump))
    (r7 : readOperand fn.Instructions 7 = some t)
    (it : index fn.Instructions t = some (P.byte .OpPop))
    (hl : (t : Int) = (fn.Instructions.length : Int) - 1)
    (hc0 : index b.constants 0 = some c0) (hlen : st.length = StackSize) :
    VM.Run P (fuel + 6) (conf b ⟨fn, -1⟩ st 0 gs h) =
      .returned none (conf b ⟨fn, t⟩ ((st.set 0 True).set 0 c0) 0 gs h) ∧
    VM.fetched P (fuel + 6) (conf b ⟨fn, -1⟩ st 0 gs h) = [0, 1, 4, 7, t] := by
  have e0 : (-1 : Int) + 1 = 0 := by decide
  have e1 : (0 : Int) + 1 = 1 := by decide
  have e4 : (3 : Int) + 1 = 4 := by decide
  have e7 : (6 : Int) + 1 = 7 := by decide
  have s1 := cycle_pushed P b fn (-1) 0 st 0 1 gs h 0 .OpTrue hb (by rw [e0]; exact i0) (by simp)
    rfl (by decide) hlen (by decide) (by decide)
  have s2 := cycle_OpJumpNotTruthy P b fn 0 3 (st.set 0 (pushed .OpTrue)) 1 0 gs h 10
    (pushed .OpTrue) hb (by rw [e1]; exact i1) (by rw [e1]; exact r1)
    (by simp [index, hlen, StackSize]) (by decide) (by decide)
  have s3 := cycle_OpConstant P b fn 3 6 (st.set 0 (pushed .OpTrue)) 0 1 gs h 0 0 c0 hb
    (by rw [e4]; exact i4) (by rw [e4]; exact r4) hc0
    rfl (by decide) (by simp [hlen]) (by decide) (by decide)
  have s4 := cycle_OpJump P b fn 6 ((t : Int) - 1) ((st.set 0 (pushed .OpTrue)).set 0 c0) 1 gs h t
    hb (by rw [e7]; exact i7) (by rw [e7]; exact r7) rfl
  have s5 := cycle_OpPop P b fn ((t : Int) - 1) t ((st.set 0 (pushed .OpTrue)).set 0 c0) 1 0 gs h
    c0 hb (by rw [show (t : Int) - 1 + 1 = t by ring]; exact it)
    (by simp [index, hlen, StackSize]) (by ring) (by decide)
  constructor
  · rw [Run_continue P (fuel + 5) s1, Run_continue P (fuel + 4) s2, Run_continue P (fuel + 3) s3,
      Run_continue P (fuel + 2) s4, Run_continue P (fuel + 1) s5, Run_halt P hb fn t _ 0 gs h fuel hl]
    rfl
  · rw [fetched_continue P hb fn _ _ _ _ _ (fuel + 5) s1,
      fetched_continue P hb fn _ _ _ _ _ (fuel + 4) s2,
      fetched_continue P hb fn _ _ _ _ _ (fuel + 3) s3,
      fetched_continue P hb fn _ _ _ _ _ (fuel + 2) s4,
      fetched_continue P hb fn _ _ _ _ _ (fuel + 1) s5,
      fetched_halt P hb fn t _ 0 gs h fuel hl]
    simp

/-- The run of the if/else layout when the condition is `OpFalse` or `OpNull`. -/
theorem run_ifElse_falsy (P : Params) (b : VM) (fn : CompiledFunction) (st gs : List Object)
    (h fuel : Nat) (c1 : Object) (op : Opcode) (hb : b.framed)
    (hop : op = .OpFalse ∨ op = .OpNull)
    (hins : fn.Instructions = ifElse P op)
    (hc1 : index b.constants 1 = some c1) (hlen : st.length = StackSize) :
    VM.Run P (fuel + 6) (conf b ⟨fn, -1⟩ st 0 gs h) =
      .returned none (conf b ⟨fn, 13⟩ ((st.set 0 (pushed op)).set 0 c1) 0 gs h) ∧
    VM.fetched P (fuel + 6) (conf b ⟨fn, -1⟩ st 0 gs h) = [0, 1, 10, 13] := by
  have hf := isTruthy_pushed op hop
  have s1 := cycle_pushed P b fn (-1) 0 st 0 1 gs h 0 op hb (by rw [hins]; rfl)
    (by rcases hop with e | e <;> simp [e]) rfl (by decide) hlen (by decide) (by decide)
  have s2 := cycle_OpJumpNotTruthy P b fn 0 9 (st.set 0 (pushed op)) 1 0 gs h 10
    (pushed op) hb (by rw [hins]; rfl) (by rw [hins]; rfl)
    (by simp [index, hlen, StackSize]) (by rw [hf]; decide) (by decide)
  have s3 := cycle_OpConstant P b fn 9 12 (st.set 0 (pushed op)) 0 1 gs h 0 1 c1 hb
    (by rw [hins]; rfl) (by rw [hins]; rfl) hc1
    rfl (by decide) (by simp [hlen]) (by decide) (by decide)
  have s4 := cycle_OpPop P b fn 12 13 ((st.set 0 (pushed op)).set 0 c1) 1 0 gs h
    c1 hb (by rw [hins]; rfl) (by simp [index, hlen, StackSize]) (by decide) (by decide)
  have hl : (13 : Int) = (fn.Instructions.length : Int) - 1 := by rw [hins]; rfl
  constructor
  · rw [Run_continue P (fuel + 5) s1, Run_continue P (fuel + 4) s2, Run_continue P (fuel + 3) s3,
      Run_continue P (fuel + 2) s4, Run_halt P hb fn 13 _ 0 gs h (fuel + 1) hl]
  · rw [fetched_continue P hb fn _ _ _ _ _ (fuel + 5) s1,
      fetched_continue P hb fn _ _ _ _ _ (fuel + 4) s2,
      fetched_continue P hb fn _ _ _ _ _ (fuel + 3) s3,
      fetched_continue P hb fn _ _ _ _ _ (fuel + 2) s4,
      fetched_halt P hb fn 13 _ 0 gs h (fuel + 1) hl]
    simp

/-- The run of the layout without else when the condition is `OpFalse` or `OpNull`. -/
theorem run_ifOnly_falsy (P : Params) (b : VM) (fn : CompiledFunction) (st gs : List Object)
    (h fuel : Nat) (op : Opcode) (hb : b.framed)
    (hop : op = .OpFalse ∨ op = .OpNull)
    (hins : fn.Instructions = ifOnly P op) (hlen : st.length = StackSize) :
    VM.Run P (fuel + 6) (conf b ⟨fn, -1⟩ st 0 gs h) =
      .returned none (conf b ⟨fn, 11⟩ ((st.set 0 (pushed op)).set 0 Null) 0 gs h) ∧
    VM.fetched P (fuel + 6) (conf b ⟨fn, -1⟩ st 0 gs h) = [0, 1, 10, 11] := by
  have hf := isTruthy_pushed op hop
  have s1 := cycle_pushed P b fn (-1) 0 st 0 1 gs h 0 op hb (by rw [hins]; rfl)
    (by rcases hop with e | e <;> simp [e]) rfl (by decide) hlen (by decide) (by decide)
  have s2 := cycle_OpJumpNotTruthy P b fn 0 9 (st.set 0 (pushed op)) 1 0 gs h 10
    (pushed op) hb (by rw [hins]; rfl) (by rw [hins]; rfl)
    (by simp [index, hlen, StackSize]) (by rw [hf]; decide) (by decide)
  have s3 := cycle_pushed P b fn 9 10 (st.set 0 (pushed op)) 0 1 gs h 0 .OpNull hb
    (by rw [hins]; rfl) (by simp) rfl (by decide) (by simp [hlen]) (by decide) (by decide)
  have s4 := cycle_OpPop P b fn 10 11 ((st.set 0 (pushed op)).set 0 (pushed .OpNull)) 1 0 gs h
    Null hb (by rw [hins]; rfl) (by simp [index, hlen, StackSize, pushed]) (by decide)
    (by decide)
  have hl : (11 : Int) = (fn.Instructions.length : Int) - 1 := by rw [hins]; rfl
  constructor
  · rw [Run_continue P (fuel + 5) s1, Run_continue P (fuel + 4) s2, Run_continue P (fuel + 3) s3,
      Run_continue P (fuel + 2) s4, Run_halt P hb fn 11 _ 0 gs h (fuel + 1) hl]
    rfl
  · rw [fetched_continue P hb fn _ _ _ _ _ (fuel + 5) s1,
      fetched_continue P hb fn _ _ _ _ _ (fuel + 4) s2,
      fetched_continue P hb fn _ _ _ _ _ (fuel + 3) s3,
      fetched_continue P hb fn _ _ _ _ _ (fuel + 2) s4,
      fetched_halt P hb fn 11 _ 0 gs h (fuel + 1) hl]
    simp

theorem New_last (bc : Bytecode) (heap : Nat) (fn : CompiledFunction) (ip : Int) (x c : Object)
    (gs : List Object) (h : Nat) :
    (conf (New bc heap) ⟨fn, ip⟩ (((List.replicate StackSize Object.nil).set 0 x).set 0 c) 0
      gs h).LastPoppedStackElem = some c :=
  @index_set_same _ ((List.replicate StackSize Object.nil).set 0 x) 0 c (le_refl _)
    (by rw [List.length_set, List.length_replicate]; decide)

/-- C5: for constants with `constants[0] = c0` and `constants[1] = c1` and a condition
instruction among OpTrue, OpFalse and OpNull, the run of the if/else layout of
`TestConditionals` on a fresh machine ends normally with `sp = 0` and last popped value
`c0` when the condition value is truthy and `c1` otherwise; the layout without else gives
`c0` or Null.  The offsets of the fetched opcodes show that exactly one branch runs:
offset 4 (the consequence) in the truthy run, offset 10 (the alternative) otherwise. -/
theorem C5_conditionals (P : Params) (cs : List Object) (c0 c1 : Object) (cond : Opcode)
    (heap fuel : Nat)
    (h0 : index cs 0 = some c0) (h1 : index cs 1 = some c1)
    (hcond : cond = .OpTrue ∨ cond = .OpFalse ∨ cond = .OpNull) :
    (∃ vm', VM.Run P (fuel + 6) (New ⟨ifElse P cond, cs⟩ heap) = .returned none vm' ∧
      vm'.sp = 0 ∧
      vm'.LastPoppedStackElem = some (if isTruthy (pushed cond) then c0 else c1) ∧
      VM.fetched P (fuel + 6) (New ⟨ifElse P cond, cs⟩ heap) =
        (if isTruthy (pushed cond) then [0, 1, 4, 7, 13] else [0, 1, 10, 13])) ∧
    (∃ vm', VM.Run P (fuel + 6) (New ⟨ifOnly P cond, cs⟩ heap) = .returned none vm' ∧
      vm'.sp = 0 ∧
      vm'.LastPoppedStackElem = some (if isTruthy (pushed cond) then c0 else Null) ∧
      VM.fetched P (fuel + 6) (New ⟨ifOnly P cond, cs⟩ heap) =
        (if isTruthy (pushed cond) then [0, 1, 4, 7, 11] else [0, 1, 10, 11])) ∧
    (isTruthy (pushed cond) = true ↔ cond = .OpTrue) := by
  have hlen : (List.replicate StackSize Object.nil).length = StackSize := List.length_replicate _ _
  rcases hcond with e | hfalsy
  · subst e
    have ht : isTruthy (pushed .OpTrue) = true := rfl
    refine ⟨?_, ?_, by simp [ht]⟩
    · have hr := run_if_truthy P (New ⟨ifElse P .OpTrue, cs⟩ heap)
        ⟨heap, ifElse P .OpTrue, 0, 0⟩ (List.replicate StackSize Object.nil)
        (List.replicate GlobalsSize Object.nil) (heap + 1) fuel c0 13 (New_framed _ heap)
        rfl rfl rfl rfl rfl rfl rfl rfl rfl h0 hlen
      rw [← New_conf ⟨ifElse P .OpTrue, cs⟩ heap] at hr
      rw [hr.1, hr.2, ht]
      exact ⟨_, rfl, rfl, New_last _ _ _ _ _ _ _ _, rfl⟩
    · have hr := run_if_truthy P (New ⟨ifOnly P .OpTrue, cs⟩ heap)
        ⟨heap, ifOnly P .OpTrue, 0, 0⟩ (List.replicate StackSize Object.nil)
        (List.replicate GlobalsSize Object.nil) (heap + 1) fuel c0 11 (New_framed _ heap)
        rfl rfl rfl rfl rfl rfl rfl rfl rfl h0 hlen
      rw [← New_conf ⟨ifOnly P .OpTrue, cs⟩ heap] at hr
      rw [hr.1, hr.2, ht]
      exact ⟨_, rfl, rfl, New_last _ _ _ _ _ _ _ _, rfl⟩
  · have hf := isTruthy_pushed cond hfalsy
    refine ⟨?_, ?_, ?_⟩
    · have hr := run_ifElse_falsy P (New ⟨ifElse P cond, cs⟩ heap)
        ⟨heap, ifElse P cond, 0, 0⟩ (List.replicate StackSize Object.nil)
        (List.replicate GlobalsSize Object.nil) (heap + 1) fuel c1 cond (New_framed _ heap)
        hfalsy rfl h1 hlen
      rw [← New_conf ⟨ifElse P cond, cs⟩ heap] at hr
      rw [hr.1, hr.2, hf]
      exact ⟨_, rfl, rfl, New_last _ _ _ _ _ _ _ _, rfl⟩
    · have hr := run_ifOnly_falsy P (New ⟨ifOnly P cond, cs⟩ heap)
        ⟨heap, ifOnly P cond, 0, 0⟩ (List.replicate StackSize Object.nil)
        (List.replicate GlobalsSize Object.nil) (heap + 1) fuel cond (New_framed _ heap)
        hfalsy rfl hlen
      rw [← New_conf ⟨ifOnly P cond, cs⟩ heap] at hr
      rw [hr.1, hr.2, hf]
      exact ⟨_, rfl, rfl, New_last _ _ _ _ _ _ _ _, rfl⟩
    · rw [hf]
      rcases hfalsy with e | e <;> simp [e]

/-- C5, a witness: the constants `[Integer 10, Integer 20]` and the condition `OpFalse`. -/
theorem C5_witness :
    ∃ vm', VM.Run tableParams 6
        (New ⟨ifElse tableParams .OpFalse, [.Integer 10 10, .Integer 11 20]⟩ 30)
        = .returned none vm' ∧ vm'.sp = 0 ∧
      vm'.LastPoppedStackElem = some (.Integer 11 20) ∧
      VM.fetched tableParams 6
        (New ⟨ifElse tableParams .OpFalse, [.Integer 10 10, .Integer 11 20]⟩ 30)
        = [0, 1, 10, 13] :=
  (C5_conditionals tableParams [.Integer 10 10, .Integer 11 20] (.Integer 10 10)
    (.Integer 11 20) .OpFalse 30 0 rfl rfl (by simp)).1

theorem keeps_refl (vm : VM) : vm.keeps vm := ⟨rfl, rfl⟩

theorem keeps_trans {a b c : VM} (h1 : a.keeps b) (h2 : b.keeps c) : a.keeps c :=
  ⟨h2.1.trans h1.1, h2.2.trans h1.2⟩

theorem push_keeps {vm : VM} {o : Object} {r : error × VM} (h : vm.push o = some r) :
    vm.keeps r.2 := by
  unfold VM.push at h
  split at h
  · cases h; exact keeps_refl vm
  · cases ha : assign vm.stack vm.sp o with
    | none => simp [ha] at h
    | some s => simp [ha] at h; subst h; exact ⟨rfl, rfl⟩

theorem pop_keeps {vm : VM} {r : Object × VM} (h : vm.pop = some r) : vm.keeps r.2 := by
  unfold VM.pop at h
  cases ha : index vm.stack (vm.sp - 1) with
  | none => simp [ha] at h
  | some s => simp [ha] at h; subst h; exact ⟨rfl, rfl⟩

theorem setIp_keeps {vm vm' : VM} {ip : Int} (h : vm.setIp ip = some vm') : vm.keeps vm' := by
  unfold VM.setIp at h
  cases hf : vm.currentFrame with
  | none => simp [hf] at h
  | some f =>
    cases ha : assign vm.frames (vm.frameIndex - 1) (some { f with ip := ip }) with
    | none => simp [hf, ha] at h
    | some s => simp [hf, ha] at h; subst h; exact ⟨rfl, rfl⟩

theorem addIp_keeps {vm vm' : VM} {d : Int} (h : vm.addIp d = some vm') : vm.keeps vm' := by
  unfold VM.addIp at h
  cases hf : vm.currentFrame with
  | none => simp [hf] at h
  | some f => simp [hf] at h; exact setIp_keeps h

theorem pushFrame_keeps {vm vm' : VM} {f : Frame} (h : vm.pushFrame f = some vm') :
    vm.keeps vm' := by
  unfold VM.pushFrame at h
  cases ha : assign vm.frames vm.frameIndex (some f) with
  | none => simp [ha] at h
  | some s => simp [ha] at h; subst h; exact ⟨rfl, rfl⟩

theorem popFrame_keeps {vm vm' : VM} (h : vm.popFrame = some vm') : vm.keeps vm' := by
  unfold VM.popFrame at h
  cases ha : index vm.frames (vm.frameIndex - 1) with
  | none => simp [ha] at h
  | some s => simp [ha] at h; subst h; exact ⟨rfl, rfl⟩

theorem heap_push_keeps {vm : VM} {n : Nat} {o : Object} {r : error × VM}
    (h : VM.push { vm with heap := n } o = some r) : vm.keeps r.2 :=
  @push_keeps { vm with heap := n } o r h

theorem executeBinaryIntegerOperation_keeps (P : Params) {vm : VM} {op : Opcode}
    {l r : Object} {res : error × VM}
    (h : vm.executeBinaryIntegerOperation P op l r = some res) : vm.keeps res.2 := by
  unfold VM.executeBinaryIntegerOperation at h
  cases hl : integerValue l with
  | none => simp [hl] at h
  | some a =>
    cases hr : integerValue r with
    | none => simp [hl, hr] at h
    | some b =>
      simp only [hl, hr, Option.bind_eq_bind, Option.some_bind] at h
      split at h
      · exact heap_push_keeps h
      · exact heap_push_keeps h
      · exact heap_push_keeps h
      · split at h
        · cases h
        · exact heap_push_keeps h
      · cases h; exact keeps_refl vm

theorem executeBinaryStringOperation_keeps (P : Params) {vm : VM} {op : Opcode}
    {l r : Object} {res : error × VM}
    (h : vm.executeBinaryStringOperation P op l r = some res) : vm.keeps res.2 := by
  unfold VM.executeBinaryStringOperation at h
  split at h
  · cases h; exact keeps_refl vm
  · cases hl : stringValue l with
    | none => simp [hl] at h
    | some a =>
      cases hr : stringValue r with
      | none => simp [hl, hr] at h
      | some b =>
        simp only [hl, hr, Option.bind_eq_bind, Option.some_bind] at h
        exact heap_push_keeps h

theorem executeBinaryOperation_keeps (P : Params) {vm : VM} {op : Opcode} {res : error × VM}
    (h : vm.executeBinaryOperation P op = some res) : vm.keeps res.2 := by
  unfold VM.executeBinaryOperation at h
  cases h1 : vm.pop with
  | none => simp [h1] at h
  | some p1 =>
    obtain ⟨right, vm1⟩ := p1
    cases h2 : vm1.pop with
    | none => simp [h1, h2] at h
    | some p2 =>
      obtain ⟨left, vm2⟩ := p2
      have k12 := keeps_trans (pop_keeps h1) (pop_keeps h2)
      cases hl : left.typ with
      | none => simp [h1, h2, hl] at h
      | some lt =>
        cases hr : right.typ with
        | none => simp [h1, h2, hl, hr] at h
        | some rt =>
          simp only [h1, h2, hl, hr, Option.bind_eq_bind, Option.some_bind] at h
          split at h
          · exact keeps_trans k12 (executeBinaryIntegerOperation_keeps P h)
          · split at h
            · exact keeps_trans k12 (executeBinaryStringOperation_keeps P h)
            · cases h; exact k12

theorem executeIntegerComparison_keeps (P : Params) {vm : VM} {op : Opcode}
    {l r : Object} {res : error × VM}
    (h : vm.executeIntegerComparison P op l r = some res) : vm.keeps res.2 := by
  unfold VM.executeIntegerComparison at h
  cases hl : integerValue l with
  | none => simp [hl] at h
  | some a =>
    cases hr : integerValue r with
    | none => simp [hl, hr] at h
    | some b =>
      simp only [hl, hr, Option.bind_eq_bind, Option.some_bind] at h
      split at h
      · exact push_keeps h
      · exact push_keeps h
      · exact push_keeps h
      · cases h; exact keeps_refl vm

theorem executeComparison_keeps (P : Params) {vm : VM} {op : Opcode} {res : error × VM}
    (h : vm.executeComparison P op = some res) : vm.keeps res.2 := by
  unfold VM.executeComparison at h
  cases h1 : vm.pop with
  | none => simp [h1] at h
  | some p1 =>
    obtain ⟨right, vm1⟩ := p1
    cases h2 : vm1.pop with
    | none => simp [h1, h2] at h
    | some p2 =>
      obtain ⟨left, vm2⟩ := p2
      have k12 := keeps_trans (pop_keeps h1) (pop_keeps h2)
      cases he : eitherInteger left right with
      | none => simp [h1, h2, he] at h
      | some e =>
        simp only [h1, h2, he, Option.bind_eq_bind, Option.some_bind] at h
        split at h
        · exact keeps_trans k12 (executeIntegerComparison_keeps P h)
        · split at h
          · exact keeps_trans k12 (push_keeps h)
          · exact keeps_trans k12 (push_keeps h)
          · cases hl : left.typ with
            | none => simp [hl] at h
            | some lt =>
              cases hr : right.typ with
              | none => simp [hl, hr] at h
              | some rt =>
                simp only [hl, hr, Option.bind_eq_bind, Option.some_bind] at h
                cases h; exact k12

theorem executeBangOperator_keeps {vm : VM} {res : error × VM}
    (h : vm.executeBangOperator = some res) : vm.keeps res.2 := by
  unfold VM.executeBangOperator at h
  cases h1 : vm.pop with
  | none => simp [h1] at h
  | some p1 =>
    obtain ⟨operand, vm1⟩ := p1
    simp only [h1, Option.bind_eq_bind, Option.some_bind] at h
    have k1 := pop_keeps h1
    split at h
    · exact keeps_trans k1 (push_keeps h)
    · split at h
      · exact keeps_trans k1 (push_keeps h)
      · split at h
        · exact keeps_trans k1 (push_keeps h)
        · exact keeps_trans k1 (push_keeps h)

theorem executeMinusOperator_keeps {vm : VM} {res : error × VM}
    (h : vm.executeMinusOperator = some res) : vm.keeps res.2 := by
  unfold VM.executeMinusOperator at h
  cases h1 : vm.pop with
  | none => simp [h1] at h
  | some p1 =>
    obtain ⟨operand, vm1⟩ := p1
    have k1 := pop_keeps h1
    cases ht : operand.typ with
    | none => simp [h1, ht] at h
    | some t =>
      simp only [h1, ht, Option.bind_eq_bind, Option.some_bind] at h
      split at h
      · cases h; exact k1
      · cases hv : integerValue operand with
        | none => simp [hv] at h
        | some v =>
          simp only [hv, Option.bind_eq_bind, Option.some_bind] at h
          exact keeps_trans k1 (heap_push_keeps h)

theorem buildArray_keeps {vm : VM} {s e : Int} {r : Object × VM}
    (h : vm.buildArray s e = some r) : vm.keeps r.2 := by
  unfold VM.buildArray at h
  split at h
  · cases h
  · cases hr : readStack vm.stack s (e - s).toNat with
    | none => simp [hr] at h
    | some l => simp [hr] at h; subst h; exact ⟨rfl, rfl⟩

theorem buildHash_keeps (P : Params) {vm : VM} {s e : Int} {r : Object × error × VM}
    (h : vm.buildHash P s e = some r) : vm.keeps r.2.2 := by
  unfold VM.buildHash at h
  cases hr : buildHashLoop P vm.stack ((e - s + 1) / 2).toNat s [] with
  | none => simp [hr] at h
  | some p =>
    obtain ⟨err, pairs⟩ := p
    simp only [hr, Option.bind_eq_bind, Option.some_bind] at h
    split at h
    · cases h; exact keeps_refl vm
    · cases h; exact ⟨rfl, rfl⟩

theorem executeArrayIndex_keeps {vm : VM} {a i : Object} {res : error × VM}
    (h : vm.executeArrayIndex a i = some res) : vm.keeps res.2 := by
  unfold VM.executeArrayIndex at h
  split at h
  · cases hv : integerValue i with
    | none => simp [hv] at h
    | some v =>
      simp only [hv, Option.bind_eq_bind, Option.some_bind] at h
      split at h
      · exact push_keeps h
      · rename_i elements _
        cases he : index elements v with
        | none => simp [he] at h
        | some x =>
          simp only [he, Option.bind_eq_bind, Option.some_bind] at h
          exact push_keeps h
  · cases h

theorem executeHashIndex_keeps (P : Params) {vm : VM} {a i : Object} {res : error × VM}
    (h : vm.executeHashIndex P a i = some res) : vm.keeps res.2 := by
  unfold VM.executeHashIndex at h
  split at h
  · split at h
    · cases ht : i.typ with
      | none => simp [ht] at h
      | some t =>
        simp only [ht, Option.bind_eq_bind, Option.some_bind] at h
        cases h; exact keeps_refl vm
    · split at h
      · exact push_keeps h
      · exact push_keeps h
  · cases h

theorem executeIndexExpression_keeps (P : Params) {vm : VM} {l i : Object} {res : error × VM}
    (h : vm.executeIndexExpression P l i = some res) : vm.keeps res.2 := by
  unfold VM.executeIndexExpression at h
  cases hl : l.typ with
  | none => simp [hl] at h
  | some lt =>
    simp only [hl, Option.bind_eq_bind, Option.some_bind] at h
    split at h
    · cases hi : i.typ with
      | none => simp [hi] at h
      | some it =>
        simp only [hi, Option.bind_eq_bind, Option.some_bind] at h
        split at h
        · exact executeArrayIndex_keeps h
        · split at h
          · exact executeHashIndex_keeps P h
          · cases h; exact keeps_refl vm
    · split at h
      · rename_i hc; cases hc
      · split at h
        · exact executeHashIndex_keeps P h
        · cases h; exact keeps_refl vm

/-- Every case of the `switch` other than `OpSetGlobal` leaves the globals and the
constants as they are. -/
theorem dispatch_keeps (P : Params) {vm : VM} {ins : List Nat} {ip : Int} {op : Option Opcode}
    {res : error × VM} (hop : op ≠ some .OpSetGlobal)
    (h : vm.dispatch P ins ip op = some res) : vm.keeps res.2 := by
  unfold VM.dispatch at h
  split at h
  · cases hk : readOperand ins ip with
    | none => simp [hk] at h
    | some k =>
      cases ha : vm.addIp 2 with
      | none => simp [hk, ha] at h
      | some vm1 =>
        cases hc : index vm1.constants k with
        | none => simp [hk, ha, hc] at h
        | some c =>
          simp only [hk, ha, hc, Option.bind_eq_bind, Option.some_bind] at h
          exact keeps_trans (addIp_keeps ha) (push_keeps h)
  · exact executeBinaryOperation_keeps P h
  · exact executeBinaryOperation_keeps P h
  · exact executeBinaryOperation_keeps P h
  · exact executeBinaryOperation_keeps P h
  · cases h1 : vm.pop with
    | none => simp [h1] at h
    | some p1 =>
      simp only [h1, Option.bind_eq_bind, Option.some_bind] at h
      cases h; exact pop_keeps h1
  · exact push_keeps h
  · exact push_keeps h
  · exact executeComparison_keeps P h
  · exact executeComparison_keeps P h
  · exact executeComparison_keeps P h
  · exact executeBangOperator_keeps h
  · exact executeMinusOperator_keeps h
  · cases hk : readOperand ins ip with
    | none => simp [hk] at h
    | some k =>
      cases ha : vm.setIp ((k : Int) - 1) with
      | none => simp [hk, ha] at h
      | some vm1 =>
        simp only [hk, ha, Option.bind_eq_bind, Option.some_bind] at h
        cases h; exact setIp_keeps ha
  · cases hk : readOperand ins ip with
    | none => simp [hk] at h
    | some k =>
      cases ha : vm.addIp 2 with
      | none => simp [hk, ha] at h
      | some vm1 =>
        cases hp : vm1.pop with
        | none => simp [hk, ha, hp] at h
        | some p =>
          obtain ⟨c, vm2⟩ := p
          have k2 := keeps_trans (addIp_keeps ha) (pop_keeps hp)
          simp only [hk, ha, hp, Option.bind_eq_bind, Option.some_bind] at h
          split at h
          · cases hs : vm2.setIp ((k : Int) - 1) with
            | none => simp [hs] at h
            | some vm3 =>
              simp only [hs, Option.bind_eq_bind, Option.some_bind] at h
              cases h; exact keeps_trans k2 (setIp_keeps hs)
          · cases h; exact k2
  · exact push_keeps h
  · exact absurd rfl hop
  · cases hk : readOperand ins ip with
    | none => simp [hk] at h
    | some k =>
      cases ha : vm.addIp 2 with
      | none => simp [hk, ha] at h
      | some vm1 =>
        cases hc : index vm1.globals k with
        | none => simp [hk, ha, hc] at h
        | some c =>
          simp only [hk, ha, hc, Option.bind_eq_bind, Option.some_bind] at h
          exact keeps_trans (addIp_keeps ha) (push_keeps h)
  · cases hk : readOperand ins ip with
    | none => simp [hk] at h
    | some k =>
      cases ha : vm.addIp 2 with
      | none => simp [hk, ha] at h
      | some vm1 =>
        cases hc : vm1.buildArray (vm1.sp - k) vm1.sp with
        | none => simp [hk, ha, hc] at h
        | some p =>
          obtain ⟨arr, vm2⟩ := p
          simp only [hk, ha, hc, Option.bind_eq_bind, Option.some_bind] at h
          exact keeps_trans (keeps_trans (addIp_keeps ha) (buildArray_keeps hc))
            (@push_keeps { vm2 with sp := vm2.sp - k } arr res h)
  · cases hk : readOperand ins ip with
    | none => simp [hk] at h
    | some k =>
      cases ha : vm.addIp 2 with
      | none => simp [hk, ha] at h
      | some vm1 =>
        cases hc : vm1.buildHash P (vm1.sp - k) vm1.sp with
        | none => simp [hk, ha, hc] at h
        | some p =>
          obtain ⟨hash, err, vm2⟩ := p
          have k2 := keeps_trans (addIp_keeps ha) (buildHash_keeps P hc)
          simp only [hk, ha, hc, Option.bind_eq_bind, Option.some_bind] at h
          split at h
          · cases h; exact k2
          · exact keeps_trans k2 (@push_keeps { vm2 with sp := vm2.sp - k } hash res h)
  · cases h1 : vm.pop with
    | none => simp [h1] at h
    | some p1 =>
      obtain ⟨idx, vm1⟩ := p1
      cases h2 : vm1.pop with
      | none => simp [h1, h2] at h
      | some p2 =>
        obtain ⟨left, vm2⟩ := p2
        simp only [h1, h2, Option.bind_eq_bind, Option.some_bind] at h
        exact keeps_trans (keeps_trans (pop_keeps h1) (pop_keeps h2))
          (executeIndexExpression_keeps P h)
  · cases hc : index vm.stack (vm.sp - 1) with
    | none => simp [hc] at h
    | some callee =>
      simp only [hc, Option.bind_eq_bind, Option.some_bind] at h
      split at h
      · rename_i fn
        cases hp : vm.pushFrame (NewFrame fn) with
        | none => simp [hp] at h
        | some vm1 =>
          simp only [hp, Option.bind_eq_bind, Option.some_bind] at h
          cases h; exact pushFrame_keeps hp
      · cases h; exact keeps_refl vm
  · cases h1 : vm.pop with
    | none => simp [h1] at h
    | some p1 =>
      obtain ⟨rv, vm1⟩ := p1
      cases h2 : vm1.popFrame with
      | none => simp [h1, h2] at h
      | some vm2 =>
        cases h3 : vm2.pop with
        | none => simp [h1, h2, h3] at h
        | some p3 =>
          obtain ⟨x, vm3⟩ := p3
          simp only [h1, h2, h3, Option.bind_eq_bind, Option.some_bind] at h
          exact keeps_trans (keeps_trans (keeps_trans (pop_keeps h1) (popFrame_keeps h2))
            (pop_keeps h3)) (push_keeps h)
  · cases h2 : vm.popFrame with
    | none => simp [h2] at h
    | some vm2 =>
      cases h3 : vm2.pop with
      | none => simp [h2, h3] at h
      | some p3 =>
        obtain ⟨x, vm3⟩ := p3
        simp only [h2, h3, Option.bind_eq_bind, Option.some_bind] at h
        exact keeps_trans (keeps_trans (popFrame_keeps h2) (pop_keeps h3)) (push_keeps h)
  · cases h; exact keeps_refl vm

theorem lookup_eq_some (P : Params) {bt : Nat} {o : Opcode} (h : P.lookup bt = some o) :
    P.byte o = bt := by
  have := List.find?_some h
  simpa using this

theorem cycle_fetch_any (P : Params) {vm : VM} {f : Frame} {bt : Nat}
    (h : vm.currentFrame = some f) (hb : index f.Instructions (f.ip + 1) = some bt) :
    vm.cycle P = (vm.withIp f (f.ip + 1)).dispatch P f.Instructions (f.ip + 1) (P.lookup bt) := by
  have hb2 : index f.fn.Instructions (f.ip + 1) = some bt := hb
  simp [VM.cycle, addIp_eq h, currentFrame_withIp h, Frame.Instructions, hb2]

theorem index_set_nat {α : Type} (s : List α) (i j : Nat) (v : α) (hij : j ≠ i) :
    index (s.set i v) (j : Int) = index s (j : Int) := by
  rw [index_of_nat, index_of_nat, List.getElem?_set]
  simp [Ne.symm hij]

theorem index_set_nat_same {α : Type} (s : List α) (i : Nat) (v : α) (hi : i < s.length) :
    index (s.set i v) (i : Int) = some v := by
  rw [index_of_nat, List.getElem?_set]
  simp [hi]

/-- A cycle that is not `OpSetGlobal i` leaves `globals[i]` as it is. -/
theorem cycle_globals (P : Params) {vm vm' : VM} {e : error} (i : Nat)
    (hc : vm.cycle P = some (e, vm'))
    (hne : ¬ (vm.nextByte = some (P.byte .OpSetGlobal) ∧ vm.nextOperand = some i)) :
    index vm'.globals i = index vm.globals i := by
  cases hf : vm.currentFrame with
  | none => simp [VM.cycle, VM.addIp, hf] at hc
  | some f =>
    cases hi : index f.Instructions (f.ip + 1) with
    | none =>
      have hi2 : index f.fn.Instructions (f.ip + 1) = none := hi
      simp [VM.cycle, addIp_eq hf, currentFrame_withIp hf, Frame.Instructions, hi2] at hc
    | some bt =>
      rw [cycle_fetch_any P hf hi] at hc
      by_cases hl : P.lookup bt = some .OpSetGlobal
      · have hbt := lookup_eq_some P hl
        have hn : vm.nextByte = some (P.byte .OpSetGlobal) := by
          simp [VM.nextByte, hf, hi, hbt]
        rw [hl] at hc
        simp only [VM.dispatch] at hc
        cases hk : readOperand f.Instructions (f.ip + 1) with
        | none => simp [hk] at hc
        | some j =>
          have hji : j ≠ i := by
            intro e
            apply hne
            refine ⟨hn, ?_⟩
            simp [VM.nextOperand, hf, hk, e]
          cases ha : (vm.withIp f (f.ip + 1)).addIp 2 with
          | none => simp [hk, ha] at hc
          | some vm1 =>
            cases hp : vm1.pop with
            | none => simp [hk, ha, hp] at hc
            | some p =>
              obtain ⟨v, vm2⟩ := p
              have k2 := keeps_trans (addIp_keeps ha) (pop_keeps hp)
              cases hs : assign vm2.globals (j : Int) v with
              | none => simp [hk, ha, hp, hs] at hc
              | some gs =>
                simp only [hk, ha, hp, hs, Option.bind_eq_bind, Option.some_bind] at hc
                cases hc
                unfold assign at hs
                split at hs
                · cases hs
                  show index (vm2.globals.set (j : Int).toNat v) i = _
                  rw [Int.toNat_ofNat, index_set_nat _ _ _ _ (Ne.symm hji), k2.1]
                  rfl
                · cases hs
      · have := dispatch_keeps P hl hc
        rw [this.1]
        rfl

theorem run_letChain (P : Params) (b : VM) (fn : CompiledFunction) (st gs : List Object)
    (h fuel : Nat) (c : Object) (hb : b.framed)
    (hins : fn.Instructions = letChain P)
    (hc : index b.constants 0 = some c) (hlen : st.length = StackSize)
    (hg : 2 ≤ gs.length) :
    VM.Run P (fuel + 7) (conf b ⟨fn, -1⟩ st 0 gs h) =
      .returned none (conf b ⟨fn, 15⟩ (((st.set 0 c).set 0 c).set 0 c) 0
        ((gs.set 0 c).set 1 c) h) := by
  have g0 : index (gs.set 0 c) ((0 : Nat) : Int) = some c :=
    index_set_nat_same gs 0 c (by omega)
  have g1 : index ((gs.set 0 c).set 1 c) ((1 : Nat) : Int) = some c :=
    index_set_nat_same (gs.set 0 c) 1 c (by rw [List.length_set]; omega)
  have t0 : ∀ s : List Object, s.length = StackSize → index (s.set 0 c) (1 - 1) = some c := by
    intro s hs
    exact @index_set_same _ s 0 c (le_refl _) (by rw [hs]; decide)
  rw [Run_continue P (fuel + 6) (cycle_OpConstant P b fn (-1) 2 st 0 1 gs h 0 0 c hb
      (by rw [hins]; rfl) (by rw [hins]; rfl) hc rfl (by decide) hlen (by decide) (by decide)),
    Run_continue P (fuel + 5) (cycle_OpSetGlobal P b fn 2 5 (st.set 0 c) 1 0 gs h 0 c hb
      (by rw [hins]; rfl) (by rw [hins]; rfl) (t0 st hlen) (by omega) (by decide) (by decide)),
    Run_continue P (fuel + 4) (cycle_OpGetGlobal P b fn 5 8 (st.set 0 c) 0 1 (gs.set 0 c) h 0 0 c
      hb (by rw [hins]; rfl) (by rw [hins]; rfl) g0 rfl (by decide) (by simp [hlen])
      (by decide) (by decide)),
    Run_continue P (fuel + 3) (cycle_OpSetGlobal P b fn 8 11 ((st.set 0 c).set 0 c) 1 0
      (gs.set 0 c) h 1 c hb (by rw [hins]; rfl) (by rw [hins]; rfl)
      (t0 _ (by simp [hlen])) (by rw [List.length_set]; omega) (by decide) (by decide)),
    Run_continue P (fuel + 2) (cycle_OpGetGlobal P b fn 11 14 ((st.set 0 c).set 0 c) 0 1
      ((gs.set 0 c).set 1 c) h 0 1 c hb (by rw [hins]; rfl) (by rw [hins]; rfl) g1 rfl
      (by decide) (by simp [hlen]) (by decide) (by decide)),
    Run_continue P (fuel + 1) (cycle_OpPop P b fn 14 15 (((st.set 0 c).set 0 c).set 0 c) 1 0
      ((gs.set 0 c).set 1 c) h c hb (by rw [hins]; rfl) (t0 _ (by simp [hlen]))
      (by decide) (by decide)),
    Run_halt P hb fn 15 _ 0 _ h fuel (by rw [hins]; rfl)]

/-- C9: `OpSetGlobal i` pops the top value `v` into `globals[i]` and leaves every other
global slot and the stack contents unchanged; `OpGetGlobal i` pushes `globals[i]` and
changes no global; a cycle that is not `OpSetGlobal i` leaves `globals[i]` as it is (so a
later `OpGetGlobal i` still pushes `v`); and the bytecode of
`let one = 1; let two = one; two;` ends with `sp = 0` and last popped value Integer 1. -/
theorem C9_globals (P : Params) :
    (∀ (vm : VM) (i : Nat) (v : Object),
      vm.nextByte = some (P.byte .OpSetGlobal) → vm.nextOperand = some i →
      index vm.stack (vm.sp - 1) = some v → i < vm.globals.length →
      ∃ vm', vm.cycle P = some (none, vm') ∧ vm'.sp = vm.sp - 1 ∧ vm'.stack = vm.stack ∧
        index vm'.globals i = some v ∧
        (∀ j : Nat, j ≠ i → index vm'.globals j = index vm.globals j)) ∧
    (∀ (vm : VM) (i : Nat) (g : Object),
      vm.nextByte = some (P.byte .OpGetGlobal) → vm.nextOperand = some i →
      index vm.globals i = some g → 0 ≤ vm.sp → vm.sp < StackSize →
      vm.stack.length = StackSize →
      ∃ vm', vm.cycle P = some (none, vm') ∧ vm'.globals = vm.globals ∧
        vm'.sp = vm.sp + 1 ∧ index vm'.stack vm.sp = some g ∧
        (∀ j : Int, j < vm.sp → index vm'.stack j = index vm.stack j)) ∧
    (∀ (vm vm' : VM) (e : error) (i : Nat), vm.cycle P = some (e, vm') →
      ¬ (vm.nextByte = some (P.byte .OpSetGlobal) ∧ vm.nextOperand = some i) →
      index vm'.globals i = index vm.globals i) ∧
    (∀ (k heap fuel : Nat), ∃ vm',
      VM.Run P (fuel + 7) (New ⟨letChain P, [.Integer k 1]⟩ heap) = .returned none vm' ∧
        vm'.sp = 0 ∧ vm'.LastPoppedStackElem = some (.Integer k 1)) := by
  refine ⟨?_, ?_, ?_, ?_⟩
  · intro vm i v hb ho hv hi
    obtain ⟨fn, ip, hconf, hfr, hf, hbyte⟩ := as_conf hb
    have hk : readOperand fn.Instructions (ip + 1) = some i := by
      simpa [VM.nextOperand, hf, Frame.Instructions] using ho
    have hc := cycle_OpSetGlobal P vm fn ip (ip + 3) vm.stack vm.sp (vm.sp - 1) vm.globals
      vm.heap i v hfr hbyte hk hv hi rfl rfl
    rw [← hconf] at hc
    refine ⟨_, hc, rfl, rfl, ?_, ?_⟩
    · exact index_set_nat_same vm.globals i v hi
    · intro j hj
      exact index_set_nat vm.globals i j v hj
  · intro vm i g hb ho hg h0 h1 hlen
    obtain ⟨fn, ip, hconf, hfr, hf, hbyte⟩ := as_conf hb
    have hk : readOperand fn.Instructions (ip + 1) = some i := by
      simpa [VM.nextOperand, hf, Frame.Instructions] using ho
    have hn : vm.sp = (vm.sp.toNat : Int) := by omega
    have hc := cycle_OpGetGlobal P vm fn ip (ip + 3) vm.stack vm.sp (vm.sp + 1) vm.globals
      vm.heap vm.sp.toNat i g hfr hbyte hk hg hn (by omega) hlen rfl rfl
    rw [← hconf] at hc
    refine ⟨_, hc, rfl, rfl, ?_, ?_⟩
    · exact index_set_same g h0 (by omega)
    · intro j hj
      exact index_set_other g h0 (by omega)
  · intro vm vm' e i hc hne
    exact cycle_globals P i hc hne
  · intro k heap fuel
    have hlen : (List.replicate StackSize Object.nil).length = StackSize :=
      List.length_replicate _ _
    rw [New_conf, run_letChain P (New ⟨letChain P, [.Integer k 1]⟩ heap) _ _ _ _ fuel
      (.Integer k 1) (New_framed _ heap) rfl rfl hlen
      (by rw [List.length_replicate]; decide)]
    refine ⟨_, rfl, rfl, ?_⟩
    exact @index_set_same _ (((List.replicate StackSize Object.nil).set 0 (.Integer k 1)).set 0
      (.Integer k 1)) 0 (.Integer k 1) (le_refl _)
      (by rw [List.length_set, List.length_set, hlen]; decide)

/-- C9, a witness: `OpSetGlobal 3` with Integer 7 on top of the stack stores it in
`globals[3]`. -/
theorem C9_witness :
    ∃ vm', setGlobalThree.cycle tableParams = some (none, vm') ∧ vm'.sp = 0 ∧
      index vm'.globals 3 = some (.Integer 10 7) := by
  obtain ⟨vm', hc, hsp, _, hg, _⟩ := (C9_globals tableParams).1 setGlobalThree 3 (.Integer 10 7)
    (by rw [setGlobalThree, machine_nextByte]; rfl)
    (by unfold VM.nextOperand setGlobalThree; rw [machine_currentFrame]; rfl)
    (machine_index _ _ _ _ _ 0 (by simp))
    (by show 3 < (List.replicate GlobalsSize Object.nil).length
        rw [List.length_replicate]; decide)
  exact ⟨vm', hc, by simpa [setGlobalThree] using hsp, hg⟩

/-- C6: `OpJumpNotTruthy` at offset `p` with operand `t` pops exactly one value `c`; the
next opcode is fetched at offset `t` when `c` is not truthy and at offset `p + 3`
otherwise; the stack contents, the globals, the constants, the frame index and every
other frame are unchanged, and the current frame keeps its function. -/
theorem C6_jump_not_truthy (P : Params) (vm : VM) (f : Frame) (p : Int) (t : Nat) (c : Object)
    (hf : vm.currentFrame = some f) (hp : p = f.ip + 1)
    (hop : index f.Instructions p = some (P.byte .OpJumpNotTruthy))
    (ht : readOperand f.Instructions p = some t)
    (hc : index vm.stack (vm.sp - 1) = some c) :
    ∃ vm', vm.cycle P = some (none, vm') ∧
      vm'.sp = vm.sp - 1 ∧ vm'.stack = vm.stack ∧ vm'.globals = vm.globals ∧
      vm'.constants = vm.constants ∧ vm'.frameIndex = vm.frameIndex ∧
      (∀ j : Int, j ≠ vm.frameIndex - 1 → index vm'.frames j = index vm.frames j) ∧
      vm'.currentFrame = some ⟨f.fn, if isTruthy c then p + 2 else (t : Int) - 1⟩ ∧
      vm'.nextByte = index f.Instructions (if isTruthy c then p + 3 else (t : Int)) := by
  subst hp
  have hfr := framed_of_currentFrame hf
  have hconf := eq_conf hf
  have hcy := cycle_OpJumpNotTruthy P vm f.fn f.ip
    (if isTruthy c then f.ip + 3 else (t : Int) - 1) vm.stack vm.sp (vm.sp - 1) vm.globals
    vm.heap t c hfr hop ht hc rfl rfl
  rw [← hconf] at hcy
  refine ⟨_, hcy, rfl, rfl, rfl, rfl, rfl, ?_, ?_, ?_⟩
  · intro j hj
    exact index_set_other _ hfr.1 hj
  · rw [conf_currentFrame hfr]
    cases isTruthy c
    · rfl
    · simp only [if_true]
      rw [show f.ip + 1 + 2 = f.ip + 3 by ring]
  · rw [conf_nextByte hfr]
    cases isTruthy c
    · simp [Frame.Instructions]
    · simp only [if_true]
      rw [show f.ip + 1 + 3 = f.ip + 3 + 1 by ring]
      rfl

/-- C6, a witness: `OpJumpNotTruthy 7` at offset 0 with False on top of the stack moves
the instruction pointer to 6, so that the next fetch is at offset 7, and pops False. -/
theorem C6_witness :
    ∃ vm', jumpOnFalse.cycle tableParams = some (none, vm') ∧ vm'.sp = 0 ∧
      vm'.currentFrame = some ⟨⟨20, Make16 tableParams .OpJumpNotTruthy 7, 0, 0⟩, 6⟩ := by
  obtain ⟨vm', hc, hsp, _, _, _, _, _, hfr, _⟩ := C6_jump_not_truthy tableParams jumpOnFalse
    ⟨⟨20, Make16 tableParams .OpJumpNotTruthy 7, 0, 0⟩, -1⟩ 0 7 False
    (machine_currentFrame _ _ _ _ _) (by decide) rfl rfl
    (machine_index _ _ _ _ _ 0 (by simp))
  exact ⟨vm', hc, by simpa [jumpOnFalse] using hsp, hfr⟩

/-- C7: `isTruthy` returns false exactly for a Null and for a Boolean whose value is
false; so it returns true for every other value, among them Integer 0, the empty String,
the empty Array and the nil interface value. -/
theorem C7_isTruthy (o : Object) (k : Nat) :
    (isTruthy o = false ↔ (∃ a, o = .Null a) ∨ (∃ a, o = .Boolean a false)) ∧
    isTruthy (.Integer k 0) = true ∧ isTruthy (.String k "") = true ∧
    isTruthy (.Array k []) = true ∧ isTruthy .nil = true ∧
    isTruthy True = true ∧ isTruthy False = false ∧ isTruthy Null = false := by
  refine ⟨?_, rfl, rfl, rfl, rfl, rfl, rfl, rfl⟩
  cases o <;> simp [isTruthy]

theorem nextByte_of_frame {vm : VM} {f : Frame} {b : Nat} (hf : vm.currentFrame = some f)
    (hb : index f.Instructions (f.ip + 1) = some b) : vm.nextByte = some b := by
  simp [VM.nextByte, hf, hb]

theorem cycle_OpCall (P : Params) (vm : VM) (f : Frame) (fn : CompiledFunction)
    (hf : vm.currentFrame = some f)
    (hb : vm.nextByte = some (P.byte .OpCall))
    (hc : index vm.stack (vm.sp - 1) = some (.CompiledFunction fn))
    (hfi : vm.frameIndex < vm.frames.length) :
    vm.cycle P = some (none, vm.entered f fn) := by
  have hfr := framed_of_currentFrame hf
  rw [cycle_fetch P hf hb]
  have hc2 : index (vm.withIp f (f.ip + 1)).stack ((vm.withIp f (f.ip + 1)).sp - 1)
      = some (.CompiledFunction fn) := hc
  have ha : assign (vm.withIp f (f.ip + 1)).frames (vm.withIp f (f.ip + 1)).frameIndex
      (some (NewFrame fn)) = some ((vm.withIp f (f.ip + 1)).frames.set
        vm.frameIndex.toNat (some (NewFrame fn))) := by
    apply assign_eq
    · show 0 ≤ vm.frameIndex
      have := hfr.1; omega
    · show vm.frameIndex < ((vm.frames.set _ _).length : Int)
      rw [List.length_set]; exact hfi
  simp only [VM.dispatch, hc2, Option.bind_eq_bind, Option.some_bind, VM.pushFrame, ha]
  rfl

theorem cycle_OpCall_error (P : Params) (vm : VM) (f : Frame) (x : Object)
    (hf : vm.currentFrame = some f)
    (hb : vm.nextByte = some (P.byte .OpCall))
    (hc : index vm.stack (vm.sp - 1) = some x)
    (hx : ∀ fn, x ≠ .CompiledFunction fn) :
    vm.cycle P = some (some "calling non-function", vm.withIp f (f.ip + 1)) := by
  rw [cycle_fetch P hf hb]
  have hc2 : index (vm.withIp f (f.ip + 1)).stack ((vm.withIp f (f.ip + 1)).sp - 1)
      = some x := hc
  cases x with
  | CompiledFunction fn => exact absurd rfl (hx fn)
  | _ => simp only [VM.dispatch, hc2, Option.bind_eq_bind, Option.some_bind]

theorem popFrame_eq (w : VM) (o : Option Frame)
    (h : index w.frames (w.frameIndex - 1) = some o) :
    w.popFrame = some { w with frameIndex := w.frameIndex - 1 } := by
  simp only [VM.popFrame, h, Option.bind_eq_bind, Option.some_bind]

theorem returnValue_eq (w : VM) (v x : Object) (o : Option Frame)
    (hv : index w.stack (w.sp - 1) = some v)
    (hx : index w.stack (w.sp - 2) = some x)
    (ho : index w.frames (w.frameIndex - 1) = some o)
    (hlen : w.stack.length = StackSize) :
    (do
      let (returnValue, vm1) ← w.pop
      let vm2 ← vm1.popFrame
      let (_, vm3) ← vm2.pop
      vm3.push returnValue) =
    some (none, { w with frameIndex := w.frameIndex - 1,
                         stack := w.stack.set (w.sp - 2).toNat v, sp := w.sp - 1 }) := by
  have h1 := index_eq_some hx
  have h2 := index_eq_some hv
  have e1 : w.sp - 1 - 1 = w.sp - 2 := by ring
  have e2 : w.sp - 2 + 1 = w.sp - 1 := by ring
  rw [pop_eq hv]
  simp only [Option.bind_eq_bind, Option.some_bind]
  rw [popFrame_eq { w with sp := w.sp - 1 } o ho]
  simp only [Option.some_bind]
  rw [@pop_eq { w with sp := w.sp - 1, frameIndex := w.frameIndex - 1 } x
    (by show index w.stack (w.sp - 1 - 1) = some x
        rw [e1]; exact hx)]
  simp only [Option.some_bind]
  rw [push_eq _ v (by show 0 ≤ w.sp - 1 - 1; omega)
    (by show w.sp - 1 - 1 < (StackSize : Int); have := h2.2.1; omega)
    (by show w.sp - 1 - 1 < (w.stack.length : Int); have := h2.2.1; omega)]
  simp only [e1, e2]

theorem cycle_OpReturnValue (P : Params) (vm : VM) (f : Frame) (v x : Object)
    (hf : vm.currentFrame = some f)
    (hb : vm.nextByte = some (P.byte .OpReturnValue))
    (hv : index vm.stack (vm.sp - 1) = some v)
    (hx : index vm.stack (vm.sp - 2) = some x)
    (hlen : vm.stack.length = StackSize) :
    vm.cycle P = some (none, vm.returnedTo f v) := by
  have hfr := framed_of_currentFrame hf
  rw [cycle_fetch P hf hb]
  have hi : index (vm.withIp f (f.ip + 1)).frames ((vm.withIp f (f.ip + 1)).frameIndex - 1)
      = some (some ⟨f.fn, f.ip + 1⟩) := index_set_same _ hfr.1 hfr.2
  have := returnValue_eq (vm.withIp f (f.ip + 1)) v x _ hv hx hi hlen
  simp only [VM.dispatch]
  rw [this]
  rfl

theorem Run_panic (P : Params) {vm : VM} {b : Nat} (fuel : Nat) (hb : vm.nextByte = some b)
    (h : vm.cycle P = none) : VM.Run P (fuel + 1) vm = .panicked := by
  simp [VM.Run, running_of_nextByte hb, h]

theorem machine_frames_length (cs : List Object) (ins : List Nat) (ip : Int) (vs : List Object)
    (heap : Nat) : (machine cs ins ip vs heap).frames.length = MaxFrame := by
  show ((List.replicate MaxFrame (none : Option Frame)).set 0 _).length = MaxFrame
  rw [List.length_set, List.length_replicate]

theorem machine_frame_zero (cs : List Object) (ins : List Nat) (ip : Int) (vs : List Object)
    (heap : Nat) : index (machine cs ins ip vs heap).frames 0 =
      some (some ⟨⟨heap, ins, 0, 0⟩, ip⟩) :=
  @index_set_same _ (List.replicate MaxFrame (none : Option Frame)) 0 _ (le_refl _)
    (by rw [List.length_replicate]; decide)

/-- C14 (amended): `OpCall` with a value on top of the stack that is not a compiled
function (an Integer, Boolean, String, Array, Null, also a Closure, a Builtin or the nil
value) makes `Run` return the error `calling non-function`; no frame is pushed and the
stack, `sp` and the globals are unchanged. -/
theorem C14_calling_non_function (P : Params) (vm : VM) (x : Object) (fuel : Nat)
    (hb : vm.nextByte = some (P.byte .OpCall))
    (hc : index vm.stack (vm.sp - 1) = some x) (hx : ∀ fn, x ≠ .CompiledFunction fn) :
    ∃ vm', VM.Run P (fuel + 1) vm = .returned (some "calling non-function") vm' ∧
      vm'.frameIndex = vm.frameIndex ∧ vm'.stack = vm.stack ∧ vm'.sp = vm.sp ∧
      vm'.globals = vm.globals := by
  obtain ⟨f, hf, _⟩ := nextByte_frame hb
  exact ⟨_, Run_error P fuel (cycle_OpCall_error P vm f x hf hb hc hx), rfl, rfl, rfl, rfl⟩

/-- C14, a counterexample to the claim as stated: with Integer 5 in the callee position
the error is `calling non-function`, not `calling non-closure and non-builtin`. -/
theorem C14_counterexample :
    ∃ vm', VM.Run tableParams 1 callInteger = .returned (some "calling non-function") vm' ∧
      "calling non-function" ≠ "calling non-closure and non-builtin" := by
  refine ⟨_, Run_error tableParams 0 (cycle_OpCall_error tableParams callInteger _
    (.Integer 10 5) (machine_currentFrame _ _ _ _ _)
    (by rw [callInteger, machine_nextByte]; rfl)
    (machine_index _ _ _ _ _ 0 (by simp)) (by intro fn h; cases h)), by decide⟩

/-- C14, a witness: Integer 5 in the callee position. -/
theorem C14_witness :
    ∃ vm', VM.Run tableParams 1 callInteger = .returned (some "calling non-function") vm' ∧
      vm'.frameIndex = 1 ∧ vm'.sp = 1 := by
  obtain ⟨vm', hr, hfi, _, hsp, _⟩ := C14_calling_non_function tableParams callInteger
    (.Integer 10 5) 0 (by rw [callInteger, machine_nextByte]; rfl)
    (machine_index _ _ _ _ _ 0 (by simp)) (by intro fn h; cases h)
  exact ⟨vm', hr, hfi, hsp⟩

theorem returnValue_main_panics (P : Params) (b : VM) (fn : CompiledFunction) (ip : Int)
    (st gs : List Object) (h : Nat) (v : Object) (hb : b.framed)
    (hop : index fn.Instructions (ip + 1) = some (P.byte .OpReturnValue))
    (hv : index st 0 = some v) :
    (conf b ⟨fn, ip⟩ st 1 gs h).cycle P = none := by
  rw [conf_cycle P hb fn ip st 1 gs h _ hop]
  have hp := conf_pop b ⟨fn, ip + 1⟩ st 1 gs h v (by rw [show (1 : Int) - 1 = 0 by decide]; exact hv)
  have hi : index (conf b ⟨fn, ip + 1⟩ st (1 - 1) gs h).frames
      ((conf b ⟨fn, ip + 1⟩ st (1 - 1) gs h).frameIndex - 1) = some (some ⟨fn, ip + 1⟩) :=
    index_set_same _ hb.1 hb.2
  have hpf := popFrame_eq (conf b ⟨fn, ip + 1⟩ st (1 - 1) gs h) _ hi
  have hn : VM.pop { conf b ⟨fn, ip + 1⟩ st (1 - 1) gs h with
      frameIndex := (conf b ⟨fn, ip + 1⟩ st (1 - 1) gs h).frameIndex - 1 } = none := by
    have : index st ((1 : Int) - 1 - 1) = none := by simp [index]
    simp only [VM.pop]
    show (index st ((1 : Int) - 1 - 1)).bind _ = none
    rw [this]
    rfl
  simp only [VM.dispatch, hp, Option.bind_eq_bind, Option.some_bind, hpf, hn, Option.none_bind]

/-- C16, the code at the failing input: for the bytecode of a top-level `return e;`
(`OpConstant 0; OpReturnValue` over one constant) `Run` on a fresh machine panics: after
the frame is popped, the second `pop` of `OpReturnValue` indexes the stack at -1. -/
theorem C16_top_level_return_panics (P : Params) (c : Object) (heap fuel : Nat) :
    VM.Run P (fuel + 2) (New ⟨topReturn P, [c]⟩ heap) = .panicked := by
  have hlen : (List.replicate StackSize Object.nil).length = StackSize :=
    List.length_replicate _ _
  have hb := New_framed ⟨topReturn P, [c]⟩ heap
  rw [New_conf, Run_continue P (fuel + 1) (cycle_OpConstant P (New ⟨topReturn P, [c]⟩ heap)
      ⟨heap, topReturn P, 0, 0⟩ (-1) 2 _ 0 1 _ (heap + 1) 0 0 c hb rfl rfl rfl rfl (by decide)
      hlen (by decide) (by decide))]
  have hcy := returnValue_main_panics P (New ⟨topReturn P, [c]⟩ heap) ⟨heap, topReturn P, 0, 0⟩ 2
    ((List.replicate StackSize Object.nil).set 0 c) (List.replicate GlobalsSize Object.nil)
    (heap + 1) c hb rfl
    (@index_set_same _ (List.replicate StackSize Object.nil) 0 c (le_refl _)
      (by rw [hlen]; decide))
  exact Run_panic P fuel (by rw [conf_nextByte hb]; rfl) hcy

theorem dispatch_unhandled (P : Params) (vm : VM) (ins : List Nat) (ip : Int)
    (op : Option Opcode) (hu : unhandled op = true) :
    vm.dispatch P ins ip op = some (none, vm) := by
  cases op with
  | none => rfl
  | some o => cases o <;> first | rfl | cases hu

theorem cycle_unhandled (P : Params) (vm : VM) (f : Frame) (bt : Nat)
    (hf : vm.currentFrame = some f) (hb : vm.nextByte = some bt)
    (hu : unhandled (P.lookup bt) = true) :
    vm.cycle P = some (none, vm.withIp f (f.ip + 1)) := by
  have hi : index f.Instructions (f.ip + 1) = some bt := by
    simpa [VM.nextByte, hf] using hb
  rw [cycle_fetch_any P hf hi, dispatch_unhandled P _ _ _ _ hu]

theorem withIp_currentFrame {vm : VM} {f : Frame} (hf : vm.currentFrame = some f) (ip : Int) :
    (vm.withIp f ip).currentFrame = some ⟨f.fn, ip⟩ :=
  currentFrame_withIp hf ip

theorem withIp_frames_other {vm : VM} {f : Frame} (hf : vm.currentFrame = some f) (ip : Int)
    (j : Int) (hj : j ≠ vm.frameIndex - 1) :
    index (vm.withIp f ip).frames j = index vm.frames j :=
  index_set_other _ (framed_of_currentFrame hf).1 hj

theorem executeBinaryOperation_div_zero (P : Params) (vm : VM) (a : Int) (ka kb : Nat)
    (hl : index vm.stack (vm.sp - 2) = some (.Integer ka a))
    (hr : index vm.stack (vm.sp - 1) = some (.Integer kb 0)) :
    vm.executeBinaryOperation P .OpDiv = none := by
  have hpp := pop_two hl hr
  unfold VM.executeBinaryOperation
  simp only [hpp.1, hpp.2, Option.bind_eq_bind, Option.some_bind, Object.typ,
    true_and, and_self, if_true, VM.executeBinaryIntegerOperation, integerValue]

theorem eitherInteger_mixed (l r : Object)
    (h : ((∃ k a, l = .Integer k a) ∧ integerValue r = none) ∨
      (integerValue l = none ∧ ∃ k b, r = .Integer k b)) :
    eitherInteger l r = none ∨
      (eitherInteger l r = some true ∧ (integerValue l = none ∨ integerValue r = none)) := by
  rcases h with ⟨⟨k, a, e⟩, hr⟩ | ⟨hl, ⟨k, b, e⟩⟩
  · subst e
    exact Or.inr ⟨rfl, Or.inr hr⟩
  · subst e
    cases ht : l.typ with
    | none => left; simp [eitherInteger, ht]
    | some t =>
      right
      refine ⟨?_, Or.inl hl⟩
      have hrt : (Object.Integer k b).typ = some INTEGER_OBJ := rfl
      by_cases hi : t = INTEGER_OBJ <;> simp [eitherInteger, ht, hi, hrt]

theorem executeComparison_mixed (P : Params) (vm : VM) (op : Opcode) (l r : Object)
    (hl : index vm.stack (vm.sp - 2) = some l) (hr : index vm.stack (vm.sp - 1) = some r)
    (h : ((∃ k a, l = .Integer k a) ∧ integerValue r = none) ∨
      (integerValue l = none ∧ ∃ k b, r = .Integer k b)) :
    vm.executeComparison P op = none := by
  have hpp := pop_two hl hr
  unfold VM.executeComparison
  simp only [hpp.1, hpp.2, Option.bind_eq_bind, Option.some_bind]
  rcases eitherInteger_mixed l r h with he | ⟨he, hn⟩
  · simp [he]
  · simp only [he, Option.some_bind, if_true, VM.executeIntegerComparison]
    rcases hn with hn | hn
    · simp [hn]
    · cases hv : integerValue l <;> simp [hn]

theorem eitherInteger_neither (l r : Object) (L R : ObjectType)
    (hL : l.typ = some L) (hR : r.typ = some R)
    (hLi : L ≠ INTEGER_OBJ) (hRi : R ≠ INTEGER_OBJ) : eitherInteger l r = some false := by
  simp [eitherInteger, hL, hR, hLi, hRi]

theorem executeComparison_identity (P : Params) (vm : VM) (op : Opcode) (l r : Object)
    (L R : ObjectType) (hop : op = .OpEqual ∨ op = .OpNotEqual)
    (hlen : vm.stack.length = StackSize)
    (hl : index vm.stack (vm.sp - 2) = some l) (hr : index vm.stack (vm.sp - 1) = some r)
    (hL : l.typ = some L) (hR : r.typ = some R)
    (hLi : L ≠ INTEGER_OBJ) (hRi : R ≠ INTEGER_OBJ) :
    vm.executeComparison P op = some (none,
      { vm with stack := vm.stack.set (vm.sp - 2).toNat
                  (nativeBoolToBooleanObject (if op = .OpEqual then r.same l else !(r.same l)))
                sp := vm.sp - 1 }) := by
  have h1 := index_eq_some hl
  have h2 := index_eq_some hr
  have hpp := pop_two hl hr
  have hpush := fun o : Object => push_after_two vm o vm.heap hlen h1.1 h2.2.1
  unfold VM.executeComparison
  simp only [hpp.1, hpp.2, Option.bind_eq_bind, Option.some_bind,
    eitherInteger_neither l r L R hL hR hLi hRi]
  rcases hop with e | e <;> subst e
  · exact hpush _
  · exact hpush _

theorem executeComparison_greater_other (P : Params) (vm : VM) (l r : Object)
    (L R : ObjectType)
    (hl : index vm.stack (vm.sp - 2) = some l) (hr : index vm.stack (vm.sp - 1) = some r)
    (hL : l.typ = some L) (hR : r.typ = some R)
    (hLi : L ≠ INTEGER_OBJ) (hRi : R ≠ INTEGER_OBJ) :
    vm.executeComparison P .OpGreaterThan = some
      (some ("unknown operator: " ++ toString (P.byte .OpGreaterThan) ++ " (" ++ L ++ " " ++ R
        ++ ")"), { vm with sp := vm.sp - 2 }) := by
  have hpp := pop_two hl hr
  unfold VM.executeComparison
  simp only [hpp.1, hpp.2, Option.bind_eq_bind, Option.some_bind,
    eitherInteger_neither l r L R hL hR hLi hRi, hL, hR]
  rfl

theorem executeBinaryOperation_strings (P : Params) (vm : VM) (op : Opcode) (s t : String)
    (ks kt : Nat) (hlen : vm.stack.length = StackSize)
    (hl : index vm.stack (vm.sp - 2) = some (.String ks s))
    (hr : index vm.stack (vm.sp - 1) = some (.String kt t)) :
    vm.executeBinaryOperation P op =
      if op = .OpAdd then
        some (none, { vm with stack := vm.stack.set (vm.sp - 2).toNat (.String vm.heap (s ++ t))
                              sp := vm.sp - 1
                              heap := vm.heap + 1 })
      else
        some (some ("unknown string operator: " ++ toString (P.byte op)),
          { vm with sp := vm.sp - 2 }) := by
  have h1 := index_eq_some hl
  have h2 := index_eq_some hr
  have hpp := pop_two hl hr
  have hpush := push_after_two vm (.String vm.heap (s ++ t)) (vm.heap + 1) hlen h1.1 h2.2.1
  have hne : ¬ (STRING_OBJ = INTEGER_OBJ) := by decide
  unfold VM.executeBinaryOperation
  simp only [hpp.1, hpp.2, Option.bind_eq_bind, Option.some_bind, Object.typ, hne,
    false_and, and_self, if_true, if_false, VM.executeBinaryStringOperation]
  by_cases ho : op = .OpAdd
  · simp only [ho, ne_eq, not_true_eq_false, if_false, if_true, stringValue,
      Option.bind_eq_bind, Option.some_bind]
    exact hpush
  · simp only [ho, ne_eq, not_false_eq_true, if_true, if_false]

theorem dispatch_binary (P : Params) (vm : VM) (ins : List Nat) (ip : Int) (op : Opcode)
    (hop : op = .OpAdd ∨ op = .OpSub ∨ op = .OpMul ∨ op = .OpDiv) :
    vm.dispatch P ins ip (some op) = vm.executeBinaryOperation P op := by
  rcases hop with h | h | h | h <;> subst h <;> rfl

theorem dispatch_comparison (P : Params) (vm : VM) (ins : List Nat) (ip : Int) (op : Opcode)
    (hop : op = .OpEqual ∨ op = .OpNotEqual ∨ op = .OpGreaterThan) :
    vm.dispatch P ins ip (some op) = vm.executeComparison P op := by
  rcases hop with h | h | h <;> subst h <;> rfl

theorem two_slots (st : List Object) (x y : Object) (hlen : st.length = StackSize) :
    index ((st.set 0 x).set 1 y) 0 = some x ∧ index ((st.set 0 x).set 1 y) 1 = some y := by
  constructor <;> simp [index, hlen, StackSize]

/-- C17, the code at the failing input: for the bytecode of `a / 0`
(`OpConstant 0; OpConstant 1; OpDiv; OpPop` over the constants `[a, 0]`) `Run` on a fresh
machine panics in `executeBinaryIntegerOperation` (Go's integer division by zero); it
returns neither nil nor an error. -/
theorem C17_division_by_zero_panics (P : Params) (a : Int) (ka kb heap fuel : Nat) :
    VM.Run P (fuel + 3) (New ⟨divide P, [.Integer ka a, .Integer kb 0]⟩ heap) = .panicked := by
  have hlen : (List.replicate StackSize Object.nil).length = StackSize :=
    List.length_replicate _ _
  have hb := New_framed ⟨divide P, [.Integer ka a, .Integer kb 0]⟩ heap
  have hs := two_slots (List.replicate StackSize Object.nil) (.Integer ka a) (.Integer kb 0) hlen
  rw [New_conf,
    Run_continue P (fuel + 2) (cycle_OpConstant P _ ⟨heap, divide P, 0, 0⟩ (-1) 2 _ 0 1 _
      (heap + 1) 0 0 (.Integer ka a) hb rfl rfl rfl rfl (by decide) hlen (by decide) (by decide)),
    Run_continue P (fuel + 1) (cycle_OpConstant P _ ⟨heap, divide P, 0, 0⟩ 2 5 _ 1 2 _
      (heap + 1) 1 1 (.Integer kb 0) hb rfl rfl rfl rfl (by decide) (by simp [hlen])
      (by decide) (by decide))]
  apply Run_panic P fuel (by rw [conf_nextByte hb]; rfl)
  rw [conf_cycle P hb ⟨heap, divide P, 0, 0⟩ 5 _ 2 _ (heap + 1) .OpDiv rfl,
    dispatch_binary P _ _ _ .OpDiv (by simp)]
  exact executeBinaryOperation_div_zero P _ a ka kb hs.1 hs.2

theorem cycle_mixed_comparison (P : Params) (vm : VM) (op : Opcode) (l r : Object)
    (hop : op = .OpEqual ∨ op = .OpNotEqual ∨ op = .OpGreaterThan)
    (hb : vm.nextByte = some (P.byte op))
    (hl : index vm.stack (vm.sp - 2) = some l) (hr : index vm.stack (vm.sp - 1) = some r)
    (h : ((∃ k a, l = .Integer k a) ∧ integerValue r = none) ∨
      (integerValue l = none ∧ ∃ k b, r = .Integer k b)) :
    vm.cycle P = none := by
  obtain ⟨f, hf, _⟩ := nextByte_frame hb
  rw [cycle_fetch P hf hb, dispatch_comparison P _ _ _ op hop]
  exact executeComparison_mixed P _ op l r hl hr h

/-- C18, the code at the failing input: with Integer 1 and the canonical True on the
stack, in either order, `OpEqual` and `OpNotEqual` make `Run` panic: `executeComparison`
goes to `executeIntegerComparison` as soon as one operand is an Integer, and the type
assertion of the other operand fails. -/
theorem C18_mixed_comparison_panics (P : Params) (fuel : Nat) :
    VM.Run P (fuel + 1) (machine [] [P.byte .OpEqual] (-1) [.Integer 10 1, True] 20)
      = .panicked ∧
    VM.Run P (fuel + 1) (machine [] [P.byte .OpEqual] (-1) [True, .Integer 10 1] 20)
      = .panicked ∧
    VM.Run P (fuel + 1) (machine [] [P.byte .OpNotEqual] (-1) [.Integer 10 1, True] 20)
      = .panicked ∧
    VM.Run P (fuel + 1) (machine [] [P.byte .OpNotEqual] (-1) [True, .Integer 10 1] 20)
      = .panicked := by
  refine ⟨?_, ?_, ?_, ?_⟩
  · exact Run_panic P fuel (by rw [machine_nextByte]; rfl)
      (cycle_mixed_comparison P _ .OpEqual (.Integer 10 1) True (by simp)
        (by rw [machine_nextByte]; rfl) (machine_index _ _ _ _ _ 0 (by simp))
        (machine_index _ _ _ _ _ 1 (by simp)) (Or.inl ⟨⟨10, 1, rfl⟩, rfl⟩))
  · exact Run_panic P fuel (by rw [machine_nextByte]; rfl)
      (cycle_mixed_comparison P _ .OpEqual True (.Integer 10 1) (by simp)
        (by rw [machine_nextByte]; rfl) (machine_index _ _ _ _ _ 0 (by simp))
        (machine_index _ _ _ _ _ 1 (by simp)) (Or.inr ⟨rfl, ⟨10, 1, rfl⟩⟩))
  · exact Run_panic P fuel (by rw [machine_nextByte]; rfl)
      (cycle_mixed_comparison P _ .OpNotEqual (.Integer 10 1) True (by simp)
        (by rw [machine_nextByte]; rfl) (machine_index _ _ _ _ _ 0 (by simp))
        (machine_index _ _ _ _ _ 1 (by simp)) (Or.inl ⟨⟨10, 1, rfl⟩, rfl⟩))
  · exact Run_panic P fuel (by rw [machine_nextByte]; rfl)
      (cycle_mixed_comparison P _ .OpNotEqual True (.Integer 10 1) (by simp)
        (by rw [machine_nextByte]; rfl) (machine_index _ _ _ _ _ 0 (by simp))
        (machine_index _ _ _ _ _ 1 (by simp)) (Or.inr ⟨rfl, ⟨10, 1, rfl⟩⟩))

theorem cycle_compare_identity (P : Params) (b : VM) (fn : CompiledFunction) (ip ip' : Int)
    (st : List Object) (sp sp' : Int) (gs : List Object) (h : Nat) (n : Nat) (op : Opcode)
    (l r : Object) (L R : ObjectType)
    (hb : b.framed) (hop : index fn.Instructions (ip + 1) = some (P.byte op))
    (hcase : op = .OpEqual ∨ op = .OpNotEqual)
    (hn : sp = n + 2) (h2 : st.length = StackSize)
    (hl : index st n = some l) (hr : index st (n + 1) = some r)
    (hL : l.typ = some L) (hR : r.typ = some R)
    (hLi : L ≠ INTEGER_OBJ) (hRi : R ≠ INTEGER_OBJ)
    (hip : ip' = ip + 1) (hsp : sp' = sp - 1) :
    (conf b ⟨fn, ip⟩ st sp gs h).cycle P = some (none,
      conf b ⟨fn, ip'⟩ (st.set n (nativeBoolToBooleanObject
        (if op = .OpEqual then r.same l else !(r.same l)))) sp' gs h) := by
  subst hip hsp hn
  have e2 : (n : Int) + 2 - 2 = n := by ring
  have e1 : (n : Int) + 2 - 1 = n + 1 := by ring
  rw [conf_cycle P hb fn ip st _ gs h _ hop,
    dispatch_comparison P _ _ _ op (by rcases hcase with c | c <;> simp [c]),
    executeComparison_identity P (conf b ⟨fn, ip + 1⟩ st (n + 2) gs h) op l r L R hcase h2
      (by show index st ((n : Int) + 2 - 2) = some l
          rw [e2]; exact hl)
      (by show index st ((n : Int) + 2 - 1) = some r
          rw [e1]; exact hr) hL hR hLi hRi]
  show some (none, conf b ⟨fn, ip + 1⟩ (st.set ((n : Int) + 2 - 2).toNat _) ((n : Int) + 2 - 1)
    gs h) = _
  rw [e2, Int.toNat_ofNat]

theorem same_comm (a b : Object) : a.same b = b.same a := by
  unfold Object.same
  rw [Bool.beq_comm (a := a.typ), Bool.beq_comm (a := a.addr?)]

theorem run_lessIsTrue (P : Params) (b : VM) (fn : CompiledFunction) (st gs : List Object)
    (h fuel : Nat) (kx ky : Nat) (hb : b.framed)
    (hins : fn.Instructions = lessIsTrue P)
    (hcs : b.constants = [.Integer kx 2, .Integer ky 1]) (hlen : st.length = StackSize) :
    VM.Run P (fuel + 7) (conf b ⟨fn, -1⟩ st 0 gs h) =
      .returned none (conf b ⟨fn, 9⟩
        (((((st.set 0 (.Integer kx 2)).set 1 (.Integer ky 1)).set 0 True).set 1 True).set 0
          True) 0 gs h) := by
  have hs := two_slots st (.Integer kx 2) (.Integer ky 1) hlen
  have hs2 := two_slots (((st.set 0 (.Integer kx 2)).set 1 (.Integer ky 1)))
    (nativeBoolToBooleanObject (compared .OpGreaterThan 2 1)) (pushed .OpTrue) (by simp [hlen])
  rw [Run_continue P (fuel + 6) (cycle_OpConstant P b fn (-1) 2 st 0 1 gs h 0 0 (.Integer kx 2) hb
      (by rw [hins]; rfl) (by rw [hins]; rfl) (by rw [hcs]; rfl) rfl (by decide) hlen
      (by decide) (by decide)),
    Run_continue P (fuel + 5) (cycle_OpConstant P b fn 2 5 _ 1 2 gs h 1 1 (.Integer ky 1) hb
      (by rw [hins]; rfl) (by rw [hins]; rfl) (by rw [hcs]; rfl) rfl (by decide)
      (by simp [hlen]) (by decide) (by decide)),
    Run_continue P (fuel + 4) (cycle_compare_int P b fn 5 6 _ 2 1 gs h 0 .OpGreaterThan 2 1 kx ky
      hb (by rw [hins]; rfl) (by simp) rfl (by simp [hlen]) hs.1 hs.2 (by decide) (by decide)),
    Run_continue P (fuel + 3) (cycle_pushed P b fn 6 7 _ 1 2 gs h 1 .OpTrue hb
      (by rw [hins]; rfl) (by simp) rfl (by decide) (by simp [hlen]) (by decide) (by decide)),
    Run_continue P (fuel + 2) (cycle_compare_identity P b fn 7 8 _ 2 1 gs h 0 .OpEqual
      (nativeBoolToBooleanObject (compared .OpGreaterThan 2 1)) (pushed .OpTrue)
      BOOLEAN_OBJ BOOLEAN_OBJ hb (by rw [hins]; rfl) (by simp) rfl (by simp [hlen])
      hs2.1 hs2.2 rfl rfl (by decide) (by decide) (by decide) (by decide))]
  show VM.Run P (fuel + 1 + 1) (conf b ⟨fn, 8⟩
    (((((st.set 0 (.Integer kx 2)).set 1 (.Integer ky 1)).set 0 True).set 1 True).set 0 True)
    1 gs h) = _
  rw [Run_continue P (fuel + 1) (cycle_OpPop P b fn 8 9 _ 1 0 gs h True hb
      (by rw [hins]; rfl)
      (by exact @index_set_same _ _ 0 _ (le_refl _) (by simp [hlen, StackSize])) (by decide)
      (by decide)),
    Run_halt P hb fn 9 _ 0 gs h fuel (by rw [hins]; rfl)]

/-- C19: when both operands have a type and neither is an Integer, `OpEqual` pushes the
canonical True exactly when the two operands are the same object and `OpNotEqual` pushes
the negation; on the canonical Booleans and Null this is value equality, and the bytecode
of `(1 < 2) == true` ends with last popped value True; `OpGreaterThan` on such operands
makes `Run` return an error, with both operands popped and nothing pushed. -/
theorem C19_identity_comparison (P : Params) (vm : VM) (op : Opcode) (l r : Object)
    (L R : ObjectType) (kx ky heap fuel : Nat)
    (hb : vm.nextByte = some (P.byte op))
    (hlen : vm.stack.length = StackSize)
    (hl : index vm.stack (vm.sp - 2) = some l) (hr : index vm.stack (vm.sp - 1) = some r)
    (hL : l.typ = some L) (hR : r.typ = some R)
    (hLi : L ≠ INTEGER_OBJ) (hRi : R ≠ INTEGER_OBJ) :
    (op = .OpEqual → ∃ vm', vm.cycle P = some (none, vm') ∧ vm'.sp = vm.sp - 1 ∧
      index vm'.stack (vm.sp - 2) = some (if l.same r then True else False)) ∧
    (op = .OpNotEqual → ∃ vm', vm.cycle P = some (none, vm') ∧ vm'.sp = vm.sp - 1 ∧
      index vm'.stack (vm.sp - 2) = some (if l.same r then False else True)) ∧
    (op = .OpGreaterThan → ∃ vm', VM.Run P (fuel + 1) vm = .returned
        (some ("unknown operator: " ++ toString (P.byte .OpGreaterThan) ++ " (" ++ L ++ " " ++ R
          ++ ")")) vm' ∧ vm'.sp = vm.sp - 2 ∧ vm'.stack = vm.stack) ∧
    (True.same True = true ∧ False.same False = true ∧ Null.same Null = true ∧
      True.same False = false ∧ False.same True = false ∧ True.same Null = false ∧
      False.same Null = false) ∧
    (∃ vm', VM.Run P (fuel + 7) (New ⟨lessIsTrue P, [.Integer kx 2, .Integer ky 1]⟩ heap)
        = .returned none vm' ∧ vm'.sp = 0 ∧ vm'.LastPoppedStackElem = some True) := by
  obtain ⟨f, hf, _⟩ := nextByte_frame hb
  have h1 := index_eq_some hl
  have hres : ∀ o : Object,
      index (vm.stack.set (vm.sp - 2).toNat o) (vm.sp - 2) = some o :=
    fun o => index_set_same o h1.1 h1.2.1
  refine ⟨?_, ?_, ?_, ⟨rfl, rfl, rfl, rfl, rfl, rfl, rfl⟩, ?_⟩
  · intro e
    subst e
    have hc := cycle_fetch P hf hb
    rw [dispatch_comparison P _ _ _ .OpEqual (by simp),
      executeComparison_identity P (vm.withIp f (f.ip + 1)) .OpEqual l r L R (by simp) hlen hl hr
        hL hR hLi hRi] at hc
    refine ⟨_, hc, rfl, ?_⟩
    refine (hres _).trans ?_
    rw [same_comm r l]
    cases l.same r <;> rfl
  · intro e
    subst e
    have hc := cycle_fetch P hf hb
    rw [dispatch_comparison P _ _ _ .OpNotEqual (by simp),
      executeComparison_identity P (vm.withIp f (f.ip + 1)) .OpNotEqual l r L R (by simp) hlen
        hl hr hL hR hLi hRi] at hc
    refine ⟨_, hc, rfl, ?_⟩
    refine (hres _).trans ?_
    rw [same_comm r l]
    cases l.same r <;> rfl
  · intro e
    subst e
    have hc := cycle_fetch P hf hb
    rw [dispatch_comparison P _ _ _ .OpGreaterThan (by simp),
      executeComparison_greater_other P (vm.withIp f (f.ip + 1)) l r L R hl hr hL hR hLi hRi]
      at hc
    exact ⟨_, Run_error P fuel hc, rfl, rfl⟩
  · have hlen0 : (List.replicate StackSize Object.nil).length = StackSize :=
      List.length_replicate _ _
    rw [New_conf, run_lessIsTrue P (New ⟨lessIsTrue P, [.Integer kx 2, .Integer ky 1]⟩ heap)
      _ _ _ _ fuel kx ky (New_framed _ heap) rfl rfl hlen0]
    refine ⟨_, rfl, rfl, ?_⟩
    exact @index_set_same _ _ 0 True (le_refl _)
      (by rw [List.length_set, List.length_set, List.length_set, List.length_set, hlen0]; decide)

/-- C19, a witness: `OpEqual` on the canonical True and the canonical True. -/
theorem C19_witness :
    ∃ vm', (machine [] [tableParams.byte .OpEqual] (-1) [True, True] 20).cycle tableParams
        = some (none, vm') ∧ vm'.sp = 1 ∧ index vm'.stack 0 = some True := by
  obtain ⟨vm', hc, hsp, hres⟩ := (C19_identity_comparison tableParams
    (machine [] [tableParams.byte .OpEqual] (-1) [True, True] 20) .OpEqual True True
    BOOLEAN_OBJ BOOLEAN_OBJ 0 0 0 0 (by rw [machine_nextByte]; rfl)
    (machine_length _ _ _ _ _ (by simp [StackSize]))
    (machine_index _ _ _ _ _ 0 (by simp)) (machine_index _ _ _ _ _ 1 (by simp))
    rfl rfl (by decide) (by decide)).1 rfl
  exact ⟨vm', hc, by simpa using hsp, by simpa using hres⟩

/-- C20: with String `s` below String `t` on top of the stack, `OpAdd` returns no error,
pops both and leaves in the slot of the left operand a String whose value is `s` followed
by `t` (an associative operation with the empty string as identity); `OpSub`, `OpMul` and
`OpDiv` make `Run` return an error, with both operands popped and nothing pushed. -/
theorem C20_string_concatenation (P : Params) (vm : VM) (op : Opcode) (s t : String)
    (ks kt fuel : Nat)
    (hop : op = .OpAdd ∨ op = .OpSub ∨ op = .OpMul ∨ op = .OpDiv)
    (hb : vm.nextByte = some (P.byte op))
    (hlen : vm.stack.length = StackSize)
    (hl : index vm.stack (vm.sp - 2) = some (.String ks s))
    (hr : index vm.stack (vm.sp - 1) = some (.String kt t)) :
    (op = .OpAdd → ∃ vm', vm.cycle P = some (none, vm') ∧ vm'.sp = vm.sp - 1 ∧
      index vm'.stack (vm.sp - 2) = some (.String vm.heap (s ++ t)) ∧
      (∀ i : Int, i < vm.sp - 2 → index vm'.stack i = index vm.stack i)) ∧
    (op ≠ .OpAdd → ∃ vm', VM.Run P (fuel + 1) vm =
        .returned (some ("unknown string operator: " ++ toString (P.byte op))) vm' ∧
      vm'.sp = vm.sp - 2 ∧ vm'.stack = vm.stack) ∧
    (∀ u : String, (s ++ t) ++ u = s ++ (t ++ u)) ∧ "" ++ s = s ∧ s ++ "" = s := by
  obtain ⟨f, hf, _⟩ := nextByte_frame hb
  have h1 := index_eq_some hl
  have hc := cycle_fetch P hf hb
  rw [dispatch_binary P _ _ _ op hop,
    executeBinaryOperation_strings P (vm.withIp f (f.ip + 1)) op s t ks kt hlen hl hr] at hc
  refine ⟨?_, ?_, fun u => String.append_assoc s t u, String.empty_append s,
    String.append_empty s⟩
  · intro e
    rw [if_pos e] at hc
    refine ⟨_, hc, rfl, ?_, ?_⟩
    · exact index_set_same _ h1.1 h1.2.1
    · intro i hi
      exact index_set_other _ h1.1 (by show i ≠ vm.sp - 2; omega)
  · intro e
    rw [if_neg e] at hc
    exact ⟨_, Run_error P fuel hc, rfl, rfl⟩

/-- C20, a witness: `OpAdd` on the Strings `mon` and `key`. -/
theorem C20_witness :
    ∃ vm', (machine [] [tableParams.byte .OpAdd] (-1) [.String 10 "mon", .String 11 "key"]
        20).cycle tableParams = some (none, vm') ∧ vm'.sp = 1 ∧
      index vm'.stack 0 = some (.String 21 "monkey") := by
  obtain ⟨vm', hc, hsp, hres, _⟩ := (C20_string_concatenation tableParams
    (machine [] [tableParams.byte .OpAdd] (-1) [.String 10 "mon", .String 11 "key"] 20) .OpAdd
    "mon" "key" 10 11 0 (by simp) (by rw [machine_nextByte]; rfl)
    (machine_length _ _ _ _ _ (by simp [StackSize]))
    (machine_index _ _ _ _ _ 0 (by simp)) (machine_index _ _ _ _ _ 1 (by simp))).1 rfl
  have e : ("mon" : String) ++ "key" = "monkey" := by decide
  rw [e] at hres
  exact ⟨vm', hc, by simpa using hsp, by simpa using hres⟩

theorem cycle_OpMinus (P : Params) (b : VM) (fn : CompiledFunction) (ip ip' : Int)
    (st : List Object) (sp : Int) (gs : List Object) (h : Nat) (n : Nat) (k : Nat) (v : Int)
    (hb : b.framed) (hop : index fn.Instructions (ip + 1) = some (P.byte .OpMinus))
    (hn : sp = n + 1) (h2 : st.length = StackSize) (hx : index st n = some (.Integer k v))
    (hip : ip' = ip + 1) :
    (conf b ⟨fn, ip⟩ st sp gs h).cycle P = some (none,
      conf b ⟨fn, ip'⟩ (st.set n (.Integer h (wrap64 (-v)))) sp gs (h + 1)) := by
  subst hip hn
  have hlt := (index_eq_some hx).2.1
  rw [conf_cycle P hb fn ip st _ gs h _ hop]
  have hp := conf_pop b ⟨fn, ip + 1⟩ st (n + 1) gs h (.Integer k v)
    (by rw [show (n : Int) + 1 - 1 = n by ring]; exact hx)
  rw [show (n : Int) + 1 - 1 = n by ring] at hp
  have hpush := conf_push b ⟨fn, ip + 1⟩ st n gs (h + 1) (.Integer h (wrap64 (-v)))
    (by omega) (by rw [h2] at hlt; exact_mod_cast hlt) h2
  rw [Int.toNat_ofNat] at hpush
  show VM.executeMinusOperator _ = _
  unfold VM.executeMinusOperator
  rw [hp]
  simp only [Option.bind_eq_bind, Option.some_bind, Object.typ, integerValue]
  rw [if_neg (by simp)]
  exact hpush

theorem cycle_OpMinus_error (P : Params) (vm : VM) (x : Object) (T : ObjectType)
    (hb : vm.nextByte = some (P.byte .OpMinus))
    (hx : index vm.stack (vm.sp - 1) = some x) (hT : x.typ = some T) (hne : T ≠ INTEGER_OBJ) :
    ∃ vm', vm.cycle P = some (some ("unsupported type for negation: " ++ T), vm') ∧
      vm'.sp = vm.sp - 1 ∧ vm'.stack = vm.stack := by
  obtain ⟨f, hf, _⟩ := nextByte_frame hb
  rw [cycle_fetch P hf hb]
  show ∃ vm', VM.executeMinusOperator _ = _ ∧ _
  unfold VM.executeMinusOperator
  rw [@pop_eq (vm.withIp f (f.ip + 1)) x hx]
  simp only [Option.bind_eq_bind, Option.some_bind, hT]
  rw [if_pos hne]
  exact ⟨_, rfl, rfl, rfl⟩

theorem wrap64_neg_neg (n : Int) (h0 : -2 ^ 63 ≤ n) (h1 : n < 2 ^ 63) :
    wrap64 (-(wrap64 (-n))) = n := by
  unfold wrap64
  omega

/-- C36: a byte for which the `switch` of `Run` has no case (the opcodes OpSetLocal,
OpGetLocal, OpGetBuiltin, OpClosure, OpGetFree and OpCurrentClosure, and every byte that
is no opcode) is executed as a no-op: the cycle returns no error, leaves the stack, `sp`,
the globals, the constants, the frame index and every other frame unchanged, the current
frame keeps its function and its instruction pointer advances by exactly one, so the byte
fetched next is the one directly after the opcode (its first operand byte, if it has
operands). -/
theorem C36_unhandled_is_noop (P : Params) (vm : VM) (f : Frame) (bt : Nat)
    (hf : vm.currentFrame = some f) (hb : vm.nextByte = some bt)
    (hu : P.lookup bt = none ∨ P.lookup bt = some .OpSetLocal ∨
      P.lookup bt = some .OpGetLocal ∨ P.lookup bt = some .OpGetBuiltin ∨
      P.lookup bt = some .OpClosure ∨ P.lookup bt = some .OpGetFree ∨
      P.lookup bt = some .OpCurrentClosure) :
    ∃ vm', vm.cycle P = some (none, vm') ∧ vm'.stack = vm.stack ∧ vm'.sp = vm.sp ∧
      vm'.globals = vm.globals ∧ vm'.constants = vm.constants ∧
      vm'.frameIndex = vm.frameIndex ∧ vm'.frames.length = vm.frames.length ∧
      (∀ j : Int, j ≠ vm.frameIndex - 1 → index vm'.frames j = index vm.frames j) ∧
      vm'.currentFrame = some ⟨f.fn, f.ip + 1⟩ ∧
      vm'.nextByte = index f.Instructions (f.ip + 2) := by
  have hu' : unhandled (P.lookup bt) = true := by
    rcases hu with e | e | e | e | e | e | e <;> rw [e] <;> rfl
  have hcur := withIp_currentFrame hf (f.ip + 1)
  refine ⟨_, cycle_unhandled P vm f _ hf hb hu', rfl, rfl, rfl, rfl, rfl, ?_,
    fun j hj => withIp_frames_other hf _ j hj, hcur, ?_⟩
  · show (vm.frames.set _ _).length = _
    rw [List.length_set]
  · simp only [VM.nextByte, hcur, Option.bind_eq_bind, Option.some_bind, Frame.Instructions]
    rw [show f.ip + 1 + 1 = f.ip + 2 by ring]

/-- C36, a witness: `OpGetLocal 0` on an empty stack pushes nothing, and the byte fetched
next is its operand byte 0. -/
theorem C36_witness :
    ∃ vm', getLocalOnEmpty.cycle tableParams = some (none, vm') ∧ vm'.sp = 0 ∧
      vm'.stack = getLocalOnEmpty.stack ∧ vm'.nextByte = some 0 := by
  obtain ⟨vm', hc, hst, hsp, _, _, _, _, _, _, hnext⟩ := C36_unhandled_is_noop tableParams
    getLocalOnEmpty _ (tableParams.byte .OpGetLocal) (machine_currentFrame _ _ _ _ _)
    (by rw [getLocalOnEmpty, machine_nextByte]; rfl)
    (Or.inr (Or.inr (Or.inl (by rw [Params.lookup_byte]))))
  exact ⟨vm', hc, hsp, hst, hnext⟩

/-- C25: with an Integer `n` on top of the stack, one cycle on OpMinus returns no error,
leaves `sp` as it was and replaces the operand by a new Integer `-n` wrapped to 64 bits
(the slots below unchanged); the minimum 64-bit value is mapped to itself and negating
twice gives `n` back.  With an operand of any other type `T`, `Run` returns the error
`unsupported type for negation: T`; the operand is popped and nothing is pushed. -/
theorem C25_minus (P : Params) (vm : VM) (x : Object) (fuel : Nat)
    (hb : vm.nextByte = some (P.byte .OpMinus))
    (hlen : vm.stack.length = StackSize)
    (hx : index vm.stack (vm.sp - 1) = some x) :
    (∀ k n, x = .Integer k n → ∃ vm', vm.cycle P = some (none, vm') ∧ vm'.sp = vm.sp ∧
      index vm'.stack (vm.sp - 1) = some (.Integer vm.heap (wrap64 (-n))) ∧
      (∀ i : Int, i < vm.sp - 1 → index vm'.stack i = index vm.stack i) ∧
      (-2 ^ 63 < n → n < 2 ^ 63 → wrap64 (-n) = -n)) ∧
    (∀ T, x.typ = some T → T ≠ INTEGER_OBJ → ∃ vm', VM.Run P (fuel + 1) vm =
        .returned (some ("unsupported type for negation: " ++ T)) vm' ∧
      vm'.sp = vm.sp - 1 ∧ vm'.stack = vm.stack) ∧
    wrap64 (-(-2 ^ 63)) = -2 ^ 63 ∧
    (∀ n : Int, -2 ^ 63 ≤ n → n < 2 ^ 63 → wrap64 (-(wrap64 (-n))) = n) := by
  refine ⟨?_, ?_, by decide, wrap64_neg_neg⟩
  · intro k n e
    subst e
    obtain ⟨fn, ip, hv, hfr, _, hbyte⟩ := as_conf hb
    have h1 := index_eq_some hx
    have hn : vm.sp = ((vm.sp - 1).toNat : Int) + 1 := by omega
    have hc := cycle_OpMinus P vm fn ip (ip + 1) vm.stack vm.sp vm.globals vm.heap
      (vm.sp - 1).toNat k n hfr hbyte hn hlen (by rw [Int.toNat_of_nonneg h1.1]; exact hx) rfl
    rw [← hv] at hc
    refine ⟨_, hc, rfl, index_set_same _ h1.1 h1.2.1, ?_, ?_⟩
    · intro i hi
      show index (vm.stack.set _ _) _ = _
      exact index_set_other _ h1.1 (by omega)
    · intro h0 h1
      exact wrap64_of_range (by omega) (by omega)
  · intro T hT hne
    obtain ⟨vm', hc, hsp, hst⟩ := cycle_OpMinus_error P vm x T hb hx hT hne
    exact ⟨vm', Run_error P fuel hc, hsp, hst⟩

/-- C25, a witness: `OpMinus` on Integer 5 gives Integer -5. -/
theorem C25_witness :
    ∃ vm', (machine [] [tableParams.byte .OpMinus] (-1) [.Integer 10 5] 20).cycle tableParams
        = some (none, vm') ∧ vm'.sp = 1 ∧ index vm'.stack 0 = some (.Integer 21 (-5)) := by
  obtain ⟨vm', hc, hsp, hres, _⟩ := (C25_minus tableParams
    (machine [] [tableParams.byte .OpMinus] (-1) [.Integer 10 5] 20) (.Integer 10 5) 0
    (by rw [machine_nextByte]; rfl)
    (machine_length _ _ _ _ _ (by simp [StackSize]))
    (machine_index _ _ _ _ _ 0 (by simp))).1 10 5 rfl
  exact ⟨vm', hc, by simpa using hsp, by simpa [wrap64] using hres⟩

theorem dispatch_pushed (P : Params) (vm : VM) (ins : List Nat) (ip : Int) (op : Opcode)
    (hcase : op = .OpTrue ∨ op = .OpFalse ∨ op = .OpNull) :
    vm.dispatch P ins ip (some op) = vm.push (pushed op) := by
  rcases hcase with e | e | e <;> subst e <;> rfl

theorem bang_truthy (x : Object) (hB : ∀ a v, x = .Boolean a v → x = True ∨ x = False)
    (hN : ∀ a, x = .Null a → x = Null) :
    (if x.same False || x.same Null then True else False)
      = nativeBoolToBooleanObject (!isTruthy x) := by
  cases x with
  | Boolean a v =>
    rcases hB a v rfl with e | e <;> rw [e] <;> rfl
  | Null a => rw [hN a rfl]; rfl
  | _ => rfl

theorem bang_native (b : Bool) :
    (if (nativeBoolToBooleanObject b).same False || (nativeBoolToBooleanObject b).same Null
      then True else False) = nativeBoolToBooleanObject (!b) := by
  cases b <;> rfl

/-- C34: for a value `x` on top of the stack whose Boolean and Null objects are the
canonical singletons, three successive OpBang instructions return no error and leave
`sp` as it was; the first replaces `x` by the canonical Boolean of `!isTruthy x` (so by
True exactly when `x` is not truthy), the second by the canonical Boolean of
`isTruthy x`, and the third gives the result of the first again. -/
theorem C34_bang_truthiness (P : Params) (vm : VM) (f : Frame) (x : Object)
    (hf : vm.currentFrame = some f)
    (h1 : index f.Instructions (f.ip + 1) = some (P.byte .OpBang))
    (h2 : index f.Instructions (f.ip + 2) = some (P.byte .OpBang))
    (h3 : index f.Instructions (f.ip + 3) = some (P.byte .OpBang))
    (hlen : vm.stack.length = StackSize)
    (hx : index vm.stack (vm.sp - 1) = some x)
    (hB : ∀ a v, x = .Boolean a v → x = True ∨ x = False)
    (hN : ∀ a, x = .Null a → x = Null) :
    ∃ vm1 vm2 vm3, vm.cycle P = some (none, vm1) ∧ vm1.cycle P = some (none, vm2) ∧
      vm2.cycle P = some (none, vm3) ∧
      vm1.sp = vm.sp ∧ vm2.sp = vm.sp ∧ vm3.sp = vm.sp ∧
      index vm1.stack (vm.sp - 1) = some (nativeBoolToBooleanObject (!isTruthy x)) ∧
      (index vm1.stack (vm.sp - 1) = some True ↔ isTruthy x = false) ∧
      index vm2.stack (vm.sp - 1) = some (nativeBoolToBooleanObject (isTruthy x)) ∧
      index vm3.stack (vm.sp - 1) = index vm1.stack (vm.sp - 1) := by
  have hfr := framed_of_currentFrame hf
  have hv := eq_conf hf
  have hi := index_eq_some hx
  have hn : vm.sp = ((vm.sp - 1).toNat : Int) + 1 := by omega
  have hxn : index vm.stack ((vm.sp - 1).toNat : Int) = some x := by
    rw [Int.toNat_of_nonneg hi.1]; exact hx
  have hlt : (vm.sp - 1).toNat < vm.stack.length := by
    have := hi.2.1; omega
  have c1 := cycle_OpBang P vm f.fn f.ip (f.ip + 1) vm.stack vm.sp vm.globals vm.heap
    (vm.sp - 1).toNat x hfr h1 hn hlen hxn rfl
  rw [← hv, bang_truthy x hB hN] at c1
  have c2 := cycle_OpBang P vm f.fn (f.ip + 1) (f.ip + 2)
    (vm.stack.set (vm.sp - 1).toNat (nativeBoolToBooleanObject (!isTruthy x))) vm.sp vm.globals
    vm.heap (vm.sp - 1).toNat (nativeBoolToBooleanObject (!isTruthy x)) hfr
    (by rw [show f.ip + 1 + 1 = f.ip + 2 by ring]; exact h2) hn
    (by rw [List.length_set]; exact hlen) (index_set_nat_same _ _ _ hlt) (by ring)
  rw [bang_native, Bool.not_not, List.set_set] at c2
  have c3 := cycle_OpBang P vm f.fn (f.ip + 2) (f.ip + 3)
    (vm.stack.set (vm.sp - 1).toNat (nativeBoolToBooleanObject (isTruthy x))) vm.sp vm.globals
    vm.heap (vm.sp - 1).toNat (nativeBoolToBooleanObject (isTruthy x)) hfr
    (by rw [show f.ip + 2 + 1 = f.ip + 3 by ring]; exact h3) hn
    (by rw [List.length_set]; exact hlen) (index_set_nat_same _ _ _ hlt) (by ring)
  rw [bang_native, List.set_set] at c3
  refine ⟨_, _, _, c1, c2, c3, rfl, rfl, rfl, index_set_same _ hi.1 hi.2.1, ?_,
    index_set_same _ hi.1 hi.2.1, ?_⟩
  · show index (vm.stack.set _ _) _ = _ ↔ _
    rw [index_set_same _ hi.1 hi.2.1]
    cases isTruthy x <;> simp [nativeBoolToBooleanObject, True, False]
  · show index (vm.stack.set _ _) _ = index (vm.stack.set _ _) _
    rw [index_set_same _ hi.1 hi.2.1]

/-- C34, the example of the claim: `!!5` is True (and `!5` and `!!!5` are False). -/
theorem C34_witness :
    ∃ vm1 vm2 vm3, bangThrice.cycle tableParams = some (none, vm1) ∧
      vm1.cycle tableParams = some (none, vm2) ∧ vm2.cycle tableParams = some (none, vm3) ∧
      index vm1.stack 0 = some False ∧ index vm2.stack 0 = some True ∧
      index vm3.stack 0 = some False := by
  obtain ⟨vm1, vm2, vm3, c1, c2, c3, _, _, _, r1, _, r2, r3⟩ := C34_bang_truthiness tableParams
    bangThrice _ (.Integer 10 5) (machine_currentFrame _ _ _ _ _) rfl rfl rfl
    (machine_length _ _ _ _ _ (by simp [StackSize]))
    (machine_index [] _ (-1) [.Integer 10 5] 20 0 (by simp))
    (by intro a v e; cases e) (by intro a e; cases e)
  have e1 : index vm1.stack 0 = some False := r1
  exact ⟨vm1, vm2, vm3, c1, c2, c3, e1, r2, by rw [← e1]; exact r3⟩

theorem readStack_eq (st : List Object) : ∀ (n m : Nat), m + n ≤ st.length →
    readStack st (m : Int) n = some ((st.drop m).take n) := by
  intro n
  induction n with
  | zero => intro m _; simp [readStack]
  | succ n ih =>
    intro m h
    have hm : m < st.length := by omega
    have e : ((m : Int) + 1) = ((m + 1 : Nat) : Int) := by push_cast; ring
    rw [readStack, index_of_nat, List.getElem?_eq_getElem hm, e, ih (m + 1) (by omega)]
    simp only [Option.bind_eq_bind, Option.some_bind]
    rw [List.drop_eq_getElem_cons hm, List.take_succ_cons]

theorem buildArray_eq (vm : VM) (m N : Nat) (hsp : vm.sp = m + N)
    (hlen : m + N ≤ vm.stack.length) :
    vm.buildArray (vm.sp - N) vm.sp =
      some (.Array vm.heap ((vm.stack.drop m).take N), { vm with heap := vm.heap + 1 }) := by
  unfold VM.buildArray
  have e1 : vm.sp - (vm.sp - (N : Int)) = N := by ring
  have e2 : vm.sp - (N : Int) = m := by omega
  rw [e1, e2, if_neg (by omega), Int.toNat_ofNat, readStack_eq _ _ _ hlen]
  rfl

theorem cycle_OpArray (P : Params) (b : VM) (fn : CompiledFunction) (ip ip' : Int)
    (st : List Object) (sp sp' : Int) (gs : List Object) (h : Nat) (m N : Nat)
    (hb : b.framed) (hop : index fn.Instructions (ip + 1) = some (P.byte .OpArray))
    (hk : readOperand fn.Instructions (ip + 1) = some N)
    (hn : sp = m + N) (h1 : m < StackSize) (hN : m + N ≤ StackSize)
    (h2 : st.length = StackSize) (hip : ip' = ip + 3) (hsp : sp' = m + 1) :
    (conf b ⟨fn, ip⟩ st sp gs h).cycle P = some (none,
      conf b ⟨fn, ip'⟩ (st.set m (.Array h ((st.drop m).take N))) sp' gs (h + 1)) := by
  subst hn hip hsp
  rw [conf_cycle P hb fn ip st _ gs h _ hop]
  simp only [VM.dispatch, hk, Option.bind_eq_bind, Option.some_bind, conf_addIp hb]
  rw [buildArray_eq (conf b ⟨fn, ip + 1 + 2⟩ st (m + N) gs h) m N rfl
    (by show m + N ≤ st.length; rw [h2]; exact hN)]
  simp only [Option.some_bind]
  have hpush := conf_push b ⟨fn, ip + 1 + 2⟩ st m gs (h + 1)
    (.Array h ((st.drop m).take N)) (by omega) (by exact_mod_cast h1) h2
  rw [Int.toNat_ofNat, show ip + 1 + 2 = ip + 3 by ring] at hpush
  rw [show ip + 1 + 2 = ip + 3 by ring]
  refine Eq.trans ?_ hpush
  congr 1
  show conf b ⟨fn, ip + 3⟩ st ((m : Int) + N - N) gs (h + 1) = _
  rw [show (m : Int) + N - N = m by ring]

theorem index_take_drop (st : List Object) (m N j : Nat) (hj : j < N) :
    index ((st.drop m).take N) (j : Int) = index st ((m : Int) + j) := by
  rw [index_of_nat, show ((m : Int) + j) = ((m + j : Nat) : Int) by push_cast; ring,
    index_of_nat, List.getElem?_take_of_lt hj, List.getElem?_drop]

/-- C23: with `0 ≤ N ≤ sp ≤ StackSize` (and a free slot when `N = 0`), one cycle on
`OpArray N` returns no error, sets `sp` to `sp - N + 1` and stores in slot `sp - N` a new
Array whose `N` elements are the former slots `sp - N`, ..., `sp - 1` in this order
(bottom-most first); the slots below `sp - N` are unchanged.  For `N = 0` the Array is
empty. -/
theorem C23_array (P : Params) (vm : VM) (N : Nat)
    (hb : vm.nextByte = some (P.byte .OpArray)) (hk : vm.nextOperand = some N)
    (hN : (N : Int) ≤ vm.sp) (hsp : vm.sp ≤ StackSize)
    (hlen : vm.stack.length = StackSize) (hroom : N = 0 → vm.sp < StackSize) :
    ∃ vm' es, vm.cycle P = some (none, vm') ∧ vm'.sp = vm.sp - N + 1 ∧
      index vm'.stack (vm.sp - N) = some (.Array vm.heap es) ∧ es.length = N ∧
      (∀ j : Nat, j < N → index es j = index vm.stack (vm.sp - N + j)) ∧
      (∀ i : Int, i < vm.sp - N → index vm'.stack i = index vm.stack i) ∧
      (N = 0 → es = []) := by
  obtain ⟨fn, ip, hv, hfr, hcur, hbyte⟩ := as_conf hb
  have hk' : readOperand fn.Instructions (ip + 1) = some N := by
    simpa [VM.nextOperand, hcur, Frame.Instructions] using hk
  have hm : vm.sp = ((vm.sp - N).toNat : Int) + N := by omega
  have hmlt : (vm.sp - N).toNat < StackSize := by
    by_cases h0 : N = 0
    · have := hroom h0; omega
    · omega
  have hc := cycle_OpArray P vm fn ip (ip + 3) vm.stack vm.sp (vm.sp - N + 1) vm.globals
    vm.heap (vm.sp - N).toNat N hfr hbyte hk' hm hmlt (by omega) hlen rfl (by omega)
  rw [← hv] at hc
  have h0 : 0 ≤ vm.sp - N := by omega
  refine ⟨_, (vm.stack.drop (vm.sp - N).toNat).take N, hc, rfl, ?_, ?_, ?_, ?_, ?_⟩
  · exact index_set_same _ h0 (by rw [hlen]; omega)
  · rw [List.length_take, List.length_drop, hlen]; omega
  · intro j hj
    rw [index_take_drop _ _ _ _ hj, Int.toNat_of_nonneg h0]
  · intro i hi
    show index (vm.stack.set _ _) _ = _
    exact index_set_other _ h0 (by omega)
  · intro e; subst e; simp

/-- C23, a witness: `OpArray 2` on Integer 1 and Integer 2. -/
theorem C23_witness :
    ∃ vm' es, arrayOfTwo.cycle tableParams = some (none, vm') ∧ vm'.sp = 1 ∧
      index vm'.stack 0 = some (.Array 21 es) ∧ es.length = 2 ∧
      index es 0 = some (.Integer 10 1) ∧ index es 1 = some (.Integer 11 2) := by
  obtain ⟨vm', es, hc, hsp, hres, hl, hes, _⟩ := C23_array tableParams arrayOfTwo 2
    (by rw [arrayOfTwo, machine_nextByte]; rfl)
    (by simp only [VM.nextOperand, arrayOfTwo, machine_currentFrame]; rfl)
    (by simp [arrayOfTwo]) (by simp [arrayOfTwo, StackSize])
    (machine_length _ _ _ _ _ (by simp [StackSize])) (by intro h; cases h)
  refine ⟨vm', es, hc, by simpa [arrayOfTwo] using hsp, by simpa [arrayOfTwo] using hres, hl,
    ?_, ?_⟩
  · exact (hes 0 (by decide)).trans
      (machine_index [] _ (-1) [.Integer 10 1, .Integer 11 2] 20 0 (by simp))
  · exact (hes 1 (by decide)).trans
      (machine_index [] _ (-1) [.Integer 10 1, .Integer 11 2] 20 1 (by simp))

theorem index_some {α : Type} (s : List α) (i : Int) (h0 : 0 ≤ i) (h1 : i < s.length) :
    ∃ a, index s i = some a := by
  unfold index
  rw [if_pos h0]
  have hlt : i.toNat < s.length := by omega
  exact ⟨_, List.getElem?_eq_getElem hlt⟩

theorem mapIndex_mapAssign_same (m : List (HashKey × Object × Object)) (k : HashKey)
    (pr : Object × Object) : mapIndex (mapAssign m k pr) k = some pr := by
  simp [mapIndex, mapAssign]

theorem find_filter_ne (m : List (HashKey × Object × Object)) (k k' : HashKey) (h : k ≠ k') :
    (m.filter (fun e => e.1 != k)).find? (fun e => e.1 == k') = m.find? (fun e => e.1 == k') := by
  induction m with
  | nil => rfl
  | cons e m ih =>
    by_cases hk : e.1 = k
    · have h2 : ¬ e.1 = k' := by rw [hk]; exact h
      simp [List.filter_cons, List.find?_cons, hk, h, ih]
    · by_cases hk' : e.1 = k'
      · have hkk : ¬ k' = k := fun e => h e.symm
        simp [List.filter_cons, List.find?_cons, hk', hkk]
      · simp [List.filter_cons, List.find?_cons, hk, hk', ih]

theorem mapIndex_mapAssign_ne (m : List (HashKey × Object × Object)) (k k' : HashKey)
    (pr : Object × Object) (h : k ≠ k') : mapIndex (mapAssign m k pr) k' = mapIndex m k' := by
  unfold mapIndex mapAssign
  rw [List.find?_cons_of_neg _ (by simp [h]), find_filter_ne m k k' h]

theorem mapAssign_length (m : List (HashKey × Object × Object)) (k : HashKey)
    (pr : Object × Object) : (mapAssign m k pr).length ≤ m.length + 1 := by
  unfold mapAssign
  rw [List.length_cons]
  exact Nat.succ_le_succ (List.length_filter_le _ _)

theorem mapAssign_nodup (m : List (HashKey × Object × Object)) (k : HashKey)
    (pr : Object × Object) (h : (m.map Prod.fst).Nodup) :
    ((mapAssign m k pr).map Prod.fst).Nodup := by
  unfold mapAssign
  rw [List.map_cons, List.nodup_cons]
  constructor
  · intro hmem
    obtain ⟨e, he, hek⟩ := List.mem_map.1 hmem
    have := (List.mem_filter.1 he).2
    simp [hek] at this
  · exact h.sublist ((List.filter_sublist m).map Prod.fst)

/-- The loop of `buildHash` on hashable keys: it ends without an error, and the map it
returns has at most `n` entries more than the map it started from, pairwise distinct
keys, and for each hash key the pair written last. -/
theorem buildHashLoop_ok (P : Params) (stack : List Object) :
    ∀ (n : Nat) (i : Int) (acc : List (HashKey × Object × Object)),
    (∀ j : Nat, j < n → ∃ key value hk, index stack (i + 2 * j) = some key ∧
        index stack (i + 2 * j + 1) = some value ∧ key.hashKey P = some hk) →
    ∃ res, buildHashLoop P stack n i acc = some (none, res) ∧
      res.length ≤ acc.length + n ∧
      ((acc.map Prod.fst).Nodup → (res.map Prod.fst).Nodup) ∧
      (∀ hk, (∀ j : Nat, j < n → ∀ key, index stack (i + 2 * j) = some key →
          key.hashKey P ≠ some hk) → mapIndex res hk = mapIndex acc hk) ∧
      (∀ (j : Nat) (key value : Object) (hk : HashKey), j < n →
        index stack (i + 2 * j) = some key → index stack (i + 2 * j + 1) = some value →
        key.hashKey P = some hk →
        (∀ j' : Nat, j < j' → j' < n → ∀ key', index stack (i + 2 * j') = some key' →
          key'.hashKey P ≠ some hk) →
        mapIndex res hk = some (key, value)) ∧
      (∀ hk pr, mapIndex res hk = some pr → mapIndex acc hk = some pr ∨
        ∃ j : Nat, j < n ∧ index stack (i + 2 * j) = some pr.1 ∧
          index stack (i + 2 * j + 1) = some pr.2 ∧ pr.1.hashKey P = some hk) := by
  intro n
  induction n with
  | zero =>
    intro i acc _
    exact ⟨acc, rfl, le_refl _, id, fun _ _ => rfl, fun j _ _ _ hj => absurd hj (Nat.not_lt_zero j),
      fun _ _ h => Or.inl h⟩
  | succ n ih =>
    intro i acc hall
    obtain ⟨key, value, hk0, hkey, hval, hhash⟩ := hall 0 (Nat.succ_pos n)
    have e0 : i + 2 * ((0 : Nat) : Int) = i := by simp
    rw [e0] at hkey hval
    have esucc : ∀ j : Nat, i + 2 * ((j + 1 : Nat) : Int) = i + 2 + 2 * (j : Int) := by
      intro j; push_cast; ring
    have hall' : ∀ j : Nat, j < n → ∃ key value hk, index stack (i + 2 + 2 * j) = some key ∧
        index stack (i + 2 + 2 * j + 1) = some value ∧ key.hashKey P = some hk := by
      intro j hj
      have := hall (j + 1) (Nat.succ_lt_succ hj)
      rw [esucc] at this
      exact this
    obtain ⟨res, hres, hlen, hnd, hmiss, hlast, horig⟩ :=
      ih (i + 2) (mapAssign acc hk0 (key, value)) hall'
    have hstep : buildHashLoop P stack (n + 1) i acc = some (none, res) := by
      rw [buildHashLoop]
      simp only [hkey, hval, hhash, Option.bind_eq_bind, Option.some_bind]
      exact hres
    refine ⟨res, hstep, ?_, ?_, ?_, ?_, ?_⟩
    · have := mapAssign_length acc hk0 (key, value)
      omega
    · intro h
      exact hnd (mapAssign_nodup acc hk0 (key, value) h)
    · intro hk hno
      have h0 : hk0 ≠ hk := by
        intro e
        exact hno 0 (Nat.succ_pos n) key (by rw [e0]; exact hkey) (by rw [hhash, e])
      rw [hmiss hk (fun j hj key' hkey' => hno (j + 1) (Nat.succ_lt_succ hj) key'
        (by rw [esucc]; exact hkey')), mapIndex_mapAssign_ne _ _ _ _ h0]
    · intro j key' value' hk hj hkey' hval' hhash' hlater
      cases j with
      | zero =>
        rw [e0] at hkey' hval'
        rw [hkey] at hkey'
        rw [hval] at hval'
        cases hkey'
        cases hval'
        rw [hhash] at hhash'
        cases hhash'
        rw [hmiss hk0 (fun j hj key' hkey' => hlater (j + 1) (Nat.succ_pos j)
          (Nat.succ_lt_succ hj) key' (by rw [esucc]; exact hkey')), mapIndex_mapAssign_same]
      | succ j =>
        rw [esucc] at hkey' hval'
        exact hlast j key' value' hk (Nat.lt_of_succ_lt_succ hj) hkey' hval' hhash'
          (fun j' hjj hj' key'' hkey'' => hlater (j' + 1) (Nat.succ_lt_succ hjj)
            (Nat.succ_lt_succ hj') key'' (by rw [esucc]; exact hkey''))
    · intro hk pr hpr
      rcases horig hk pr hpr with h | ⟨j, hj, h1, h2, h3⟩
      · by_cases e : hk0 = hk
        · subst e
          rw [mapIndex_mapAssign_same] at h
          cases h
          exact Or.inr ⟨0, Nat.succ_pos n, by rw [e0]; exact hkey, by rw [e0]; exact hval,
            hhash⟩
        · rw [mapIndex_mapAssign_ne _ _ _ _ e] at h
          exact Or.inl h
      · exact Or.inr ⟨j + 1, Nat.succ_lt_succ hj, by rw [esucc]; exact h1,
          by rw [esucc]; exact h2, h3⟩

/-- The loop of `buildHash` with a key that is not hashable: it returns the error for the
first such key. -/
theorem buildHashLoop_error (P : Params) (stack : List Object) (T : ObjectType) :
    ∀ (j0 n : Nat) (i : Int) (acc : List (HashKey × Object × Object)), j0 < n →
    (∀ j : Nat, j < j0 → ∃ key value hk, index stack (i + 2 * j) = some key ∧
        index stack (i + 2 * j + 1) = some value ∧ key.hashKey P = some hk) →
    (∃ key value, index stack (i + 2 * j0) = some key ∧
        index stack (i + 2 * j0 + 1) = some value ∧ key.hashKey P = none ∧
        key.typ = some T) →
    ∃ res, buildHashLoop P stack n i acc = some (some ("unusable as hash key: " ++ T), res) := by
  intro j0
  induction j0 with
  | zero =>
    intro n i acc hn _ hbad
    obtain ⟨key, value, hkey, hval, hhash, htyp⟩ := hbad
    have e0 : i + 2 * ((0 : Nat) : Int) = i := by simp
    rw [e0] at hkey hval
    obtain ⟨n, rfl⟩ : ∃ n', n = n' + 1 := ⟨n - 1, by omega⟩
    refine ⟨acc, ?_⟩
    rw [buildHashLoop]
    simp only [hkey, hval, hhash, htyp, Option.bind_eq_bind, Option.some_bind]
  | succ j0 ih =>
    intro n i acc hn hall hbad
    obtain ⟨n, rfl⟩ : ∃ n', n = n' + 1 := ⟨n - 1, by omega⟩
    obtain ⟨key, value, hk0, hkey, hval, hhash⟩ := hall 0 (Nat.succ_pos j0)
    have e0 : i + 2 * ((0 : Nat) : Int) = i := by simp
    rw [e0] at hkey hval
    have esucc : ∀ j : Nat, i + 2 * ((j + 1 : Nat) : Int) = i + 2 + 2 * (j : Int) := by
      intro j; push_cast; ring
    obtain ⟨res, hres⟩ := ih n (i + 2) (mapAssign acc hk0 (key, value)) (by omega)
      (fun j hj => by
        have := hall (j + 1) (Nat.succ_lt_succ hj)
        rw [esucc] at this
        exact this)
      (by rw [esucc] at hbad; exact hbad)
    refine ⟨res, ?_⟩
    rw [buildHashLoop]
    simp only [hkey, hval, hhash, Option.bind_eq_bind, Option.some_bind]
    exact hres

theorem cycle_OpHash (P : Params) (b : VM) (fn : CompiledFunction) (ip ip' : Int)
    (st : List Object) (sp sp' : Int) (gs : List Object) (h : Nat) (m N : Nat)
    (pairs : List (HashKey × Object × Object))
    (hb : b.framed) (hop : index fn.Instructions (ip + 1) = some (P.byte .OpHash))
    (hk : readOperand fn.Instructions (ip + 1) = some N)
    (hn : sp = m + N) (h1 : m < StackSize) (h2 : st.length = StackSize)
    (hloop : buildHashLoop P st ((N + 1) / 2) m [] = some (none, pairs))
    (hip : ip' = ip + 3) (hsp : sp' = m + 1) :
    (conf b ⟨fn, ip⟩ st sp gs h).cycle P = some (none,
      conf b ⟨fn, ip'⟩ (st.set m (.Hash h pairs)) sp' gs (h + 1)) := by
  subst hn hip hsp
  rw [conf_cycle P hb fn ip st _ gs h _ hop]
  simp only [VM.dispatch, hk, Option.bind_eq_bind, Option.some_bind, conf_addIp hb]
  have hbh : (conf b ⟨fn, ip + 1 + 2⟩ st (m + N) gs h).buildHash P ((m : Int) + N - N) (m + N)
      = some (.Hash h pairs, none, conf b ⟨fn, ip + 1 + 2⟩ st (m + N) gs (h + 1)) := by
    unfold VM.buildHash
    have e1 : (((m : Int) + N - ((m : Int) + N - N) + 1) / 2).toNat = (N + 1) / 2 := by
      rw [show (m : Int) + N - ((m : Int) + N - N) + 1 = ((N + 1 : Nat) : Int) by
        push_cast; ring]
      omega
    have e2 : (m : Int) + N - N = m := by ring
    show (buildHashLoop P st _ _ [] >>= _) = _
    rw [e1, e2, hloop]
    rfl
  have hbh' : (conf b ⟨fn, ip + 1 + 2⟩ st (m + N) gs h).buildHash P
      ((conf b ⟨fn, ip + 1 + 2⟩ st (m + N) gs h).sp - N)
      (conf b ⟨fn, ip + 1 + 2⟩ st (m + N) gs h).sp = _ := hbh
  rw [hbh']
  simp only [Option.some_bind]
  have hpush := conf_push b ⟨fn, ip + 1 + 2⟩ st m gs (h + 1)
    (.Hash h pairs) (by omega) (by exact_mod_cast h1) h2
  rw [Int.toNat_ofNat, show ip + 1 + 2 = ip + 3 by ring] at hpush
  rw [show ip + 1 + 2 = ip + 3 by ring]
  refine Eq.trans ?_ hpush
  congr 1
  show conf b ⟨fn, ip + 3⟩ st ((m : Int) + N - N) gs (h + 1) = _
  rw [show (m : Int) + N - N = m by ring]

theorem cycle_OpHash_error (P : Params) (b : VM) (fn : CompiledFunction) (ip : Int)
    (st : List Object) (sp : Int) (gs : List Object) (h : Nat) (m N : Nat)
    (pairs : List (HashKey × Object × Object)) (e : String)
    (hb : b.framed) (hop : index fn.Instructions (ip + 1) = some (P.byte .OpHash))
    (hk : readOperand fn.Instructions (ip + 1) = some N)
    (hn : sp = m + N)
    (hloop : buildHashLoop P st ((N + 1) / 2) m [] = some (some e, pairs)) :
    (conf b ⟨fn, ip⟩ st sp gs h).cycle P = some (some e, conf b ⟨fn, ip + 3⟩ st sp gs h) := by
  subst hn
  rw [conf_cycle P hb fn ip st _ gs h _ hop]
  simp only [VM.dispatch, hk, Option.bind_eq_bind, Option.some_bind, conf_addIp hb]
  have hbh : (conf b ⟨fn, ip + 1 + 2⟩ st (m + N) gs h).buildHash P ((m : Int) + N - N) (m + N)
      = some (.nil, some e, conf b ⟨fn, ip + 1 + 2⟩ st (m + N) gs h) := by
    unfold VM.buildHash
    have e1 : (((m : Int) + N - ((m : Int) + N - N) + 1) / 2).toNat = (N + 1) / 2 := by
      rw [show (m : Int) + N - ((m : Int) + N - N) + 1 = ((N + 1 : Nat) : Int) by
        push_cast; ring]
      omega
    have e2 : (m : Int) + N - N = m := by ring
    show (buildHashLoop P st _ _ [] >>= _) = _
    rw [e1, e2, hloop]
    rfl
  have hbh' : (conf b ⟨fn, ip + 1 + 2⟩ st (m + N) gs h).buildHash P
      ((conf b ⟨fn, ip + 1 + 2⟩ st (m + N) gs h).sp - N)
      (conf b ⟨fn, ip + 1 + 2⟩ st (m + N) gs h).sp = _ := hbh
  rw [hbh']
  simp only [Option.some_bind]
  rw [show ip + 1 + 2 = ip + 3 by ring]

/-- C24: with `N = 2 * m ≤ sp ≤ StackSize` (and a free slot when `N = 0`) and keys (the
slots `sp - N`, `sp - N + 2`, ...) that are all hashable, one cycle on `OpHash N` returns
no error, sets `sp` to `sp - N + 1` and stores in slot `sp - N` a new Hash with at most
`N / 2` entries, pairwise distinct hash keys, in which a hash key maps to the (key, value)
pair pushed last for it, and every entry is one of the pushed pairs; the slots below are
unchanged.  If a key is not hashable, `Run` returns `unusable as hash key: T` for the type
`T` of the first such key, with `sp` and the stack as before the instruction. -/
theorem C24_hash (P : Params) (vm : VM) (N m fuel : Nat)
    (hb : vm.nextByte = some (P.byte .OpHash)) (hk : vm.nextOperand = some N)
    (hm : N = 2 * m) (hN : (N : Int) ≤ vm.sp) (hsp : vm.sp ≤ StackSize)
    (hlen : vm.stack.length = StackSize) (hroom : N = 0 → vm.sp < StackSize) :
    ((∀ j : Nat, j < m → ∃ key hk, index vm.stack (vm.sp - N + 2 * j) = some key ∧
        key.hashKey P = some hk) →
      ∃ vm' pairs, vm.cycle P = some (none, vm') ∧ vm'.sp = vm.sp - N + 1 ∧
        index vm'.stack (vm.sp - N) = some (.Hash vm.heap pairs) ∧
        pairs.length ≤ N / 2 ∧ (pairs.map Prod.fst).Nodup ∧
        (∀ (j : Nat) (key value : Object) (hk : HashKey), j < m →
          index vm.stack (vm.sp - N + 2 * j) = some key →
          index vm.stack (vm.sp - N + 2 * j + 1) = some value →
          key.hashKey P = some hk →
          (∀ j' : Nat, j < j' → j' < m → ∀ key',
            index vm.stack (vm.sp - N + 2 * j') = some key' → key'.hashKey P ≠ some hk) →
          mapIndex pairs hk = some (key, value)) ∧
        (∀ hk pr, mapIndex pairs hk = some pr → ∃ j : Nat, j < m ∧
          index vm.stack (vm.sp - N + 2 * j) = some pr.1 ∧
          index vm.stack (vm.sp - N + 2 * j + 1) = some pr.2 ∧ pr.1.hashKey P = some hk) ∧
        (∀ i : Int, i < vm.sp - N → index vm'.stack i = index vm.stack i)) ∧
    (∀ (j0 : Nat) (key : Object) (T : ObjectType), j0 < m →
      index vm.stack (vm.sp - N + 2 * j0) = some key → key.hashKey P = none →
      key.typ = some T →
      (∀ j : Nat, j < j0 → ∃ key hk, index vm.stack (vm.sp - N + 2 * j) = some key ∧
        key.hashKey P = some hk) →
      ∃ vm', VM.Run P (fuel + 1) vm =
          .returned (some ("unusable as hash key: " ++ T)) vm' ∧
        vm'.sp = vm.sp ∧ vm'.stack = vm.stack) := by
  obtain ⟨fn, ip, hv, hfr, hcur, hbyte⟩ := as_conf hb
  have hk' : readOperand fn.Instructions (ip + 1) = some N := by
    simpa [VM.nextOperand, hcur, Frame.Instructions] using hk
  have h0 : 0 ≤ vm.sp - N := by omega
  have hs : ((vm.sp - N).toNat : Int) = vm.sp - N := Int.toNat_of_nonneg h0
  have hn : vm.sp = ((vm.sp - N).toNat : Int) + N := by omega
  have hiter : (N + 1) / 2 = m := by omega
  have hvalue : ∀ j : Nat, j < m → ∃ value, index vm.stack (vm.sp - N + 2 * j + 1) = some value :=
    fun j hj => index_some _ _ (by omega) (by rw [hlen]; omega)
  constructor
  · intro hkeys
    have hmlt : (vm.sp - N).toNat < StackSize := by
      by_cases hz : N = 0
      · have := hroom hz; omega
      · omega
    obtain ⟨pairs, hloop, hl, hnd, _, hlast, horig⟩ := buildHashLoop_ok P vm.stack m
      (vm.sp - N) [] (fun j hj => by
        obtain ⟨key, hk, h1, h2⟩ := hkeys j hj
        obtain ⟨value, h3⟩ := hvalue j hj
        exact ⟨key, value, hk, h1, h3, h2⟩)
    have hc := cycle_OpHash P vm fn ip (ip + 3) vm.stack vm.sp (vm.sp - N + 1) vm.globals
      vm.heap (vm.sp - N).toNat N pairs hfr hbyte hk' hn hmlt hlen
      (by rw [hiter, hs]; exact hloop) rfl (by omega)
    rw [← hv] at hc
    refine ⟨_, pairs, hc, rfl, index_set_same _ h0 (by rw [hlen]; omega), ?_, hnd List.nodup_nil,
      hlast, ?_, ?_⟩
    · have : pairs.length ≤ m := by simpa using hl
      omega
    · intro hk pr hpr
      rcases horig hk pr hpr with h | h
      · cases h
      · exact h
    · intro i hi
      show index (vm.stack.set _ _) _ = _
      exact index_set_other _ h0 (by omega)
  · intro j0 key T hj0 hkey hhash htyp hbefore
    obtain ⟨value, hval⟩ := hvalue j0 hj0
    obtain ⟨res, hloop⟩ := buildHashLoop_error P vm.stack T j0 m (vm.sp - N) [] hj0
      (fun j hj => by
        obtain ⟨key, hk, h1, h2⟩ := hbefore j hj
        obtain ⟨value, h3⟩ := hvalue j (by omega)
        exact ⟨key, value, hk, h1, h3, h2⟩)
      ⟨key, value, hkey, hval, hhash, htyp⟩
    have hc := cycle_OpHash_error P vm fn ip vm.stack vm.sp vm.globals vm.heap
      (vm.sp - N).toNat N res _ hfr hbyte hk' hn (by rw [hiter, hs]; exact hloop)
    rw [← hv] at hc
    exact ⟨_, Run_error P fuel hc, rfl, rfl⟩

/-- C24, a witness: `OpHash 4` on the pairs (1, 10) and (1, 20) gives a Hash with at most
two entries in which the key 1 maps to (1, 20). -/
theorem C24_witness :
    ∃ vm' pairs, hashTwice.cycle tableParams = some (none, vm') ∧ vm'.sp = 1 ∧
      index vm'.stack 0 = some (.Hash 21 pairs) ∧ pairs.length ≤ 2 ∧
      mapIndex pairs ⟨INTEGER_OBJ, 1⟩ = some (.Integer 12 1, .Integer 13 20) := by
  have hidx := machine_index [] [tableParams.byte .OpHash, 0, 4] (-1)
    [.Integer 10 1, .Integer 11 10, .Integer 12 1, .Integer 13 20] 20
  obtain ⟨vm', pairs, hc, hsp, hres, hl, _, hlast, _⟩ := (C24_hash tableParams hashTwice 4 2 0
    (by rw [hashTwice, machine_nextByte]; rfl)
    (by simp only [VM.nextOperand, hashTwice, machine_currentFrame]; rfl)
    rfl (by simp [hashTwice]) (by simp [hashTwice, StackSize])
    (machine_length _ _ _ _ _ (by simp [StackSize])) (by intro h; cases h)).1
    (by
      intro j hj
      have hj' : j = 0 ∨ j = 1 := by omega
      rcases hj' with e | e <;> subst e
      · exact ⟨.Integer 10 1, ⟨INTEGER_OBJ, 1⟩, hidx 0 (by simp), rfl⟩
      · exact ⟨.Integer 12 1, ⟨INTEGER_OBJ, 1⟩, hidx 2 (by simp), rfl⟩)
  refine ⟨vm', pairs, hc, by simpa [hashTwice] using hsp, by simpa [hashTwice] using hres, hl,
    ?_⟩
  exact hlast 1 (.Integer 12 1) (.Integer 13 20) ⟨INTEGER_OBJ, 1⟩ (by decide)
    (hidx 2 (by simp)) (hidx 3 (by simp)) rfl (by intro j' h1 h2; omega)

theorem slot (st : List Object) (n : Nat) (o : Object) (h : st[n]? = some o) :
    index st (n : Int) = some o := by
  rw [index_of_nat]; exact h

theorem cycle_arith_conf (P : Params) (b : VM) (fn : CompiledFunction) (ip ip' : Int)
    (st : List Object) (sp sp' : Int) (gs : List Object) (h : Nat) (n : Nat) (op : Opcode)
    (x y : Int) (kx ky : Nat)
    (hb : b.framed) (hop : index fn.Instructions (ip + 1) = some (P.byte op))
    (hcase : op = .OpAdd ∨ op = .OpSub ∨ op = .OpMul ∨ op = .OpDiv)
    (hn : sp = n + 2) (h2 : st.length = StackSize)
    (hl : index st n = some (.Integer kx x)) (hr : index st (n + 1) = some (.Integer ky y))
    (hdiv : op = .OpDiv → y ≠ 0)
    (hip : ip' = ip + 1) (hsp : sp' = sp - 1) :
    (conf b ⟨fn, ip⟩ st sp gs h).cycle P = some (none,
      conf b ⟨fn, ip'⟩ (st.set n (.Integer h (wrap64 (arith op x y)))) sp' gs (h + 1)) := by
  subst hip hsp hn
  rw [conf_cycle P hb fn ip st _ gs h _ hop, dispatch_binary P _ _ _ op hcase]
  have hl' : index (conf b ⟨fn, ip + 1⟩ st ((n : Int) + 2) gs h).stack
      ((conf b ⟨fn, ip + 1⟩ st ((n : Int) + 2) gs h).sp - 2) = some (.Integer kx x) := by
    show index st ((n : Int) + 2 - 2) = _
    rw [show (n : Int) + 2 - 2 = n by ring]; exact hl
  have hr' : index (conf b ⟨fn, ip + 1⟩ st ((n : Int) + 2) gs h).stack
      ((conf b ⟨fn, ip + 1⟩ st ((n : Int) + 2) gs h).sp - 1) = some (.Integer ky y) := by
    show index st ((n : Int) + 2 - 1) = _
    rw [show (n : Int) + 2 - 1 = n + 1 by ring]; exact hr
  rw [executeBinaryOperation_integer P _ op x y kx ky hcase h2 hl' hr' hdiv]
  show some (none, conf b ⟨fn, ip + 1⟩ (st.set ((n : Int) + 2 - 2).toNat _) _ gs (h + 1)) = _
  rw [show (n : Int) + 2 - 2 = n by ring, Int.toNat_ofNat]
  rfl

theorem executeIndexExpression_array (P : Params) (vm : VM) (k ki : Nat) (es : List Object)
    (i : Int) :
    vm.executeIndexExpression P (.Array k es) (.Integer ki i) =
      vm.push ((index es i).getD Null) := by
  unfold VM.executeIndexExpression
  simp only [Object.typ, Option.bind_eq_bind, Option.some_bind, if_true, decide_True]
  unfold VM.executeArrayIndex
  simp only [integerValue, Option.bind_eq_bind, Option.some_bind]
  by_cases hi : i < 0 ∨ i > (es.length : Int) - 1
  · rw [if_pos hi]
    have : index es i = none := by
      unfold index
      rcases hi with h | h
      · rw [if_neg (by omega)]
      · rw [if_pos (by omega)]
        exact List.getElem?_eq_none (by omega)
    rw [this]; rfl
  · rw [if_neg hi]
    obtain ⟨e, he⟩ := index_some es i (by omega) (by omega)
    rw [he]; rfl

theorem executeIndexExpression_hash (P : Params) (vm : VM) (k : Nat)
    (pairs : List (HashKey × Object × Object)) (idx : Object) (hk : HashKey)
    (h : idx.hashKey P = some hk) :
    vm.executeIndexExpression P (.Hash k pairs) idx =
      vm.push (((mapIndex pairs hk).map Prod.snd).getD Null) := by
  unfold VM.executeIndexExpression
  simp only [Object.typ, Option.bind_eq_bind, Option.some_bind]
  rw [if_neg (by decide)]
  simp only [Option.some_bind, if_true]
  rw [if_neg (by simp)]
  unfold VM.executeHashIndex
  simp only [h]
  cases mapIndex pairs hk <;> rfl

theorem executeIndexExpression_unhashable (P : Params) (vm : VM) (k : Nat)
    (pairs : List (HashKey × Object × Object)) (idx : Object) (T : ObjectType)
    (h : idx.hashKey P = none) (hT : idx.typ = some T) :
    vm.executeIndexExpression P (.Hash k pairs) idx =
      some (some ("unusable as hash key: " ++ T), vm) := by
  unfold VM.executeIndexExpression
  simp only [Object.typ, Option.bind_eq_bind, Option.some_bind]
  rw [if_neg (by decide)]
  simp only [Option.some_bind, if_true]
  rw [if_neg (by simp)]
  unfold VM.executeHashIndex
  simp only [h, hT, Option.bind_eq_bind, Option.some_bind]

theorem cycle_OpIndex_pops (P : Params) (b : VM) (fn : CompiledFunction) (ip : Int)
    (st : List Object) (sp : Int) (gs : List Object) (h : Nat) (n : Nat) (l r : Object)
    (hb : b.framed) (hop : index fn.Instructions (ip + 1) = some (P.byte .OpIndex))
    (hn : sp = n + 2) (hl : index st n = some l) (hr : index st (n + 1) = some r) :
    (conf b ⟨fn, ip⟩ st sp gs h).cycle P =
      (conf b ⟨fn, ip + 1⟩ st n gs h).executeIndexExpression P l r := by
  rw [conf_cycle P hb fn ip st _ gs h _ hop]
  have hpp := conf_pop_two b ⟨fn, ip + 1⟩ st sp gs h n _ _ hn hl hr
  simp only [VM.dispatch, hpp.1, hpp.2, Option.bind_eq_bind, Option.some_bind]

theorem cycle_OpIndex (P : Params) (b : VM) (fn : CompiledFunction) (ip ip' : Int)
    (st : List Object) (sp sp' : Int) (gs : List Object) (h : Nat) (n : Nat) (l r v : Object)
    (hb : b.framed) (hop : index fn.Instructions (ip + 1) = some (P.byte .OpIndex))
    (hn : sp = n + 2) (h2 : st.length = StackSize)
    (hl : index st n = some l) (hr : index st (n + 1) = some r)
    (hres : ∀ vm : VM, vm.executeIndexExpression P l r = vm.push v)
    (hip : ip' = ip + 1) (hsp : sp' = sp - 1) :
    (conf b ⟨fn, ip⟩ st sp gs h).cycle P = some (none,
      conf b ⟨fn, ip'⟩ (st.set n v) sp' gs h) := by
  subst hip hsp
  have hlt := (index_eq_some hr).2.1
  rw [cycle_OpIndex_pops P b fn ip st sp gs h n l r hb hop hn hl hr, hres,
    conf_push b ⟨fn, ip + 1⟩ st n gs h v (by omega) (by omega) h2, Int.toNat_ofNat,
    show sp - 1 = (n : Int) + 1 by omega]

theorem run_arrayIndex (P : Params) (b : VM) (fn : CompiledFunction) (st gs : List Object)
    (h fuel : Nat) (k1 k2 k3 k4 k5 : Nat) (hb : b.framed)
    (hins : fn.Instructions = arrayIndex P)
    (hcs : b.constants = [.Integer k1 1, .Integer k2 2, .Integer k3 3, .Integer k4 1,
      .Integer k5 1])
    (hlen : st.length = StackSize) :
    ∃ st', VM.Run P (fuel + 10) (conf b ⟨fn, -1⟩ st 0 gs h) =
      .returned none (conf b ⟨fn, 20⟩ st' 0 gs (h + 2)) ∧ index st' 0 = some (.Integer k3 3) := by
  have hes : ((((st.set 0 (.Integer k1 1)).set 1 (.Integer k2 2)).set 2 (.Integer k3 3)).drop
      0).take 3 = [.Integer k1 1, .Integer k2 2, .Integer k3 3] := by
    have h3 : 3 ≤ st.length := by rw [hlen]; decide
    match st, h3 with
    | a :: b :: c :: rest, _ => rfl
  refine ⟨((((((((st.set 0 (.Integer k1 1)).set 1 (.Integer k2 2)).set 2 (.Integer k3 3)).set 0
    (.Array h [.Integer k1 1, .Integer k2 2, .Integer k3 3])).set 1 (.Integer k4 1)).set 2
    (.Integer k5 1)).set 1 (.Integer (h + 1) (wrap64 (arith .OpAdd 1 1)))).set 0
    (.Integer k3 3)), ?_, ?_⟩
  · rw [Run_continue P (fuel + 9) (cycle_OpConstant P b fn (-1) 2 st 0 1 gs h 0 0 (.Integer k1 1)
        hb (by rw [hins]; rfl) (by rw [hins]; rfl) (by rw [hcs]; rfl) rfl (by decide) hlen
        (by decide) (by decide)),
      Run_continue P (fuel + 8) (cycle_OpConstant P b fn 2 5 _ 1 2 gs h 1 1 (.Integer k2 2) hb
        (by rw [hins]; rfl) (by rw [hins]; rfl) (by rw [hcs]; rfl) rfl (by decide)
        (by simp [hlen]) (by decide) (by decide)),
      Run_continue P (fuel + 7) (cycle_OpConstant P b fn 5 8 _ 2 3 gs h 2 2 (.Integer k3 3) hb
        (by rw [hins]; rfl) (by rw [hins]; rfl) (by rw [hcs]; rfl) rfl (by decide)
        (by simp [hlen]) (by decide) (by decide)),
      Run_continue P (fuel + 6) (cycle_OpArray P b fn 8 11 _ 3 1 gs h 0 3 hb
        (by rw [hins]; rfl) (by rw [hins]; rfl) (by decide) (by decide) (by decide)
        (by simp [hlen]) (by decide) (by decide)),
      hes,
      Run_continue P (fuel + 5) (cycle_OpConstant P b fn 11 14 _ 1 2 gs (h + 1) 1 3
        (.Integer k4 1) hb (by rw [hins]; rfl) (by rw [hins]; rfl) (by rw [hcs]; rfl) rfl
        (by decide) (by simp [hlen]) (by decide) (by decide)),
      Run_continue P (fuel + 4) (cycle_OpConstant P b fn 14 17 _ 2 3 gs (h + 1) 2 4
        (.Integer k5 1) hb (by rw [hins]; rfl) (by rw [hins]; rfl) (by rw [hcs]; rfl) rfl
        (by decide) (by simp [hlen]) (by decide) (by decide)),
      Run_continue P (fuel + 3) (cycle_arith_conf P b fn 17 18 _ 3 2 gs (h + 1) 1 .OpAdd 1 1
        k4 k5 hb (by rw [hins]; rfl) (by simp) (by decide) (by simp [hlen])
        (slot _ 1 _ (by simp [List.getElem?_set, hlen, StackSize]))
        (slot _ 2 _ (by simp [List.getElem?_set, hlen, StackSize]))
        (by intro e; cases e) (by decide) (by decide)),
      Run_continue P (fuel + 2) (cycle_OpIndex P b fn 18 19 _ 2 1 gs (h + 1 + 1) 0
        (.Array h [.Integer k1 1, .Integer k2 2, .Integer k3 3])
        (.Integer (h + 1) (wrap64 (arith .OpAdd 1 1))) (.Integer k3 3) hb (by rw [hins]; rfl)
        (by decide) (by simp [hlen])
        (slot _ 0 _ (by simp [List.getElem?_set, hlen, StackSize]))
        (slot _ 1 _ (by simp [List.getElem?_set, hlen, StackSize]))
        (fun vm => by rw [executeIndexExpression_array]; rfl) (by decide) (by decide)),
      Run_continue P (fuel + 1) (cycle_OpPop P b fn 19 20 _ 1 0 gs (h + 1 + 1) (.Integer k3 3) hb
        (by rw [hins]; rfl)
        (slot _ 0 _ (by simp [List.getElem?_set, hlen, StackSize])) (by decide) (by decide)),
      Run_halt P hb fn 20 _ 0 gs (h + 1 + 1) fuel (by rw [hins]; rfl)]
  · exact slot _ 0 _ (by simp [List.getElem?_set, hlen, StackSize])

theorem buildHashLoop_one (P : Params) (st : List Object) (i : Int) (key value : Object)
    (hk : HashKey) (h1 : index st i = some key) (h2 : index st (i + 1) = some value)
    (h3 : key.hashKey P = some hk) :
    buildHashLoop P st 1 i [] = some (none, mapAssign [] hk (key, value)) := by
  rw [buildHashLoop]
  simp only [h1, h2, h3, Option.bind_eq_bind, Option.some_bind]
  rfl

theorem run_hashIndex (P : Params) (b : VM) (fn : CompiledFunction) (st gs : List Object)
    (h fuel : Nat) (k1 k2 k3 k4 : Nat) (hb : b.framed)
    (hins : fn.Instructions = hashIndex P)
    (hcs : b.constants = [.Integer k1 1, .Integer k2 2, .Integer k3 2, .Integer k4 1])
    (hlen : st.length = StackSize) :
    ∃ st', VM.Run P (fuel + 9) (conf b ⟨fn, -1⟩ st 0 gs h) =
      .returned none (conf b ⟨fn, 17⟩ st' 0 gs (h + 2)) ∧ index st' 0 = some (.Integer k2 2) := by
  refine ⟨(((((((st.set 0 (.Integer k1 1)).set 1 (.Integer k2 2)).set 0
    (.Hash h (mapAssign [] ⟨INTEGER_OBJ, 1⟩ (.Integer k1 1, .Integer k2 2)))).set 1
    (.Integer k3 2)).set 2 (.Integer k4 1)).set 1
    (.Integer (h + 1) (wrap64 (arith .OpSub 2 1)))).set 0 (.Integer k2 2)), ?_, ?_⟩
  · rw [Run_continue P (fuel + 8) (cycle_OpConstant P b fn (-1) 2 st 0 1 gs h 0 0 (.Integer k1 1)
        hb (by rw [hins]; rfl) (by rw [hins]; rfl) (by rw [hcs]; rfl) rfl (by decide) hlen
        (by decide) (by decide)),
      Run_continue P (fuel + 7) (cycle_OpConstant P b fn 2 5 _ 1 2 gs h 1 1 (.Integer k2 2) hb
        (by rw [hins]; rfl) (by rw [hins]; rfl) (by rw [hcs]; rfl) rfl (by decide)
        (by simp [hlen]) (by decide) (by decide)),
      Run_continue P (fuel + 6) (cycle_OpHash P b fn 5 8 _ 2 1 gs h 0 2
        (mapAssign [] ⟨INTEGER_OBJ, 1⟩ (.Integer k1 1, .Integer k2 2)) hb
        (by rw [hins]; rfl) (by rw [hins]; rfl) (by decide) (by decide) (by simp [hlen])
        (buildHashLoop_one P _ _ (.Integer k1 1) (.Integer k2 2) ⟨INTEGER_OBJ, 1⟩
          (slot _ 0 _ (by simp [List.getElem?_set, hlen, StackSize]))
          (slot _ 1 _ (by simp [List.getElem?_set, hlen, StackSize])) rfl)
        (by decide) (by decide)),
      Run_continue P (fuel + 5) (cycle_OpConstant P b fn 8 11 _ 1 2 gs (h + 1) 1 2
        (.Integer k3 2) hb (by rw [hins]; rfl) (by rw [hins]; rfl) (by rw [hcs]; rfl) rfl
        (by decide) (by simp [hlen]) (by decide) (by decide)),
      Run_continue P (fuel + 4) (cycle_OpConstant P b fn 11 14 _ 2 3 gs (h + 1) 2 3
        (.Integer k4 1) hb (by rw [hins]; rfl) (by rw [hins]; rfl) (by rw [hcs]; rfl) rfl
        (by decide) (by simp [hlen]) (by decide) (by decide)),
      Run_continue P (fuel + 3) (cycle_arith_conf P b fn 14 15 _ 3 2 gs (h + 1) 1 .OpSub 2 1
        k3 k4 hb (by rw [hins]; rfl) (by simp) (by decide) (by simp [hlen])
        (slot _ 1 _ (by simp [List.getElem?_set, hlen, StackSize]))
        (slot _ 2 _ (by simp [List.getElem?_set, hlen, StackSize]))
        (by intro e; cases e) (by decide) (by decide)),
      Run_continue P (fuel + 2) (cycle_OpIndex P b fn 15 16 _ 2 1 gs (h + 1 + 1) 0
        (.Hash h (mapAssign [] ⟨INTEGER_OBJ, 1⟩ (.Integer k1 1, .Integer k2 2)))
        (.Integer (h + 1) (wrap64 (arith .OpSub 2 1))) (.Integer k2 2) hb (by rw [hins]; rfl)
        (by decide) (by simp [hlen])
        (slot _ 0 _ (by simp [List.getElem?_set, hlen, StackSize]))
        (slot _ 1 _ (by simp [List.getElem?_set, hlen, StackSize]))
        (fun vm => by
          rw [executeIndexExpression_hash P vm h _
            (.Integer (h + 1) (wrap64 (arith .OpSub 2 1))) ⟨INTEGER_OBJ, 1⟩ rfl]
          rfl)
        (by decide) (by decide)),
      Run_continue P (fuel + 1) (cycle_OpPop P b fn 16 17 _ 1 0 gs (h + 1 + 1) (.Integer k2 2) hb
        (by rw [hins]; rfl)
        (slot _ 0 _ (by simp [List.getElem?_set, hlen, StackSize])) (by decide) (by decide)),
      Run_halt P hb fn 17 _ 0 gs (h + 1 + 1) fuel (by rw [hins]; rfl)]
  · exact slot _ 0 _ (by simp [List.getElem?_set, hlen, StackSize])

/-- C21: with an Array of elements `es` below an Integer index `i` on top of the stack, one
cycle on OpIndex returns no error, lowers `sp` by exactly one and leaves in the slot of
the Array the element `es[i]` when `0 ≤ i < len(es)` and the canonical Null when `i < 0`
or `i ≥ len(es)` (so for every index into the empty Array); the slots below are
unchanged.  `Run` on the bytecode of `[1, 2, 3][1 + 1]` ends with last popped value
Integer 3. -/
theorem C21_array_index (P : Params) (vm : VM) (k ki : Nat) (es : List Object) (i : Int)
    (k1 k2 k3 k4 k5 heap fuel : Nat)
    (hb : vm.nextByte = some (P.byte .OpIndex))
    (hlen : vm.stack.length = StackSize)
    (hl : index vm.stack (vm.sp - 2) = some (.Array k es))
    (hr : index vm.stack (vm.sp - 1) = some (.Integer ki i)) :
    (∃ vm', vm.cycle P = some (none, vm') ∧ vm'.sp = vm.sp - 1 ∧
      (0 ≤ i → i < es.length → ∃ e, index es i = some e ∧
        index vm'.stack (vm.sp - 2) = some e) ∧
      (i < 0 ∨ i ≥ es.length → index vm'.stack (vm.sp - 2) = some Null) ∧
      (es = [] → index vm'.stack (vm.sp - 2) = some Null) ∧
      (∀ j : Int, j < vm.sp - 2 → index vm'.stack j = index vm.stack j)) ∧
    (∃ vm', VM.Run P (fuel + 10) (New ⟨arrayIndex P, [.Integer k1 1, .Integer k2 2,
        .Integer k3 3, .Integer k4 1, .Integer k5 1]⟩ heap) = .returned none vm' ∧
      vm'.LastPoppedStackElem = some (.Integer k3 3)) := by
  constructor
  · obtain ⟨fn, ip, hv, hfr, _, hbyte⟩ := as_conf hb
    have h1 := index_eq_some hl
    have hn : vm.sp = ((vm.sp - 2).toNat : Int) + 2 := by omega
    have hs : ((vm.sp - 2).toNat : Int) = vm.sp - 2 := Int.toNat_of_nonneg h1.1
    have hc := cycle_OpIndex P vm fn ip (ip + 1) vm.stack vm.sp (vm.sp - 1) vm.globals vm.heap
      (vm.sp - 2).toNat (.Array k es) (.Integer ki i) ((index es i).getD Null) hfr hbyte hn hlen
      (by rw [hs]; exact hl) (by rw [hs, show vm.sp - 2 + 1 = vm.sp - 1 by ring]; exact hr)
      (fun vm => executeIndexExpression_array P vm k ki es i) rfl rfl
    rw [← hv] at hc
    have hres : index (vm.stack.set (vm.sp - 2).toNat ((index es i).getD Null)) (vm.sp - 2)
        = some ((index es i).getD Null) := index_set_same _ h1.1 h1.2.1
    have hout : i < 0 ∨ i ≥ es.length → index es i = none := by
      intro h
      unfold index
      rcases h with h | h
      · rw [if_neg (by omega)]
      · rw [if_pos (by omega)]
        exact List.getElem?_eq_none (by omega)
    refine ⟨_, hc, rfl, ?_, ?_, ?_, ?_⟩
    · intro h0 hlt
      obtain ⟨e, he⟩ := index_some es i h0 hlt
      refine ⟨e, he, ?_⟩
      show index (vm.stack.set _ _) _ = _
      rw [hres, he]; rfl
    · intro h
      show index (vm.stack.set _ _) _ = _
      rw [hres, hout h]; rfl
    · intro h
      show index (vm.stack.set _ _) _ = _
      have : i < 0 ∨ i ≥ es.length := by
        rw [h]; simp only [List.length_nil, Nat.cast_zero]; omega
      rw [hres, hout this]; rfl
    · intro j hj
      show index (vm.stack.set _ _) _ = _
      exact index_set_other _ h1.1 (by omega)
  · obtain ⟨st', hrun, hlast⟩ := run_arrayIndex P (New ⟨arrayIndex P, [.Integer k1 1,
      .Integer k2 2, .Integer k3 3, .Integer k4 1, .Integer k5 1]⟩ heap)
      ⟨heap, arrayIndex P, 0, 0⟩ (List.replicate StackSize Object.nil)
      (List.replicate GlobalsSize Object.nil) (heap + 1) fuel k1 k2 k3 k4 k5 (New_framed _ _) rfl
      rfl (List.length_replicate _ _)
    rw [← New_conf] at hrun
    exact ⟨_, hrun, hlast⟩

/-- C21, a witness: index 5 into an Array of two elements gives Null. -/
theorem C21_witness :
    ∃ vm', (machine [] [tableParams.byte .OpIndex] (-1)
        [.Array 10 [.Integer 11 7, .Integer 12 8], .Integer 13 5] 20).cycle tableParams
        = some (none, vm') ∧ vm'.sp = 1 ∧ index vm'.stack 0 = some Null := by
  obtain ⟨vm', hc, hsp, _, hout, _⟩ := (C21_array_index tableParams
    (machine [] [tableParams.byte .OpIndex] (-1)
      [.Array 10 [.Integer 11 7, .Integer 12 8], .Integer 13 5] 20)
    10 13 [.Integer 11 7, .Integer 12 8] 5 0 0 0 0 0 0 0
    (by rw [machine_nextByte]; rfl)
    (machine_length _ _ _ _ _ (by simp [StackSize]))
    (machine_index _ _ _ _ _ 0 (by simp)) (machine_index _ _ _ _ _ 1 (by simp))).1
  exact ⟨vm', hc, by simpa using hsp, by simpa using hout (Or.inr (by simp))⟩

/-- C22: with a Hash below an index value `idx` on top of the stack: if `idx` is hashable
(exactly the Integers, Booleans and Strings), one cycle on OpIndex returns no error, lowers
`sp` by one and leaves in the slot of the Hash the value stored under the hash key of
`idx`, or the canonical Null if there is no entry for that key; if `idx` is not hashable,
`Run` returns the error `unusable as hash key: T` for the type `T` of `idx`, both operands
popped and nothing pushed.  `Run` on the bytecode of `{1: 2}[2 - 1]` ends with last popped
value Integer 2. -/
theorem C22_hash_index (P : Params) (vm : VM) (k : Nat)
    (pairs : List (HashKey × Object × Object)) (idx : Object)
    (k1 k2 k3 k4 heap fuel : Nat)
    (hb : vm.nextByte = some (P.byte .OpIndex))
    (hlen : vm.stack.length = StackSize)
    (hl : index vm.stack (vm.sp - 2) = some (.Hash k pairs))
    (hr : index vm.stack (vm.sp - 1) = some idx) :
    (∀ hk, idx.hashKey P = some hk → ∃ vm', vm.cycle P = some (none, vm') ∧
      vm'.sp = vm.sp - 1 ∧
      (∀ pr, mapIndex pairs hk = some pr → index vm'.stack (vm.sp - 2) = some pr.2) ∧
      (mapIndex pairs hk = none → index vm'.stack (vm.sp - 2) = some Null) ∧
      (∀ j : Int, j < vm.sp - 2 → index vm'.stack j = index vm.stack j)) ∧
    (∀ T, idx.hashKey P = none → idx.typ = some T → ∃ vm', VM.Run P (fuel + 1) vm =
        .returned (some ("unusable as hash key: " ++ T)) vm' ∧
      vm'.sp = vm.sp - 2 ∧ vm'.stack = vm.stack) ∧
    ((idx.hashKey P).isSome = true ↔ idx.typ = some INTEGER_OBJ ∨ idx.typ = some BOOLEAN_OBJ ∨
      idx.typ = some STRING_OBJ) ∧
    (∃ vm', VM.Run P (fuel + 9) (New ⟨hashIndex P, [.Integer k1 1, .Integer k2 2,
        .Integer k3 2, .Integer k4 1]⟩ heap) = .returned none vm' ∧
      vm'.LastPoppedStackElem = some (.Integer k2 2)) := by
  obtain ⟨fn, ip, hv, hfr, _, hbyte⟩ := as_conf hb
  have h1 := index_eq_some hl
  have hn : vm.sp = ((vm.sp - 2).toNat : Int) + 2 := by omega
  have hs : ((vm.sp - 2).toNat : Int) = vm.sp - 2 := Int.toNat_of_nonneg h1.1
  have hl' : index vm.stack ((vm.sp - 2).toNat : Int) = some (.Hash k pairs) := by
    rw [hs]; exact hl
  have hr' : index vm.stack (((vm.sp - 2).toNat : Int) + 1) = some idx := by
    rw [hs, show vm.sp - 2 + 1 = vm.sp - 1 by ring]; exact hr
  refine ⟨?_, ?_, ?_, ?_⟩
  · intro hk hhash
    have hc := cycle_OpIndex P vm fn ip (ip + 1) vm.stack vm.sp (vm.sp - 1) vm.globals vm.heap
      (vm.sp - 2).toNat (.Hash k pairs) idx (((mapIndex pairs hk).map Prod.snd).getD Null)
      hfr hbyte hn hlen hl' hr'
      (fun vm => executeIndexExpression_hash P vm k pairs idx hk hhash) rfl rfl
    rw [← hv] at hc
    have hres : index (vm.stack.set (vm.sp - 2).toNat
        (((mapIndex pairs hk).map Prod.snd).getD Null)) (vm.sp - 2)
        = some (((mapIndex pairs hk).map Prod.snd).getD Null) :=
      index_set_same _ h1.1 h1.2.1
    refine ⟨_, hc, rfl, ?_, ?_, ?_⟩
    · intro pr hpr
      show index (vm.stack.set _ _) _ = _
      rw [hres, hpr]; rfl
    · intro hnone
      show index (vm.stack.set _ _) _ = _
      rw [hres, hnone]; rfl
    · intro j hj
      show index (vm.stack.set _ _) _ = _
      exact index_set_other _ h1.1 (by omega)
  · intro T hhash hT
    have hc := cycle_OpIndex_pops P vm fn ip vm.stack vm.sp vm.globals vm.heap
      (vm.sp - 2).toNat (.Hash k pairs) idx hfr hbyte hn hl' hr'
    rw [← hv, executeIndexExpression_unhashable P _ k pairs idx T hhash hT] at hc
    refine ⟨_, Run_error P fuel hc, ?_, rfl⟩
    show ((vm.sp - 2).toNat : Int) = _
    exact hs
  · cases idx <;> simp [Object.hashKey, Object.typ, INTEGER_OBJ, BOOLEAN_OBJ, STRING_OBJ,
      NULL_OBJ, ARRAY_OBJ, HASH_OBJ, COMPILED_FUNCTION_OBJ, CLOSURE_OBJ, BUILTIN_OBJ, ERROR_OBJ]
  · obtain ⟨st', hrun, hlast⟩ := run_hashIndex P (New ⟨hashIndex P, [.Integer k1 1,
      .Integer k2 2, .Integer k3 2, .Integer k4 1]⟩ heap)
      ⟨heap, hashIndex P, 0, 0⟩ (List.replicate StackSize Object.nil)
      (List.replicate GlobalsSize Object.nil) (heap + 1) fuel k1 k2 k3 k4 (New_framed _ _) rfl
      rfl (List.length_replicate _ _)
    rw [← New_conf] at hrun
    exact ⟨_, hrun, hlast⟩

/-- C22, a witness: an Array as index into a Hash makes `Run` return
`unusable as hash key: ARRAY`. -/
theorem C22_witness :
    ∃ vm', VM.Run tableParams 1 (machine [] [tableParams.byte .OpIndex] (-1)
        [.Hash 10 [], .Array 11 []] 20) = .returned (some "unusable as hash key: ARRAY") vm' ∧
      vm'.sp = 0 := by
  obtain ⟨vm', hc, hsp, _⟩ := (C22_hash_index tableParams
    (machine [] [tableParams.byte .OpIndex] (-1) [.Hash 10 [], .Array 11 []] 20)
    10 [] (.Array 11 []) 0 0 0 0 0 0
    (by rw [machine_nextByte]; rfl)
    (machine_length _ _ _ _ _ (by simp [StackSize]))
    (machine_index _ _ _ _ _ 0 (by simp)) (machine_index _ _ _ _ _ 1 (by simp))).2.1
    ARRAY_OBJ rfl rfl
  exact ⟨vm', hc, by simpa using hsp⟩

theorem cycle_OpCall_overflow (P : Params) (vm : VM) (f : Frame) (fn : CompiledFunction)
    (hf : vm.currentFrame = some f)
    (hb : vm.nextByte = some (P.byte .OpCall))
    (hc : index vm.stack (vm.sp - 1) = some (.CompiledFunction fn))
    (hfi : (vm.frames.length : Int) ≤ vm.frameIndex) :
    vm.cycle P = none := by
  rw [cycle_fetch P hf hb]
  have hc2 : index (vm.withIp f (f.ip + 1)).stack ((vm.withIp f (f.ip + 1)).sp - 1)
      = some (.CompiledFunction fn) := hc
  have ha : assign (vm.withIp f (f.ip + 1)).frames (vm.withIp f (f.ip + 1)).frameIndex
      (some (NewFrame fn)) = none := by
    unfold assign
    rw [if_neg]
    intro h
    have h2 : vm.frameIndex < ((vm.frames.set (vm.frameIndex - 1).toNat
      (some { f with ip := f.ip + 1 })).length : Int) := h.2
    rw [List.length_set] at h2
    omega
  simp only [VM.dispatch, hc2, Option.bind_eq_bind, Option.some_bind, VM.pushFrame, ha,
    Option.none_bind]

theorem entered_currentFrame (vm : VM) (f : Frame) (fn : CompiledFunction)
    (h0 : 0 ≤ vm.frameIndex) (hfi : vm.frameIndex < vm.frames.length) :
    (vm.entered f fn).currentFrame = some ⟨fn, -1⟩ := by
  unfold VM.currentFrame
  show (index ((vm.frames.set (vm.frameIndex - 1).toNat (some ⟨f.fn, f.ip + 1⟩)).set
    vm.frameIndex.toNat (some (NewFrame fn))) (vm.frameIndex + 1 - 1)).bind _ = _
  rw [show vm.frameIndex + 1 - 1 = vm.frameIndex by ring,
    index_set_same _ h0 (by rw [List.length_set]; exact hfi)]
  rfl

theorem entered_frames_length (vm : VM) (f : Frame) (fn : CompiledFunction) :
    (vm.entered f fn).frames.length = vm.frames.length := by
  show ((vm.frames.set _ _).set _ _).length = _
  rw [List.length_set, List.length_set]

theorem deep_getGlobal (P : Params) (vm : VM) (a : Nat) (n : Nat)
    (hd : vm.deep ⟨a, callSelf P, 0, 0⟩ n) (hn : n ≤ MaxFrame) :
    vm.cycle P = some (none, conf vm ⟨⟨a, callSelf P, 0, 0⟩, 2⟩
      (vm.stack.set (n - 1) (.CompiledFunction ⟨a, callSelf P, 0, 0⟩)) n vm.globals vm.heap) := by
  obtain ⟨hfi, hcur, hfl, hsp, hsl, hg, h2⟩ := hd
  have hfr := framed_of_currentFrame hcur
  have hv := eq_conf hcur
  have hc := cycle_OpGetGlobal P vm ⟨a, callSelf P, 0, 0⟩ (-1) 2 vm.stack vm.sp n vm.globals
    vm.heap (n - 1) 0 (.CompiledFunction ⟨a, callSelf P, 0, 0⟩) hfr rfl rfl hg
    (by rw [hsp]; omega) (by unfold MaxFrame at hn; unfold StackSize; omega) hsl (by decide)
    (by rw [hsp]; ring)
  rw [← hv] at hc
  exact hc

theorem deep_step (P : Params) (vm : VM) (a : Nat) (n : Nat)
    (hd : vm.deep ⟨a, callSelf P, 0, 0⟩ n) (hn : n < MaxFrame) :
    ∃ vm1 vm2, vm.cycle P = some (none, vm1) ∧ vm1.cycle P = some (none, vm2) ∧
      vm2.deep ⟨a, callSelf P, 0, 0⟩ (n + 1) := by
  have hc1 := deep_getGlobal P vm a n hd (le_of_lt hn)
  obtain ⟨hfi, hcur, hfl, hsp, hsl, hg, h2⟩ := hd
  have hfr := framed_of_currentFrame hcur
  have hlen1 : (vm.frames.set (vm.frameIndex - 1).toNat
      (some (⟨⟨a, callSelf P, 0, 0⟩, 2⟩ : Frame))).length = MaxFrame := by
    rw [List.length_set]; exact hfl
  have hcur1 := conf_currentFrame hfr ⟨⟨a, callSelf P, 0, 0⟩, 2⟩
    (vm.stack.set (n - 1) (.CompiledFunction ⟨a, callSelf P, 0, 0⟩)) n vm.globals vm.heap
  have hc2 := cycle_OpCall P _ ⟨⟨a, callSelf P, 0, 0⟩, 2⟩ ⟨a, callSelf P, 0, 0⟩ hcur1
    (by rw [conf_nextByte hfr]; rfl)
    (by
      show index (vm.stack.set (n - 1) _) ((n : Int) - 1) = _
      rw [show (n : Int) - 1 = ((n - 1 : Nat) : Int) by omega]
      exact index_set_nat_same _ _ _ (by rw [hsl]; unfold MaxFrame at hn; unfold StackSize; omega))
    (by
      show vm.frameIndex < ((vm.frames.set _ _).length : Int)
      rw [hlen1, hfi]; exact_mod_cast hn)
  refine ⟨_, _, hc1, hc2, ?_, ?_, ?_, ?_, ?_, hg, by omega⟩
  · show vm.frameIndex + 1 = ((n + 1 : Nat) : Int)
    rw [hfi]; push_cast; ring
  · exact entered_currentFrame _ _ _ (by show 0 ≤ vm.frameIndex; rw [hfi]; omega)
      (by show vm.frameIndex < ((vm.frames.set _ _).length : Int)
          rw [hlen1, hfi]; exact_mod_cast hn)
  · rw [entered_frames_length]; exact hlen1
  · show (n : Int) = ((n + 1 : Nat) : Int) - 1
    push_cast; ring
  · show (vm.stack.set _ _).length = StackSize
    rw [List.length_set]; exact hsl

theorem deep_last (P : Params) (vm : VM) (a : Nat)
    (hd : vm.deep ⟨a, callSelf P, 0, 0⟩ MaxFrame) :
    ∃ vm1, vm.cycle P = some (none, vm1) ∧ vm1.nextByte = some (P.byte .OpCall) ∧
      vm1.cycle P = none := by
  have hc1 := deep_getGlobal P vm a MaxFrame hd (le_refl _)
  obtain ⟨hfi, hcur, hfl, hsp, hsl, hg, h2⟩ := hd
  have hfr := framed_of_currentFrame hcur
  have hcur1 := conf_currentFrame hfr ⟨⟨a, callSelf P, 0, 0⟩, 2⟩
    (vm.stack.set (MaxFrame - 1) (.CompiledFunction ⟨a, callSelf P, 0, 0⟩)) MaxFrame vm.globals
    vm.heap
  have hnb : (conf vm ⟨⟨a, callSelf P, 0, 0⟩, 2⟩
      (vm.stack.set (MaxFrame - 1) (.CompiledFunction ⟨a, callSelf P, 0, 0⟩)) MaxFrame vm.globals
      vm.heap).nextByte = some (P.byte .OpCall) := by
    rw [conf_nextByte hfr]; rfl
  refine ⟨_, hc1, hnb, cycle_OpCall_overflow P _ _ ⟨a, callSelf P, 0, 0⟩ hcur1 hnb ?_ ?_⟩
  · show index (vm.stack.set (MaxFrame - 1) _) ((MaxFrame : Int) - 1) = _
    rw [show (MaxFrame : Int) - 1 = ((MaxFrame - 1 : Nat) : Int) by
      unfold MaxFrame; norm_num]
    exact index_set_nat_same _ _ _ (by rw [hsl]; decide)
  · show ((vm.frames.set _ _).length : Int) ≤ vm.frameIndex
    rw [List.length_set, hfl, hfi]

theorem run_deep (P : Params) (a fuel : Nat) :
    ∀ (k n : Nat) (vm : VM), n + k = MaxFrame → vm.deep ⟨a, callSelf P, 0, 0⟩ n →
      VM.Run P (fuel + 2 * k + 2) vm = .panicked := by
  intro k
  induction k with
  | zero =>
    intro n vm hn hd
    have hn' : n = MaxFrame := by omega
    subst hn'
    obtain ⟨vm1, hc1, hnb, hc2⟩ := deep_last P vm a hd
    show VM.Run P (fuel + 1 + 1) vm = _
    rw [Run_continue P (fuel + 1) hc1]
    exact Run_panic P fuel hnb hc2
  | succ k ih =>
    intro n vm hn hd
    obtain ⟨vm1, vm2, hc1, hc2, hd2⟩ := deep_step P vm a n hd (by omega)
    rw [show fuel + 2 * (k + 1) + 2 = (fuel + 2 * k + 2 + 1) + 1 by ring,
      Run_continue P _ hc1, Run_continue P _ hc2]
    exact ih (n + 1) vm2 (by omega) hd2

theorem run_callForever (P : Params) (b : VM) (fn : CompiledFunction) (st gs : List Object)
    (h fuel a : Nat) (hb : b.framed) (hbi : b.frameIndex = 1)
    (hbl : b.frames.length = MaxFrame) (hins : fn.Instructions = callForever P)
    (hcs : b.constants = [.CompiledFunction ⟨a, callSelf P, 0, 0⟩])
    (hlen : st.length = StackSize) (hglen : gs.length = GlobalsSize) :
    VM.Run P (fuel + 2050) (conf b ⟨fn, -1⟩ st 0 gs h) = .panicked := by
  have hfl : (b.frames.set (b.frameIndex - 1).toNat (some (⟨fn, 8⟩ : Frame))).length
      = MaxFrame := by
    rw [List.length_set]; exact hbl
  have hcall := cycle_OpCall P (conf b ⟨fn, 8⟩
    ((st.set 0 (.CompiledFunction ⟨a, callSelf P, 0, 0⟩)).set 0
      (.CompiledFunction ⟨a, callSelf P, 0, 0⟩)) 1
    (gs.set 0 (.CompiledFunction ⟨a, callSelf P, 0, 0⟩)) h) ⟨fn, 8⟩ ⟨a, callSelf P, 0, 0⟩
    (conf_currentFrame hb _ _ _ _ _)
    (by rw [conf_nextByte hb]; show index fn.Instructions _ = _; rw [hins]; rfl)
    (index_set_nat_same _ 0 _ (by rw [List.length_set, hlen]; decide))
    (by
      show b.frameIndex < ((b.frames.set _ _).length : Int)
      rw [hfl, hbi]; decide)
  rw [Run_continue P (fuel + 2049) (cycle_OpConstant P b fn (-1) 2 st 0 1 gs h 0 0
      (.CompiledFunction ⟨a, callSelf P, 0, 0⟩) hb (by rw [hins]; rfl) (by rw [hins]; rfl)
      (by rw [hcs]; rfl) rfl (by decide) hlen (by decide) (by decide)),
    Run_continue P (fuel + 2048) (cycle_OpSetGlobal P b fn 2 5 _ 1 0 gs h 0
      (.CompiledFunction ⟨a, callSelf P, 0, 0⟩) hb (by rw [hins]; rfl) (by rw [hins]; rfl)
      (index_set_nat_same _ 0 _ (by rw [hlen]; decide))
      (by rw [hglen]; decide) (by decide) (by decide)),
    Run_continue P (fuel + 2047) (cycle_OpGetGlobal P b fn 5 8 _ 0 1 _ h 0 0
      (.CompiledFunction ⟨a, callSelf P, 0, 0⟩) hb (by rw [hins]; rfl) (by rw [hins]; rfl)
      (index_set_nat_same _ 0 _ (by rw [hglen]; decide)) rfl (by decide)
      (by rw [List.length_set]; exact hlen) (by decide) (by decide)),
    Run_continue P (fuel + 2046) hcall]
  refine run_deep P a fuel 1022 2 _ (by decide) ⟨?_, ?_, ?_, rfl, ?_, ?_, le_refl _⟩
  · show b.frameIndex + 1 = 2
    rw [hbi]; rfl
  · exact entered_currentFrame _ _ _ (by show 0 ≤ b.frameIndex; rw [hbi]; decide)
      (by show b.frameIndex < ((b.frames.set _ _).length : Int)
          rw [hfl, hbi]; decide)
  · rw [entered_frames_length]; exact hfl
  · show ((st.set _ _).set _ _).length = StackSize
    rw [List.length_set, List.length_set, hlen]
  · exact index_set_nat_same _ 0 _ (by rw [hglen]; decide)

/-- C27, the code at the failing input: for the bytecode of `let f = fn() { f() }; f();`
`Run` on a fresh machine panics: after 1023 nested calls all `MaxFrame` frames are
active, and the next `OpCall` makes `pushFrame` write `frames[1024]`, outside the frame
array; no error is returned. -/
theorem C27_frame_overflow_panics (P : Params) (a heap fuel : Nat) :
    VM.Run P (fuel + 2050)
      (New ⟨callForever P, [.CompiledFunction ⟨a, callSelf P, 0, 0⟩]⟩ heap) = .panicked := by
  rw [New_conf]
  exact run_callForever P _ ⟨heap, callForever P, 0, 0⟩ _ _ (heap + 1) fuel a (New_framed _ _)
    rfl (by
      show ((List.replicate MaxFrame (none : Option Frame)).set 0 _).length = MaxFrame
      rw [List.length_set, List.length_replicate])
    rfl rfl (List.length_replicate _ _) (List.length_replicate _ _)

theorem cycle_constants (P : Params) {vm vm' : VM} {e : error}
    (hc : vm.cycle P = some (e, vm')) : vm'.constants = vm.constants := by
  cases hf : vm.currentFrame with
  | none => simp [VM.cycle, VM.addIp, hf] at hc
  | some f =>
    cases hi : index f.Instructions (f.ip + 1) with
    | none =>
      have hi2 : index f.fn.Instructions (f.ip + 1) = none := hi
      simp [VM.cycle, addIp_eq hf, currentFrame_withIp hf, Frame.Instructions, hi2] at hc
    | some bt =>
      rw [cycle_fetch_any P hf hi] at hc
      by_cases hl : P.lookup bt = some .OpSetGlobal
      · rw [hl] at hc
        simp only [VM.dispatch] at hc
        cases hk : readOperand f.Instructions (f.ip + 1) with
        | none => simp [hk] at hc
        | some j =>
          cases ha : (vm.withIp f (f.ip + 1)).addIp 2 with
          | none => simp [hk, ha] at hc
          | some vm1 =>
            cases hp : vm1.pop with
            | none => simp [hk, ha, hp] at hc
            | some p =>
              obtain ⟨v, vm2⟩ := p
              have k2 := keeps_trans (addIp_keeps ha) (pop_keeps hp)
              cases hs : assign vm2.globals (j : Int) v with
              | none => simp [hk, ha, hp, hs] at hc
              | some gs =>
                simp only [hk, ha, hp, hs, Option.bind_eq_bind, Option.some_bind] at hc
                cases hc
                show vm2.constants = _
                rw [k2.2]
                rfl
      · have := dispatch_keeps P hl hc
        rw [this.2]
        rfl

/-- However `Run` ends (or is still running when the fuel is used up), the constants of
the machine are those it started with. -/
theorem Run_constants (P : Params) : ∀ (fuel : Nat) (vm vm' : VM) (e : error),
    (VM.Run P fuel vm = .returned e vm' ∨ VM.Run P fuel vm = .unfinished vm') →
    vm'.constants = vm.constants := by
  intro fuel
  induction fuel with
  | zero =>
    intro vm vm' e h
    rcases h with h | h
    · cases h
    · simp only [VM.Run] at h
      cases h; rfl
  | succ fuel ih =>
    intro vm vm' e h
    unfold VM.Run at h
    cases hr : vm.running with
    | none => rw [hr] at h; rcases h with h | h <;> cases h
    | some r =>
      cases r with
      | false =>
        rw [hr] at h
        rcases h with h | h
        · cases h; rfl
        · cases h
      | true =>
        rw [hr] at h
        cases hc : vm.cycle P with
        | none => rw [hc] at h; rcases h with h | h <;> cases h
        | some res =>
          obtain ⟨err, vm1⟩ := res
          have hk := cycle_constants P hc
          cases err with
          | some msg =>
            rw [hc] at h
            rcases h with h | h
            · cases h; exact hk
            · cases h
          | none =>
            rw [hc] at h
            exact (ih vm1 vm' e h).trans hk

/-- C29: whenever `Run` on the machine that `New` makes for a bytecode returns, with nil
or with an error, the constants of the machine are the constants of the bytecode. -/
theorem C29_constants_unchanged (P : Params) (bc : Bytecode) (heap fuel : Nat) (e : error)
    (vm' : VM) (h : VM.Run P fuel (New bc heap) = .returned e vm') :
    vm'.constants = bc.Constants :=
  Run_constants P fuel (New bc heap) vm' e (Or.inl h)

/-- C29, a witness: `Run` on `OpConstant 0; OpPop` over the constants `[7]` returns, and
the constants are `[7]` afterwards. -/
theorem C29_witness :
    ∃ vm', VM.Run tableParams 3 (New ⟨constantPop tableParams 0, [.Integer 5 7]⟩ 20)
        = .returned none vm' ∧ vm'.constants = [.Integer 5 7] := by
  have hrun := run_constantPop tableParams (New ⟨constantPop tableParams 0, [.Integer 5 7]⟩ 20)
    ⟨20, constantPop tableParams 0, 0, 0⟩ (List.replicate StackSize Object.nil)
    (List.replicate GlobalsSize Object.nil) 21 0 0 (.Integer 5 7) (New_framed _ _) rfl
    (by decide) rfl (List.length_replicate _ _)
  rw [← New_conf] at hrun
  exact ⟨_, hrun, C29_constants_unchanged tableParams _ 20 3 none _ hrun⟩

theorem NewWithGlobalsStore_currentFrame (bc : Bytecode) (s : List Object) (heap : Nat) :
    (NewWithGlobalsStore bc s heap).currentFrame = some ⟨⟨heap, bc.Instructions, 0, 0⟩, -1⟩ :=
  New_currentFrame bc heap

theorem NewWithGlobalsStore_conf (bc : Bytecode) (s : List Object) (heap : Nat) :
    NewWithGlobalsStore bc s heap = conf (NewWithGlobalsStore bc s heap)
      ⟨⟨heap, bc.Instructions, 0, 0⟩, -1⟩ (List.replicate StackSize Object.nil) 0 s (heap + 1) :=
  eq_conf (NewWithGlobalsStore_currentFrame bc s heap)

theorem run_constantSetGlobal (P : Params) (b : VM) (fn : CompiledFunction)
    (st gs : List Object) (h fuel k i : Nat) (c : Object) (hb : b.framed)
    (hins : fn.Instructions = constantSetGlobal P k i)
    (hk : k < 65536) (hi : i < 65536) (hc : index b.constants k = some c)
    (hlen : st.length = StackSize) (hgs : i < gs.length) :
    VM.Run P (fuel + 3) (conf b ⟨fn, -1⟩ st 0 gs h) =
      .returned none (conf b ⟨fn, 5⟩ (st.set 0 c) 0 (gs.set i c) h) := by
  rw [Run_continue P (fuel + 2) (cycle_OpConstant P b fn (-1) 2 st 0 1 gs h 0 k c hb
      (by rw [hins]; rfl)
      (by rw [hins]; exact readOperand_make _ (-1 + 1) k hk rfl rfl) hc rfl (by decide) hlen
      (by decide) (by decide)),
    Run_continue P (fuel + 1) (cycle_OpSetGlobal P b fn 2 5 (st.set 0 c) 1 0 gs h i c hb
      (by rw [hins]; rfl)
      (by rw [hins]; exact readOperand_make _ (2 + 1) i hi rfl rfl)
      (index_set_nat_same _ 0 _ (by rw [hlen]; decide)) hgs (by decide) (by decide)),
    Run_halt P hb fn 5 _ 0 _ h fuel (by rw [hins]; rfl)]

theorem run_getGlobalPop (P : Params) (b : VM) (fn : CompiledFunction)
    (st gs : List Object) (h fuel i : Nat) (g : Object) (hb : b.framed)
    (hins : fn.Instructions = getGlobalPop P i)
    (hi : i < 65536) (hg : index gs i = some g) (hlen : st.length = StackSize) :
    VM.Run P (fuel + 3) (conf b ⟨fn, -1⟩ st 0 gs h) =
      .returned none (conf b ⟨fn, 3⟩ (st.set 0 g) 0 gs h) := by
  rw [Run_continue P (fuel + 2) (cycle_OpGetGlobal P b fn (-1) 2 st 0 1 gs h 0 i g hb
      (by rw [hins]; rfl)
      (by rw [hins]; exact readOperand_make _ (-1 + 1) i hi rfl rfl) hg rfl (by decide) hlen
      (by decide) (by decide)),
    Run_continue P (fuel + 1) (cycle_OpPop P b fn 2 3 (st.set 0 g) 1 0 gs h g hb
      (by rw [hins]; rfl) (index_set_nat_same _ 0 _ (by rw [hlen]; decide)) (by decide)
      (by decide)),
    Run_halt P hb fn 3 _ 0 gs h fuel (by rw [hins]; rfl)]

theorem sameFrames_refl (vm : VM) : vm.sameFrames vm := ⟨rfl, rfl⟩

theorem sameFrames_trans {a b c : VM} (h1 : a.sameFrames b) (h2 : b.sameFrames c) : a.sameFrames c :=
  ⟨h2.1.trans h1.1, h2.2.trans h1.2⟩

theorem push_sameFrames {vm : VM} {o : Object} {r : error × VM} (h : vm.push o = some r) :
    vm.sameFrames r.2 := by
  unfold VM.push at h
  split at h
  · cases h; exact sameFrames_refl vm
  · cases ha : assign vm.stack vm.sp o with
    | none => simp [ha] at h
    | some s => simp [ha] at h; subst h; exact ⟨rfl, rfl⟩

theorem pop_sameFrames {vm : VM} {r : Object × VM} (h : vm.pop = some r) : vm.sameFrames r.2 := by
  unfold VM.pop at h
  cases ha : index vm.stack (vm.sp - 1) with
  | none => simp [ha] at h
  | some s => simp [ha] at h; subst h; exact ⟨rfl, rfl⟩

theorem heap_push_sameFrames {vm : VM} {n : Nat} {o : Object} {r : error × VM}
    (h : VM.push { vm with heap := n } o = some r) : vm.sameFrames r.2 :=
  @push_sameFrames { vm with heap := n } o r h

theorem executeBinaryIntegerOperation_sameFrames (P : Params) {vm : VM} {op : Opcode}
    {l r : Object} {res : error × VM}
    (h : vm.executeBinaryIntegerOperation P op l r = some res) : vm.sameFrames res.2 := by
  unfold VM.executeBinaryIntegerOperation at h
  cases hl : integerValue l with
  | none => simp [hl] at h
  | some a =>
    cases hr : integerValue r with
    | none => simp [hl, hr] at h
    | some b =>
      simp only [hl, hr, Option.bind_eq_bind, Option.some_bind] at h
      split at h
      · exact heap_push_sameFrames h
      · exact heap_push_sameFrames h
      · exact heap_push_sameFrames h
      · split at h
        · cases h
        · exact heap_push_sameFrames h
      · cases h; exact sameFrames_refl vm

theorem executeBinaryStringOperation_sameFrames (P : Params) {vm : VM} {op : Opcode}
    {l r : Object} {res : error × VM}
    (h : vm.executeBinaryStringOperation P op l r = some res) : vm.sameFrames res.2 := by
  unfold VM.executeBinaryStringOperation at h
  split at h
  · cases h; exact sameFrames_refl vm
  · cases hl : stringValue l with
    | none => simp [hl] at h
    | some a =>
      cases hr : stringValue r with
      | none => simp [hl, hr] at h
      | some b =>
        simp only [hl, hr, Option.bind_eq_bind, Option.some_bind] at h
        exact heap_push_sameFrames h

theorem executeBinaryOperation_sameFrames (P : Params) {vm : VM} {op : Opcode} {res : error × VM}
    (h : vm.executeBinaryOperation P op = some res) : vm.sameFrames res.2 := by
  unfold VM.executeBinaryOperation at h
  cases h1 : vm.pop with
  | none => simp [h1] at h
  | some p1 =>
    obtain ⟨right, vm1⟩ := p1
    cases h2 : vm1.pop with
    | none => simp [h1, h2] at h
    | some p2 =>
      obtain ⟨left, vm2⟩ := p2
      have k12 := sameFrames_trans (pop_sameFrames h1) (pop_sameFrames h2)
      cases hl : left.typ with
      | none => simp [h1, h2, hl] at h
      | some lt =>
        cases hr : right.typ with
        | none => simp [h1, h2, hl, hr] at h
        | some rt =>
          simp only [h1, h2, hl, hr, Option.bind_eq_bind, Option.some_bind] at h
          split at h
          · exact sameFrames_trans k12 (executeBinaryIntegerOperation_sameFrames P h)
          · split at h
            · exact sameFrames_trans k12 (executeBinaryStringOperation_sameFrames P h)
            · cases h; exact k12

theorem executeIntegerComparison_sameFrames (P : Params) {vm : VM} {op : Opcode}
    {l r : Object} {res : error × VM}
    (h : vm.executeIntegerComparison P op l r = some res) : vm.sameFrames res.2 := by
  unfold VM.executeIntegerComparison at h
  cases hl : integerValue l with
  | none => simp [hl] at h
  | some a =>
    cases hr : integerValue r with
    | none => simp [hl, hr] at h
    | some b =>
      simp only [hl, hr, Option.bind_eq_bind, Option.some_bind] at h
      split at h
      · exact push_sameFrames h
      · exact push_sameFrames h
      · exact push_sameFrames h
      · cases h; exact sameFrames_refl vm

theorem executeComparison_sameFrames (P : Params) {vm : VM} {op : Opcode} {res : error × VM}
    (h : vm.executeComparison P op = some res) : vm.sameFrames res.2 := by
  unfold VM.executeComparison at h
  cases h1 : vm.pop with
  | none => simp [h1] at h
  | some p1 =>
    obtain ⟨right, vm1⟩ := p1
    cases h2 : vm1.pop with
    | none => simp [h1, h2] at h
    | some p2 =>
      obtain ⟨left, vm2⟩ := p2
      have k12 := sameFrames_trans (pop_sameFrames h1) (pop_sameFrames h2)
      cases he : eitherInteger left right with
      | none => simp [h1, h2, he] at h
      | some e =>
        simp only [h1, h2, he, Option.bind_eq_bind, Option.some_bind] at h
        split at h
        · exact sameFrames_trans k12 (executeIntegerComparison_sameFrames P h)
        · split at h
          · exact sameFrames_trans k12 (push_sameFrames h)
          · exact sameFrames_trans k12 (push_sameFrames h)
          · cases hl : left.typ with
            | none => simp [hl] at h
            | some lt =>
              cases hr : right.typ with
              | none => simp [hl, hr] at h
              | some rt =>
                simp only [hl, hr, Option.bind_eq_bind, Option.some_bind] at h
                cases h; exact k12

theorem executeBangOperator_sameFrames {vm : VM} {res : error × VM}
    (h : vm.executeBangOperator = some res) : vm.sameFrames res.2 := by
  unfold VM.executeBangOperator at h
  cases h1 : vm.pop with
  | none => simp [h1] at h
  | some p1 =>
    obtain ⟨operand, vm1⟩ := p1
    simp only [h1, Option.bind_eq_bind, Option.some_bind] at h
    have k1 := pop_sameFrames h1
    split at h
    · exact sameFrames_trans k1 (push_sameFrames h)
    · split at h
      · exact sameFrames_trans k1 (push_sameFrames h)
      · split at h
        · exact sameFrames_trans k1 (push_sameFrames h)
        · exact sameFrames_trans k1 (push_sameFrames h)

theorem executeMinusOperator_sameFrames {vm : VM} {res : error × VM}
    (h : vm.executeMinusOperator = some res) : vm.sameFrames res.2 := by
  unfold VM.executeMinusOperator at h
  cases h1 : vm.pop with
  | none => simp [h1] at h
  | some p1 =>
    obtain ⟨operand, vm1⟩ := p1
    have k1 := pop_sameFrames h1
    cases ht : operand.typ with
    | none => simp [h1, ht] at h
    | some t =>
      simp only [h1, ht, Option.bind_eq_bind, Option.some_bind] at h
      split at h
      · cases h; exact k1
      · cases hv : integerValue operand with
        | none => simp [hv] at h
        | some v =>
          simp only [hv, Option.bind_eq_bind, Option.some_bind] at h
          exact sameFrames_trans k1 (heap_push_sameFrames h)

theorem buildArray_sameFrames {vm : VM} {s e : Int} {r : Object × VM}
    (h : vm.buildArray s e = some r) : vm.sameFrames r.2 := by
  unfold VM.buildArray at h
  split at h
  · cases h
  · cases hr : readStack vm.stack s (e - s).toNat with
    | none => simp [hr] at h
    | some l => simp [hr] at h; subst h; exact ⟨rfl, rfl⟩

theorem buildHash_sameFrames (P : Params) {vm : VM} {s e : Int} {r : Object × error × VM}
    (h : vm.buildHash P s e = some r) : vm.sameFrames r.2.2 := by
  unfold VM.buildHash at h
  cases hr : buildHashLoop P vm.stack ((e - s + 1) / 2).toNat s [] with
  | none => simp [hr] at h
  | some p =>
    obtain ⟨err, pairs⟩ := p
    simp only [hr, Option.bind_eq_bind, Option.some_bind] at h
    split at h
    · cases h; exact sameFrames_refl vm
    · cases h; exact ⟨rfl, rfl⟩

theorem executeArrayIndex_sameFrames {vm : VM} {a i : Object} {res : error × VM}
    (h : vm.executeArrayIndex a i = some res) : vm.sameFrames res.2 := by
  unfold VM.executeArrayIndex at h
  split at h
  · cases hv : integerValue i with
    | none => simp [hv] at h
    | some v =>
      simp only [hv, Option.bind_eq_bind, Option.some_bind] at h
      split at h
      · exact push_sameFrames h
      · rename_i elements _
        cases he : index elements v with
        | none => simp [he] at h
        | some x =>
          simp only [he, Option.bind_eq_bind, Option.some_bind] at h
          exact push_sameFrames h
  · cases h

theorem executeHashIndex_sameFrames (P : Params) {vm : VM} {a i : Object} {res : error × VM}
    (h : vm.executeHashIndex P a i = some res) : vm.sameFrames res.2 := by
  unfold VM.executeHashIndex at h
  split at h
  · split at h
    · cases ht : i.typ with
      | none => simp [ht] at h
      | some t =>
        simp only [ht, Option.bind_eq_bind, Option.some_bind] at h
        cases h; exact sameFrames_refl vm
    · split at h
      · exact push_sameFrames h
      · exact push_sameFrames h
  · cases h

theorem executeIndexExpression_sameFrames (P : Params) {vm : VM} {l i : Object} {res : error × VM}
    (h : vm.executeIndexExpression P l i = some res) : vm.sameFrames res.2 := by
  unfold VM.executeIndexExpression at h
  cases hl : l.typ with
  | none => simp [hl] at h
  | some lt =>
    simp only [hl, Option.bind_eq_bind, Option.some_bind] at h
    split at h
    · cases hi : i.typ with
      | none => simp [hi] at h
      | some it =>
        simp only [hi, Option.bind_eq_bind, Option.some_bind] at h
        split at h
        · exact executeArrayIndex_sameFrames h
        · split at h
          · exact executeHashIndex_sameFrames P h
          · cases h; exact sameFrames_refl vm
    · split at h
      · rename_i hc; cases hc
      · split at h
        · exact executeHashIndex_sameFrames P h
        · cases h; exact sameFrames_refl vm
theorem advanced_of_sameFrames {vm vm' : VM} {g : Frame} (hg : vm.currentFrame = some g)
    (h : vm.sameFrames vm') : vm.advanced vm' g := by
  refine ⟨g.ip, ?_, le_refl _, h.2⟩
  unfold VM.currentFrame at hg ⊢
  rw [h.1, h.2]
  exact hg

theorem advanced_addIp {vm vm1 vm' : VM} {g : Frame} (hg : vm.currentFrame = some g)
    (ha : vm.addIp 2 = some vm1) (h : vm1.sameFrames vm') : vm.advanced vm' g := by
  rw [addIp_eq hg] at ha
  cases ha
  obtain ⟨ip', h1, h2, h3⟩ := advanced_of_sameFrames (currentFrame_withIp hg (g.ip + 2)) h
  exact ⟨ip', h1, by have : g.ip + 2 ≤ ip' := h2; omega, h3⟩

/-- Every case of the `switch` other than those of `jumpLike` leaves the frame stack as
it is, apart from the instruction pointer of the current frame, which does not
decrease. -/
theorem dispatch_advances (P : Params) {vm : VM} {ins : List Nat} {ip : Int}
    {op : Option Opcode} {res : error × VM} {g : Frame} (hop : jumpLike op = false)
    (hg : vm.currentFrame = some g)
    (h : vm.dispatch P ins ip op = some res) : vm.advanced res.2 g := by
  unfold VM.dispatch at h
  split at h
  · cases hk : readOperand ins ip with
    | none => simp [hk] at h
    | some k =>
      cases ha : vm.addIp 2 with
      | none => simp [hk, ha] at h
      | some vm1 =>
        cases hc : index vm1.constants k with
        | none => simp [hk, ha, hc] at h
        | some c =>
          simp only [hk, ha, hc, Option.bind_eq_bind, Option.some_bind] at h
          exact advanced_addIp hg ha (push_sameFrames h)
  · exact advanced_of_sameFrames hg (executeBinaryOperation_sameFrames P h)
  · exact advanced_of_sameFrames hg (executeBinaryOperation_sameFrames P h)
  · exact advanced_of_sameFrames hg (executeBinaryOperation_sameFrames P h)
  · exact advanced_of_sameFrames hg (executeBinaryOperation_sameFrames P h)
  · cases h1 : vm.pop with
    | none => simp [h1] at h
    | some p1 =>
      simp only [h1, Option.bind_eq_bind, Option.some_bind] at h
      cases h; exact advanced_of_sameFrames hg (pop_sameFrames h1)
  · exact advanced_of_sameFrames hg (push_sameFrames h)
  · exact advanced_of_sameFrames hg (push_sameFrames h)
  · exact advanced_of_sameFrames hg (executeComparison_sameFrames P h)
  · exact advanced_of_sameFrames hg (executeComparison_sameFrames P h)
  · exact advanced_of_sameFrames hg (executeComparison_sameFrames P h)
  · exact advanced_of_sameFrames hg (executeBangOperator_sameFrames h)
  · exact advanced_of_sameFrames hg (executeMinusOperator_sameFrames h)
  · cases hop
  · cases hop
  · exact advanced_of_sameFrames hg (push_sameFrames h)
  · cases hk : readOperand ins ip with
    | none => simp [hk] at h
    | some k =>
      cases ha : vm.addIp 2 with
      | none => simp [hk, ha] at h
      | some vm1 =>
        cases hp : vm1.pop with
        | none => simp [hk, ha, hp] at h
        | some p =>
          obtain ⟨v, vm2⟩ := p
          cases hs : assign vm2.globals (k : Int) v with
          | none => simp [hk, ha, hp, hs] at h
          | some gs =>
            simp only [hk, ha, hp, hs, Option.bind_eq_bind, Option.some_bind] at h
            cases h
            exact advanced_addIp hg ha
              (sameFrames_trans (pop_sameFrames hp) (⟨rfl, rfl⟩ : vm2.sameFrames _))
  · cases hk : readOperand ins ip with
    | none => simp [hk] at h
    | some k =>
      cases ha : vm.addIp 2 with
      | none => simp [hk, ha] at h
      | some vm1 =>
        cases hc : index vm1.globals k with
        | none => simp [hk, ha, hc] at h
        | some c =>
          simp only [hk, ha, hc, Option.bind_eq_bind, Option.some_bind] at h
          exact advanced_addIp hg ha (push_sameFrames h)
  · cases hk : readOperand ins ip with
    | none => simp [hk] at h
    | some k =>
      cases ha : vm.addIp 2 with
      | none => simp [hk, ha] at h
      | some vm1 =>
        cases hc : vm1.buildArray (vm1.sp - k) vm1.sp with
        | none => simp [hk, ha, hc] at h
        | some p =>
          obtain ⟨arr, vm2⟩ := p
          simp only [hk, ha, hc, Option.bind_eq_bind, Option.some_bind] at h
          exact advanced_addIp hg ha (sameFrames_trans (buildArray_sameFrames hc)
            (@push_sameFrames { vm2 with sp := vm2.sp - k } arr res h))
  · cases hk : readOperand ins ip with
    | none => simp [hk] at h
    | some k =>
      cases ha : vm.addIp 2 with
      | none => simp [hk, ha] at h
      | some vm1 =>
        cases hc : vm1.buildHash P (vm1.sp - k) vm1.sp with
        | none => simp [hk, ha, hc] at h
        | some p =>
          obtain ⟨hash, err, vm2⟩ := p
          have k2 := buildHash_sameFrames P hc
          simp only [hk, ha, hc, Option.bind_eq_bind, Option.some_bind] at h
          split at h
          · cases h; exact advanced_addIp hg ha k2
          · exact advanced_addIp hg ha (sameFrames_trans k2
              (@push_sameFrames { vm2 with sp := vm2.sp - k } hash res h))
  · cases h1 : vm.pop with
    | none => simp [h1] at h
    | some p1 =>
      obtain ⟨idx, vm1⟩ := p1
      cases h2 : vm1.pop with
      | none => simp [h1, h2] at h
      | some p2 =>
        obtain ⟨left, vm2⟩ := p2
        simp only [h1, h2, Option.bind_eq_bind, Option.some_bind] at h
        exact advanced_of_sameFrames hg (sameFrames_trans
          (sameFrames_trans (pop_sameFrames h1) (pop_sameFrames h2))
          (executeIndexExpression_sameFrames P h))
  · cases hop
  · cases hop
  · cases hop
  · cases h; exact advanced_of_sameFrames hg (sameFrames_refl vm)

/-- A cycle that fetches no byte of `jumpLike` stays in the current frame and strictly
increases its instruction pointer. -/
theorem cycle_advances (P : Params) {vm vm' : VM} {e : error} {f : Frame} {bt : Nat}
    (hf : vm.currentFrame = some f) (hb : vm.nextByte = some bt)
    (hj : jumpLike (P.lookup bt) = false) (hc : vm.cycle P = some (e, vm')) :
    ∃ ip', vm'.currentFrame = some ⟨f.fn, ip'⟩ ∧ f.ip < ip' ∧
      vm'.frameIndex = vm.frameIndex := by
  have hi : index f.Instructions (f.ip + 1) = some bt := by
    simpa [VM.nextByte, hf] using hb
  rw [cycle_fetch_any P hf hi] at hc
  obtain ⟨ip', h1, h2, h3⟩ := dispatch_advances P hj (currentFrame_withIp hf (f.ip + 1)) hc
  exact ⟨ip', h1, by have : f.ip + 1 ≤ ip' := h2; omega, h3⟩

theorem running_eq {vm : VM} {f : Frame} (hf : vm.currentFrame = some f) :
    vm.running = some (decide (f.ip < (f.Instructions.length : Int) - 1)) := by
  simp [VM.running, hf]

theorem nextByte_of_running {vm : VM} {f : Frame} (hf : vm.currentFrame = some f)
    (hr : vm.running = some true) (h0 : -1 ≤ f.ip) : ∃ bt, vm.nextByte = some bt := by
  rw [running_eq hf] at hr
  have hlt : f.ip < (f.Instructions.length : Int) - 1 := by simpa using hr
  obtain ⟨bt, hbt⟩ := index_some f.Instructions (f.ip + 1) (by omega) (by omega)
  exact ⟨bt, by simp [VM.nextByte, hf, hbt]⟩

/-- On a run without `jumpLike` fetches the number of fetches is at most the number of
bytes that follow the instruction pointer. -/
theorem fetched_bound (P : Params) : ∀ (fuel : Nat) (vm : VM) (f : Frame),
    vm.currentFrame = some f → -1 ≤ f.ip → VM.straight P fuel vm = true →
    ((VM.fetched P fuel vm).length : Int) ≤ max 0 ((f.Instructions.length : Int) - 1 - f.ip) := by
  intro fuel
  induction fuel with
  | zero => intro vm f _ _ _; simp [VM.fetched]
  | succ fuel ih =>
    intro vm f hf h0 hs
    unfold VM.fetched
    cases hr : vm.running with
    | none => simp
    | some r =>
      cases r with
      | false => simp
      | true =>
        obtain ⟨bt, hb⟩ := nextByte_of_running hf hr h0
        have hlt : f.ip < (f.Instructions.length : Int) - 1 := by
          rw [running_eq hf] at hr; simpa using hr
        unfold VM.straight at hs
        simp only [hr, hb, Bool.and_eq_true, Bool.not_eq_true'] at hs
        simp only [hf]
        cases hc : vm.cycle P with
        | none =>
          simp only [List.length_cons, List.length_nil]
          omega
        | some res =>
          obtain ⟨e, vm'⟩ := res
          cases e with
          | some msg =>
            simp only [List.length_cons, List.length_nil]
            omega
          | none =>
            obtain ⟨ip', h1, h2, _⟩ := cycle_advances P hf hb hs.1 hc
            have hs2 : VM.straight P fuel vm' = true := by
              have := hs.2; rw [hc] at this; exact this
            have := ih vm' ⟨f.fn, ip'⟩ h1 (by show -1 ≤ ip'; omega) hs2
            simp only [List.length_cons]
            have e1 : (⟨f.fn, ip'⟩ : Frame).Instructions.length = f.Instructions.length := rfl
            rw [e1] at this
            have e2 : (⟨f.fn, ip'⟩ : Frame).ip = ip' := rfl
            rw [e2] at this
            push_cast
            omega

/-- On a run without `jumpLike` fetches `Run` ends within as many iterations as bytes
follow the instruction pointer. -/
theorem Run_finishes (P : Params) : ∀ (fuel : Nat) (vm : VM) (f : Frame),
    vm.currentFrame = some f → -1 ≤ f.ip → VM.straight P fuel vm = true →
    max 0 ((f.Instructions.length : Int) - 1 - f.ip) < fuel →
    ∀ vm', VM.Run P fuel vm ≠ .unfinished vm' := by
  intro fuel
  induction fuel with
  | zero =>
    intro vm f hf h0 _ hlt
    exfalso
    omega
  | succ fuel ih =>
    intro vm f hf h0 hs hlt vm'
    unfold VM.Run
    cases hr : vm.running with
    | none => simp
    | some r =>
      cases r with
      | false => simp
      | true =>
        obtain ⟨bt, hb⟩ := nextByte_of_running hf hr h0
        have hrun : f.ip < (f.Instructions.length : Int) - 1 := by
          rw [running_eq hf] at hr; simpa using hr
        unfold VM.straight at hs
        simp only [hr, hb, Bool.and_eq_true, Bool.not_eq_true'] at hs
        cases hc : vm.cycle P with
        | none => simp
        | some res =>
          obtain ⟨e, vm1⟩ := res
          cases e with
          | some msg => simp
          | none =>
            obtain ⟨ip', h1, h2, _⟩ := cycle_advances P hf hb hs.1 hc
            have hs2 : VM.straight P fuel vm1 = true := by
              have := hs.2; rw [hc] at this; exact this
            have e1 : (⟨f.fn, ip'⟩ : Frame).Instructions.length = f.Instructions.length := rfl
            have e2 : (⟨f.fn, ip'⟩ : Frame).ip = ip' := rfl
            exact ih vm1 ⟨f.fn, ip'⟩ h1 (by show -1 ≤ ip'; omega) hs2
              (by rw [e1, e2]; push_cast at hlt; omega) vm'

theorem straight_onlyTrue : ∀ fuel : Nat, VM.straight tableParams fuel (New onlyTrue 20) = true := by
  have hb := New_framed onlyTrue 20
  have hc := cycle_pushed tableParams (New onlyTrue 20) ⟨20, onlyTrue.Instructions, 0, 0⟩ (-1) 0
    (List.replicate StackSize Object.nil) 0 1 (List.replicate GlobalsSize Object.nil) 21 0 .OpTrue
    hb (by rfl) (Or.inl rfl) rfl (by decide) (List.length_replicate _ _) (by decide) (by decide)
  rw [← New_conf] at hc
  have hnb : (New onlyTrue 20).nextByte = some (tableParams.byte .OpTrue) := by
    simp only [VM.nextByte, New_currentFrame, Option.bind_eq_bind, Option.some_bind]
    rfl
  intro fuel
  cases fuel with
  | zero => rfl
  | succ k =>
    unfold VM.straight
    simp only [running_of_nextByte hnb, hnb, hc, Params.lookup_byte]
    cases k with
    | zero => rfl
    | succ k =>
      unfold VM.straight
      have hr : (conf (New onlyTrue 20) ⟨⟨20, onlyTrue.Instructions, 0, 0⟩, 0⟩
          ((List.replicate StackSize Object.nil).set 0 (pushed .OpTrue)) 1
          (List.replicate GlobalsSize Object.nil) 21).running = some false := by
        rw [running_eq (conf_currentFrame hb _ _ _ _ _)]
        rfl
      simp only [hr]
      rfl

/-- C35: if no fetch of `Run` on the machine that `New` makes for a bytecode fetches
OpJump, OpJumpNotTruthy, OpCall, OpReturn or OpReturnValue, then `Run` fetches at most
`len(instructions)` times and ends (it returns, or panics) within `len(instructions) + 1`
evaluations of the loop condition, because a cycle that fetches none of these opcodes
stays in the current frame and strictly increases its instruction pointer; and `Run` on
an empty instruction stream returns nil at once with the machine unchanged. -/
theorem C35_straight_line_terminates (P : Params) (bc : Bytecode) (heap fuel : Nat)
    (hs : ∀ n, VM.straight P n (New bc heap) = true) :
    (VM.fetched P fuel (New bc heap)).length ≤ bc.Instructions.length ∧
    ((∃ e vm', VM.Run P (bc.Instructions.length + 1 + fuel) (New bc heap) = .returned e vm') ∨
      VM.Run P (bc.Instructions.length + 1 + fuel) (New bc heap) = .panicked) ∧
    (∀ (vm vm' : VM) (f : Frame) (bt : Nat) (e : error), vm.currentFrame = some f →
      vm.nextByte = some bt → jumpLike (P.lookup bt) = false → vm.cycle P = some (e, vm') →
      ∃ ip', vm'.currentFrame = some ⟨f.fn, ip'⟩ ∧ f.ip < ip' ∧
        vm'.frameIndex = vm.frameIndex) ∧
    (bc.Instructions = [] → VM.Run P (fuel + 1) (New bc heap) = .returned none (New bc heap)) := by
  have hf := New_currentFrame bc heap
  refine ⟨?_, ?_, ?_, ?_⟩
  · have := fetched_bound P fuel (New bc heap) _ hf (le_refl _) (hs fuel)
    have e1 : (⟨⟨heap, bc.Instructions, 0, 0⟩, -1⟩ : Frame).Instructions.length
        = bc.Instructions.length := rfl
    have e2 : (⟨⟨heap, bc.Instructions, 0, 0⟩, -1⟩ : Frame).ip = -1 := rfl
    rw [e1, e2] at this
    omega
  · have := Run_finishes P (bc.Instructions.length + 1 + fuel) (New bc heap) _ hf (le_refl _)
      (hs _) (by
        have e1 : (⟨⟨heap, bc.Instructions, 0, 0⟩, -1⟩ : Frame).Instructions.length
            = bc.Instructions.length := rfl
        have e2 : (⟨⟨heap, bc.Instructions, 0, 0⟩, -1⟩ : Frame).ip = -1 := rfl
        rw [e1, e2]; push_cast; omega)
    cases hrun : VM.Run P (bc.Instructions.length + 1 + fuel) (New bc heap) with
    | returned e vm' => exact Or.inl ⟨e, vm', rfl⟩
    | panicked => exact Or.inr rfl
    | unfinished vm' => exact absurd hrun (this vm')
  · intro vm vm' f bt e h1 h2 h3 h4
    exact cycle_advances P h1 h2 h3 h4
  · intro hempty
    have := Run_halt P (New_framed bc heap) ⟨heap, bc.Instructions, 0, 0⟩ (-1)
      (List.replicate StackSize Object.nil) 0 (List.replicate GlobalsSize Object.nil) (heap + 1)
      fuel (by show (-1 : Int) = (bc.Instructions.length : Int) - 1; rw [hempty]; rfl)
    rw [← New_conf] at this
    exact this

/-- C35, a witness: `Run` on the single instruction `OpTrue` fetches at most once. -/
theorem C35_witness :
    (VM.fetched tableParams 5 (New onlyTrue 20)).length ≤ 1 ∧
    ((∃ e vm', VM.Run tableParams 2 (New onlyTrue 20) = .returned e vm') ∨
      VM.Run tableParams 2 (New onlyTrue 20) = .panicked) := by
  have h5 := (C35_straight_line_terminates tableParams onlyTrue 20 5 straight_onlyTrue).1
  have h0 := (C35_straight_line_terminates tableParams onlyTrue 20 0 straight_onlyTrue).2.1
  exact ⟨h5, h0⟩

theorem bigEndian_length : ∀ (w x : Nat), (bigEndian w x).length = w
  | 0, _ => rfl
  | w + 1, x => by rw [bigEndian, List.length_cons, bigEndian_length w x]

theorem readBigEndian_bigEndian : ∀ (w x : Nat), readBigEndian (bigEndian w x) = x % 256 ^ w
  | 0, x => by simp [bigEndian, readBigEndian, Nat.mod_one]
  | w + 1, x => by
    rw [bigEndian, readBigEndian, bigEndian_length, readBigEndian_bigEndian w x,
      Nat.mod_pow_succ]
    ring

theorem ReadOperands_encodeOperands (ws xs : List Nat) (tail : List Nat)
    (h : List.Forall₂ (fun w x => x < 256 ^ w) ws xs) :
    ReadOperands ws (encodeOperands ws xs ++ tail) = some xs := by
  induction h with
  | nil => rfl
  | @cons w x ws xs hx _ ih =>
    rw [encodeOperands, ReadOperands, List.append_assoc]
    have hl := bigEndian_length w x
    rw [if_neg (by rw [List.length_append, hl]; omega), List.drop_left' hl, ih,
      List.take_left' hl, readBigEndian_bigEndian, Nat.mod_eq_of_lt hx]
    rfl

/-- C33: for every opcode and every operand list that matches its declared operand widths
(as many operands as widths, each smaller than 256 to the power of its width), decoding
the bytes of the encoding gives the opcode and the operands back.  Two-byte operands are
big-endian: for an opcode with one u16 operand `x`, `Make` gives the bytes `op`,
`x div 256`, `x mod 256`, which is what `Run` decodes with `ReadUint16`, and `ReadUint16`
on the two operand bytes returns `x`; `OpJumpNotTruthy 10` is `op, 0, 10`. -/
theorem C33_encode_decode (P : Params) (op : Opcode) (operands : List Nat)
    (h : List.Forall₂ (fun w x => x < 256 ^ w) (OperandWidths op) operands) :
    decode P (Make P op operands) = some (op, operands) ∧
    (∀ x, OperandWidths op = [2] → x < 65536 →
      Make P op [x] = [P.byte op, x / 256, x % 256] ∧ Make P op [x] = Make16 P op x ∧
      ReadUint16 [x / 256, x % 256] = some x ∧ readOperand (Make P op [x]) 0 = some x) ∧
    (OperandWidths op = [] → Make P op [] = Make0 P op) ∧
    Make P .OpJumpNotTruthy [10] = [P.byte .OpJumpNotTruthy, 0, 10] := by
  refine ⟨?_, ?_, ?_, rfl⟩
  · unfold decode Make
    simp only [Params.lookup_byte, Option.bind_eq_bind, Option.some_bind]
    have := ReadOperands_encodeOperands _ _ [] h
    rw [List.append_nil] at this
    rw [this]
    rfl
  · intro x hw hx
    have hdiv : x / 256 % 256 = x / 256 := Nat.mod_eq_of_lt (by omega)
    have hm : Make P op [x] = [P.byte op, x / 256, x % 256] := by
      unfold Make
      rw [hw]
      simp [encodeOperands, bigEndian, hdiv]
    refine ⟨hm, ?_, ?_, ?_⟩
    · rw [hm, Make16, hdiv]
    · show some (x / 256 * 256 + x % 256) = some x
      congr 1
      omega
    · rw [hm]
      have := readOperand_eq [P.byte op, x / 256, x % 256] 0 (x / 256) (x % 256) rfl rfl
      rw [this]
      congr 1
      omega
  · intro hw
    unfold Make
    rw [hw]
    rfl

/-- C33, a witness: `OpClosure 300, 2` is encoded as `op, 1, 44, 2` and decoded back. -/
theorem C33_witness :
    Make tableParams .OpClosure [300, 2] = [tableParams.byte .OpClosure, 1, 44, 2] ∧
    decode tableParams (Make tableParams .OpClosure [300, 2]) = some (.OpClosure, [300, 2]) :=
  ⟨rfl, (C33_encode_decode tableParams .OpClosure [300, 2]
    (List.Forall₂.cons (by decide) (List.Forall₂.cons (by decide) List.Forall₂.nil))).1⟩

theorem bind_ok {α β : Type} {x : Except String α} {f : α → Except String β} {b : β}
    (h : x >>= f = .ok b) : ∃ a, x = .ok a ∧ f a = .ok b := by
  cases x with
  | error e => cases h
  | ok a => exact ⟨a, rfl, h⟩

theorem inScope_currentScope {c : Compiler} {outer : List CompilationScope}
    {cur : CompilationScope} (h : c.inScope outer cur) : c.currentScope = cur := by
  unfold Compiler.currentScope
  rw [h.1, h.2]
  simp [List.getD]

theorem inScope_set {c : Compiler} {outer : List CompilationScope}
    {cur : CompilationScope} (h : c.inScope outer cur) (s : CompilationScope) :
    (c.setCurrentScope s).inScope outer s := by
  refine ⟨?_, h.2⟩
  show c.scopes.set c.scopeIndex s = _
  rw [h.1, h.2]
  simp

theorem inScope_symbolTable {c : Compiler} {outer : List CompilationScope}
    {cur : CompilationScope} (h : c.inScope outer cur) (t : SymbolTable) :
    Compiler.inScope { c with symbolTable := t } outer cur := h

theorem inScope_addConstant {c : Compiler} {outer : List CompilationScope}
    {cur : CompilationScope} (h : c.inScope outer cur) (o : Object) :
    (c.addConstant o).2.inScope outer cur := h

theorem inScope_emit (P : Params) {c : Compiler} {outer : List CompilationScope}
    {cur : CompilationScope} (h : c.inScope outer cur) (op : Opcode) (operands : List Nat) :
    (c.emit P op operands).2.inScope outer
      { instructions := cur.instructions ++ Make P op operands
        lastInstruction := some ⟨op, cur.instructions.length⟩
        previousInstruction := cur.lastInstruction } ∧
    (c.emit P op operands).1 = cur.instructions.length := by
  unfold Compiler.emit
  rw [inScope_currentScope h]
  exact ⟨inScope_set h _, rfl⟩

theorem inScope_removeLastPop {c : Compiler} {outer : List CompilationScope}
    {cur : CompilationScope} (h : c.inScope outer cur) :
    ∃ cur', c.removeLastPop.inScope outer cur' := by
  unfold Compiler.removeLastPop
  rw [inScope_currentScope h]
  dsimp only
  split
  · exact ⟨_, inScope_set h _⟩
  · exact ⟨cur, h⟩

theorem inScope_replaceInstruction {c : Compiler} {outer : List CompilationScope}
    {cur : CompilationScope} (h : c.inScope outer cur) (pos : Nat) (new : List Nat) :
    (c.replaceInstruction pos new).inScope outer
      { cur with instructions := replaceBytes cur.instructions pos new } := by
  unfold Compiler.replaceInstruction
  rw [inScope_currentScope h]
  exact inScope_set h _

theorem inScope_changeOperand (P : Params) {c : Compiler} {outer : List CompilationScope}
    {cur : CompilationScope} (h : c.inScope outer cur) (pos operand : Nat) :
    ∃ cur', (c.changeOperand P pos operand).inScope outer cur' := by
  unfold Compiler.changeOperand
  split
  · split
    · exact ⟨_, inScope_replaceInstruction h _ _⟩
    · exact ⟨cur, h⟩
  · exact ⟨cur, h⟩

theorem inScope_replaceLastPopWithReturn (P : Params) {c : Compiler}
    {outer : List CompilationScope} {cur : CompilationScope} (h : c.inScope outer cur) :
    c.currentScope.lastInstruction = none ∧ c.replaceLastPopWithReturn P = c ∨
    ∃ last, cur.lastInstruction = some last ∧ (c.replaceLastPopWithReturn P).inScope outer
      { instructions := replaceBytes cur.instructions last.Position (Make P .OpReturnValue [])
        lastInstruction := some ⟨.OpReturnValue, last.Position⟩
        previousInstruction := cur.previousInstruction } := by
  unfold Compiler.replaceLastPopWithReturn
  rw [inScope_currentScope h]
  cases hl : cur.lastInstruction with
  | none => exact Or.inl ⟨rfl, rfl⟩
  | some last =>
    refine Or.inr ⟨last, rfl, ?_⟩
    have h1 := inScope_replaceInstruction h last.Position (Make P .OpReturnValue [])
    show (Compiler.setCurrentScope _ _).inScope outer _
    rw [inScope_currentScope h1]
    exact inScope_set h1 _

theorem inScope_enterScope {c : Compiler} {outer : List CompilationScope}
    {cur : CompilationScope} (h : c.inScope outer cur) :
    c.enterScope.inScope (outer ++ [cur]) emptyScope := by
  refine ⟨?_, ?_⟩
  · show c.scopes ++ [emptyScope] = _
    rw [h.1]
  · show c.scopeIndex + 1 = _
    rw [h.2, List.length_append]
    rfl

theorem inScope_leaveScope {c : Compiler} {outer : List CompilationScope}
    {cur inner : CompilationScope} (h : c.inScope (outer ++ [cur]) inner) :
    c.leaveScope.2.inScope outer cur ∧ c.leaveScope.1 = inner.instructions := by
  refine ⟨⟨?_, ?_⟩, ?_⟩
  · show c.scopes.dropLast = _
    rw [h.1, List.dropLast_concat]
  · show c.scopeIndex - 1 = _
    rw [h.2, List.length_append]
    rfl
  · show c.currentInstructions = _
    unfold Compiler.currentInstructions
    rw [inScope_currentScope h]

theorem inScope_loadSymbol (P : Params) {c : Compiler} {outer : List CompilationScope}
    {cur : CompilationScope} (h : c.inScope outer cur) (s : Symbol) :
    (c.loadSymbol P s).inScope outer
      { instructions := cur.instructions ++ Make P (loadInstruction s).1 (loadInstruction s).2
        lastInstruction := some ⟨(loadInstruction s).1, cur.instructions.length⟩
        previousInstruction := cur.lastInstruction } :=
  (inScope_emit P h _ _).1

theorem inScope_loadSymbols (P : Params) (ss : List Symbol) : ∀ {c : Compiler}
    {outer : List CompilationScope} {cur : CompilationScope}, c.inScope outer cur →
    ∃ cur', (c.loadSymbols P ss).inScope outer cur' ∧
      cur'.instructions = cur.instructions ++ loadBytes P ss := by
  induction ss with
  | nil =>
    intro c outer cur h
    exact ⟨cur, h, by simp [loadBytes]⟩
  | cons s rest ih =>
    intro c outer cur h
    obtain ⟨cur', h1, h2⟩ := ih (inScope_loadSymbol P h s)
    refine ⟨cur', h1, ?_⟩
    rw [h2]
    simp [loadBytes, List.append_assoc]

theorem inScope_defineAll (params : List String) : ∀ {c : Compiler}
    {outer : List CompilationScope} {cur : CompilationScope}, c.inScope outer cur →
    (params.foldl (fun (c : Compiler) p =>
      { c with symbolTable := (c.symbolTable.Define p).2 }) c).inScope outer cur := by
  induction params with
  | nil => intro c outer cur h; exact h
  | cons p rest ih => intro c outer cur h; exact ih (inScope_symbolTable h _)

theorem inScope_enterFunction {c : Compiler} {outer : List CompilationScope}
    {cur : CompilationScope} (h : c.inScope outer cur) (name : String) (params : List String) :
    (c.enterFunction name params).inScope (outer ++ [cur]) emptyScope := by
  unfold Compiler.enterFunction
  dsimp only
  apply inScope_defineAll
  split
  · exact inScope_enterScope h
  · exact inScope_enterScope h

theorem inScope_endFunction (P : Params) {c : Compiler} {outer : List CompilationScope}
    {cur : CompilationScope} (h : c.inScope outer cur) :
    ∃ cur', (c.endFunction P).inScope outer cur' := by
  unfold Compiler.endFunction
  dsimp only
  have h1 : ∃ cur1, (if c.lastInstructionIs .OpPop = true then c.replaceLastPopWithReturn P
      else c).inScope outer cur1 := by
    split
    · rcases inScope_replaceLastPopWithReturn P h with ⟨_, e⟩ | ⟨last, _, h2⟩
      · rw [e]; exact ⟨cur, h⟩
      · exact ⟨_, h2⟩
    · exact ⟨cur, h⟩
  obtain ⟨cur1, h1⟩ := h1
  revert h1
  generalize (if c.lastInstructionIs .OpPop = true then c.replaceLastPopWithReturn P
      else c) = c1
  intro h1
  split
  · exact ⟨cur1, h1⟩
  · exact ⟨_, (inScope_emit P h1 _ _).1⟩

theorem inScope_closeFunction (P : Params) {c : Compiler} {outer : List CompilationScope}
    {cur inner : CompilationScope} (h : c.inScope (outer ++ [cur]) inner) (n : Nat) :
    ∃ cur', (c.closeFunction P n).inScope outer cur' := by
  unfold Compiler.closeFunction
  obtain ⟨cur1, h1, _⟩ := inScope_loadSymbols P c.symbolTable.FreeSymbols (inScope_leaveScope h).1
  exact ⟨_, (inScope_emit P (inScope_addConstant h1 _) _ _).1⟩

mutual
/-- Compiling an expression leaves the enclosing scopes of the scope stack as they are
and ends in the scope it started in. -/
theorem compileExpression_inScope (P : Params) : ∀ (e : Expression) (c c' : Compiler)
    (outer : List CompilationScope) (cur : CompilationScope), c.inScope outer cur →
    compileExpression P e c = .ok c' → ∃ cur', c'.inScope outer cur'
  | .IntegerLiteral v, c, c', outer, cur, hs, h => by
    simp only [compileExpression] at h
    cases h
    exact ⟨_, (inScope_emit P (inScope_addConstant hs _) _ _).1⟩
  | .Boolean b, c, c', outer, cur, hs, h => by
    simp only [compileExpression] at h
    cases h
    exact ⟨_, (inScope_emit P hs _ _).1⟩
  | .StringLiteral s, c, c', outer, cur, hs, h => by
    simp only [compileExpression] at h
    cases h
    exact ⟨_, (inScope_emit P (inScope_addConstant hs _) _ _).1⟩
  | .Identifier name, c, c', outer, cur, hs, h => by
    simp only [compileExpression] at h
    split at h
    · cases h
    · cases h
      exact ⟨_, inScope_loadSymbol P (inScope_symbolTable hs _) _⟩
  | .PrefixExpression op right, c, c', outer, cur, hs, h => by
    simp only [compileExpression] at h
    obtain ⟨c1, h1, h⟩ := bind_ok h
    obtain ⟨cur1, hs1⟩ := compileExpression_inScope P right c c1 outer cur hs h1
    split at h
    · cases h
      exact ⟨_, (inScope_emit P hs1 _ _).1⟩
    · cases h
  | .InfixExpression left op right, c, c', outer, cur, hs, h => by
    simp only [compileExpression] at h
    split at h
    · obtain ⟨c1, h1, h⟩ := bind_ok h
      obtain ⟨c2, h2, h⟩ := bind_ok h
      obtain ⟨cur1, hs1⟩ := compileExpression_inScope P right c c1 outer cur hs h1
      obtain ⟨cur2, hs2⟩ := compileExpression_inScope P left c1 c2 outer cur1 hs1 h2
      cases h
      exact ⟨_, (inScope_emit P hs2 _ _).1⟩
    · obtain ⟨c1, h1, h⟩ := bind_ok h
      obtain ⟨c2, h2, h⟩ := bind_ok h
      obtain ⟨cur1, hs1⟩ := compileExpression_inScope P left c c1 outer cur hs h1
      obtain ⟨cur2, hs2⟩ := compileExpression_inScope P right c1 c2 outer cur1 hs1 h2
      split at h
      · cases h
        exact ⟨_, (inScope_emit P hs2 _ _).1⟩
      · cases h
  | .IfExpression cond cons alt, c, c', outer, cur, hs, h => by
    simp only [compileExpression] at h
    obtain ⟨c1, h1, h⟩ := bind_ok h
    obtain ⟨cur1, hs1⟩ := compileExpression_inScope P cond c c1 outer cur hs h1
    have hs2 := (inScope_emit P hs1 .OpJumpNotTruthy [9999]).1
    obtain ⟨c3, h3, h⟩ := bind_ok h
    obtain ⟨cur3, hs3⟩ := compileBlock_inScope P cons _ c3 outer _ hs2 h3
    have hs4 : ∃ cur4, (if c3.lastInstructionIs .OpPop = true then c3.removeLastPop
        else c3).inScope outer cur4 := by
      split
      · exact inScope_removeLastPop hs3
      · exact ⟨cur3, hs3⟩
    obtain ⟨cur4, hs4⟩ := hs4
    have hs5 := (inScope_emit P hs4 .OpJump [9999]).1
    obtain ⟨cur6, hs6⟩ := inScope_changeOperand P hs5
      (Compiler.emit P c1 .OpJumpNotTruthy [9999]).1
      (Compiler.emit P (if c3.lastInstructionIs .OpPop = true then c3.removeLastPop else c3)
        .OpJump [9999]).2.currentInstructions.length
    obtain ⟨c7, h7, h⟩ := bind_ok h
    obtain ⟨cur7, hs7⟩ := compileAlternative_inScope P alt _ c7 outer cur6 hs6 h7
    cases h
    exact inScope_changeOperand P hs7 _ _
  | .FunctionLiteral name params body, c, c', outer, cur, hs, h => by
    simp only [compileExpression] at h
    obtain ⟨c1, h1, h⟩ := bind_ok h
    obtain ⟨cur1, hs1⟩ := compileBlock_inScope P body _ c1 (outer ++ [cur]) emptyScope
      (inScope_enterFunction hs name params) h1
    obtain ⟨cur2, hs2⟩ := inScope_endFunction P hs1
    cases h
    exact inScope_closeFunction P hs2 _
  | .CallExpression fn args, c, c', outer, cur, hs, h => by
    simp only [compileExpression] at h
    obtain ⟨c1, h1, h⟩ := bind_ok h
    obtain ⟨c2, h2, h⟩ := bind_ok h
    obtain ⟨cur1, hs1⟩ := compileExpression_inScope P fn c c1 outer cur hs h1
    obtain ⟨cur2, hs2⟩ := compileExpressions_inScope P args c1 c2 outer cur1 hs1 h2
    cases h
    exact ⟨_, (inScope_emit P hs2 _ _).1⟩
  | .ArrayLiteral elems, c, c', outer, cur, hs, h => by
    simp only [compileExpression] at h
    obtain ⟨c1, h1, h⟩ := bind_ok h
    obtain ⟨cur1, hs1⟩ := compileExpressions_inScope P elems c c1 outer cur hs h1
    cases h
    exact ⟨_, (inScope_emit P hs1 _ _).1⟩
  | .HashLiteral entries, c, c', outer, cur, hs, h => by
    simp only [compileExpression] at h
    obtain ⟨c1, h1, h⟩ := bind_ok h
    obtain ⟨cur1, hs1⟩ := compilePairs_inScope P entries c c1 outer cur hs h1
    cases h
    exact ⟨_, (inScope_emit P hs1 _ _).1⟩
  | .IndexExpression left idx, c, c', outer, cur, hs, h => by
    simp only [compileExpression] at h
    obtain ⟨c1, h1, h⟩ := bind_ok h
    obtain ⟨c2, h2, h⟩ := bind_ok h
    obtain ⟨cur1, hs1⟩ := compileExpression_inScope P left c c1 outer cur hs h1
    obtain ⟨cur2, hs2⟩ := compileExpression_inScope P idx c1 c2 outer cur1 hs1 h2
    cases h
    exact ⟨_, (inScope_emit P hs2 _ _).1⟩
/-- Compiling a statement leaves the enclosing scopes as they are. -/
theorem compileStatement_inScope (P : Params) : ∀ (s : Statement) (c c' : Compiler)
    (outer : List CompilationScope) (cur : CompilationScope), c.inScope outer cur →
    compileStatement P s c = .ok c' → ∃ cur', c'.inScope outer cur'
  | .LetStatement name value, c, c', outer, cur, hs, h => by
    simp only [compileStatement] at h
    obtain ⟨c1, h1, h⟩ := bind_ok h
    obtain ⟨cur1, hs1⟩ := compileExpression_inScope P value _ c1 outer cur
      (inScope_symbolTable hs _) h1
    split at h
    · cases h
      exact ⟨_, (inScope_emit P hs1 _ _).1⟩
    · cases h
      exact ⟨_, (inScope_emit P hs1 _ _).1⟩
  | .ReturnStatement v, c, c', outer, cur, hs, h => by
    simp only [compileStatement] at h
    obtain ⟨c1, h1, h⟩ := bind_ok h
    obtain ⟨cur1, hs1⟩ := compileExpression_inScope P v c c1 outer cur hs h1
    cases h
    exact ⟨_, (inScope_emit P hs1 _ _).1⟩
  | .ExpressionStatement e, c, c', outer, cur, hs, h => by
    simp only [compileStatement] at h
    obtain ⟨c1, h1, h⟩ := bind_ok h
    obtain ⟨cur1, hs1⟩ := compileExpression_inScope P e c c1 outer cur hs h1
    cases h
    exact ⟨_, (inScope_emit P hs1 _ _).1⟩
/-- Compiling a block leaves the enclosing scopes as they are. -/
theorem compileBlock_inScope (P : Params) : ∀ (b : Block) (c c' : Compiler)
    (outer : List CompilationScope) (cur : CompilationScope), c.inScope outer cur →
    compileBlock P b c = .ok c' → ∃ cur', c'.inScope outer cur'
  | .nil, c, c', outer, cur, hs, h => by
    simp only [compileBlock] at h
    cases h
    exact ⟨cur, hs⟩
  | .cons s rest, c, c', outer, cur, hs, h => by
    simp only [compileBlock] at h
    obtain ⟨c1, h1, h⟩ := bind_ok h
    obtain ⟨cur1, hs1⟩ := compileStatement_inScope P s c c1 outer cur hs h1
    exact compileBlock_inScope P rest c1 c' outer cur1 hs1 h
/-- Compiling the else branch leaves the enclosing scopes as they are. -/
theorem compileAlternative_inScope (P : Params) : ∀ (a : Alternative) (c c' : Compiler)
    (outer : List CompilationScope) (cur : CompilationScope), c.inScope outer cur →
    compileAlternative P a c = .ok c' → ∃ cur', c'.inScope outer cur'
  | .none, c, c', outer, cur, hs, h => by
    simp only [compileAlternative] at h
    cases h
    exact ⟨_, (inScope_emit P hs _ _).1⟩
  | .some b, c, c', outer, cur, hs, h => by
    simp only [compileAlternative] at h
    obtain ⟨c1, h1, h⟩ := bind_ok h
    obtain ⟨cur1, hs1⟩ := compileBlock_inScope P b c c1 outer cur hs h1
    cases h
    split
    · exact inScope_removeLastPop hs1
    · exact ⟨cur1, hs1⟩
/-- Compiling a sequence of expressions leaves the enclosing scopes as they are. -/
theorem compileExpressions_inScope (P : Params) : ∀ (es : Expressions) (c c' : Compiler)
    (outer : List CompilationScope) (cur : CompilationScope), c.inScope outer cur →
    compileExpressions P es c = .ok c' → ∃ cur', c'.inScope outer cur'
  | .nil, c, c', outer, cur, hs, h => by
    simp only [compileExpressions] at h
    cases h
    exact ⟨cur, hs⟩
  | .cons e rest, c, c', outer, cur, hs, h => by
    simp only [compileExpressions] at h
    obtain ⟨c1, h1, h⟩ := bind_ok h
    obtain ⟨cur1, hs1⟩ := compileExpression_inScope P e c c1 outer cur hs h1
    exact compileExpressions_inScope P rest c1 c' outer cur1 hs1 h
/-- Compiling the entries of a hash literal leaves the enclosing scopes as they are. -/
theorem compilePairs_inScope (P : Params) : ∀ (ps : Pairs) (c c' : Compiler)
    (outer : List CompilationScope) (cur : CompilationScope), c.inScope outer cur →
    compilePairs P ps c = .ok c' → ∃ cur', c'.inScope outer cur'
  | .nil, c, c', outer, cur, hs, h => by
    simp only [compilePairs] at h
    cases h
    exact ⟨cur, hs⟩
  | .cons k v rest, c, c', outer, cur, hs, h => by
    simp only [compilePairs] at h
    obtain ⟨c1, h1, h⟩ := bind_ok h
    obtain ⟨c2, h2, h⟩ := bind_ok h
    obtain ⟨cur1, hs1⟩ := compileExpression_inScope P k c c1 outer cur hs h1
    obtain ⟨cur2, hs2⟩ := compileExpression_inScope P v c1 c2 outer cur1 hs1 h2
    exact compilePairs_inScope P rest c2 c' outer cur2 hs2 h
end

theorem inScope_emitAll (P : Params) (es : List (Opcode × List Nat)) : ∀ {c : Compiler}
    {outer : List CompilationScope} {cur : CompilationScope}, c.inScope outer cur →
    (c.emitAll P es).inScope outer (scopeAfter P cur es) := by
  induction es with
  | nil => intro c outer cur h; exact h
  | cons e rest ih => intro c outer cur h; exact ih (inScope_emit P h e.1 e.2).1

theorem scopeAfter_instructions (P : Params) (es : List (Opcode × List Nat)) :
    ∀ s : CompilationScope, (scopeAfter P s es).instructions =
      s.instructions ++ (es.map (fun e => Make P e.1 e.2)).flatten := by
  induction es with
  | nil => intro s; simp [scopeAfter]
  | cons e rest ih =>
    intro s
    have := ih { instructions := s.instructions ++ Make P e.1 e.2
                 lastInstruction := some ⟨e.1, s.instructions.length⟩
                 previousInstruction := s.lastInstruction }
    simp only [scopeAfter, List.foldl_cons] at this ⊢
    rw [this]
    simp [List.append_assoc]

theorem scopeAfter_append (P : Params) (s : CompilationScope)
    (es fs : List (Opcode × List Nat)) :
    scopeAfter P s (es ++ fs) = scopeAfter P (scopeAfter P s es) fs := by
  simp [scopeAfter, List.foldl_append]

theorem emitAll_symbolTable (P : Params) (es : List (Opcode × List Nat)) : ∀ c : Compiler,
    (c.emitAll P es).symbolTable = c.symbolTable ∧ (c.emitAll P es).constants = c.constants := by
  induction es with
  | nil => intro c; exact ⟨rfl, rfl⟩
  | cons e rest ih => intro c; exact ih (c.emit P e.1 e.2).2

theorem New_inScope : Compiler.New.inScope [] emptyScope := ⟨rfl, rfl⟩

/-- C32: on a compiler whose current scope `cur` is the last of its scope stack,
`enterScope` raises `scopeIndex` by one, makes a fresh scope current and makes a child
symbol table current whose `Outer` is the previous table; the instructions emitted inside
go to the inner scope only, whose `lastInstruction` and `previousInstruction` are its own
last two emitted opcodes; `leaveScope` then returns the instructions of the inner scope
and restores `scopeIndex`, the scope stack (so the instructions of the outer scope and
its record of the last instructions) and the symbol table with its `Outer`; an `emit`
after that records the new opcode as last and the outer scope's earlier last one as
previous. -/
theorem C32_scopes (P : Params) (c : Compiler) (outer : List CompilationScope)
    (cur : CompilationScope) (es : List (Opcode × List Nat)) (hs : c.inScope outer cur) :
    c.enterScope.scopeIndex = c.scopeIndex + 1 ∧
    c.enterScope.symbolTable.Outer = some c.symbolTable ∧
    c.enterScope.currentScope = emptyScope ∧
    (c.enterScope.emitAll P es).scopeIndex = c.scopeIndex + 1 ∧
    (c.enterScope.emitAll P es).symbolTable.Outer = some c.symbolTable ∧
    (c.enterScope.emitAll P es).currentInstructions = (es.map (fun e => Make P e.1 e.2)).flatten ∧
    (∀ fs e, es = fs ++ [e] → ∃ pos,
      (c.enterScope.emitAll P es).currentScope.lastInstruction = some ⟨e.1, pos⟩) ∧
    (∀ fs e1 e2, es = fs ++ [e1, e2] → ∃ pos,
      (c.enterScope.emitAll P es).currentScope.previousInstruction = some ⟨e1.1, pos⟩) ∧
    (c.enterScope.emitAll P es).leaveScope.1 = (es.map (fun e => Make P e.1 e.2)).flatten ∧
    (c.enterScope.emitAll P es).leaveScope.2 = c ∧
    (∀ op operands,
      (((c.enterScope.emitAll P es).leaveScope.2.emit P op operands).2.currentScope =
        { instructions := cur.instructions ++ Make P op operands
          lastInstruction := some ⟨op, cur.instructions.length⟩
          previousInstruction := cur.lastInstruction })) := by
  have h1 := inScope_enterScope hs
  have h2 := inScope_emitAll P es h1
  have hcur := inScope_currentScope h2
  have hins : (scopeAfter P emptyScope es).instructions
      = (es.map (fun e => Make P e.1 e.2)).flatten := by
    rw [scopeAfter_instructions]; rfl
  have hleave : (c.enterScope.emitAll P es).leaveScope.2 = c := by
    have h3 := (inScope_leaveScope h2).1
    have h4 := emitAll_symbolTable P es c.enterScope
    obtain ⟨cs, t, sc, si⟩ := c
    show Compiler.mk _ _ _ _ = _
    congr 1
    · exact h4.2
    · show (Compiler.emitAll P _ es).symbolTable.Outer.getD _ = t
      rw [h4.1]; rfl
    · exact h3.1.trans hs.1.symm
    · exact h3.2.trans hs.2.symm
  refine ⟨rfl, rfl, inScope_currentScope h1, ?_, ?_, ?_, ?_, ?_, ?_, hleave, ?_⟩
  · rw [h2.2, List.length_append, hs.2]; rfl
  · rw [(emitAll_symbolTable P es _).1]; rfl
  · unfold Compiler.currentInstructions
    rw [hcur, hins]
  · intro fs e he
    rw [hcur, he, scopeAfter_append]
    exact ⟨_, rfl⟩
  · intro fs e1 e2 he
    rw [hcur, he, scopeAfter_append]
    exact ⟨_, rfl⟩
  · rw [(inScope_leaveScope h2).2, hins]
  · intro op operands
    rw [hleave]
    exact inScope_currentScope (inScope_emit P hs op operands).1

/-- C32, the scenario of `TestCompilerScopes`: after `emit(OpMul)`, `enterScope`,
`emit(OpSub)`, the inner scope holds one instruction and its last opcode is `OpSub`;
after `leaveScope` and `emit(OpAdd)` the outer scope holds two instructions, its last
opcode is `OpAdd` and its previous one is `OpMul`. -/
theorem C32_witness :
    (afterMul.enterScope.emitAll tableParams [(.OpSub, [])]).currentInstructions.length = 1 ∧
    (∃ pos, (afterMul.enterScope.emitAll tableParams [(.OpSub, [])]).currentScope.lastInstruction
      = some ⟨.OpSub, pos⟩) ∧
    (afterMul.enterScope.emitAll tableParams [(.OpSub, [])]).leaveScope.2 = afterMul ∧
    (((afterMul.enterScope.emitAll tableParams [(.OpSub, [])]).leaveScope.2.emit tableParams
      .OpAdd []).2.currentScope =
        { instructions := Make tableParams .OpMul [] ++ Make tableParams .OpAdd []
          lastInstruction := some ⟨.OpAdd, 1⟩
          previousInstruction := some ⟨.OpMul, 0⟩ }) := by
  have hs : afterMul.inScope [] { instructions := [] ++ Make tableParams .OpMul []
                                  lastInstruction := some ⟨.OpMul, 0⟩
                                  previousInstruction := none } :=
    (inScope_emit tableParams New_inScope .OpMul []).1
  obtain ⟨_, _, _, _, _, h6, h7, _, _, h10, h11⟩ :=
    C32_scopes tableParams afterMul [] _ [(.OpSub, [])] hs
  refine ⟨?_, h7 [] (.OpSub, []) rfl, h10, h11 .OpAdd []⟩
  rw [h6]; rfl

theorem Make_noOperand (P : Params) (op : Opcode) (h : OperandWidths op = []) :
    Make P op [] = [P.byte op] := by
  unfold Make
  rw [h]
  rfl

theorem last_none : ∀ b : Block, b.last? = none → b = .nil
  | .nil, _ => rfl
  | .cons s .nil, h => by simp [Block.last?] at h
  | .cons s (.cons s' rest), h => by
    have := last_none (.cons s' rest) (by simpa [Block.last?] using h)
    cases this

/-- A block with a last statement is compiled by compiling that statement last. -/
theorem compileBlock_last (P : Params) : ∀ (b : Block) (s : Statement) (c c' : Compiler)
    (outer : List CompilationScope) (cur : CompilationScope), b.last? = some s →
    c.inScope outer cur → compileBlock P b c = .ok c' →
    ∃ c0 cur0, c0.inScope outer cur0 ∧ compileStatement P s c0 = .ok c'
  | .nil, s, c, c', outer, cur, hl, hs, h => by simp [Block.last?] at hl
  | .cons s0 .nil, s, c, c', outer, cur, hl, hs, h => by
    simp only [Block.last?, Option.some.injEq] at hl
    subst hl
    simp only [compileBlock] at h
    obtain ⟨c1, h1, h⟩ := bind_ok h
    cases h
    exact ⟨c, cur, hs, h1⟩
  | .cons s0 (.cons s1 rest), s, c, c', outer, cur, hl, hs, h => by
    have hl' : Block.last? (.cons s1 rest) = some s := by simpa [Block.last?] using hl
    rw [compileBlock] at h
    obtain ⟨c1, h1, h⟩ := bind_ok h
    obtain ⟨cur1, hs1⟩ := compileStatement_inScope P s0 c c1 outer cur hs h1
    exact compileBlock_last P (.cons s1 rest) s c1 c' outer cur1 hl' hs1 h

/-- Every statement is compiled by compiling its expression and emitting one
instruction: `OpPop`, `OpReturnValue`, or `OpSetGlobal` or `OpSetLocal`. -/
theorem compileStatement_emits (P : Params) (s : Statement) (c c' : Compiler)
    (outer : List CompilationScope) (cur : CompilationScope) (hs : c.inScope outer cur)
    (h : compileStatement P s c = .ok c') :
    ∃ (cur1 : CompilationScope) (op : Opcode) (operands : List Nat), c'.inScope outer
        { instructions := cur1.instructions ++ Make P op operands
          lastInstruction := some ⟨op, cur1.instructions.length⟩
          previousInstruction := cur1.lastInstruction } ∧
      (∀ e, s = .ExpressionStatement e → op = .OpPop ∧ operands = []) ∧
      (∀ e, s = .ReturnStatement e → op = .OpReturnValue ∧ operands = []) ∧
      (∀ n v, s = .LetStatement n v → op = .OpSetGlobal ∨ op = .OpSetLocal) := by
  cases s with
  | LetStatement name value =>
    simp only [compileStatement] at h
    obtain ⟨c1, h1, h⟩ := bind_ok h
    obtain ⟨cur1, hs1⟩ := compileExpression_inScope P value _ c1 outer cur
      (inScope_symbolTable hs _) h1
    split at h
    · cases h
      exact ⟨cur1, _, _, (inScope_emit P hs1 _ _).1, (by intro e h; cases h),
        (by intro e h; cases h), fun _ _ _ => Or.inl rfl⟩
    · cases h
      exact ⟨cur1, _, _, (inScope_emit P hs1 _ _).1, (by intro e h; cases h),
        (by intro e h; cases h), fun _ _ _ => Or.inr rfl⟩
  | ReturnStatement v =>
    simp only [compileStatement] at h
    obtain ⟨c1, h1, h⟩ := bind_ok h
    obtain ⟨cur1, hs1⟩ := compileExpression_inScope P v c c1 outer cur hs h1
    cases h
    exact ⟨cur1, _, _, (inScope_emit P hs1 _ _).1, (by intro e h; cases h),
      fun _ _ => ⟨rfl, rfl⟩, (by intro n v h; cases h)⟩
  | ExpressionStatement e =>
    simp only [compileStatement] at h
    obtain ⟨c1, h1, h⟩ := bind_ok h
    obtain ⟨cur1, hs1⟩ := compileExpression_inScope P e c c1 outer cur hs h1
    cases h
    exact ⟨cur1, _, _, (inScope_emit P hs1 _ _).1, fun _ _ => ⟨rfl, rfl⟩,
      (by intro e h; cases h), (by intro n v h; cases h)⟩

theorem lastInstructionIs_eq {c : Compiler} {outer : List CompilationScope}
    {cur : CompilationScope} (h : c.inScope outer cur) (op : Opcode) :
    c.lastInstructionIs op = (if cur.instructions.length = 0 then false
      else match cur.lastInstruction with
        | some e => decide (e.Opcode = op)
        | none => false) := by
  unfold Compiler.lastInstructionIs Compiler.currentInstructions
  rw [inScope_currentScope h]

theorem lastInstructionIs_emitted (P : Params) {c : Compiler} {outer : List CompilationScope}
    (pre : List Nat) (op : Opcode) (operands : List Nat) (pos : Nat)
    (prev : Option EmittedInstruction)
    (h : c.inScope outer ⟨pre ++ Make P op operands, some ⟨op, pos⟩, prev⟩) (op' : Opcode) :
    c.lastInstructionIs op' = decide (op = op') := by
  rw [lastInstructionIs_eq h]
  have : (pre ++ Make P op operands).length ≠ 0 := by
    simp [Make]
  simp only
  rw [if_neg this]

theorem replaceBytes_last (pre : List Nat) (b b' : Nat) :
    replaceBytes (pre ++ [b]) pre.length [b'] = pre ++ [b'] := by
  unfold replaceBytes
  rw [if_pos (by simp)]
  simp

/-- The end of a function body whose last instruction is `OpPop`: it is replaced by
`OpReturnValue`. -/
theorem endFunction_pop (P : Params) {c : Compiler} {outer : List CompilationScope}
    (pre : List Nat) (prev : Option EmittedInstruction)
    (h : c.inScope outer ⟨pre ++ Make P .OpPop [], some ⟨.OpPop, pre.length⟩, prev⟩) :
    (c.endFunction P).inScope outer
      ⟨pre ++ Make P .OpReturnValue [], some ⟨.OpReturnValue, pre.length⟩, prev⟩ := by
  have hr : (c.replaceLastPopWithReturn P).inScope outer
      ⟨pre ++ Make P .OpReturnValue [], some ⟨.OpReturnValue, pre.length⟩, prev⟩ := by
    rcases inScope_replaceLastPopWithReturn P h with ⟨e, _⟩ | ⟨last, hl, h2⟩
    · rw [inScope_currentScope h] at e
      cases e
    · cases hl
      rw [Make_noOperand P .OpPop rfl, Make_noOperand P .OpReturnValue rfl,
        replaceBytes_last] at h2
      rw [Make_noOperand P .OpReturnValue rfl]
      exact h2
  unfold Compiler.endFunction
  dsimp only
  rw [lastInstructionIs_emitted P pre .OpPop [] _ prev h .OpPop]
  simp only [decide_True, if_true]
  rw [lastInstructionIs_emitted P pre .OpReturnValue [] _ prev hr .OpReturnValue]
  simp only [decide_True, Bool.true_or, if_true]
  exact hr

/-- The end of a function body whose last instruction is `OpReturnValue`: nothing
changes. -/
theorem endFunction_returnValue (P : Params) {c : Compiler} {outer : List CompilationScope}
    (pre : List Nat) (pos : Nat) (prev : Option EmittedInstruction)
    (h : c.inScope outer ⟨pre ++ Make P .OpReturnValue [], some ⟨.OpReturnValue, pos⟩, prev⟩) :
    c.endFunction P = c := by
  unfold Compiler.endFunction
  dsimp only
  rw [lastInstructionIs_emitted P pre .OpReturnValue [] _ prev h .OpPop]
  simp only [show decide (Opcode.OpReturnValue = Opcode.OpPop) = false from rfl,
    Bool.false_eq_true, if_false]
  rw [lastInstructionIs_emitted P pre .OpReturnValue [] _ prev h .OpReturnValue]
  simp

/-- The end of a function body whose last instruction is neither `OpPop` nor a return:
`OpReturn` is appended. -/
theorem endFunction_other (P : Params) {c : Compiler} {outer : List CompilationScope}
    (pre : List Nat) (op : Opcode) (operands : List Nat) (pos : Nat)
    (prev : Option EmittedInstruction)
    (h : c.inScope outer ⟨pre ++ Make P op operands, some ⟨op, pos⟩, prev⟩)
    (h1 : op ≠ .OpPop) (h2 : op ≠ .OpReturnValue) (h3 : op ≠ .OpReturn) :
    c.endFunction P = (c.emit P .OpReturn []).2 := by
  unfold Compiler.endFunction
  dsimp only
  rw [lastInstructionIs_emitted P pre op operands _ prev h .OpPop]
  simp only [decide_eq_true_eq, h1, if_false]
  rw [lastInstructionIs_emitted P pre op operands _ prev h .OpReturnValue,
    lastInstructionIs_emitted P pre op operands _ prev h .OpReturn]
  simp [h2, h3]

/-- The end of an empty function body: `OpReturn` is emitted. -/
theorem endFunction_empty (P : Params) {c : Compiler} {outer : List CompilationScope}
    (h : c.inScope outer emptyScope) : c.endFunction P = (c.emit P .OpReturn []).2 := by
  have e : ∀ op, c.lastInstructionIs op = false := by
    intro op
    rw [lastInstructionIs_eq h]
    rfl
  unfold Compiler.endFunction
  dsimp only
  simp [e]

theorem loadSymbols_constants (P : Params) (ss : List Symbol) : ∀ c : Compiler,
    (c.loadSymbols P ss).constants = c.constants ∧
    (c.loadSymbols P ss).symbolTable = c.symbolTable := by
  induction ss with
  | nil => intro c; exact ⟨rfl, rfl⟩
  | cons s rest ih => intro c; exact ih (c.loadSymbol P s)

theorem endFunction_constants (P : Params) (c : Compiler) :
    (c.endFunction P).constants = c.constants ∧
    (c.endFunction P).symbolTable = c.symbolTable := by
  have hr : (c.replaceLastPopWithReturn P).constants = c.constants ∧
      (c.replaceLastPopWithReturn P).symbolTable = c.symbolTable := by
    unfold Compiler.replaceLastPopWithReturn
    split
    · exact ⟨rfl, rfl⟩
    · exact ⟨rfl, rfl⟩
  unfold Compiler.endFunction
  dsimp only
  split
  · split
    · exact hr
    · exact hr
  · split
    · exact ⟨rfl, rfl⟩
    · exact ⟨rfl, rfl⟩

/-- The compiled function that `closeFunction` adds to the constant pool, and the
instructions it emits in the enclosing scope. -/
theorem closeFunction_eq (P : Params) {c : Compiler} {outer : List CompilationScope}
    {cur inner : CompilationScope} (h : c.inScope (outer ++ [cur]) inner) (n : Nat) :
    (c.closeFunction P n).constants = c.constants ++ [.CompiledFunction
      ⟨c.constants.length, inner.instructions, c.symbolTable.numDefinitions, n⟩] ∧
    ∃ cur', (c.closeFunction P n).inScope outer cur' ∧
      cur'.instructions = cur.instructions ++ loadBytes P c.symbolTable.FreeSymbols ++
        Make P .OpClosure [c.constants.length, c.symbolTable.FreeSymbols.length] := by
  have hl := inScope_leaveScope h
  obtain ⟨cur1, h1, h2⟩ := inScope_loadSymbols P c.symbolTable.FreeSymbols hl.1
  have hc := (loadSymbols_constants P c.symbolTable.FreeSymbols c.leaveScope.2).1
  have hc' : (c.leaveScope.2.loadSymbols P c.symbolTable.FreeSymbols).constants
      = c.constants := hc
  constructor
  · unfold Compiler.closeFunction
    dsimp only
    show (Compiler.addConstant _ _).2.constants = _
    unfold Compiler.addConstant
    dsimp only
    rw [hc', hl.2]
  · have hem := (inScope_emit P (inScope_addConstant h1 (.CompiledFunction
        ⟨(c.leaveScope.2.loadSymbols P c.symbolTable.FreeSymbols).constants.length,
          c.leaveScope.1, c.symbolTable.numDefinitions, n⟩)) .OpClosure
      [(c.leaveScope.2.loadSymbols P c.symbolTable.FreeSymbols).constants.length,
        c.symbolTable.FreeSymbols.length]).1
    have hem' : (c.closeFunction P n).inScope outer
        { instructions := cur1.instructions ++ Make P .OpClosure
            [(c.leaveScope.2.loadSymbols P c.symbolTable.FreeSymbols).constants.length,
              c.symbolTable.FreeSymbols.length]
          lastInstruction := some ⟨.OpClosure, cur1.instructions.length⟩
          previousInstruction := cur1.lastInstruction } := hem
    refine ⟨_, hem', ?_⟩
    show cur1.instructions ++ _ = _
    rw [h2, hc']

/-- C30: compiling a function literal adds to the constant pool, after the constants of
its body, a compiled function whose instructions end in `OpReturnValue` or `OpReturn`.
If the last statement of the body is an expression statement, they are the instructions
of the body with its trailing `OpPop` replaced by `OpReturnValue` (everything before it,
earlier `OpPop`s included, is kept); if it is a return statement, they are the
instructions of the body, which end in `OpReturnValue`; if it is a let statement,
`OpReturn` is appended; an empty body gives the single instruction `OpReturn`. -/
theorem C30_function_ends_in_return (P : Params) (name : String) (params : List String)
    (body : Block) (c c' : Compiler) (outer : List CompilationScope) (cur : CompilationScope)
    (hs : c.inScope outer cur)
    (h : compileExpression P (.FunctionLiteral name params body) c = .ok c') :
    ∃ cb fn, compileBlock P body (c.enterFunction name params) = .ok cb ∧
      c'.constants = cb.constants ++ [.CompiledFunction fn] ∧
      fn.NumParameters = params.length ∧
      (∃ pre, fn.Instructions = pre ++ Make P .OpReturnValue [] ∨
        fn.Instructions = pre ++ Make P .OpReturn []) ∧
      (body = .nil → fn.Instructions = Make P .OpReturn []) ∧
      (∀ e, body.last? = some (.ExpressionStatement e) → ∃ pre,
        cb.currentInstructions = pre ++ Make P .OpPop [] ∧
        fn.Instructions = pre ++ Make P .OpReturnValue []) ∧
      (∀ e, body.last? = some (.ReturnStatement e) → ∃ pre,
        cb.currentInstructions = pre ++ Make P .OpReturnValue [] ∧
        fn.Instructions = cb.currentInstructions) ∧
      (∀ n v, body.last? = some (.LetStatement n v) →
        fn.Instructions = cb.currentInstructions ++ Make P .OpReturn []) := by
  simp only [compileExpression] at h
  obtain ⟨cb, hb, h⟩ := bind_ok h
  cases h
  have he := inScope_enterFunction hs name params
  obtain ⟨curb, hsb⟩ := compileBlock_inScope P body _ cb (outer ++ [cur]) emptyScope he hb
  obtain ⟨cure, hse⟩ := inScope_endFunction P hsb
  have hclose := (closeFunction_eq P hse params.length).1
  rw [(endFunction_constants P cb).1] at hclose
  have hcb : cb.currentInstructions = curb.instructions := by
    unfold Compiler.currentInstructions; rw [inScope_currentScope hsb]
  have hlast : ∀ s, body.last? = some s → ∃ (cur1 : CompilationScope) (op : Opcode)
      (operands : List Nat),
      curb = (⟨cur1.instructions ++ Make P op operands,
        some ⟨op, cur1.instructions.length⟩, cur1.lastInstruction⟩ : CompilationScope) ∧
      (∀ e, s = .ExpressionStatement e → op = .OpPop ∧ operands = []) ∧
      (∀ e, s = .ReturnStatement e → op = .OpReturnValue ∧ operands = []) ∧
      (∀ n v, s = .LetStatement n v → op = .OpSetGlobal ∨ op = .OpSetLocal) := by
    intro s hl
    obtain ⟨c0, cur0, hs0, h0⟩ := compileBlock_last P body s _ cb _ _ hl he hb
    obtain ⟨cur1, op, operands, h1, h2⟩ := compileStatement_emits P s c0 cb _ cur0 hs0 h0
    refine ⟨cur1, op, operands, ?_, h2⟩
    rw [← inScope_currentScope hsb, inScope_currentScope h1]
  have hnil : body = .nil → cure.instructions = Make P .OpReturn [] := by
    intro e
    subst e
    simp only [compileBlock] at hb
    cases hb
    have := endFunction_empty P he
    rw [this] at hse
    have h2 := (inScope_emit P he .OpReturn []).1
    rw [← inScope_currentScope hse, inScope_currentScope h2]
    rfl
  have hexpr : ∀ e, body.last? = some (.ExpressionStatement e) → ∃ pre,
      curb.instructions = pre ++ Make P .OpPop [] ∧
      cure.instructions = pre ++ Make P .OpReturnValue [] := by
    intro e hl
    obtain ⟨cur1, op, operands, hc, h2, _, _⟩ := hlast _ hl
    obtain ⟨e1, e2⟩ := h2 e rfl
    subst e1 e2
    refine ⟨cur1.instructions, by rw [hc], ?_⟩
    rw [hc] at hsb
    have := endFunction_pop P _ _ hsb
    rw [← inScope_currentScope hse, inScope_currentScope this]
  have hret : ∀ e, body.last? = some (.ReturnStatement e) → ∃ pre,
      curb.instructions = pre ++ Make P .OpReturnValue [] ∧
      cure.instructions = curb.instructions := by
    intro e hl
    obtain ⟨cur1, op, operands, hc, _, h2, _⟩ := hlast _ hl
    obtain ⟨e1, e2⟩ := h2 e rfl
    subst e1 e2
    refine ⟨cur1.instructions, by rw [hc], ?_⟩
    have hsb' := hsb
    rw [hc] at hsb'
    have := endFunction_returnValue P _ _ _ hsb'
    rw [this] at hse
    rw [← inScope_currentScope hse, inScope_currentScope hsb]
  have hlet : ∀ n v, body.last? = some (.LetStatement n v) →
      cure.instructions = curb.instructions ++ Make P .OpReturn [] := by
    intro n v hl
    obtain ⟨cur1, op, operands, hc, _, _, h2⟩ := hlast _ hl
    have hsb' := hsb
    rw [hc] at hsb'
    have hop : op ≠ .OpPop ∧ op ≠ .OpReturnValue ∧ op ≠ .OpReturn := by
      rcases h2 n v rfl with e | e <;> subst e <;> exact ⟨by decide, by decide, by decide⟩
    have := endFunction_other P _ op operands _ _ hsb' hop.1 hop.2.1 hop.2.2
    rw [this] at hse
    have h3 := (inScope_emit P hsb .OpReturn []).1
    rw [← inScope_currentScope hse, inScope_currentScope h3]
  refine ⟨cb, _, hb, hclose, rfl, ?_, hnil, ?_, ?_, ?_⟩
  · show ∃ pre, cure.instructions = _ ∨ cure.instructions = _
    cases hl : body.last? with
    | none => exact ⟨[], Or.inr (by rw [hnil (last_none body hl)]; rfl)⟩
    | some s =>
      cases s with
      | LetStatement n v => exact ⟨curb.instructions, Or.inr (hlet n v hl)⟩
      | ReturnStatement e =>
        obtain ⟨pre, h1, h2⟩ := hret e hl
        exact ⟨pre, Or.inl (by rw [h2, h1])⟩
      | ExpressionStatement e =>
        obtain ⟨pre, _, h2⟩ := hexpr e hl
        exact ⟨pre, Or.inl h2⟩
  · intro e hl
    obtain ⟨pre, h1, h2⟩ := hexpr e hl
    exact ⟨pre, by rw [hcb, h1], h2⟩
  · intro e hl
    obtain ⟨pre, h1, h2⟩ := hret e hl
    exact ⟨pre, by rw [hcb, h1], by rw [hcb]; exact h2⟩
  · intro n v hl
    rw [hcb]
    exact hlet n v hl

/-- C30, the example of the claim: `fn() { 1; 2 }` compiles to the function
`OpConstant 0; OpPop; OpConstant 1; OpReturnValue`. -/
theorem C30_witness :
    ∃ c', compileExpression tableParams fnOneTwo Compiler.New = .ok c' ∧
      functionInstructions c'.constants =
        [Make tableParams .OpConstant [0] ++ Make tableParams .OpPop [] ++
          Make tableParams .OpConstant [1] ++ Make tableParams .OpReturnValue []] ∧
      ∃ (cb : Compiler) (fn : CompiledFunction),
        c'.constants = cb.constants ++ [.CompiledFunction fn] ∧
        ∃ pre, fn.Instructions = pre ++ Make tableParams .OpReturnValue [] ∨
          fn.Instructions = pre ++ Make tableParams .OpReturn [] := by
  have hex : ∃ c', compileExpression tableParams fnOneTwo Compiler.New = .ok c' ∧
      functionInstructions c'.constants =
        [Make tableParams .OpConstant [0] ++ Make tableParams .OpPop [] ++
          Make tableParams .OpConstant [1] ++ Make tableParams .OpReturnValue []] :=
    ⟨_, rfl, rfl⟩
  obtain ⟨c', h, hf⟩ := hex
  obtain ⟨cb, fn, _, hc, _, hend, _⟩ := C30_function_ends_in_return tableParams "" []
    (.cons (.ExpressionStatement (.IntegerLiteral 1))
      (.cons (.ExpressionStatement (.IntegerLiteral 2)) .nil)) Compiler.New c' [] emptyScope
    New_inScope h
  exact ⟨c', h, hf, cb, fn, hc, hend⟩

theorem lookupSymbol_cons_same (store : List (String × Symbol)) (name : String) (s : Symbol) :
    lookupSymbol ((name, s) :: store) name = some s := by
  simp [lookupSymbol]

/-- C11, the code at the failing input: a compiled function `fn` is pushed, then the
argument Integer 24, then `OpCall 1` is executed (`OpConstant 0; OpConstant 1; OpCall 1;
OpPop` on a fresh machine).  `Run` takes the argument on top of the stack as the callee
and returns the error `calling non-function`: no frame is pushed for `fn`, which lies at
`stack[sp-1-1]`, and the stack is left as it was. -/
theorem C11_call_with_argument_fails (P : Params) (fn : CompiledFunction) (k heap fuel : Nat) :
    ∃ vm', VM.Run P (fuel + 3)
        (New ⟨callWithArgument P, [.CompiledFunction fn, .Integer k 24]⟩ heap) =
        .returned (some "calling non-function") vm' ∧
      vm'.frameIndex = 1 ∧ vm'.sp = 2 ∧
      index vm'.stack (vm'.sp - 1 - 1) = some (.CompiledFunction fn) ∧
      index vm'.stack (vm'.sp - 1) = some (.Integer k 24) := by
  have hlen : (List.replicate StackSize Object.nil).length = StackSize :=
    List.length_replicate _ _
  have hb := New_framed ⟨callWithArgument P, [.CompiledFunction fn, .Integer k 24]⟩ heap
  have hcall := cycle_OpCall_error P
    (conf (New ⟨callWithArgument P, [.CompiledFunction fn, .Integer k 24]⟩ heap)
      ⟨⟨heap, callWithArgument P, 0, 0⟩, 5⟩
      (((List.replicate StackSize Object.nil).set 0 (.CompiledFunction fn)).set 1
        (.Integer k 24)) 2 (List.replicate GlobalsSize Object.nil) (heap + 1))
    ⟨⟨heap, callWithArgument P, 0, 0⟩, 5⟩ (.Integer k 24)
    (conf_currentFrame hb _ _ _ _ _) (by rw [conf_nextByte hb]; rfl)
    (index_set_nat_same _ 1 _ (by rw [List.length_set, hlen]; decide))
    (by intro g hg; cases hg)
  rw [New_conf, Run_continue P (fuel + 2) (cycle_OpConstant P
      (New ⟨callWithArgument P, [.CompiledFunction fn, .Integer k 24]⟩ heap)
      ⟨heap, callWithArgument P, 0, 0⟩ (-1) 2 _ 0 1 _ (heap + 1) 0 0 (.CompiledFunction fn) hb
      rfl rfl rfl rfl (by decide) hlen (by decide) (by decide)),
    Run_continue P (fuel + 1) (cycle_OpConstant P
      (New ⟨callWithArgument P, [.CompiledFunction fn, .Integer k 24]⟩ heap)
      ⟨heap, callWithArgument P, 0, 0⟩ 2 5 _ 1 2 _ (heap + 1) 1 1 (.Integer k 24) hb
      rfl rfl rfl rfl (by decide) (by rw [List.length_set]; exact hlen) (by decide) (by decide)),
    Run_error P fuel hcall]
  refine ⟨_, rfl, rfl, rfl, ?_, ?_⟩
  · show index (((List.replicate StackSize Object.nil).set 0 (.CompiledFunction fn)).set 1
      (.Integer k 24)) ((0 : Nat) : Int) = _
    rw [index_set_nat _ 1 0 _ (by decide)]
    exact index_set_nat_same _ 0 _ (by rw [hlen]; decide)
  · exact index_set_nat_same _ 1 _ (by rw [List.length_set, hlen]; decide)

theorem run_returnSecond (P : Params) (b : VM) (fn : CompiledFunction) (st gs : List Object)
    (h a : Nat) (x v : Object) (hb : b.framed) (hbi : b.frameIndex = 1)
    (hbl : b.frames.length = MaxFrame) (hins : fn.Instructions = callConstant P)
    (hcs : b.constants = [.CompiledFunction ⟨a, returnSecond P, 0, 0⟩, x, v])
    (hlen : st.length = StackSize) :
    ∃ vm', VM.Run P 5 (conf b ⟨fn, -1⟩ st 0 gs h) = .unfinished vm' ∧
      vm'.frameIndex = 1 ∧ vm'.currentFrame = some ⟨fn, 3⟩ ∧ vm'.sp = 2 ∧
      index vm'.stack 0 = some (.CompiledFunction ⟨a, returnSecond P, 0, 0⟩) ∧
      index vm'.stack 1 = some v := by
  have hfl : (b.frames.set (b.frameIndex - 1).toNat (some (⟨fn, 2⟩ : Frame))).length
      = MaxFrame := by
    rw [List.length_set]; exact hbl
  have hcall := cycle_OpCall P (conf b ⟨fn, 2⟩
    (st.set 0 (.CompiledFunction ⟨a, returnSecond P, 0, 0⟩)) 1 gs h) ⟨fn, 2⟩
    ⟨a, returnSecond P, 0, 0⟩
    (conf_currentFrame hb _ _ _ _ _)
    (by rw [conf_nextByte hb]; show index fn.Instructions _ = _; rw [hins]; rfl)
    (index_set_nat_same _ 0 _ (by rw [hlen]; decide))
    (by
      show b.frameIndex < ((b.frames.set _ _).length : Int)
      rw [hfl, hbi]; decide)
  have hcur := entered_currentFrame (conf b ⟨fn, 2⟩
    (st.set 0 (.CompiledFunction ⟨a, returnSecond P, 0, 0⟩)) 1 gs h) ⟨fn, 2⟩
    ⟨a, returnSecond P, 0, 0⟩ (by show 0 ≤ b.frameIndex; rw [hbi]; decide)
    (by show b.frameIndex < ((b.frames.set _ _).length : Int)
        rw [hfl, hbi]; decide)
  have hE := eq_conf hcur
  have hfrE := framed_of_currentFrame hcur
  have hc1 := cycle_OpConstant P _ ⟨a, returnSecond P, 0, 0⟩ (-1) 2
    (st.set 0 (.CompiledFunction ⟨a, returnSecond P, 0, 0⟩)) 1 2 gs h 1 1 x hfrE (by rfl)
    (by rfl) (by show index b.constants _ = _; rw [hcs]; rfl) rfl (by decide)
    (by rw [List.length_set]; exact hlen) (by decide) (by decide)
  have hc1 := (congrArg (VM.cycle P) hE).trans hc1
  have hc2 := cycle_OpConstant P ((conf b ⟨fn, 2⟩
    (st.set 0 (.CompiledFunction ⟨a, returnSecond P, 0, 0⟩)) 1 gs h).entered ⟨fn, 2⟩
    ⟨a, returnSecond P, 0, 0⟩) ⟨a, returnSecond P, 0, 0⟩ 2 5
    ((st.set 0 (.CompiledFunction ⟨a, returnSecond P, 0, 0⟩)).set 1 x) 2 3 gs h 2 2 v hfrE
    (by rfl) (by rfl) (by show index b.constants _ = _; rw [hcs]; rfl) rfl (by decide)
    (by rw [List.length_set, List.length_set]; exact hlen) (by decide) (by decide)
  have hret := cycle_OpReturnValue P (conf ((conf b ⟨fn, 2⟩
    (st.set 0 (.CompiledFunction ⟨a, returnSecond P, 0, 0⟩)) 1 gs h).entered ⟨fn, 2⟩
    ⟨a, returnSecond P, 0, 0⟩) ⟨⟨a, returnSecond P, 0, 0⟩, 5⟩
    (((st.set 0 (.CompiledFunction ⟨a, returnSecond P, 0, 0⟩)).set 1 x).set 2 v) 3 gs h)
    ⟨⟨a, returnSecond P, 0, 0⟩, 5⟩ v x
    (conf_currentFrame hfrE _ _ _ _ _) (by rw [conf_nextByte hfrE]; rfl)
    (index_set_nat_same _ 2 _ (by rw [List.length_set, List.length_set, hlen]; decide))
    (by
      show index ((_ : List Object).set 2 v) ((1 : Nat) : Int) = _
      rw [index_set_nat _ 2 1 _ (by decide)]
      exact index_set_nat_same _ 1 _ (by rw [List.length_set, hlen]; decide))
    (by show (List.set _ 2 v).length = _
        rw [List.length_set, List.length_set, List.length_set]; exact hlen)
  rw [show (5 : Nat) = 4 + 1 from rfl, Run_continue P 4 (cycle_OpConstant P b fn (-1) 2 st 0 1
      gs h 0 0 (.CompiledFunction ⟨a, returnSecond P, 0, 0⟩) hb (by rw [hins]; rfl)
      (by rw [hins]; rfl) (by rw [hcs]; rfl) rfl (by decide) hlen (by decide) (by decide)),
    Run_continue P 3 hcall, Run_continue P 2 hc1, Run_continue P 1 hc2, Run_continue P 0 hret]
  refine ⟨_, rfl, ?_, ?_, rfl, ?_, ?_⟩
  · show b.frameIndex + 1 - 1 = 1
    rw [hbi]; rfl
  · unfold VM.currentFrame
    show (index (((((b.frames.set (b.frameIndex - 1).toNat _).set (b.frameIndex - 1).toNat
      _).set b.frameIndex.toNat _).set (b.frameIndex + 1 - 1).toNat _).set
      (b.frameIndex + 1 - 1).toNat _) (b.frameIndex + 1 - 1 - 1)).bind _ = _
    rw [hbi]
    have e : index (((((b.frames.set ((1 : Int) - 1).toNat (some (⟨fn, 2⟩ : Frame))).set
        ((1 : Int) - 1).toNat (some ⟨fn, 2 + 1⟩)).set (1 : Int).toNat
        (some (NewFrame ⟨a, returnSecond P, 0, 0⟩))).set ((1 : Int) + 1 - 1).toNat
        (some ⟨⟨a, returnSecond P, 0, 0⟩, 5⟩)).set ((1 : Int) + 1 - 1).toNat
        (some ⟨⟨a, returnSecond P, 0, 0⟩, 5 + 1⟩)) ((1 : Int) + 1 - 1 - 1)
        = some (some ⟨fn, 3⟩) := by
      show index (((((b.frames.set 0 _).set 0 _).set 1 _).set 1 _).set 1 _) ((0 : Nat) : Int) = _
      rw [index_set_nat _ 1 0 _ (by decide), index_set_nat _ 1 0 _ (by decide),
        index_set_nat _ 1 0 _ (by decide)]
      exact index_set_nat_same _ 0 _ (by rw [List.length_set, hbl]; decide)
    exact (congrArg (fun o => Option.bind o id) e).trans rfl
  · show index ((((st.set 0 _).set 1 x).set 2 v).set 1 v) ((0 : Nat) : Int) = _
    rw [index_set_nat _ 1 0 _ (by decide), index_set_nat _ 2 0 _ (by decide),
      index_set_nat _ 1 0 _ (by decide)]
    exact index_set_nat_same _ 0 _ (by rw [hlen]; decide)
  · show index ((((st.set 0 _).set 1 x).set 2 v).set 1 v) ((1 : Nat) : Int) = _
    exact index_set_nat_same _ 1 _
      (by rw [List.length_set, List.length_set, List.length_set, hlen]; decide)

/-- C12, the code at the failing input: the function `constants[0]`, whose body is
`OpConstant 1; OpConstant 2; OpReturnValue`, is called by `OpConstant 0; OpCall 0; OpPop`
on a fresh machine.  After the five cycles up to and including `OpReturnValue` the
caller's frame is current again (`frameIndex` 1, its `ip` on the opcode of `OpCall`), but
`sp` is 2 and not 1: slot 0 still holds the callee and the return value `v` lies in slot
1, where the function had left `x`.  Only the one value directly below `v` is popped. -/
theorem C12_return_value_keeps_callee (P : Params) (a heap : Nat) (x v : Object) :
    ∃ vm', VM.Run P 5
        (New ⟨callConstant P, [.CompiledFunction ⟨a, returnSecond P, 0, 0⟩, x, v]⟩ heap) =
        .unfinished vm' ∧
      vm'.frameIndex = 1 ∧ vm'.currentFrame = some ⟨⟨heap, callConstant P, 0, 0⟩, 3⟩ ∧
      vm'.sp = 2 ∧
      index vm'.stack 0 = some (.CompiledFunction ⟨a, returnSecond P, 0, 0⟩) ∧
      index vm'.stack 1 = some v := by
  rw [New_conf]
  exact run_returnSecond P _ ⟨heap, callConstant P, 0, 0⟩ _ _ (heap + 1) a x v (New_framed _ _)
    rfl (by
      show ((List.replicate MaxFrame (none : Option Frame)).set 0 _).length = MaxFrame
      rw [List.length_set, List.length_replicate])
    rfl rfl (List.length_replicate _ _)

theorem append_head (p t : String) (c : Char) (cs : List Char) (hp : p.data = c :: cs) :
    (p ++ t).data.head? = some c := by
  rw [String.data_append, hp]
  rfl

theorem noArityError_none (vm : VM) : noArityError (none, vm) := by
  intro e h
  cases h

theorem noArityError_append (p t : String) (c : Char) (cs : List Char) (vm : VM)
    (hp : p.data = c :: cs) (hc : c ≠ 'w') : noArityError (some (p ++ t), vm) := by
  intro e h
  cases h
  rw [append_head p t c cs hp]
  intro h2
  exact hc (Option.some.inj h2)

theorem push_arity {vm : VM} {o : Object} {r : error × VM} (h : vm.push o = some r) :
    noArityError r := by
  unfold VM.push at h
  split at h
  · cases h
    intro e he
    cases he
    decide
  · cases ha : assign vm.stack vm.sp o with
    | none => simp [ha] at h
    | some s => simp [ha] at h; subst h; exact noArityError_none _

theorem heap_push_arity {vm : VM} {n : Nat} {o : Object} {r : error × VM}
    (h : VM.push { vm with heap := n } o = some r) : noArityError r :=
  @push_arity { vm with heap := n } o r h

theorem executeBinaryIntegerOperation_arity (P : Params) {vm : VM} {op : Opcode}
    {l r : Object} {res : error × VM}
    (h : vm.executeBinaryIntegerOperation P op l r = some res) : noArityError res := by
  unfold VM.executeBinaryIntegerOperation at h
  cases hl : integerValue l with
  | none => simp [hl] at h
  | some a =>
    cases hr : integerValue r with
    | none => simp [hl, hr] at h
    | some b =>
      simp only [hl, hr, Option.bind_eq_bind, Option.some_bind] at h
      split at h
      · exact heap_push_arity h
      · exact heap_push_arity h
      · exact heap_push_arity h
      · split at h
        · cases h
        · exact heap_push_arity h
      · cases h; exact noArityError_append _ _ 'u' _ _ rfl (by decide)

theorem executeBinaryStringOperation_arity (P : Params) {vm : VM} {op : Opcode}
    {l r : Object} {res : error × VM}
    (h : vm.executeBinaryStringOperation P op l r = some res) : noArityError res := by
  unfold VM.executeBinaryStringOperation at h
  split at h
  · cases h; exact noArityError_append _ _ 'u' _ _ rfl (by decide)
  · cases hl : stringValue l with
    | none => simp [hl] at h
    | some a =>
      cases hr : stringValue r with
      | none => simp [hl, hr] at h
      | some b =>
        simp only [hl, hr, Option.bind_eq_bind, Option.some_bind] at h
        exact heap_push_arity h

theorem executeBinaryOperation_arity (P : Params) {vm : VM} {op : Opcode} {res : error × VM}
    (h : vm.executeBinaryOperation P op = some res) : noArityError res := by
  unfold VM.executeBinaryOperation at h
  cases h1 : vm.pop with
  | none => simp [h1] at h
  | some p1 =>
    obtain ⟨right, vm1⟩ := p1
    cases h2 : vm1.pop with
    | none => simp [h1, h2] at h
    | some p2 =>
      obtain ⟨left, vm2⟩ := p2
      cases hl : left.typ with
      | none => simp [h1, h2, hl] at h
      | some lt =>
        cases hr : right.typ with
        | none => simp [h1, h2, hl, hr] at h
        | some rt =>
          simp only [h1, h2, hl, hr, Option.bind_eq_bind, Option.some_bind] at h
          split at h
          · exact executeBinaryIntegerOperation_arity P h
          · split at h
            · exact executeBinaryStringOperation_arity P h
            · cases h
              simp only [String.append_assoc]
              exact noArityError_append _ _ 'u' _ _ rfl (by decide)

theorem executeIntegerComparison_arity (P : Params) {vm : VM} {op : Opcode}
    {l r : Object} {res : error × VM}
    (h : vm.executeIntegerComparison P op l r = some res) : noArityError res := by
  unfold VM.executeIntegerComparison at h
  cases hl : integerValue l with
  | none => simp [hl] at h
  | some a =>
    cases hr : integerValue r with
    | none => simp [hl, hr] at h
    | some b =>
      simp only [hl, hr, Option.bind_eq_bind, Option.some_bind] at h
      split at h
      · exact push_arity h
      · exact push_arity h
      · exact push_arity h
      · cases h; exact noArityError_append _ _ 'u' _ _ rfl (by decide)

theorem executeComparison_arity (P : Params) {vm : VM} {op : Opcode} {res : error × VM}
    (h : vm.executeComparison P op = some res) : noArityError res := by
  unfold VM.executeComparison at h
  cases h1 : vm.pop with
  | none => simp [h1] at h
  | some p1 =>
    obtain ⟨right, vm1⟩ := p1
    cases h2 : vm1.pop with
    | none => simp [h1, h2] at h
    | some p2 =>
      obtain ⟨left, vm2⟩ := p2
      cases he : eitherInteger left right with
      | none => simp [h1, h2, he] at h
      | some e =>
        simp only [h1, h2, he, Option.bind_eq_bind, Option.some_bind] at h
        split at h
        · exact executeIntegerComparison_arity P h
        · split at h
          · exact push_arity h
          · exact push_arity h
          · cases hl : left.typ with
            | none => simp [hl] at h
            | some lt =>
              cases hr : right.typ with
              | none => simp [hl, hr] at h
              | some rt =>
                simp only [hl, hr, Option.bind_eq_bind, Option.some_bind] at h
                cases h
                simp only [String.append_assoc]
                exact noArityError_append _ _ 'u' _ _ rfl (by decide)

theorem executeBangOperator_arity {vm : VM} {res : error × VM}
    (h : vm.executeBangOperator = some res) : noArityError res := by
  unfold VM.executeBangOperator at h
  cases h1 : vm.pop with
  | none => simp [h1] at h
  | some p1 =>
    obtain ⟨operand, vm1⟩ := p1
    simp only [h1, Option.bind_eq_bind, Option.some_bind] at h
    split at h
    · exact push_arity h
    · split at h
      · exact push_arity h
      · split at h
        · exact push_arity h
        · exact push_arity h

theorem executeMinusOperator_arity {vm : VM} {res : error × VM}
    (h : vm.executeMinusOperator = some res) : noArityError res := by
  unfold VM.executeMinusOperator at h
  cases h1 : vm.pop with
  | none => simp [h1] at h
  | some p1 =>
    obtain ⟨operand, vm1⟩ := p1
    cases ht : operand.typ with
    | none => simp [h1, ht] at h
    | some t =>
      simp only [h1, ht, Option.bind_eq_bind, Option.some_bind] at h
      split at h
      · cases h; exact noArityError_append _ _ 'u' _ _ rfl (by decide)
      · cases hv : integerValue operand with
        | none => simp [hv] at h
        | some v =>
          simp only [hv, Option.bind_eq_bind, Option.some_bind] at h
          exact heap_push_arity h

theorem buildHashLoop_arity (P : Params) (st : List Object) (vm : VM) : ∀ (n : Nat) (i : Int)
    (acc : List (HashKey × Object × Object)) (e : String)
    (r : List (HashKey × Object × Object)),
    buildHashLoop P st n i acc = some (some e, r) → noArityError (some e, vm) := by
  intro n
  induction n with
  | zero =>
    intro i acc e r h
    simp [buildHashLoop] at h
  | succ n ih =>
    intro i acc e r h
    unfold buildHashLoop at h
    cases hk : index st i with
    | none => simp [hk] at h
    | some key =>
      cases hv : index st (i + 1) with
      | none => simp [hk, hv] at h
      | some value =>
        simp only [hk, hv, Option.bind_eq_bind, Option.some_bind] at h
        split at h
        · cases ht : key.typ with
          | none => simp [ht] at h
          | some t =>
            simp only [ht, Option.bind_eq_bind, Option.some_bind] at h
            cases h
            exact noArityError_append _ _ 'u' _ _ rfl (by decide)
        · exact ih _ _ e r h

theorem executeArrayIndex_arity {vm : VM} {a i : Object} {res : error × VM}
    (h : vm.executeArrayIndex a i = some res) : noArityError res := by
  unfold VM.executeArrayIndex at h
  split at h
  · cases hv : integerValue i with
    | none => simp [hv] at h
    | some v =>
      simp only [hv, Option.bind_eq_bind, Option.some_bind] at h
      split at h
      · exact push_arity h
      · rename_i elements _
        cases he : index elements v with
        | none => simp [he] at h
        | some x =>
          simp only [he, Option.bind_eq_bind, Option.some_bind] at h
          exact push_arity h
  · cases h

theorem executeHashIndex_arity (P : Params) {vm : VM} {a i : Object} {res : error × VM}
    (h : vm.executeHashIndex P a i = some res) : noArityError res := by
  unfold VM.executeHashIndex at h
  split at h
  · split at h
    · cases ht : i.typ with
      | none => simp [ht] at h
      | some t =>
        simp only [ht, Option.bind_eq_bind, Option.some_bind] at h
        cases h
        exact noArityError_append _ _ 'u' _ _ rfl (by decide)
    · split at h
      · exact push_arity h
      · exact push_arity h
  · cases h

theorem executeIndexExpression_arity (P : Params) {vm : VM} {l i : Object} {res : error × VM}
    (h : vm.executeIndexExpression P l i = some res) : noArityError res := by
  unfold VM.executeIndexExpression at h
  cases hl : l.typ with
  | none => simp [hl] at h
  | some lt =>
    simp only [hl, Option.bind_eq_bind, Option.some_bind] at h
    split at h
    · cases hi : i.typ with
      | none => simp [hi] at h
      | some it =>
        simp only [hi, Option.bind_eq_bind, Option.some_bind] at h
        split at h
        · exact executeArrayIndex_arity h
        · split at h
          · exact executeHashIndex_arity P h
          · cases h; exact noArityError_append _ _ 'i' _ _ rfl (by decide)
    · split at h
      · rename_i hc; cases hc
      · split at h
        · exact executeHashIndex_arity P h
        · cases h; exact noArityError_append _ _ 'i' _ _ rfl (by decide)

theorem buildHash_arity (P : Params) {vm : VM} {s e : Int} {r : Object × error × VM}
    (h : vm.buildHash P s e = some r) (vm0 : VM) (msg : String) (hm : r.2.1 = some msg) :
    noArityError (some msg, vm0) := by
  unfold VM.buildHash at h
  cases hr : buildHashLoop P vm.stack ((e - s + 1) / 2).toNat s [] with
  | none => simp [hr] at h
  | some p =>
    obtain ⟨err, pairs⟩ := p
    simp only [hr, Option.bind_eq_bind, Option.some_bind] at h
    split at h
    · next m2 =>
      cases h
      cases hm
      exact buildHashLoop_arity P _ _ _ _ _ _ pairs hr
    · cases h
      cases hm

/-- No case of the `switch` returns an error that starts with `w`. -/
theorem dispatch_arity (P : Params) {vm : VM} {ins : List Nat} {ip : Int} {op : Option Opcode}
    {res : error × VM} (h : vm.dispatch P ins ip op = some res) : noArityError res := by
  unfold VM.dispatch at h
  split at h
  · cases hk : readOperand ins ip with
    | none => simp [hk] at h
    | some k =>
      cases ha : vm.addIp 2 with
      | none => simp [hk, ha] at h
      | some vm1 =>
        cases hc : index vm1.constants k with
        | none => simp [hk, ha, hc] at h
        | some c =>
          simp only [hk, ha, hc, Option.bind_eq_bind, Option.some_bind] at h
          exact push_arity h
  · exact executeBinaryOperation_arity P h
  · exact executeBinaryOperation_arity P h
  · exact executeBinaryOperation_arity P h
  · exact executeBinaryOperation_arity P h
  · cases h1 : vm.pop with
    | none => simp [h1] at h
    | some p1 =>
      simp only [h1, Option.bind_eq_bind, Option.some_bind] at h
      cases h; exact noArityError_none _
  · exact push_arity h
  · exact push_arity h
  · exact executeComparison_arity P h
  · exact executeComparison_arity P h
  · exact executeComparison_arity P h
  · exact executeBangOperator_arity h
  · exact executeMinusOperator_arity h
  · cases hk : readOperand ins ip with
    | none => simp [hk] at h
    | some k =>
      cases ha : vm.setIp ((k : Int) - 1) with
      | none => simp [hk, ha] at h
      | some vm1 =>
        simp only [hk, ha, Option.bind_eq_bind, Option.some_bind] at h
        cases h; exact noArityError_none _
  · cases hk : readOperand ins ip with
    | none => simp [hk] at h
    | some k =>
      cases ha : vm.addIp 2 with
      | none => simp [hk, ha] at h
      | some vm1 =>
        cases hp : vm1.pop with
        | none => simp [hk, ha, hp] at h
        | some p =>
          obtain ⟨c, vm2⟩ := p
          simp only [hk, ha, hp, Option.bind_eq_bind, Option.some_bind] at h
          split at h
          · cases hs : vm2.setIp ((k : Int) - 1) with
            | none => simp [hs] at h
            | some vm3 =>
              simp only [hs, Option.bind_eq_bind, Option.some_bind] at h
              cases h; exact noArityError_none _
          · cases h; exact noArityError_none _
  · exact push_arity h
  · cases hk : readOperand ins ip with
    | none => simp [hk] at h
    | some k =>
      cases ha : vm.addIp 2 with
      | none => simp [hk, ha] at h
      | some vm1 =>
        cases hp : vm1.pop with
        | none => simp [hk, ha, hp] at h
        | some p =>
          obtain ⟨v, vm2⟩ := p
          cases hg : assign vm2.globals (k : Int) v with
          | none => simp [hk, ha, hp, hg] at h
          | some gs =>
            simp only [hk, ha, hp, hg, Option.bind_eq_bind, Option.some_bind] at h
            cases h; exact noArityError_none _
  · cases hk : readOperand ins ip with
    | none => simp [hk] at h
    | some k =>
      cases ha : vm.addIp 2 with
      | none => simp [hk, ha] at h
      | some vm1 =>
        cases hc : index vm1.globals k with
        | none => simp [hk, ha, hc] at h
        | some c =>
          simp only [hk, ha, hc, Option.bind_eq_bind, Option.some_bind] at h
          exact push_arity h
  · cases hk : readOperand ins ip with
    | none => simp [hk] at h
    | some k =>
      cases ha : vm.addIp 2 with
      | none => simp [hk, ha] at h
      | some vm1 =>
        cases hc : vm1.buildArray (vm1.sp - k) vm1.sp with
        | none => simp [hk, ha, hc] at h
        | some p =>
          obtain ⟨arr, vm2⟩ := p
          simp only [hk, ha, hc, Option.bind_eq_bind, Option.some_bind] at h
          exact @push_arity { vm2 with sp := vm2.sp - k } arr res h
  · cases hk : readOperand ins ip with
    | none => simp [hk] at h
    | some k =>
      cases ha : vm.addIp 2 with
      | none => simp [hk, ha] at h
      | some vm1 =>
        cases hc : vm1.buildHash P (vm1.sp - k) vm1.sp with
        | none => simp [hk, ha, hc] at h
        | some p =>
          obtain ⟨hash, err, vm2⟩ := p
          simp only [hk, ha, hc, Option.bind_eq_bind, Option.some_bind] at h
          split at h
          · next msg =>
            cases h
            exact buildHash_arity P hc vm2 msg rfl
          · exact @push_arity { vm2 with sp := vm2.sp - k } hash res h
  · cases h1 : vm.pop with
    | none => simp [h1] at h
    | some p1 =>
      obtain ⟨idx, vm1⟩ := p1
      cases h2 : vm1.pop with
      | none => simp [h1, h2] at h
      | some p2 =>
        obtain ⟨left, vm2⟩ := p2
        simp only [h1, h2, Option.bind_eq_bind, Option.some_bind] at h
        exact executeIndexExpression_arity P h
  · cases hc : index vm.stack (vm.sp - 1) with
    | none => simp [hc] at h
    | some callee =>
      simp only [hc, Option.bind_eq_bind, Option.some_bind] at h
      split at h
      · rename_i fn
        cases hp : vm.pushFrame (NewFrame fn) with
        | none => simp [hp] at h
        | some vm1 =>
          simp only [hp, Option.bind_eq_bind, Option.some_bind] at h
          cases h; exact noArityError_none _
      · cases h
        intro e he
        cases he
        decide
  · cases h1 : vm.pop with
    | none => simp [h1] at h
    | some p1 =>
      obtain ⟨rv, vm1⟩ := p1
      cases h2 : vm1.popFrame with
      | none => simp [h1, h2] at h
      | some vm2 =>
        cases h3 : vm2.pop with
        | none => simp [h1, h2, h3] at h
        | some p3 =>
          obtain ⟨x, vm3⟩ := p3
          simp only [h1, h2, h3, Option.bind_eq_bind, Option.some_bind] at h
          exact push_arity h
  · cases h2 : vm.popFrame with
    | none => simp [h2] at h
    | some vm2 =>
      cases h3 : vm2.pop with
      | none => simp [h2, h3] at h
      | some p3 =>
        obtain ⟨x, vm3⟩ := p3
        simp only [h2, h3, Option.bind_eq_bind, Option.some_bind] at h
        exact push_arity h
  · cases h; exact noArityError_none _

theorem cycle_arity (P : Params) {vm : VM} {res : error × VM} (h : vm.cycle P = some res) :
    noArityError res := by
  cases hf : vm.currentFrame with
  | none => simp [VM.cycle, VM.addIp, hf] at h
  | some f =>
    cases hb : index f.Instructions (f.ip + 1) with
    | none =>
      have hb2 : index f.fn.Instructions (f.ip + 1) = none := hb
      simp [VM.cycle, addIp_eq hf, currentFrame_withIp hf, Frame.Instructions, hb2] at h
    | some bt =>
      rw [cycle_fetch_any P hf hb] at h
      exact dispatch_arity P h

/-- The method `Run` never returns an error that starts with `w`. -/
theorem Run_arity (P : Params) : ∀ (fuel : Nat) (vm vm' : VM) (e : String),
    VM.Run P fuel vm = .returned (some e) vm' → e.data.head? ≠ some 'w' := by
  intro fuel
  induction fuel with
  | zero => intro vm vm' e h; cases h
  | succ fuel ih =>
    intro vm vm' e h
    unfold VM.Run at h
    cases hr : vm.running with
    | none => rw [hr] at h; cases h
    | some r =>
      rw [hr] at h
      cases r with
      | false => cases h
      | true =>
        dsimp only at h
        cases hc : vm.cycle P with
        | none => rw [hc] at h; cases h
        | some res =>
          obtain ⟨err, v'⟩ := res
          rw [hc] at h
          cases err with
          | some msg =>
            dsimp only at h
            cases h
            exact cycle_arity P hc _ rfl
          | none =>
            dsimp only at h
            exact ih v' vm' e h

theorem wrong_number_head (w g : Nat) :
    ("wrong number of arguments: want=" ++ toString w ++ ", got=" ++ toString g).data.head?
      = some 'w' := by
  simp only [String.append_assoc]
  exact append_head _ _ 'w' _ rfl

/-- C13 (amended): `Run` makes no arity check.  `OpCall` enters a compiled function on
top of the stack whatever its parameter count: with a free frame slot, one cycle returns
no error and makes a new frame for the function, at `ip = -1`, the current one.  And no
run, of any machine, returns the error `wrong number of arguments: want=w, got=g`. -/
theorem C13_no_arity_check (P : Params) (vm : VM) (f : Frame) (fn : CompiledFunction)
    (hf : vm.currentFrame = some f)
    (hb : vm.nextByte = some (P.byte .OpCall))
    (hc : index vm.stack (vm.sp - 1) = some (.CompiledFunction fn))
    (hfi : vm.frameIndex < vm.frames.length) :
    (∃ vm', vm.cycle P = some (none, vm') ∧ vm'.frameIndex = vm.frameIndex + 1 ∧
      vm'.currentFrame = some ⟨fn, -1⟩ ∧ vm'.stack = vm.stack ∧ vm'.sp = vm.sp) ∧
    (∀ (fuel : Nat) (vm0 vm1 : VM) (e : String) (w g : Nat),
      VM.Run P fuel vm0 = .returned (some e) vm1 →
      e ≠ "wrong number of arguments: want=" ++ toString w ++ ", got=" ++ toString g) := by
  have hfr := framed_of_currentFrame hf
  refine ⟨⟨_, cycle_OpCall P vm f fn hf hb hc hfi, rfl,
    entered_currentFrame vm f fn (by have := hfr.1; omega) hfi, rfl, rfl⟩, ?_⟩
  intro fuel vm0 vm1 e w g hrun he
  have h1 := Run_arity P fuel vm0 vm1 e hrun
  rw [he] at h1
  exact h1 (wrong_number_head w g)

/-- C13, a counterexample to the claim as stated: the two-parameter function `twoParams`
is called without arguments (`OpConstant 0; OpCall 0; OpPop` on a fresh machine).  After
the two cycles `OpConstant 0` and `OpCall` no error has been returned and the function
has been entered: its frame is the current one. -/
theorem C13_counterexample :
    ∃ vm', VM.Run tableParams 2
        (New ⟨callConstant tableParams, [.CompiledFunction twoParams]⟩ 20) = .unfinished vm' ∧
      vm'.frameIndex = 2 ∧ vm'.currentFrame = some ⟨twoParams, -1⟩ ∧
      twoParams.NumParameters = 2 := by
  have hlen : (List.replicate StackSize Object.nil).length = StackSize :=
    List.length_replicate _ _
  have hb := New_framed ⟨callConstant tableParams, [.CompiledFunction twoParams]⟩ 20
  have hfl : ((New ⟨callConstant tableParams, [.CompiledFunction twoParams]⟩ 20).frames.set
      ((New ⟨callConstant tableParams, [.CompiledFunction twoParams]⟩ 20).frameIndex - 1).toNat
      (some (⟨⟨20, callConstant tableParams, 0, 0⟩, 2⟩ : Frame))).length = MaxFrame := by
    show (((List.replicate MaxFrame (none : Option Frame)).set 0 _).set _ _).length = MaxFrame
    rw [List.length_set, List.length_set, List.length_replicate]
  have hcall := cycle_OpCall tableParams
    (conf (New ⟨callConstant tableParams, [.CompiledFunction twoParams]⟩ 20)
      ⟨⟨20, callConstant tableParams, 0, 0⟩, 2⟩
      ((List.replicate StackSize Object.nil).set 0 (.CompiledFunction twoParams)) 1
      (List.replicate GlobalsSize Object.nil) (20 + 1))
    ⟨⟨20, callConstant tableParams, 0, 0⟩, 2⟩ twoParams
    (conf_currentFrame hb _ _ _ _ _) (by rw [conf_nextByte hb]; rfl)
    (index_set_nat_same _ 0 _ (by rw [hlen]; decide))
    (by
      show (1 : Int) < ((List.set _ _ _).length : Int)
      rw [hfl]; decide)
  rw [New_conf, show (2 : Nat) = 1 + 1 from rfl, Run_continue tableParams 1 (cycle_OpConstant
      tableParams (New ⟨callConstant tableParams, [.CompiledFunction twoParams]⟩ 20)
      ⟨20, callConstant tableParams, 0, 0⟩ (-1) 2 _ 0 1 _ (20 + 1) 0 0
      (.CompiledFunction twoParams) hb (by rfl) (by rfl) (by rfl) rfl (by decide) hlen
      (by decide) (by decide)),
    Run_continue tableParams 0 hcall]
  exact ⟨_, rfl, rfl, entered_currentFrame _ _ _ (by decide)
    (by
      show (1 : Int) < ((List.set _ _ _).length : Int)
      rw [hfl]; decide), rfl⟩

/-- C13, a witness: `OpCall 0` with the two-parameter function `twoParams` on top of the
stack enters it. -/
theorem C13_witness :
    ∃ vm', callNoArg.cycle tableParams = some (none, vm') ∧ vm'.frameIndex = 2 ∧
      vm'.currentFrame = some ⟨twoParams, -1⟩ := by
  obtain ⟨⟨vm', hc, hfi, hcur, _⟩, _⟩ := C13_no_arity_check tableParams callNoArg _ twoParams
    (machine_currentFrame _ _ _ _ _) (by rw [callNoArg, machine_nextByte]; rfl)
    (machine_index _ _ _ _ _ 0 (by simp))
    (by rw [callNoArg, machine_frames_length]; decide)
  exact ⟨vm', hc, hfi, hcur⟩

/-- C15, the code at the failing input: on a fresh machine whose first instruction is
`OpClosure` (operand bytes `hi lo m`, any constants), the first cycle of `Run` builds no
closure: it returns no error, leaves `sp = 0` and the stack empty, and the next fetch
takes the first operand byte `hi` as an opcode.  The same holds for `OpGetFree` (operand
byte `hi`): nothing is pushed.  The switch of `Run` has no case for either opcode. -/
theorem C15_closure_not_built (P : Params) (hi lo m : Nat) (rest : List Nat)
    (cs : List Object) (heap : Nat) :
    (∃ vm', (New ⟨P.byte .OpClosure :: hi :: lo :: m :: rest, cs⟩ heap).cycle P
        = some (none, vm') ∧
      vm'.sp = 0 ∧ vm'.stack = List.replicate StackSize Object.nil ∧
      vm'.frameIndex = 1 ∧ vm'.nextByte = some hi) ∧
    (∃ vm', (New ⟨P.byte .OpGetFree :: hi :: rest, cs⟩ heap).cycle P = some (none, vm') ∧
      vm'.sp = 0 ∧ vm'.stack = List.replicate StackSize Object.nil ∧
      vm'.frameIndex = 1 ∧ vm'.nextByte = some hi) := by
  have hf := New_currentFrame ⟨P.byte .OpClosure :: hi :: lo :: m :: rest, cs⟩ heap
  have hg := New_currentFrame ⟨P.byte .OpGetFree :: hi :: rest, cs⟩ heap
  refine ⟨⟨_, cycle_unhandled P _ _ (P.byte .OpClosure) hf (nextByte_of_frame hf rfl)
    (by rw [Params.lookup_byte]; rfl), rfl, rfl, rfl, ?_⟩,
    ⟨_, cycle_unhandled P _ _ (P.byte .OpGetFree) hg (nextByte_of_frame hg rfl)
    (by rw [Params.lookup_byte]; rfl), rfl, rfl, rfl, ?_⟩⟩
  · exact nextByte_of_frame (withIp_currentFrame hf _) rfl
  · refine nextByte_of_frame (withIp_currentFrame hg _) ?_
    show index (P.byte .OpGetFree :: hi :: rest) ((1 : Nat) : Int) = some hi
    rw [index_of_nat]
    simp

theorem nextOperand_frame {vm : VM} {f : Frame} {k : Nat} (hf : vm.currentFrame = some f)
    (h : vm.nextOperand = some k) : readOperand f.Instructions (f.ip + 1) = some k := by
  simpa [VM.nextOperand, hf] using h

theorem push_overflow (vm : VM) (o : Object) (h : vm.sp ≥ StackSize) :
    vm.push o = some (some "stack overflow", vm) := by
  unfold VM.push
  rw [if_pos h]

theorem cycle_OpConstant_overflow (P : Params) (vm : VM) (k : Nat) (c : Object)
    (h : vm.sp ≥ StackSize) (hb : vm.nextByte = some (P.byte .OpConstant))
    (hk : vm.nextOperand = some k) (hc : index vm.constants k = some c) :
    ∃ vm', vm.cycle P = some (some "stack overflow", vm') ∧ vm'.sp = vm.sp ∧
      vm'.stack = vm.stack := by
  obtain ⟨f, hf, _⟩ := nextByte_frame hb
  have hr := nextOperand_frame hf hk
  have hcur := currentFrame_withIp hf (f.ip + 1)
  rw [cycle_fetch P hf hb]
  simp only [VM.dispatch, hr, Option.bind_eq_bind, Option.some_bind, addIp_eq hcur]
  have hc2 : index ((vm.withIp f (f.ip + 1)).withIp { f with ip := f.ip + 1 }
      (f.ip + 1 + 2)).constants k = some c := hc
  rw [hc2, Option.some_bind, push_overflow _ _ (by exact h)]
  exact ⟨_, rfl, rfl, rfl⟩

theorem cycle_OpGetGlobal_overflow (P : Params) (vm : VM) (i : Nat) (g : Object)
    (h : vm.sp ≥ StackSize) (hb : vm.nextByte = some (P.byte .OpGetGlobal))
    (hk : vm.nextOperand = some i) (hg : index vm.globals i = some g) :
    ∃ vm', vm.cycle P = some (some "stack overflow", vm') ∧ vm'.sp = vm.sp ∧
      vm'.stack = vm.stack := by
  obtain ⟨f, hf, _⟩ := nextByte_frame hb
  have hr := nextOperand_frame hf hk
  have hcur := currentFrame_withIp hf (f.ip + 1)
  rw [cycle_fetch P hf hb]
  simp only [VM.dispatch, hr, Option.bind_eq_bind, Option.some_bind, addIp_eq hcur]
  have hg2 : index ((vm.withIp f (f.ip + 1)).withIp { f with ip := f.ip + 1 }
      (f.ip + 1 + 2)).globals i = some g := hg
  rw [hg2, Option.some_bind, push_overflow _ _ (by exact h)]
  exact ⟨_, rfl, rfl, rfl⟩

theorem cycle_OpArray_overflow (P : Params) (vm : VM)
    (h : vm.sp ≥ StackSize) (hb : vm.nextByte = some (P.byte .OpArray))
    (hk : vm.nextOperand = some 0) :
    ∃ vm', vm.cycle P = some (some "stack overflow", vm') ∧ vm'.sp = vm.sp ∧
      vm'.stack = vm.stack := by
  obtain ⟨f, hf, _⟩ := nextByte_frame hb
  have hr := nextOperand_frame hf hk
  have hcur := currentFrame_withIp hf (f.ip + 1)
  rw [cycle_fetch P hf hb]
  simp only [VM.dispatch, hr, Option.bind_eq_bind, Option.some_bind, addIp_eq hcur]
  have hba : ((vm.withIp f (f.ip + 1)).withIp { f with ip := f.ip + 1 } (f.ip + 1 + 2)).buildArray
      (((vm.withIp f (f.ip + 1)).withIp { f with ip := f.ip + 1 } (f.ip + 1 + 2)).sp - ((0 : Nat) : Int))
      ((vm.withIp f (f.ip + 1)).withIp { f with ip := f.ip + 1 } (f.ip + 1 + 2)).sp
      = some (.Array vm.heap [], { (vm.withIp f (f.ip + 1)).withIp { f with ip := f.ip + 1 }
          (f.ip + 1 + 2) with heap := vm.heap + 1 }) := by
    unfold VM.buildArray
    simp [readStack]
  rw [hba, Option.some_bind, push_overflow _ _ (by show vm.sp - ((0 : Nat) : Int) ≥ StackSize; simpa using h)]
  exact ⟨_, rfl, by show vm.sp - ((0 : Nat) : Int) = vm.sp; simp, rfl⟩

theorem cycle_OpHash_overflow (P : Params) (vm : VM)
    (h : vm.sp ≥ StackSize) (hb : vm.nextByte = some (P.byte .OpHash))
    (hk : vm.nextOperand = some 0) :
    ∃ vm', vm.cycle P = some (some "stack overflow", vm') ∧ vm'.sp = vm.sp ∧
      vm'.stack = vm.stack := by
  obtain ⟨f, hf, _⟩ := nextByte_frame hb
  have hr := nextOperand_frame hf hk
  have hcur := currentFrame_withIp hf (f.ip + 1)
  rw [cycle_fetch P hf hb]
  simp only [VM.dispatch, hr, Option.bind_eq_bind, Option.some_bind, addIp_eq hcur]
  have hbh : ((vm.withIp f (f.ip + 1)).withIp { f with ip := f.ip + 1 } (f.ip + 1 + 2)).buildHash P
      (((vm.withIp f (f.ip + 1)).withIp { f with ip := f.ip + 1 } (f.ip + 1 + 2)).sp - ((0 : Nat) : Int))
      ((vm.withIp f (f.ip + 1)).withIp { f with ip := f.ip + 1 } (f.ip + 1 + 2)).sp
      = some (.Hash vm.heap [], none, { (vm.withIp f (f.ip + 1)).withIp { f with ip := f.ip + 1 }
          (f.ip + 1 + 2) with heap := vm.heap + 1 }) := by
    unfold VM.buildHash
    simp [buildHashLoop]
  rw [hbh]
  simp only [Option.some_bind]
  rw [push_overflow _ _ (by show vm.sp - ((0 : Nat) : Int) ≥ StackSize; simpa using h)]
  exact ⟨_, rfl, by show vm.sp - ((0 : Nat) : Int) = vm.sp; simp, rfl⟩

theorem append_ne_overflow (p t : String) (c : Char) (cs : List Char) (hp : p.data = c :: cs)
    (hc : c ≠ 's') : p ++ t ≠ "stack overflow" := by
  intro h
  have h2 := congrArg String.data h
  rw [String.data_append, hp] at h2
  have h3 : c = 's' := by
    have : (c :: cs ++ t.data).head? = ("stack overflow" : String).data.head? :=
      congrArg List.head? h2
    simpa using this
  exact hc h3

theorem push_inv {vm : VM} {o : Object} {e : String} {vm' : VM}
    (h : vm.push o = some (some e, vm')) :
    e = "stack overflow" ∧ vm.sp ≥ StackSize ∧ vm' = vm := by
  unfold VM.push at h
  split at h
  · next hge =>
    cases h
    exact ⟨rfl, hge, rfl⟩
  · cases ha : assign vm.stack vm.sp o with
    | none => simp [ha] at h
    | some s => simp [ha] at h

theorem push_calm {vm : VM} {o : Object} {r : error × VM} (hsp : vm.sp < StackSize)
    (h : vm.push o = some r) : r.1 ≠ some "stack overflow" := by
  obtain ⟨e, vm'⟩ := r
  intro he
  change e = some "stack overflow" at he
  subst he
  have := (push_inv h).2.1
  omega

theorem pop_inv {vm : VM} {r : Object × VM} (h : vm.pop = some r) :
    r.2.sp = vm.sp - 1 ∧ r.2.stack = vm.stack ∧ vm.sp - 1 < vm.stack.length := by
  unfold VM.pop at h
  cases ha : index vm.stack (vm.sp - 1) with
  | none => simp [ha] at h
  | some s =>
    simp [ha] at h
    subst h
    exact ⟨rfl, rfl, (index_eq_some ha).2.1⟩

theorem popFrame_inv {vm vm' : VM} (h : vm.popFrame = some vm') :
    vm'.sp = vm.sp ∧ vm'.stack = vm.stack := by
  unfold VM.popFrame at h
  cases ha : index vm.frames (vm.frameIndex - 1) with
  | none => simp [ha] at h
  | some s => simp [ha] at h; subst h; exact ⟨rfl, rfl⟩

theorem addIp_inv {vm vm' : VM} {d : Int} (h : vm.addIp d = some vm') :
    vm'.sp = vm.sp ∧ vm'.stack = vm.stack := by
  cases hf : vm.currentFrame with
  | none => simp [VM.addIp, hf] at h
  | some f =>
    rw [addIp_eq hf] at h
    cases h
    exact ⟨rfl, rfl⟩

theorem heap_push_calm {vm : VM} {n : Nat} {o : Object} {r : error × VM}
    (hsp : vm.sp < StackSize) (h : VM.push { vm with heap := n } o = some r) :
    r.1 ≠ some "stack overflow" :=
  @push_calm { vm with heap := n } o r hsp h

theorem unknown_operator_calm (t : String) :
    (some ("unknown operator: " ++ t) : error) ≠ some "stack overflow" := by
  intro h
  exact append_ne_overflow _ t 'u' _ rfl (by decide) (Option.some.inj h)

theorem executeBinaryIntegerOperation_calm (P : Params) {vm : VM} {op : Opcode}
    {l r : Object} {res : error × VM} (hsp : vm.sp < StackSize)
    (h : vm.executeBinaryIntegerOperation P op l r = some res) :
    res.1 ≠ some "stack overflow" := by
  unfold VM.executeBinaryIntegerOperation at h
  cases hl : integerValue l with
  | none => simp [hl] at h
  | some a =>
    cases hr : integerValue r with
    | none => simp [hl, hr] at h
    | some b =>
      simp only [hl, hr, Option.bind_eq_bind, Option.some_bind] at h
      split at h
      · exact heap_push_calm hsp h
      · exact heap_push_calm hsp h
      · exact heap_push_calm hsp h
      · split at h
        · cases h
        · exact heap_push_calm hsp h
      · cases h; exact unknown_operator_calm _

theorem executeBinaryStringOperation_calm (P : Params) {vm : VM} {op : Opcode}
    {l r : Object} {res : error × VM} (hsp : vm.sp < StackSize)
    (h : vm.executeBinaryStringOperation P op l r = some res) :
    res.1 ≠ some "stack overflow" := by
  unfold VM.executeBinaryStringOperation at h
  split at h
  · cases h
    intro he
    exact append_ne_overflow _ _ 'u' _ rfl (by decide) (Option.some.inj he)
  · cases hl : stringValue l with
    | none => simp [hl] at h
    | some a =>
      cases hr : stringValue r with
      | none => simp [hl, hr] at h
      | some b =>
        simp only [hl, hr, Option.bind_eq_bind, Option.some_bind] at h
        exact heap_push_calm hsp h

theorem pop_two_room {vm vm1 vm2 : VM} {a b : Object} (hlen : vm.stack.length = StackSize)
    (h1 : vm.pop = some (a, vm1)) (h2 : vm1.pop = some (b, vm2)) : vm2.sp < StackSize := by
  have i1 := pop_inv h1
  have i2 := pop_inv h2
  have e1 : vm1.sp = vm.sp - 1 := i1.1
  have e2 : vm2.sp = vm1.sp - 1 := i2.1
  have l1 : vm.sp - 1 < vm.stack.length := i1.2.2
  rw [hlen] at l1
  omega

theorem pop_room {vm vm1 : VM} {a : Object} (hlen : vm.stack.length = StackSize)
    (h1 : vm.pop = some (a, vm1)) : vm1.sp < StackSize := by
  have i1 := pop_inv h1
  have e1 : vm1.sp = vm.sp - 1 := i1.1
  have l1 : vm.sp - 1 < vm.stack.length := i1.2.2
  rw [hlen] at l1
  omega

theorem executeBinaryOperation_calm (P : Params) {vm : VM} {op : Opcode} {res : error × VM}
    (hlen : vm.stack.length = StackSize)
    (h : vm.executeBinaryOperation P op = some res) : res.1 ≠ some "stack overflow" := by
  unfold VM.executeBinaryOperation at h
  cases h1 : vm.pop with
  | none => simp [h1] at h
  | some p1 =>
    obtain ⟨right, vm1⟩ := p1
    cases h2 : vm1.pop with
    | none => simp [h1, h2] at h
    | some p2 =>
      obtain ⟨left, vm2⟩ := p2
      have hroom := pop_two_room hlen h1 h2
      cases hl : left.typ with
      | none => simp [h1, h2, hl] at h
      | some lt =>
        cases hr : right.typ with
        | none => simp [h1, h2, hl, hr] at h
        | some rt =>
          simp only [h1, h2, hl, hr, Option.bind_eq_bind, Option.some_bind] at h
          split at h
          · exact executeBinaryIntegerOperation_calm P hroom h
          · split at h
            · exact executeBinaryStringOperation_calm P hroom h
            · cases h
              intro he
              have he := Option.some.inj he
              simp only [String.append_assoc] at he
              exact append_ne_overflow _ _ 'u' _ rfl (by decide) he

theorem executeIntegerComparison_calm (P : Params) {vm : VM} {op : Opcode}
    {l r : Object} {res : error × VM} (hsp : vm.sp < StackSize)
    (h : vm.executeIntegerComparison P op l r = some res) : res.1 ≠ some "stack overflow" := by
  unfold VM.executeIntegerComparison at h
  cases hl : integerValue l with
  | none => simp [hl] at h
  | some a =>
    cases hr : integerValue r with
    | none => simp [hl, hr] at h
    | some b =>
      simp only [hl, hr, Option.bind_eq_bind, Option.some_bind] at h
      split at h
      · exact push_calm hsp h
      · exact push_calm hsp h
      · exact push_calm hsp h
      · cases h; exact unknown_operator_calm _

theorem executeComparison_calm (P : Params) {vm : VM} {op : Opcode} {res : error × VM}
    (hlen : vm.stack.length = StackSize)
    (h : vm.executeComparison P op = some res) : res.1 ≠ some "stack overflow" := by
  unfold VM.executeComparison at h
  cases h1 : vm.pop with
  | none => simp [h1] at h
  | some p1 =>
    obtain ⟨right, vm1⟩ := p1
    cases h2 : vm1.pop with
    | none => simp [h1, h2] at h
    | some p2 =>
      obtain ⟨left, vm2⟩ := p2
      have hroom := pop_two_room hlen h1 h2
      cases he : eitherInteger left right with
      | none => simp [h1, h2, he] at h
      | some e =>
        simp only [h1, h2, he, Option.bind_eq_bind, Option.some_bind] at h
        split at h
        · exact executeIntegerComparison_calm P hroom h
        · split at h
          · exact push_calm hroom h
          · exact push_calm hroom h
          · cases hl : left.typ with
            | none => simp [hl] at h
            | some lt =>
              cases hr : right.typ with
              | none => simp [hl, hr] at h
              | some rt =>
                simp only [hl, hr, Option.bind_eq_bind, Option.some_bind] at h
                cases h
                intro he
                have he := Option.some.inj he
                simp only [String.append_assoc] at he
                exact append_ne_overflow _ _ 'u' _ rfl (by decide) he

theorem executeBangOperator_calm {vm : VM} {res : error × VM}
    (hlen : vm.stack.length = StackSize)
    (h : vm.executeBangOperator = some res) : res.1 ≠ some "stack overflow" := by
  unfold VM.executeBangOperator at h
  cases h1 : vm.pop with
  | none => simp [h1] at h
  | some p1 =>
    obtain ⟨operand, vm1⟩ := p1
    simp only [h1, Option.bind_eq_bind, Option.some_bind] at h
    have hroom := pop_room hlen h1
    split at h
    · exact push_calm hroom h
    · split at h
      · exact push_calm hroom h
      · split at h
        · exact push_calm hroom h
        · exact push_calm hroom h

theorem executeMinusOperator_calm {vm : VM} {res : error × VM}
    (hlen : vm.stack.length = StackSize)
    (h : vm.executeMinusOperator = some res) : res.1 ≠ some "stack overflow" := by
  unfold VM.executeMinusOperator at h
  cases h1 : vm.pop with
  | none => simp [h1] at h
  | some p1 =>
    obtain ⟨operand, vm1⟩ := p1
    have hroom := pop_room hlen h1
    cases ht : operand.typ with
    | none => simp [h1, ht] at h
    | some t =>
      simp only [h1, ht, Option.bind_eq_bind, Option.some_bind] at h
      split at h
      · cases h
        intro he
        exact append_ne_overflow _ _ 'u' _ rfl (by decide) (Option.some.inj he)
      · cases hv : integerValue operand with
        | none => simp [hv] at h
        | some v =>
          simp only [hv, Option.bind_eq_bind, Option.some_bind] at h
          exact heap_push_calm hroom h

theorem executeArrayIndex_calm {vm : VM} {a i : Object} {res : error × VM}
    (hsp : vm.sp < StackSize)
    (h : vm.executeArrayIndex a i = some res) : res.1 ≠ some "stack overflow" := by
  unfold VM.executeArrayIndex at h
  split at h
  · cases hv : integerValue i with
    | none => simp [hv] at h
    | some v =>
      simp only [hv, Option.bind_eq_bind, Option.some_bind] at h
      split at h
      · exact push_calm hsp h
      · rename_i elements _
        cases he : index elements v with
        | none => simp [he] at h
        | some x =>
          simp only [he, Option.bind_eq_bind, Option.some_bind] at h
          exact push_calm hsp h
  · cases h

theorem executeHashIndex_calm (P : Params) {vm : VM} {a i : Object} {res : error × VM}
    (hsp : vm.sp < StackSize)
    (h : vm.executeHashIndex P a i = some res) : res.1 ≠ some "stack overflow" := by
  unfold VM.executeHashIndex at h
  split at h
  · split at h
    · cases ht : i.typ with
      | none => simp [ht] at h
      | some t =>
        simp only [ht, Option.bind_eq_bind, Option.some_bind] at h
        cases h
        intro he
        exact append_ne_overflow _ _ 'u' _ rfl (by decide) (Option.some.inj he)
    · split at h
      · exact push_calm hsp h
      · exact push_calm hsp h
  · cases h

theorem executeIndexExpression_calm (P : Params) {vm : VM} {l i : Object} {res : error × VM}
    (hsp : vm.sp < StackSize)
    (h : vm.executeIndexExpression P l i = some res) : res.1 ≠ some "stack overflow" := by
  have hmsg : ∀ t : String,
      (some ("index operator not supported: " ++ t) : error) ≠ some "stack overflow" := by
    intro t he
    exact append_ne_overflow _ _ 'i' _ rfl (by decide) (Option.some.inj he)
  unfold VM.executeIndexExpression at h
  cases hl : l.typ with
  | none => simp [hl] at h
  | some lt =>
    simp only [hl, Option.bind_eq_bind, Option.some_bind] at h
    split at h
    · cases hi : i.typ with
      | none => simp [hi] at h
      | some it =>
        simp only [hi, Option.bind_eq_bind, Option.some_bind] at h
        split at h
        · exact executeArrayIndex_calm hsp h
        · split at h
          · exact executeHashIndex_calm P hsp h
          · cases h; exact hmsg _
    · split at h
      · rename_i hc; cases hc
      · split at h
        · exact executeHashIndex_calm P hsp h
        · cases h; exact hmsg _

theorem readStack_first {st : List Object} {i : Int} {n : Nat} {l : List Object}
    (h : readStack st i (n + 1) = some l) : i < st.length := by
  unfold readStack at h
  cases hi : index st i with
  | none => simp [hi] at h
  | some o => exact (index_eq_some hi).2.1

theorem buildArray_inv {vm : VM} {s e : Int} {r : Object × VM}
    (h : vm.buildArray s e = some r) :
    r.2.sp = vm.sp ∧ r.2.stack = vm.stack ∧ (0 < e - s → s < vm.stack.length) := by
  unfold VM.buildArray at h
  split at h
  · cases h
  · cases hr : readStack vm.stack s (e - s).toNat with
    | none => simp [hr] at h
    | some l =>
      simp [hr] at h
      subst h
      refine ⟨rfl, rfl, fun hpos => ?_⟩
      obtain ⟨n, hn⟩ : ∃ n, (e - s).toNat = n + 1 := ⟨(e - s).toNat - 1, by omega⟩
      rw [hn] at hr
      exact readStack_first hr

theorem buildHashLoop_first (P : Params) {st : List Object} {i : Int} {n : Nat}
    {acc : List (HashKey × Object × Object)}
    {r : error × List (HashKey × Object × Object)}
    (h : buildHashLoop P st (n + 1) i acc = some r) : i < st.length := by
  unfold buildHashLoop at h
  cases hi : index st i with
  | none => simp [hi] at h
  | some o => exact (index_eq_some hi).2.1

theorem buildHashLoop_message (P : Params) (st : List Object) : ∀ (n : Nat) (i : Int)
    (acc : List (HashKey × Object × Object)) (e : String)
    (r : List (HashKey × Object × Object)),
    buildHashLoop P st n i acc = some (some e, r) → e ≠ "stack overflow" := by
  intro n
  induction n with
  | zero =>
    intro i acc e r h
    simp [buildHashLoop] at h
  | succ n ih =>
    intro i acc e r h
    unfold buildHashLoop at h
    cases hk : index st i with
    | none => simp [hk] at h
    | some key =>
      cases hv : index st (i + 1) with
      | none => simp [hk, hv] at h
      | some value =>
        simp only [hk, hv, Option.bind_eq_bind, Option.some_bind] at h
        split at h
        · cases ht : key.typ with
          | none => simp [ht] at h
          | some t =>
            simp only [ht, Option.bind_eq_bind, Option.some_bind] at h
            cases h
            exact append_ne_overflow _ _ 'u' _ rfl (by decide)
        · exact ih _ _ e r h

theorem buildHash_inv (P : Params) {vm : VM} {s e : Int} {r : Object × error × VM}
    (h : vm.buildHash P s e = some r) :
    r.2.2.sp = vm.sp ∧ r.2.2.stack = vm.stack ∧ r.2.1 ≠ some "stack overflow" ∧
      (0 < e - s → s < vm.stack.length) := by
  unfold VM.buildHash at h
  cases hr : buildHashLoop P vm.stack ((e - s + 1) / 2).toNat s [] with
  | none => simp [hr] at h
  | some p =>
    obtain ⟨err, pairs⟩ := p
    have hfirst : 0 < e - s → s < vm.stack.length := by
      intro hpos
      obtain ⟨n, hn⟩ : ∃ n, ((e - s + 1) / 2).toNat = n + 1 :=
        ⟨((e - s + 1) / 2).toNat - 1, by omega⟩
      rw [hn] at hr
      exact buildHashLoop_first P hr
    simp only [hr, Option.bind_eq_bind, Option.some_bind] at h
    split at h
    · next msg =>
      cases h
      refine ⟨rfl, rfl, ?_, hfirst⟩
      intro he
      exact buildHashLoop_message P _ _ _ _ msg pairs hr (Option.some.inj he)
    · cases h
      exact ⟨rfl, rfl, (by intro he; cases he), hfirst⟩

/-- A case of the `switch` returns the error `stack overflow` only for an opcode that
pushes without popping first, only when `sp ≥ StackSize`, and then leaves `sp` and the
stack as they are. -/
theorem dispatch_overflow (P : Params) {vm : VM} {ins : List Nat} {ip : Int}
    {op : Option Opcode} {vm' : VM} (hlen : vm.stack.length = StackSize)
    (h : vm.dispatch P ins ip op = some (some "stack overflow", vm')) :
    vm.sp ≥ StackSize ∧ vm'.sp = vm.sp ∧ vm'.stack = vm.stack ∧ pushesFirst op = true := by
  unfold VM.dispatch at h
  split at h
  · cases hk : readOperand ins ip with
    | none => simp [hk] at h
    | some k =>
      cases ha : vm.addIp 2 with
      | none => simp [hk, ha] at h
      | some vm1 =>
        cases hc : index vm1.constants k with
        | none => simp [hk, ha, hc] at h
        | some c =>
          simp only [hk, ha, hc, Option.bind_eq_bind, Option.some_bind] at h
          obtain ⟨_, hge, e⟩ := push_inv h
          subst e
          have i1 := addIp_inv ha
          exact ⟨by rw [← i1.1]; exact hge, i1.1, i1.2, rfl⟩
  · exact absurd rfl (executeBinaryOperation_calm P hlen h)
  · exact absurd rfl (executeBinaryOperation_calm P hlen h)
  · exact absurd rfl (executeBinaryOperation_calm P hlen h)
  · exact absurd rfl (executeBinaryOperation_calm P hlen h)
  · cases h1 : vm.pop with
    | none => simp [h1] at h
    | some p1 => simp [h1] at h
  · obtain ⟨_, hge, e⟩ := push_inv h
    subst e
    exact ⟨hge, rfl, rfl, rfl⟩
  · obtain ⟨_, hge, e⟩ := push_inv h
    subst e
    exact ⟨hge, rfl, rfl, rfl⟩
  · exact absurd rfl (executeComparison_calm P hlen h)
  · exact absurd rfl (executeComparison_calm P hlen h)
  · exact absurd rfl (executeComparison_calm P hlen h)
  · exact absurd rfl (executeBangOperator_calm hlen h)
  · exact absurd rfl (executeMinusOperator_calm hlen h)
  · cases hk : readOperand ins ip with
    | none => simp [hk] at h
    | some k =>
      cases ha : vm.setIp ((k : Int) - 1) with
      | none => simp [hk, ha] at h
      | some vm1 => simp [hk, ha] at h
  · cases hk : readOperand ins ip with
    | none => simp [hk] at h
    | some k =>
      cases ha : vm.addIp 2 with
      | none => simp [hk, ha] at h
      | some vm1 =>
        cases hp : vm1.pop with
        | none => simp [hk, ha, hp] at h
        | some p =>
          obtain ⟨c, vm2⟩ := p
          simp only [hk, ha, hp, Option.bind_eq_bind, Option.some_bind] at h
          split at h
          · cases hs : vm2.setIp ((k : Int) - 1) with
            | none => simp [hs] at h
            | some vm3 => simp [hs] at h
          · cases h
  · obtain ⟨_, hge, e⟩ := push_inv h
    subst e
    exact ⟨hge, rfl, rfl, rfl⟩
  · cases hk : readOperand ins ip with
    | none => simp [hk] at h
    | some k =>
      cases ha : vm.addIp 2 with
      | none => simp [hk, ha] at h
      | some vm1 =>
        cases hp : vm1.pop with
        | none => simp [hk, ha, hp] at h
        | some p =>
          obtain ⟨v, vm2⟩ := p
          cases hg : assign vm2.globals (k : Int) v with
          | none => simp [hk, ha, hp, hg] at h
          | some gs => simp [hk, ha, hp, hg] at h
  · cases hk : readOperand ins ip with
    | none => simp [hk] at h
    | some k =>
      cases ha : vm.addIp 2 with
      | none => simp [hk, ha] at h
      | some vm1 =>
        cases hc : index vm1.globals k with
        | none => simp [hk, ha, hc] at h
        | some c =>
          simp only [hk, ha, hc, Option.bind_eq_bind, Option.some_bind] at h
          obtain ⟨_, hge, e⟩ := push_inv h
          subst e
          have i1 := addIp_inv ha
          exact ⟨by rw [← i1.1]; exact hge, i1.1, i1.2, rfl⟩
  · cases hk : readOperand ins ip with
    | none => simp [hk] at h
    | some k =>
      cases ha : vm.addIp 2 with
      | none => simp [hk, ha] at h
      | some vm1 =>
        cases hc : vm1.buildArray (vm1.sp - k) vm1.sp with
        | none => simp [hk, ha, hc] at h
        | some p =>
          obtain ⟨arr, vm2⟩ := p
          simp only [hk, ha, hc, Option.bind_eq_bind, Option.some_bind] at h
          obtain ⟨_, hge, e⟩ := @push_inv { vm2 with sp := vm2.sp - k } arr _ vm' h
          subst e
          have i1 := addIp_inv ha
          have i2 := buildArray_inv hc
          have e2 : vm2.sp = vm1.sp := i2.1
          have e1 : vm1.sp = vm.sp := i1.1
          have hge' : vm2.sp - (k : Int) ≥ StackSize := hge
          have hk0 : k = 0 := by
            by_contra hne
            have := i2.2.2 (by omega)
            rw [i1.2, hlen] at this
            omega
          subst hk0
          refine ⟨by omega, ?_, ?_, rfl⟩
          · show vm2.sp - ((0 : Nat) : Int) = vm.sp
            omega
          · show vm2.stack = vm.stack
            rw [i2.2.1, i1.2]
  · cases hk : readOperand ins ip with
    | none => simp [hk] at h
    | some k =>
      cases ha : vm.addIp 2 with
      | none => simp [hk, ha] at h
      | some vm1 =>
        cases hc : vm1.buildHash P (vm1.sp - k) vm1.sp with
        | none => simp [hk, ha, hc] at h
        | some p =>
          obtain ⟨hash, err, vm2⟩ := p
          have i1 := addIp_inv ha
          have i2 := buildHash_inv P hc
          simp only [hk, ha, hc, Option.bind_eq_bind, Option.some_bind] at h
          split at h
          · next msg =>
            cases h
            exact absurd rfl i2.2.2.1
          · obtain ⟨_, hge, e⟩ := @push_inv { vm2 with sp := vm2.sp - k } hash _ vm' h
            subst e
            have e2 : vm2.sp = vm1.sp := i2.1
            have e1 : vm1.sp = vm.sp := i1.1
            have hge' : vm2.sp - (k : Int) ≥ StackSize := hge
            have hk0 : k = 0 := by
              by_contra hne
              have := i2.2.2.2 (by omega)
              rw [i1.2, hlen] at this
              omega
            subst hk0
            refine ⟨by omega, ?_, ?_, rfl⟩
            · show vm2.sp - ((0 : Nat) : Int) = vm.sp
              omega
            · show vm2.stack = vm.stack
              rw [i2.2.1, i1.2]
  · cases h1 : vm.pop with
    | none => simp [h1] at h
    | some p1 =>
      obtain ⟨idx, vm1⟩ := p1
      cases h2 : vm1.pop with
      | none => simp [h1, h2] at h
      | some p2 =>
        obtain ⟨left, vm2⟩ := p2
        simp only [h1, h2, Option.bind_eq_bind, Option.some_bind] at h
        exact absurd rfl (executeIndexExpression_calm P (pop_two_room hlen h1 h2) h)
  · cases hc : index vm.stack (vm.sp - 1) with
    | none => simp [hc] at h
    | some callee =>
      simp only [hc, Option.bind_eq_bind, Option.some_bind] at h
      split at h
      · rename_i fn
        cases hp : vm.pushFrame (NewFrame fn) with
        | none => simp [hp] at h
        | some vm1 => simp [hp] at h
      · have hs : ("calling non-function" : String) ≠ "stack overflow" := by decide
        injection h with h
        injection h with h1 h2
        injection h1 with h1
        exact absurd h1 hs
  · cases h1 : vm.pop with
    | none => simp [h1] at h
    | some p1 =>
      obtain ⟨rv, vm1⟩ := p1
      cases h2 : vm1.popFrame with
      | none => simp [h1, h2] at h
      | some vm2 =>
        cases h3 : vm2.pop with
        | none => simp [h1, h2, h3] at h
        | some p3 =>
          obtain ⟨x, vm3⟩ := p3
          simp only [h1, h2, h3, Option.bind_eq_bind, Option.some_bind] at h
          have r1 := pop_room hlen h1
          have e2 := (popFrame_inv h2).1
          have e3 : vm3.sp = vm2.sp - 1 := (pop_inv h3).1
          exact absurd rfl (push_calm (by omega) h)
  · cases h2 : vm.popFrame with
    | none => simp [h2] at h
    | some vm2 =>
      cases h3 : vm2.pop with
      | none => simp [h2, h3] at h
      | some p3 =>
        obtain ⟨x, vm3⟩ := p3
        simp only [h2, h3, Option.bind_eq_bind, Option.some_bind] at h
        have i2 := popFrame_inv h2
        exact absurd rfl (push_calm (pop_room (by rw [i2.2]; exact hlen) h3) h)
  · cases h

/-- A cycle returns the error `stack overflow` only on a machine with `sp ≥ StackSize`
whose next instruction is one that pushes without popping first, and it leaves `sp` and
the stack as they are. -/
theorem cycle_overflow (P : Params) {vm vm' : VM} (hlen : vm.stack.length = StackSize)
    (h : vm.cycle P = some (some "stack overflow", vm')) :
    vm.sp ≥ StackSize ∧ vm'.sp = vm.sp ∧ vm'.stack = vm.stack ∧
      ∃ bt, vm.nextByte = some bt ∧ pushesFirst (P.lookup bt) = true := by
  cases hf : vm.currentFrame with
  | none => simp [VM.cycle, VM.addIp, hf] at h
  | some f =>
    cases hb : index f.Instructions (f.ip + 1) with
    | none =>
      have hb2 : index f.fn.Instructions (f.ip + 1) = none := hb
      simp [VM.cycle, addIp_eq hf, currentFrame_withIp hf, Frame.Instructions, hb2] at h
    | some bt =>
      rw [cycle_fetch_any P hf hb] at h
      obtain ⟨h1, h2, h3, h4⟩ := dispatch_overflow P (show (vm.withIp f (f.ip + 1)).stack.length
        = StackSize from hlen) h
      exact ⟨h1, h2, h3, bt, nextByte_of_frame hf hb, h4⟩

/-- C26: on a machine with `0 ≤ sp` and a stack of `StackSize` slots, `push` succeeds
exactly when `sp < StackSize`; it then stores the value at `stack[sp]`, raises `sp` by
one and leaves all other slots unchanged, so `0 ≤ sp ≤ StackSize` is preserved.  When
`sp ≥ StackSize` it returns the error `stack overflow` with the machine unchanged, and
`Run` returns that error with the stack and `sp` unchanged, for each instruction whose
push meets `sp ≥ StackSize`: OpTrue, OpFalse, OpNull, OpConstant, OpGetGlobal, and OpArray
and OpHash with no elements.  These are all: a cycle returns `stack overflow` only when
`sp ≥ StackSize` and the instruction is one of these, and it leaves `sp` and the stack as
they are (every other instruction that pushes pops first). -/
theorem C26_push (P : Params) (vm : VM) (o : Object)
    (h0 : 0 ≤ vm.sp) (hlen : vm.stack.length = StackSize) :
    (vm.sp < StackSize → ∃ vm', vm.push o = some (none, vm') ∧ vm'.sp = vm.sp + 1 ∧
      index vm'.stack vm.sp = some o ∧
      (∀ i : Int, i ≠ vm.sp → index vm'.stack i = index vm.stack i) ∧
      vm'.stack.length = StackSize ∧ 0 ≤ vm'.sp ∧ vm'.sp ≤ StackSize) ∧
    (vm.sp ≥ StackSize → vm.push o = some (some "stack overflow", vm)) ∧
    ((∃ vm', vm.push o = some (none, vm')) ↔ vm.sp < StackSize) ∧
    (vm.sp ≥ StackSize → ∀ (op : Opcode) (fuel : Nat),
      op = .OpTrue ∨ op = .OpFalse ∨ op = .OpNull → vm.nextByte = some (P.byte op) →
      ∃ vm', VM.Run P (fuel + 1) vm = .returned (some "stack overflow") vm' ∧
        vm'.sp = vm.sp ∧ vm'.stack = vm.stack) ∧
    (vm.sp ≥ StackSize → ∀ (fuel k : Nat) (c : Object),
      vm.nextByte = some (P.byte .OpConstant) → vm.nextOperand = some k →
      index vm.constants k = some c →
      ∃ vm', VM.Run P (fuel + 1) vm = .returned (some "stack overflow") vm' ∧
        vm'.sp = vm.sp ∧ vm'.stack = vm.stack) ∧
    (vm.sp ≥ StackSize → ∀ (fuel i : Nat) (g : Object),
      vm.nextByte = some (P.byte .OpGetGlobal) → vm.nextOperand = some i →
      index vm.globals i = some g →
      ∃ vm', VM.Run P (fuel + 1) vm = .returned (some "stack overflow") vm' ∧
        vm'.sp = vm.sp ∧ vm'.stack = vm.stack) ∧
    (vm.sp ≥ StackSize → ∀ (op : Opcode) (fuel : Nat),
      op = .OpArray ∨ op = .OpHash → vm.nextByte = some (P.byte op) →
      vm.nextOperand = some 0 →
      ∃ vm', VM.Run P (fuel + 1) vm = .returned (some "stack overflow") vm' ∧
        vm'.sp = vm.sp ∧ vm'.stack = vm.stack) ∧
    (∀ vm', vm.cycle P = some (some "stack overflow", vm') →
      vm.sp ≥ StackSize ∧ vm'.sp = vm.sp ∧ vm'.stack = vm.stack ∧
      ∃ bt, vm.nextByte = some bt ∧ pushesFirst (P.lookup bt) = true) := by
  have hover : vm.sp ≥ StackSize → vm.push o = some (some "stack overflow", vm) :=
    push_overflow vm o
  have hok : vm.sp < StackSize → vm.push o = some (none,
      { vm with stack := vm.stack.set vm.sp.toNat o, sp := vm.sp + 1 }) :=
    fun h => push_eq vm o h0 h (by rw [hlen]; exact h)
  refine ⟨?_, hover, ?_, ?_, ?_, ?_, ?_, fun vm' h => cycle_overflow P hlen h⟩
  · intro h
    refine ⟨_, hok h, rfl, index_set_same _ h0 (by rw [hlen]; exact h),
      fun i hi => index_set_other _ h0 hi, ?_, ?_, ?_⟩
    · show (vm.stack.set _ _).length = _
      rw [List.length_set, hlen]
    · show 0 ≤ vm.sp + 1
      omega
    · show vm.sp + 1 ≤ StackSize
      omega
  · constructor
    · rintro ⟨vm', h⟩
      by_contra hge
      rw [hover (not_lt.1 hge)] at h
      cases h
    · intro h
      exact ⟨_, hok h⟩
  · intro h op fuel hcase hb
    obtain ⟨f, hf, _⟩ := nextByte_frame hb
    have hc := cycle_fetch P hf hb
    rw [dispatch_pushed P _ _ _ op hcase] at hc
    have hp : (vm.withIp f (f.ip + 1)).push (pushed op)
        = some (some "stack overflow", vm.withIp f (f.ip + 1)) := by
      unfold VM.push
      rw [if_pos (show (vm.withIp f (f.ip + 1)).sp ≥ StackSize from h)]
    rw [hp] at hc
    exact ⟨_, Run_error P fuel hc, rfl, rfl⟩
  · intro h fuel k c hb hk hc
    obtain ⟨vm', hcy, hsp, hst⟩ := cycle_OpConstant_overflow P vm k c h hb hk hc
    exact ⟨vm', Run_error P fuel hcy, hsp, hst⟩
  · intro h fuel i g hb hk hg
    obtain ⟨vm', hcy, hsp, hst⟩ := cycle_OpGetGlobal_overflow P vm i g h hb hk hg
    exact ⟨vm', Run_error P fuel hcy, hsp, hst⟩
  · intro h op fuel hcase hb hk
    rcases hcase with e | e <;> subst e
    · obtain ⟨vm', hcy, hsp, hst⟩ := cycle_OpArray_overflow P vm h hb hk
      exact ⟨vm', Run_error P fuel hcy, hsp, hst⟩
    · obtain ⟨vm', hcy, hsp, hst⟩ := cycle_OpHash_overflow P vm h hb hk
      exact ⟨vm', Run_error P fuel hcy, hsp, hst⟩

/-- C26, a witness: `push` on an empty stack, and `OpTrue` and `OpConstant 0` on a full
one. -/
theorem C26_witness :
    (∃ vm', (machine [] [] (-1) [] 20).push True = some (none, vm') ∧ vm'.sp = 1 ∧
      index vm'.stack 0 = some True) ∧
    (∃ vm', VM.Run tableParams 1 fullStack = .returned (some "stack overflow") vm' ∧
      vm'.sp = 2048) ∧
    (∃ vm', VM.Run tableParams 1 fullStackConstant = .returned (some "stack overflow") vm' ∧
      vm'.sp = 2048) := by
  refine ⟨?_, ?_, ?_⟩
  · obtain ⟨vm', hp, hsp, hres, _⟩ := (C26_push tableParams (machine [] [] (-1) [] 20) True
      (by simp) (machine_length _ _ _ _ _ (by simp [StackSize]))).1 (by simp [StackSize])
    exact ⟨vm', hp, by simpa using hsp, by simpa using hres⟩
  · obtain ⟨vm', hr, hsp, _⟩ := (C26_push tableParams fullStack True
      (by show (0 : Int) ≤ StackSize; simp)
      (machine_length [] [tableParams.byte .OpTrue] (-1) [] 20 (by simp [StackSize]))).2.2.2.1
      (le_refl _) .OpTrue 0 (Or.inl rfl)
      (by
        have := machine_nextByte [] [tableParams.byte .OpTrue] (-1) [] 20
        exact this.trans rfl)
    exact ⟨vm', hr, hsp⟩
  · obtain ⟨vm', hr, hsp, _⟩ := (C26_push tableParams fullStackConstant True
      (by show (0 : Int) ≤ StackSize; simp)
      (machine_length [.Integer 10 7] (Make16 tableParams .OpConstant 0) (-1) [] 20
        (by simp [StackSize]))).2.2.2.2.1
      (le_refl _) 0 0 (.Integer 10 7)
      (by
        have := machine_nextByte [.Integer 10 7] (Make16 tableParams .OpConstant 0) (-1) [] 20
        exact this.trans rfl)
      (by
        have hf := machine_currentFrame [.Integer 10 7] (Make16 tableParams .OpConstant 0) (-1)
          [] 20
        have hf2 : fullStackConstant.currentFrame = _ := hf
        simp only [VM.nextOperand, hf2, Option.bind_eq_bind, Option.some_bind]
        rfl)
      rfl
    exact ⟨vm', hr, hsp⟩

theorem getElem?_lt {α : Type} {l : List α} {n : Nat} {a : α} (h : l[n]? = some a) :
    n < l.length := by
  by_contra hn
  rw [List.getElem?_eq_none (by omega)] at h
  cases h

theorem set_same {α : Type} (l : List α) (n : Nat) (a : α) (h : l[n]? = some a) :
    l.set n a = l := by
  apply List.ext_getElem?
  intro j
  rw [List.getElem?_set]
  split
  · next e => subst e; simp [h, getElem?_lt h]
  · rfl

/-- A run over a slice in memory is the run of the machine that holds the elements of
the slice, and it leaves the globals of that machine in the backing array. -/
theorem storeRun_returned (P : Params) (s : Nat) : ∀ (fuel : Nat) (vm : VM) (mem : Memory)
    (gs : List Object) (e : error) (vm' : VM), mem[s]? = some gs →
    VM.Run P fuel { vm with globals := gs } = .returned e vm' →
    StoreVM.Run P fuel ⟨vm, s⟩ mem = .returned e ⟨vm', s⟩ (mem.set s vm'.globals) := by
  intro fuel
  induction fuel with
  | zero =>
    intro vm mem gs e vm' _ h
    cases h
  | succ fuel ih =>
    intro vm mem gs e vm' hs h
    have hv : (StoreVM.mk vm s).view mem = some { vm with globals := gs } := by
      simp [StoreVM.view, hs]
    unfold StoreVM.Run
    rw [hv]
    unfold VM.Run at h
    dsimp only at h ⊢
    cases hr : VM.running { vm with globals := gs } with
    | none => rw [hr] at h; cases h
    | some r =>
      rw [hr] at h
      cases r with
      | false =>
        dsimp only at h ⊢
        cases h
        show StoreOutcome.returned none _ mem = StoreOutcome.returned none _ (mem.set s gs)
        rw [set_same mem s gs hs]
      | true =>
        dsimp only at h ⊢
        cases hc : VM.cycle P { vm with globals := gs } with
        | none => rw [hc] at h; cases h
        | some res =>
          obtain ⟨err, v'⟩ := res
          rw [hc] at h
          cases err with
          | some msg =>
            dsimp only at h ⊢
            cases h
            rfl
          | none =>
            dsimp only at h ⊢
            have hs' : (mem.set s v'.globals)[s]? = some v'.globals := by
              rw [List.getElem?_set_self (getElem?_lt hs)]
            have := ih v' (mem.set s v'.globals) v'.globals e vm' hs' h
            rw [this, List.set_set]

/-- C28: `NewWithGlobalsStore(bytecode, s)` is the machine of `New(bytecode)` except that
its global store is the slice `s` itself: the machine holds the address of the backing
array of `s`.  Globals persist across runs: if one machine over `s` runs
`OpConstant k; OpSetGlobal i`, it returns nil and the caller's `s` holds `constants[k]` in
slot `i` (nothing else in memory changes: the memory is the old one with that array
updated); and a second machine created over the same
`s` that then runs `OpGetGlobal i; OpPop` returns nil with last popped value the first
program's `constants[k]`, leaving the memory as it was. -/
theorem C28_globals_store (P : Params) (cs1 cs2 gs : List Object) (mem : Memory) (c : Object)
    (s k i heap1 heap2 fuel : Nat) (hk : k < 65536) (hi : i < 65536)
    (hc : index cs1 k = some c) (hs : mem[s]? = some gs) (hgs : i < gs.length) :
    (∀ bc heap,
      (StoreVM.NewWithGlobalsStore bc s heap).view mem = some (NewWithGlobalsStore bc gs heap) ∧
      (StoreVM.NewWithGlobalsStore bc s heap).globals = s ∧
      (NewWithGlobalsStore bc gs heap).globals = gs ∧
      (NewWithGlobalsStore bc gs heap).constants = (New bc heap).constants ∧
      (NewWithGlobalsStore bc gs heap).stack = (New bc heap).stack ∧
      (NewWithGlobalsStore bc gs heap).sp = (New bc heap).sp ∧
      (NewWithGlobalsStore bc gs heap).frames = (New bc heap).frames ∧
      (NewWithGlobalsStore bc gs heap).frameIndex = (New bc heap).frameIndex) ∧
    ∃ m1 mem1, StoreVM.Run P (fuel + 3)
        (StoreVM.NewWithGlobalsStore ⟨constantSetGlobal P k i, cs1⟩ s heap1) mem
        = .returned none m1 mem1 ∧
      mem1 = mem.set s (gs.set i c) ∧ mem1[s]? = some (gs.set i c) ∧
      ∃ m2 mem2, StoreVM.Run P (fuel + 3)
          (StoreVM.NewWithGlobalsStore ⟨getGlobalPop P i, cs2⟩ s heap2) mem1
          = .returned none m2 mem2 ∧
        m2.vm.LastPoppedStackElem = some c ∧ mem2 = mem1 := by
  refine ⟨fun bc heap => ⟨by simp [StoreVM.view, StoreVM.NewWithGlobalsStore, hs,
    NewWithGlobalsStore], rfl, rfl, rfl, rfl, rfl, rfl, rfl⟩, ?_⟩
  have hlen : (List.replicate StackSize Object.nil).length = StackSize :=
    List.length_replicate _ _
  have h1 := run_constantSetGlobal P (NewWithGlobalsStore ⟨constantSetGlobal P k i, cs1⟩ gs heap1)
    ⟨heap1, constantSetGlobal P k i, 0, 0⟩ (List.replicate StackSize Object.nil) gs (heap1 + 1)
    fuel k i c (framed_of_currentFrame (NewWithGlobalsStore_currentFrame _ _ _)) rfl hk hi hc
    hlen hgs
  rw [← NewWithGlobalsStore_conf] at h1
  have hs1 : (mem.set s (gs.set i c))[s]? = some (gs.set i c) := by
    rw [List.getElem?_set_self (getElem?_lt hs)]
  have h2 := run_getGlobalPop P (NewWithGlobalsStore ⟨getGlobalPop P i, cs2⟩ (gs.set i c) heap2)
    ⟨heap2, getGlobalPop P i, 0, 0⟩ (List.replicate StackSize Object.nil) (gs.set i c)
    (heap2 + 1) fuel i c (framed_of_currentFrame (NewWithGlobalsStore_currentFrame _ _ _)) rfl hi
    (index_set_nat_same _ _ _ hgs) hlen
  rw [← NewWithGlobalsStore_conf] at h2
  have r1 := storeRun_returned P s (fuel + 3) (New ⟨constantSetGlobal P k i, cs1⟩ heap1) mem gs
    none _ hs h1
  have r2 := storeRun_returned P s (fuel + 3) (New ⟨getGlobalPop P i, cs2⟩ heap2)
    (mem.set s (gs.set i c)) (gs.set i c) none _ hs1 h2
  exact ⟨_, _, r1, rfl, hs1, _, _, r2, index_set_nat_same _ 0 _ (by rw [hlen]; decide),
    set_same _ s _ hs1⟩

/-- C28, a witness: the store is the array at address 1 of a memory of two arrays;
`let x = 7;` on that store, then `x;` on the same store. -/
theorem C28_witness :
    ∃ m1 mem1, StoreVM.Run tableParams 3 (StoreVM.NewWithGlobalsStore
        ⟨constantSetGlobal tableParams 0 2, [.Integer 5 7]⟩ 1 20) [[], [Null, Null, Null]]
        = .returned none m1 mem1 ∧ mem1 = [[], [Null, Null, .Integer 5 7]] ∧
      ∃ m2 mem2, StoreVM.Run tableParams 3 (StoreVM.NewWithGlobalsStore
          ⟨getGlobalPop tableParams 2, []⟩ 1 30) mem1 = .returned none m2 mem2 ∧
        m2.vm.LastPoppedStackElem = some (.Integer 5 7) := by
  obtain ⟨_, m1, mem1, h1, hm, _, m2, mem2, h2, hl, _⟩ := C28_globals_store tableParams
    [.Integer 5 7] [] [Null, Null, Null] [[], [Null, Null, Null]] (.Integer 5 7) 1 0 2 20 30 0
    (by decide) (by decide) rfl rfl (by decide)
  exact ⟨m1, mem1, h1, hm, m2, mem2, h2, hl⟩

theorem lookupSymbol_cons (store : List (String × Symbol)) (k : String) (s : Symbol)
    (name : String) :
    lookupSymbol ((k, s) :: store) name = if k = name then some s else lookupSymbol store name := by
  unfold lookupSymbol
  by_cases h : k = name
  · simp [List.find?_cons, h]
  · simp [List.find?_cons, h]

theorem grows_refl : ∀ t : SymbolTable, t.grows t
  | .top _ _ _ => List.prefix_refl _
  | .enclosed o _ _ _ => ⟨grows_refl o, List.prefix_refl _⟩

theorem grows_trans : ∀ (a b c : SymbolTable), a.grows b → b.grows c → a.grows c
  | .top _ _ _, .top _ _ _, .top _ _ _, h1, h2 => List.IsPrefix.trans h1 h2
  | .enclosed o _ _ _, .enclosed o1 _ _ _, .enclosed o2 _ _ _, h1, h2 =>
    ⟨grows_trans o o1 o2 h1.1 h2.1, List.IsPrefix.trans h1.2 h2.2⟩
  | .top _ _ _, .top _ _ _, .enclosed _ _ _ _, _, h2 => by cases h2
  | .top _ _ _, .enclosed _ _ _ _, _, h1, _ => by cases h1
  | .enclosed _ _ _ _, .top _ _ _, _, h1, _ => by cases h1
  | .enclosed _ _ _ _, .enclosed _ _ _ _, .top _ _ _, _, h2 => by cases h2

theorem grows_free : ∀ (t t' : SymbolTable), t.grows t' → t.FreeSymbols <+: t'.FreeSymbols
  | .top _ _ _, .top _ _ _, h => h
  | .enclosed _ _ _ _, .enclosed _ _ _ _, h => h.2
  | .top _ _ _, .enclosed _ _ _ _, h => by cases h
  | .enclosed _ _ _ _, .top _ _ _, h => by cases h

theorem grows_enclosed {o : SymbolTable} {s : List (String × Symbol)} {n : Nat}
    {f : List Symbol} : ∀ {t' : SymbolTable}, (SymbolTable.enclosed o s n f).grows t' →
    ∃ o' s' n' f', t' = .enclosed o' s' n' f' ∧ o.grows o' ∧ f <+: f'
  | .top _ _ _, h => by cases h
  | .enclosed o' s' n' f', h => ⟨o', s', n', f', rfl, h.1, h.2⟩

theorem continues_refl (t : SymbolTable) : t.continues t := ⟨grows_refl t, fun _ h => h⟩

theorem continues_trans {a b c : SymbolTable} (h1 : a.continues b) (h2 : b.continues c) :
    a.continues c :=
  ⟨grows_trans a b c h1.1 h2.1, fun d h => h2.2 d (h1.2 d h)⟩

theorem freeOk_nil (free : List Symbol) : freeOk [] free := by
  intro name sym h _
  simp [lookupSymbol] at h

theorem freeOk_cons {store : List (String × Symbol)} {free : List Symbol}
    (h : freeOk store free) (k : String) (s : Symbol) (hs : s.Scope ≠ .FreeScope) :
    freeOk ((k, s) :: store) free := by
  intro name sym hl hf
  rw [lookupSymbol_cons] at hl
  split at hl
  · cases hl
    exact absurd hf hs
  · exact h name sym hl hf

theorem freeOk_defineFree {store : List (String × Symbol)} {free : List Symbol}
    (h : freeOk store free) (obj : Symbol) :
    freeOk ((obj.Name, ⟨obj.Name, .FreeScope, free.length⟩) :: store) (free ++ [obj]) := by
  intro name sym hl hf
  rw [lookupSymbol_cons] at hl
  split at hl
  · next e =>
    cases hl
    exact ⟨obj, by simp, e⟩
  · obtain ⟨o, ho, hn⟩ := h name sym hl hf
    refine ⟨o, ?_, hn⟩
    have hlt : sym.Index < free.length := by
      by_contra hc
      rw [List.getElem?_eq_none (by omega)] at ho
      cases ho
    rw [List.getElem?_append_left hlt]
    exact ho

theorem okDepth_rebuild_other {t : SymbolTable} {d : Nat} (h : t.okDepth d) (k : String)
    (s : Symbol) (n : Nat) (hs : s.Scope ≠ .FreeScope) :
    (t.rebuild ((k, s) :: t.store) n t.FreeSymbols).okDepth d := by
  cases d with
  | zero => rfl
  | succ d =>
    cases t with
    | top st m f => exact freeOk_cons h k s hs
    | enclosed o st m f => exact ⟨freeOk_cons h.1 k s hs, h.2⟩

theorem grows_rebuild (t : SymbolTable) (st : List (String × Symbol)) (n : Nat) :
    t.grows (t.rebuild st n t.FreeSymbols) := by
  cases t with
  | top _ _ f => exact List.prefix_refl _
  | enclosed o _ _ f => exact ⟨grows_refl o, List.prefix_refl _⟩

theorem Define_continues (t : SymbolTable) (name : String) : t.continues (t.Define name).2 := by
  refine ⟨grows_rebuild t _ _, fun d h => ?_⟩
  apply okDepth_rebuild_other h
  cases t <;> simp

theorem DefineFunctionName_continues (t : SymbolTable) (name : String) :
    t.continues (t.DefineFunctionName name).2 := by
  refine ⟨grows_rebuild t _ _, fun d h => ?_⟩
  apply okDepth_rebuild_other h
  simp

theorem Resolve_grows (name : String) : ∀ (t : SymbolTable) (s : Symbol) (t' : SymbolTable),
    t.Resolve name = some (s, t') → t.grows t'
  | .top store n free, s, t', h => by
    simp only [SymbolTable.Resolve] at h
    cases hl : lookupSymbol store name with
    | none => rw [hl] at h; cases h
    | some x =>
      rw [hl] at h
      cases h
      exact grows_refl _
  | .enclosed outer store n free, s, t', h => by
    simp only [SymbolTable.Resolve] at h
    cases hl : lookupSymbol store name with
    | some x =>
      rw [hl] at h
      cases h
      exact grows_refl _
    | none =>
      rw [hl] at h
      dsimp only at h
      cases ho : SymbolTable.Resolve name outer with
      | none => rw [ho] at h; cases h
      | some r =>
        obtain ⟨obj, outer'⟩ := r
        rw [ho] at h
        dsimp only at h
        have ih := Resolve_grows name outer obj outer' ho
        split at h
        · cases h
          exact ⟨ih, List.prefix_refl _⟩
        · cases h
          exact ⟨ih, List.prefix_append _ _⟩

theorem Resolve_okDepth (name : String) : ∀ (t : SymbolTable) (s : Symbol) (t' : SymbolTable)
    (d : Nat), t.Resolve name = some (s, t') → t.okDepth d → t'.okDepth d
  | .top store n free, s, t', d, h, hd => by
    simp only [SymbolTable.Resolve] at h
    cases hl : lookupSymbol store name with
    | none => rw [hl] at h; cases h
    | some x =>
      rw [hl] at h
      cases h
      exact hd
  | .enclosed outer store n free, s, t', d, h, hd => by
    simp only [SymbolTable.Resolve] at h
    cases hl : lookupSymbol store name with
    | some x =>
      rw [hl] at h
      cases h
      exact hd
    | none =>
      rw [hl] at h
      dsimp only at h
      cases ho : SymbolTable.Resolve name outer with
      | none => rw [ho] at h; cases h
      | some r =>
        obtain ⟨obj, outer'⟩ := r
        rw [ho] at h
        dsimp only at h
        cases d with
        | zero =>
          split at h <;> cases h <;> rfl
        | succ d =>
          have ih := Resolve_okDepth name outer obj outer' d ho hd.2
          split at h
          · cases h
            exact ⟨hd.1, ih⟩
          · cases h
            exact ⟨freeOk_defineFree hd.1 obj, ih⟩

theorem Resolve_continues {name : String} {t t' : SymbolTable} {s : Symbol}
    (h : t.Resolve name = some (s, t')) : t.continues t' :=
  ⟨Resolve_grows name t s t' h, fun d hd => Resolve_okDepth name t s t' d h hd⟩

theorem removeLastPop_symbolTable (c : Compiler) :
    c.removeLastPop.symbolTable = c.symbolTable := by
  unfold Compiler.removeLastPop
  dsimp only
  split <;> rfl

theorem changeOperand_symbolTable (P : Params) (c : Compiler) (pos operand : Nat) :
    (c.changeOperand P pos operand).symbolTable = c.symbolTable := by
  unfold Compiler.changeOperand
  split
  · split <;> rfl
  · rfl

theorem dropPop_symbolTable (c : Compiler) :
    (if c.lastInstructionIs .OpPop = true then c.removeLastPop else c).symbolTable
      = c.symbolTable := by
  split
  · exact removeLastPop_symbolTable c
  · rfl

theorem beforeAlternative_symbolTable (P : Params) (c1 c3 : Compiler) :
    (Compiler.beforeAlternative P c1 c3).symbolTable = c3.symbolTable := by
  unfold Compiler.beforeAlternative
  rw [changeOperand_symbolTable]
  exact dropPop_symbolTable c3

theorem closeFunction_symbolTable (P : Params) (c : Compiler) (n : Nat) :
    (c.closeFunction P n).symbolTable = c.symbolTable.Outer.getD c.symbolTable := by
  unfold Compiler.closeFunction
  exact (loadSymbols_constants P c.symbolTable.FreeSymbols c.leaveScope.2).2

theorem defineAll_symbolTable (params : List String) : ∀ (c : Compiler) (o : SymbolTable)
    (s : List (String × Symbol)) (n : Nat),
    c.symbolTable = .enclosed o s n [] → freeOk s [] →
    ∃ s' n', (params.foldl (fun (c : Compiler) p =>
      { c with symbolTable := (c.symbolTable.Define p).2 }) c).symbolTable
        = .enclosed o s' n' [] ∧ freeOk s' [] := by
  induction params with
  | nil => intro c o s n h hf; exact ⟨s, n, h, hf⟩
  | cons p rest ih =>
    intro c o s n h hf
    refine ih _ o ((p, ⟨p, .LocalScope, n⟩) :: s) (n + 1) ?_
      (freeOk_cons hf _ _ (by simp))
    show (c.symbolTable.Define p).2 = _
    rw [h]
    rfl

theorem enterFunction_symbolTable (c : Compiler) (name : String) (params : List String) :
    ∃ s n, (c.enterFunction name params).symbolTable = .enclosed c.symbolTable s n [] ∧
      freeOk s [] := by
  unfold Compiler.enterFunction
  dsimp only
  split
  · exact defineAll_symbolTable params _ c.symbolTable [] 0 rfl (freeOk_nil _)
  · exact defineAll_symbolTable params _ c.symbolTable [(name, ⟨name, .FunctionScope, 0⟩)] 0 rfl
      (freeOk_cons (freeOk_nil _) _ _ (by simp))

/-- From the table on entry to a function literal to the table after its body, the
enclosing table is continued. -/
theorem continues_leave {t tb : SymbolTable} {s : List (String × Symbol)} {n : Nat}
    (hf : freeOk s []) (h : (SymbolTable.enclosed t s n []).continues tb) :
    t.continues (tb.Outer.getD tb) := by
  obtain ⟨o', s', n', f', e, hg, _⟩ := grows_enclosed h.1
  subst e
  refine ⟨hg, fun d hd => ?_⟩
  exact (h.2 (d + 1) ⟨hf, hd⟩).2

mutual
/-- Compiling an expression continues the symbol table. -/
theorem compileExpression_continues (P : Params) : ∀ (e : Expression) (c c' : Compiler),
    compileExpression P e c = .ok c' → c.symbolTable.continues c'.symbolTable
  | .IntegerLiteral v, c, c', h => by
    simp only [compileExpression] at h
    cases h
    exact continues_refl _
  | .Boolean b, c, c', h => by
    simp only [compileExpression] at h
    cases h
    exact continues_refl _
  | .StringLiteral s, c, c', h => by
    simp only [compileExpression] at h
    cases h
    exact continues_refl _
  | .Identifier name, c, c', h => by
    simp only [compileExpression] at h
    split at h
    · cases h
    · next sym t hr =>
      cases h
      exact Resolve_continues hr
  | .PrefixExpression op right, c, c', h => by
    simp only [compileExpression] at h
    obtain ⟨c1, h1, h⟩ := bind_ok h
    have i1 := compileExpression_continues P right c c1 h1
    split at h
    · cases h
      exact i1
    · cases h
  | .InfixExpression left op right, c, c', h => by
    simp only [compileExpression] at h
    split at h
    · obtain ⟨c1, h1, h⟩ := bind_ok h
      obtain ⟨c2, h2, h⟩ := bind_ok h
      have i1 := compileExpression_continues P right c c1 h1
      have i2 := compileExpression_continues P left c1 c2 h2
      cases h
      exact continues_trans i1 i2
    · obtain ⟨c1, h1, h⟩ := bind_ok h
      obtain ⟨c2, h2, h⟩ := bind_ok h
      have i1 := compileExpression_continues P left c c1 h1
      have i2 := compileExpression_continues P right c1 c2 h2
      split at h
      · cases h
        exact continues_trans i1 i2
      · cases h
  | .IfExpression cond cons alt, c, c', h => by
    simp only [compileExpression] at h
    obtain ⟨c1, h1, h⟩ := bind_ok h
    have i1 := compileExpression_continues P cond c c1 h1
    obtain ⟨c3, h3, h⟩ := bind_ok h
    have i3 := compileBlock_continues P cons _ c3 h3
    obtain ⟨c7, h7, h⟩ := bind_ok h
    have i7 := compileAlternative_continues P alt (Compiler.beforeAlternative P c1 c3) c7 h7
    rw [beforeAlternative_symbolTable] at i7
    cases h
    rw [changeOperand_symbolTable]
    exact continues_trans i1 (continues_trans i3 i7)
  | .FunctionLiteral name params body, c, c', h => by
    simp only [compileExpression] at h
    obtain ⟨c1, h1, h⟩ := bind_ok h
    have i1 := compileBlock_continues P body _ c1 h1
    obtain ⟨s, n, he, hf⟩ := enterFunction_symbolTable c name params
    rw [he] at i1
    cases h
    rw [closeFunction_symbolTable, (endFunction_constants P c1).2]
    exact continues_leave hf i1
  | .CallExpression fn args, c, c', h => by
    simp only [compileExpression] at h
    obtain ⟨c1, h1, h⟩ := bind_ok h
    obtain ⟨c2, h2, h⟩ := bind_ok h
    have i1 := compileExpression_continues P fn c c1 h1
    have i2 := compileExpressions_continues P args c1 c2 h2
    cases h
    exact continues_trans i1 i2
  | .ArrayLiteral elems, c, c', h => by
    simp only [compileExpression] at h
    obtain ⟨c1, h1, h⟩ := bind_ok h
    have i1 := compileExpressions_continues P elems c c1 h1
    cases h
    exact i1
  | .HashLiteral entries, c, c', h => by
    simp only [compileExpression] at h
    obtain ⟨c1, h1, h⟩ := bind_ok h
    have i1 := compilePairs_continues P entries c c1 h1
    cases h
    exact i1
  | .IndexExpression left idx, c, c', h => by
    simp only [compileExpression] at h
    obtain ⟨c1, h1, h⟩ := bind_ok h
    obtain ⟨c2, h2, h⟩ := bind_ok h
    have i1 := compileExpression_continues P left c c1 h1
    have i2 := compileExpression_continues P idx c1 c2 h2
    cases h
    exact continues_trans i1 i2
/-- Compiling a statement continues the symbol table. -/
theorem compileStatement_continues (P : Params) : ∀ (s : Statement) (c c' : Compiler),
    compileStatement P s c = .ok c' → c.symbolTable.continues c'.symbolTable
  | .LetStatement name value, c, c', h => by
    simp only [compileStatement] at h
    obtain ⟨c1, h1, h⟩ := bind_ok h
    have i1 := compileExpression_continues P value _ c1 h1
    have i0 : c.symbolTable.continues (c.symbolTable.Define name).2 := Define_continues _ _
    split at h
    · cases h
      exact continues_trans i0 i1
    · cases h
      exact continues_trans i0 i1
  | .ReturnStatement v, c, c', h => by
    simp only [compileStatement] at h
    obtain ⟨c1, h1, h⟩ := bind_ok h
    have i1 := compileExpression_continues P v c c1 h1
    cases h
    exact i1
  | .ExpressionStatement e, c, c', h => by
    simp only [compileStatement] at h
    obtain ⟨c1, h1, h⟩ := bind_ok h
    have i1 := compileExpression_continues P e c c1 h1
    cases h
    exact i1
/-- Compiling a block continues the symbol table. -/
theorem compileBlock_continues (P : Params) : ∀ (b : Block) (c c' : Compiler),
    compileBlock P b c = .ok c' → c.symbolTable.continues c'.symbolTable
  | .nil, c, c', h => by
    simp only [compileBlock] at h
    cases h
    exact continues_refl _
  | .cons s rest, c, c', h => by
    simp only [compileBlock] at h
    obtain ⟨c1, h1, h⟩ := bind_ok h
    exact continues_trans (compileStatement_continues P s c c1 h1)
      (compileBlock_continues P rest c1 c' h)
/-- Compiling the else branch continues the symbol table. -/
theorem compileAlternative_continues (P : Params) : ∀ (a : Alternative) (c c' : Compiler),
    compileAlternative P a c = .ok c' → c.symbolTable.continues c'.symbolTable
  | .none, c, c', h => by
    simp only [compileAlternative] at h
    cases h
    exact continues_refl _
  | .some b, c, c', h => by
    simp only [compileAlternative] at h
    obtain ⟨c1, h1, h⟩ := bind_ok h
    have i1 := compileBlock_continues P b c c1 h1
    cases h
    rw [dropPop_symbolTable]
    exact i1
/-- Compiling a sequence of expressions continues the symbol table. -/
theorem compileExpressions_continues (P : Params) : ∀ (es : Expressions) (c c' : Compiler),
    compileExpressions P es c = .ok c' → c.symbolTable.continues c'.symbolTable
  | .nil, c, c', h => by
    simp only [compileExpressions] at h
    cases h
    exact continues_refl _
  | .cons e rest, c, c', h => by
    simp only [compileExpressions] at h
    obtain ⟨c1, h1, h⟩ := bind_ok h
    exact continues_trans (compileExpression_continues P e c c1 h1)
      (compileExpressions_continues P rest c1 c' h)
/-- Compiling the entries of a hash literal continues the symbol table. -/
theorem compilePairs_continues (P : Params) : ∀ (ps : Pairs) (c c' : Compiler),
    compilePairs P ps c = .ok c' → c.symbolTable.continues c'.symbolTable
  | .nil, c, c', h => by
    simp only [compilePairs] at h
    cases h
    exact continues_refl _
  | .cons k v rest, c, c', h => by
    simp only [compilePairs] at h
    obtain ⟨c1, h1, h⟩ := bind_ok h
    obtain ⟨c2, h2, h⟩ := bind_ok h
    exact continues_trans (compileExpression_continues P k c c1 h1)
      (continues_trans (compileExpression_continues P v c1 c2 h2)
        (compilePairs_continues P rest c2 c' h))
end

theorem reference_final {P : Params} {t t1 t' : SymbolTable} {outer : List CompilationScope}
    {x : String} {c0 : Compiler} (h : referenceOk P t t1 outer x c0) (hc : t1.continues t') :
    referenceOk P t t' outer x c0 := by
  obtain ⟨cur0, c0', h1, h2, h3, h4⟩ := h
  exact ⟨cur0, c0', h1, h2, h3, continues_trans h4 hc⟩

theorem reference_initial {P : Params} {t t1 t' : SymbolTable} {outer : List CompilationScope}
    {x : String} {c0 : Compiler} (hc : t.continues t1) (h : referenceOk P t1 t' outer x c0) :
    referenceOk P t t' outer x c0 := by
  obtain ⟨cur0, c0', h1, h2, h3, h4⟩ := h
  exact ⟨cur0, c0', h1, continues_trans hc h2, h3, h4⟩

theorem ok_inj {α : Type} {a b : α} {x : Except String α} (h1 : x = .ok a) (h2 : x = .ok b) :
    a = b := by
  rw [h1] at h2
  cases h2
  rfl

mutual
/-- Every identifier that an expression refers to in its own function is compiled in the
scope of the expression, in a state that continues the symbol table of the start and is
continued by the symbol table of the end. -/
theorem compileExpression_refers (P : Params) : ∀ (e : Expression) (c c' : Compiler)
    (x : String) (c0 : Compiler) (outer : List CompilationScope) (cur : CompilationScope),
    c.inScope outer cur → compileExpression P e c = .ok c' → e.refersAt P c x c0 →
    referenceOk P c.symbolTable c'.symbolTable outer x c0
  | .IntegerLiteral v, c, c', x, c0, outer, cur, hs, h, hr => by
    simp only [Expression.refersAt] at hr
    cases hr
  | .Boolean b, c, c', x, c0, outer, cur, hs, h, hr => by
    simp only [Expression.refersAt] at hr
    cases hr
  | .StringLiteral s, c, c', x, c0, outer, cur, hs, h, hr => by
    simp only [Expression.refersAt] at hr
    cases hr
  | .Identifier name, c, c', x, c0, outer, cur, hs, h, hr => by
    simp only [Expression.refersAt] at hr
    obtain ⟨e1, e2⟩ := hr
    subst e1 e2
    exact ⟨cur, c', hs, continues_refl _, h, continues_refl _⟩
  | .PrefixExpression op right, c, c', x, c0, outer, cur, hs, h, hr => by
    simp only [Expression.refersAt] at hr
    simp only [compileExpression] at h
    obtain ⟨c1, h1, h⟩ := bind_ok h
    have i1 := compileExpression_refers P right c c1 x c0 outer cur hs h1 hr
    split at h
    · cases h
      exact i1
    · cases h
  | .InfixExpression left op right, c, c', x, c0, outer, cur, hs, h, hr => by
    simp only [Expression.refersAt] at hr
    simp only [compileExpression] at h
    split at h
    · next hop =>
      rw [if_pos hop] at hr
      obtain ⟨c1, h1, h⟩ := bind_ok h
      obtain ⟨c2, h2, h⟩ := bind_ok h
      obtain ⟨cur1, hs1⟩ := compileExpression_inScope P right c c1 outer cur hs h1
      cases h
      rcases hr with hr | ⟨c1', h1', hr⟩
      · exact reference_final (compileExpression_refers P right c c1 x c0 outer cur hs h1 hr)
          (compileExpression_continues P left c1 c2 h2)
      · have e := ok_inj h1 h1'
        subst e
        exact reference_initial (compileExpression_continues P right c c1 h1)
          (compileExpression_refers P left c1 c2 x c0 outer cur1 hs1 h2 hr)
    · next hop =>
      rw [if_neg hop] at hr
      obtain ⟨c1, h1, h⟩ := bind_ok h
      obtain ⟨c2, h2, h⟩ := bind_ok h
      obtain ⟨cur1, hs1⟩ := compileExpression_inScope P left c c1 outer cur hs h1
      split at h
      · cases h
        rcases hr with hr | ⟨c1', h1', hr⟩
        · exact reference_final (compileExpression_refers P left c c1 x c0 outer cur hs h1 hr)
            (compileExpression_continues P right c1 c2 h2)
        · have e := ok_inj h1 h1'
          subst e
          exact reference_initial (compileExpression_continues P left c c1 h1)
            (compileExpression_refers P right c1 c2 x c0 outer cur1 hs1 h2 hr)
      · cases h
  | .IfExpression cond cons alt, c, c', x, c0, outer, cur, hs, h, hr => by
    simp only [Expression.refersAt] at hr
    simp only [compileExpression] at h
    obtain ⟨c1, h1, h⟩ := bind_ok h
    obtain ⟨cur1, hs1⟩ := compileExpression_inScope P cond c c1 outer cur hs h1
    have hs2 := (inScope_emit P hs1 .OpJumpNotTruthy [9999]).1
    obtain ⟨c3, h3, h⟩ := bind_ok h
    obtain ⟨cur3, hs3⟩ := compileBlock_inScope P cons _ c3 outer _ hs2 h3
    have hs4 : ∃ cur4, (if c3.lastInstructionIs .OpPop = true then c3.removeLastPop
        else c3).inScope outer cur4 := by
      split
      · exact inScope_removeLastPop hs3
      · exact ⟨cur3, hs3⟩
    obtain ⟨cur4, hs4⟩ := hs4
    have hs5 := (inScope_emit P hs4 .OpJump [9999]).1
    obtain ⟨cur6, hs6⟩ := inScope_changeOperand P hs5
      (Compiler.emit P c1 .OpJumpNotTruthy [9999]).1
      (Compiler.emit P (if c3.lastInstructionIs .OpPop = true then c3.removeLastPop else c3)
        .OpJump [9999]).2.currentInstructions.length
    have hs6' : (Compiler.beforeAlternative P c1 c3).inScope outer cur6 := hs6
    obtain ⟨c7, h7, h⟩ := bind_ok h
    have h7' : compileAlternative P alt (Compiler.beforeAlternative P c1 c3) = .ok c7 := h7
    have i1 := compileExpression_continues P cond c c1 h1
    have i3 : c1.symbolTable.continues c3.symbolTable :=
      compileBlock_continues P cons (Compiler.emit P c1 .OpJumpNotTruthy [9999]).2 c3 h3
    have i7 := compileAlternative_continues P alt (Compiler.beforeAlternative P c1 c3) c7 h7'
    rw [beforeAlternative_symbolTable] at i7
    cases h
    rw [changeOperand_symbolTable]
    rcases hr with hr | ⟨c1', h1', hr | ⟨c3', h3', hr⟩⟩
    · exact reference_final (compileExpression_refers P cond c c1 x c0 outer cur hs h1 hr)
        (continues_trans i3 i7)
    · have e := ok_inj h1 h1'
      subst e
      have r := compileBlock_refers P cons _ c3 x c0 outer _ hs2 h3 hr
      exact reference_initial i1 (reference_final r i7)
    · have e := ok_inj h1 h1'
      subst e
      have e := ok_inj h3 h3'
      subst e
      have r := compileAlternative_refers P alt _ c7 x c0 outer cur6 hs6' h7' hr
      rw [beforeAlternative_symbolTable] at r
      exact reference_initial (continues_trans i1 i3) r
  | .FunctionLiteral name params body, c, c', x, c0, outer, cur, hs, h, hr => by
    simp only [Expression.refersAt] at hr
    cases hr
  | .CallExpression fn args, c, c', x, c0, outer, cur, hs, h, hr => by
    simp only [Expression.refersAt] at hr
    simp only [compileExpression] at h
    obtain ⟨c1, h1, h⟩ := bind_ok h
    obtain ⟨c2, h2, h⟩ := bind_ok h
    obtain ⟨cur1, hs1⟩ := compileExpression_inScope P fn c c1 outer cur hs h1
    cases h
    rcases hr with hr | ⟨c1', h1', hr⟩
    · exact reference_final (compileExpression_refers P fn c c1 x c0 outer cur hs h1 hr)
        (compileExpressions_continues P args c1 c2 h2)
    · have e := ok_inj h1 h1'
      subst e
      exact reference_initial (compileExpression_continues P fn c c1 h1)
        (compileExpressions_refers P args c1 c2 x c0 outer cur1 hs1 h2 hr)
  | .ArrayLiteral elems, c, c', x, c0, outer, cur, hs, h, hr => by
    simp only [Expression.refersAt] at hr
    simp only [compileExpression] at h
    obtain ⟨c1, h1, h⟩ := bind_ok h
    cases h
    exact compileExpressions_refers P elems c c1 x c0 outer cur hs h1 hr
  | .HashLiteral entries, c, c', x, c0, outer, cur, hs, h, hr => by
    simp only [Expression.refersAt] at hr
    simp only [compileExpression] at h
    obtain ⟨c1, h1, h⟩ := bind_ok h
    cases h
    exact compilePairs_refers P entries c c1 x c0 outer cur hs h1 hr
  | .IndexExpression left idx, c, c', x, c0, outer, cur, hs, h, hr => by
    simp only [Expression.refersAt] at hr
    simp only [compileExpression] at h
    obtain ⟨c1, h1, h⟩ := bind_ok h
    obtain ⟨c2, h2, h⟩ := bind_ok h
    obtain ⟨cur1, hs1⟩ := compileExpression_inScope P left c c1 outer cur hs h1
    cases h
    rcases hr with hr | ⟨c1', h1', hr⟩
    · exact reference_final (compileExpression_refers P left c c1 x c0 outer cur hs h1 hr)
        (compileExpression_continues P idx c1 c2 h2)
    · have e := ok_inj h1 h1'
      subst e
      exact reference_initial (compileExpression_continues P left c c1 h1)
        (compileExpression_refers P idx c1 c2 x c0 outer cur1 hs1 h2 hr)
/-- The references of a statement. -/
theorem compileStatement_refers (P : Params) : ∀ (s : Statement) (c c' : Compiler)
    (x : String) (c0 : Compiler) (outer : List CompilationScope) (cur : CompilationScope),
    c.inScope outer cur → compileStatement P s c = .ok c' → s.refersAt P c x c0 →
    referenceOk P c.symbolTable c'.symbolTable outer x c0
  | .LetStatement name value, c, c', x, c0, outer, cur, hs, h, hr => by
    simp only [Statement.refersAt] at hr
    simp only [compileStatement] at h
    obtain ⟨c1, h1, h⟩ := bind_ok h
    have r := compileExpression_refers P value _ c1 x c0 outer cur
      (inScope_symbolTable hs _) h1 hr
    have r' : referenceOk P c.symbolTable c1.symbolTable outer x c0 :=
      reference_initial (Define_continues c.symbolTable name) r
    split at h
    · cases h
      exact r'
    · cases h
      exact r'
  | .ReturnStatement v, c, c', x, c0, outer, cur, hs, h, hr => by
    simp only [Statement.refersAt] at hr
    simp only [compileStatement] at h
    obtain ⟨c1, h1, h⟩ := bind_ok h
    cases h
    exact compileExpression_refers P v c c1 x c0 outer cur hs h1 hr
  | .ExpressionStatement e, c, c', x, c0, outer, cur, hs, h, hr => by
    simp only [Statement.refersAt] at hr
    simp only [compileStatement] at h
    obtain ⟨c1, h1, h⟩ := bind_ok h
    cases h
    exact compileExpression_refers P e c c1 x c0 outer cur hs h1 hr
/-- The references of a block. -/
theorem compileBlock_refers (P : Params) : ∀ (b : Block) (c c' : Compiler)
    (x : String) (c0 : Compiler) (outer : List CompilationScope) (cur : CompilationScope),
    c.inScope outer cur → compileBlock P b c = .ok c' → b.refersAt P c x c0 →
    referenceOk P c.symbolTable c'.symbolTable outer x c0
  | .nil, c, c', x, c0, outer, cur, hs, h, hr => by
    simp only [Block.refersAt] at hr
    cases hr
  | .cons s rest, c, c', x, c0, outer, cur, hs, h, hr => by
    simp only [Block.refersAt] at hr
    simp only [compileBlock] at h
    obtain ⟨c1, h1, h⟩ := bind_ok h
    obtain ⟨cur1, hs1⟩ := compileStatement_inScope P s c c1 outer cur hs h1
    rcases hr with hr | ⟨c1', h1', hr⟩
    · exact reference_final (compileStatement_refers P s c c1 x c0 outer cur hs h1 hr)
        (compileBlock_continues P rest c1 c' h)
    · have e := ok_inj h1 h1'
      subst e
      exact reference_initial (compileStatement_continues P s c c1 h1)
        (compileBlock_refers P rest c1 c' x c0 outer cur1 hs1 h hr)
/-- The references of an else branch. -/
theorem compileAlternative_refers (P : Params) : ∀ (a : Alternative) (c c' : Compiler)
    (x : String) (c0 : Compiler) (outer : List CompilationScope) (cur : CompilationScope),
    c.inScope outer cur → compileAlternative P a c = .ok c' → a.refersAt P c x c0 →
    referenceOk P c.symbolTable c'.symbolTable outer x c0
  | .none, c, c', x, c0, outer, cur, hs, h, hr => by
    simp only [Alternative.refersAt] at hr
    cases hr
  | .some b, c, c', x, c0, outer, cur, hs, h, hr => by
    simp only [Alternative.refersAt] at hr
    simp only [compileAlternative] at h
    obtain ⟨c1, h1, h⟩ := bind_ok h
    cases h
    rw [dropPop_symbolTable]
    exact compileBlock_refers P b c c1 x c0 outer cur hs h1 hr
/-- The references of a sequence of expressions. -/
theorem compileExpressions_refers (P : Params) : ∀ (es : Expressions) (c c' : Compiler)
    (x : String) (c0 : Compiler) (outer : List CompilationScope) (cur : CompilationScope),
    c.inScope outer cur → compileExpressions P es c = .ok c' → es.refersAt P c x c0 →
    referenceOk P c.symbolTable c'.symbolTable outer x c0
  | .nil, c, c', x, c0, outer, cur, hs, h, hr => by
    simp only [Expressions.refersAt] at hr
    cases hr
  | .cons e rest, c, c', x, c0, outer, cur, hs, h, hr => by
    simp only [Expressions.refersAt] at hr
    simp only [compileExpressions] at h
    obtain ⟨c1, h1, h⟩ := bind_ok h
    obtain ⟨cur1, hs1⟩ := compileExpression_inScope P e c c1 outer cur hs h1
    rcases hr with hr | ⟨c1', h1', hr⟩
    · exact reference_final (compileExpression_refers P e c c1 x c0 outer cur hs h1 hr)
        (compileExpressions_continues P rest c1 c' h)
    · have e := ok_inj h1 h1'
      subst e
      exact reference_initial (compileExpression_continues P e c c1 h1)
        (compileExpressions_refers P rest c1 c' x c0 outer cur1 hs1 h hr)
/-- The references of the entries of a hash literal. -/
theorem compilePairs_refers (P : Params) : ∀ (ps : Pairs) (c c' : Compiler)
    (x : String) (c0 : Compiler) (outer : List CompilationScope) (cur : CompilationScope),
    c.inScope outer cur → compilePairs P ps c = .ok c' → ps.refersAt P c x c0 →
    referenceOk P c.symbolTable c'.symbolTable outer x c0
  | .nil, c, c', x, c0, outer, cur, hs, h, hr => by
    simp only [Pairs.refersAt] at hr
    cases hr
  | .cons k v rest, c, c', x, c0, outer, cur, hs, h, hr => by
    simp only [Pairs.refersAt] at hr
    simp only [compilePairs] at h
    obtain ⟨c1, h1, h⟩ := bind_ok h
    obtain ⟨c2, h2, h⟩ := bind_ok h
    obtain ⟨cur1, hs1⟩ := compileExpression_inScope P k c c1 outer cur hs h1
    obtain ⟨cur2, hs2⟩ := compileExpression_inScope P v c1 c2 outer cur1 hs1 h2
    have i1 := compileExpression_continues P k c c1 h1
    have i2 := compileExpression_continues P v c1 c2 h2
    have i3 := compilePairs_continues P rest c2 c' h
    rcases hr with hr | ⟨c1', h1', hr | ⟨c2', h2', hr⟩⟩
    · exact reference_final (compileExpression_refers P k c c1 x c0 outer cur hs h1 hr)
        (continues_trans i2 i3)
    · have e := ok_inj h1 h1'
      subst e
      exact reference_initial i1 (reference_final
        (compileExpression_refers P v c1 c2 x c0 outer cur1 hs1 h2 hr) i3)
    · have e := ok_inj h1 h1'
      subst e
      have e := ok_inj h2 h2'
      subst e
      exact reference_initial (continues_trans i1 i2)
        (compilePairs_refers P rest c2 c' x c0 outer cur2 hs2 h hr)
end

theorem getElem?_extends {α : Type} {l1 l2 : List α} (h : l1 <+: l2) {i : Nat} {a : α}
    (hi : l1[i]? = some a) : l2[i]? = some a := by
  obtain ⟨t, rfl⟩ := h
  have hlt : i < l1.length := by
    by_contra hc
    rw [List.getElem?_eq_none (by omega)] at hi
    cases hi
  rw [List.getElem?_append_left hlt]
  exact hi

theorem loadBytes_append (P : Params) (a b : List Symbol) :
    loadBytes P (a ++ b) = loadBytes P a ++ loadBytes P b := by
  simp [loadBytes]

theorem loadBytes_at (P : Params) (ss : List Symbol) (i : Nat) (obj : Symbol)
    (h : ss[i]? = some obj) :
    loadBytes P ss = loadBytes P (ss.take i) ++
      Make P (loadInstruction obj).1 (loadInstruction obj).2 ++ loadBytes P (ss.drop (i + 1)) := by
  have hlt : i < ss.length := by
    by_contra hc
    rw [List.getElem?_eq_none (by omega)] at h
    cases h
  have hget : ss[i] = obj := by
    rw [List.getElem?_eq_getElem hlt] at h
    exact Option.some.inj h
  have e : ss = ss.take i ++ obj :: ss.drop (i + 1) := by
    rw [← hget, ← List.drop_eq_getElem_cons hlt, List.take_append_drop]
  conv_lhs => rw [e]
  rw [loadBytes_append]
  simp [loadBytes, List.append_assoc]

theorem Resolve_enclosed_found {o : SymbolTable} {store : List (String × Symbol)} {n : Nat}
    {free : List Symbol} {x : String} {s : Symbol} (h : lookupSymbol store x = some s) :
    (SymbolTable.enclosed o store n free).Resolve x = some (s, .enclosed o store n free) := by
  simp only [SymbolTable.Resolve, h]

theorem Resolve_enclosed_outward {o : SymbolTable} {store : List (String × Symbol)} {n : Nat}
    {free : List Symbol} {x : String} {sym : Symbol} {t0 : SymbolTable}
    (hl : lookupSymbol store x = none)
    (h : (SymbolTable.enclosed o store n free).Resolve x = some (sym, t0)) :
    ∃ obj o', o.Resolve x = some (obj, o') ∧
      ((obj.Scope = .GlobalScope ∨ obj.Scope = .BuiltinScope) →
        sym = obj ∧ t0 = .enclosed o' store n free) ∧
      (obj.Scope ≠ .GlobalScope → obj.Scope ≠ .BuiltinScope →
        sym = ⟨obj.Name, .FreeScope, free.length⟩ ∧ t0.FreeSymbols = free ++ [obj]) := by
  simp only [SymbolTable.Resolve, hl] at h
  cases ho : SymbolTable.Resolve x o with
  | none => rw [ho] at h; cases h
  | some r =>
    obtain ⟨obj, o'⟩ := r
    rw [ho] at h
    dsimp only at h
    refine ⟨obj, o', rfl, ?_, ?_⟩
    · intro hg
      rw [if_pos hg] at h
      cases h
      exact ⟨rfl, rfl⟩
    · intro h1 h2
      rw [if_neg (by intro hh; rcases hh with e | e; exact h1 e; exact h2 e)] at h
      cases h
      exact ⟨rfl, rfl⟩

/-- The references of the body of a function literal: each is compiled in the scope of
the body, to the load of the symbol that the table of the function resolves the name to
at that point. -/
theorem body_reference (P : Params) (name : String) (params : List String) (body : Block)
    (c cb : Compiler) (outer : List CompilationScope) (cur : CompilationScope)
    (hs : c.inScope outer cur)
    (hb : compileBlock P body (c.enterFunction name params) = .ok cb)
    (x : String) (c0 : Compiler) (hr : body.refersAt P (c.enterFunction name params) x c0) :
    ∃ (o : SymbolTable) (store : List (String × Symbol)) (n : Nat) (free : List Symbol)
      (cur0 cur0' : CompilationScope) (sym : Symbol) (t0 : SymbolTable) (c0' : Compiler),
      c0.symbolTable = .enclosed o store n free ∧ c0.inScope (outer ++ [cur]) cur0 ∧
      c0.symbolTable.Resolve x = some (sym, t0) ∧
      compileExpression P (.Identifier x) c0 = .ok c0' ∧ c0'.symbolTable = t0 ∧
      c0'.inScope (outer ++ [cur]) cur0' ∧
      cur0'.instructions = cur0.instructions ++
        Make P (loadInstruction sym).1 (loadInstruction sym).2 ∧
      free <+: cb.symbolTable.FreeSymbols ∧
      (∀ s, lookupSymbol store x = some s → sym = s ∧
        (s.Scope = .FreeScope →
          ∃ obj, cb.symbolTable.FreeSymbols[s.Index]? = some obj ∧ obj.Name = x)) ∧
      (lookupSymbol store x = none → ∃ obj o', o.Resolve x = some (obj, o') ∧
        ((obj.Scope = .GlobalScope ∨ obj.Scope = .BuiltinScope) → sym = obj) ∧
        (obj.Scope ≠ .GlobalScope → obj.Scope ≠ .BuiltinScope →
          sym = ⟨obj.Name, .FreeScope, free.length⟩ ∧
          cb.symbolTable.FreeSymbols[free.length]? = some obj)) := by
  have he := inScope_enterFunction hs name params
  obtain ⟨cur0, c0', hs0, hcont0, hid, hcont1⟩ :=
    compileBlock_refers P body _ cb x c0 (outer ++ [cur]) emptyScope he hb hr
  obtain ⟨s0, n0, hent, hf0⟩ := enterFunction_symbolTable c name params
  rw [hent] at hcont0
  obtain ⟨o, store, n, free, e0, _, _⟩ := grows_enclosed hcont0.1
  have hok : c0.symbolTable.okDepth 1 := hcont0.2 1 ⟨hf0, rfl⟩
  rw [e0] at hok
  have hfree : freeOk store free := hok.1
  cases hres : c0.symbolTable.Resolve x with
  | none =>
    simp only [compileExpression, hres] at hid
    cases hid
  | some r =>
    obtain ⟨sym, t0⟩ := r
    have hcomp : compileExpression P (.Identifier x) c0 =
        .ok (Compiler.loadSymbol P { c0 with symbolTable := t0 } sym) := by
      simp only [compileExpression, hres]
    have e := ok_inj hcomp hid
    subst e
    have hpre0 : t0.FreeSymbols <+: cb.symbolTable.FreeSymbols := grows_free _ _ hcont1.1
    have hpre : free <+: cb.symbolTable.FreeSymbols := by
      have := grows_free _ _ (Resolve_grows x _ _ _ hres)
      rw [e0] at this
      exact List.IsPrefix.trans this hpre0
    refine ⟨o, store, n, free, cur0, _, sym, t0, _, e0, hs0, rfl, hcomp, rfl,
      inScope_loadSymbol P (inScope_symbolTable hs0 t0) sym, rfl, hpre, ?_, ?_⟩
    · intro s hl
      rw [e0, Resolve_enclosed_found hl] at hres
      cases hres
      refine ⟨rfl, fun hsc => ?_⟩
      obtain ⟨obj, ho, hn⟩ := hfree x sym hl hsc
      exact ⟨obj, getElem?_extends hpre ho, hn⟩
    · intro hl
      rw [e0] at hres
      obtain ⟨obj, o', ho, hg, hl2⟩ := Resolve_enclosed_outward hl hres
      refine ⟨obj, o', ho, fun h => (hg h).1, fun h1 h2 => ?_⟩
      obtain ⟨e1, e2⟩ := hl2 h1 h2
      refine ⟨e1, getElem?_extends hpre0 ?_⟩
      rw [e2]
      simp

mutual
/-- An identifier that occurs in an expression that compiles is compiled. -/
theorem compileExpression_mentions (P : Params) : ∀ (e : Expression) (c c' : Compiler)
    (x : String), compileExpression P e c = .ok c' → e.mentions x →
    ∃ c0, e.refersAt P c x c0
  | .IntegerLiteral v, c, c', x, h, hm => by
    simp only [Expression.mentions] at hm
    cases hm
  | .Boolean b, c, c', x, h, hm => by
    simp only [Expression.mentions] at hm
    cases hm
  | .StringLiteral s, c, c', x, h, hm => by
    simp only [Expression.mentions] at hm
    cases hm
  | .Identifier name, c, c', x, h, hm => by
    simp only [Expression.mentions] at hm
    exact ⟨c, by simp only [Expression.refersAt]; exact ⟨hm, trivial⟩⟩
  | .PrefixExpression op right, c, c', x, h, hm => by
    simp only [Expression.mentions] at hm
    simp only [compileExpression] at h
    obtain ⟨c1, h1, h⟩ := bind_ok h
    obtain ⟨c0, r⟩ := compileExpression_mentions P right c c1 x h1 hm
    exact ⟨c0, by simp only [Expression.refersAt]; exact r⟩
  | .InfixExpression left op right, c, c', x, h, hm => by
    simp only [Expression.mentions] at hm
    simp only [compileExpression] at h
    split at h
    · next hop =>
      obtain ⟨c1, h1, h⟩ := bind_ok h
      obtain ⟨c2, h2, h⟩ := bind_ok h
      rcases hm with hm | hm
      · obtain ⟨c0, r⟩ := compileExpression_mentions P left c1 c2 x h2 hm
        exact ⟨c0, by simp only [Expression.refersAt]; rw [if_pos hop]; exact Or.inr ⟨c1, h1, r⟩⟩
      · obtain ⟨c0, r⟩ := compileExpression_mentions P right c c1 x h1 hm
        exact ⟨c0, by simp only [Expression.refersAt]; rw [if_pos hop]; exact Or.inl r⟩
    · next hop =>
      obtain ⟨c1, h1, h⟩ := bind_ok h
      obtain ⟨c2, h2, h⟩ := bind_ok h
      rcases hm with hm | hm
      · obtain ⟨c0, r⟩ := compileExpression_mentions P left c c1 x h1 hm
        exact ⟨c0, by simp only [Expression.refersAt]; rw [if_neg hop]; exact Or.inl r⟩
      · obtain ⟨c0, r⟩ := compileExpression_mentions P right c1 c2 x h2 hm
        exact ⟨c0, by simp only [Expression.refersAt]; rw [if_neg hop]; exact Or.inr ⟨c1, h1, r⟩⟩
  | .IfExpression cond cons alt, c, c', x, h, hm => by
    simp only [Expression.mentions] at hm
    simp only [compileExpression] at h
    obtain ⟨c1, h1, h⟩ := bind_ok h
    obtain ⟨c3, h3, h⟩ := bind_ok h
    obtain ⟨c7, h7, h⟩ := bind_ok h
    have h7' : compileAlternative P alt (Compiler.beforeAlternative P c1 c3) = .ok c7 := h7
    rcases hm with hm | hm | hm
    · obtain ⟨c0, r⟩ := compileExpression_mentions P cond c c1 x h1 hm
      exact ⟨c0, by simp only [Expression.refersAt]; exact Or.inl r⟩
    · obtain ⟨c0, r⟩ := compileBlock_mentions P cons _ c3 x h3 hm
      exact ⟨c0, by simp only [Expression.refersAt]; exact Or.inr ⟨c1, h1, Or.inl r⟩⟩
    · obtain ⟨c0, r⟩ := compileAlternative_mentions P alt _ c7 x h7' hm
      exact ⟨c0, by simp only [Expression.refersAt]; exact Or.inr ⟨c1, h1, Or.inr ⟨c3, h3, r⟩⟩⟩
  | .FunctionLiteral name params body, c, c', x, h, hm => by
    simp only [Expression.mentions] at hm
    cases hm
  | .CallExpression fn args, c, c', x, h, hm => by
    simp only [Expression.mentions] at hm
    simp only [compileExpression] at h
    obtain ⟨c1, h1, h⟩ := bind_ok h
    obtain ⟨c2, h2, h⟩ := bind_ok h
    rcases hm with hm | hm
    · obtain ⟨c0, r⟩ := compileExpression_mentions P fn c c1 x h1 hm
      exact ⟨c0, by simp only [Expression.refersAt]; exact Or.inl r⟩
    · obtain ⟨c0, r⟩ := compileExpressions_mentions P args c1 c2 x h2 hm
      exact ⟨c0, by simp only [Expression.refersAt]; exact Or.inr ⟨c1, h1, r⟩⟩
  | .ArrayLiteral elems, c, c', x, h, hm => by
    simp only [Expression.mentions] at hm
    simp only [compileExpression] at h
    obtain ⟨c1, h1, h⟩ := bind_ok h
    obtain ⟨c0, r⟩ := compileExpressions_mentions P elems c c1 x h1 hm
    exact ⟨c0, by simp only [Expression.refersAt]; exact r⟩
  | .HashLiteral entries, c, c', x, h, hm => by
    simp only [Expression.mentions] at hm
    simp only [compileExpression] at h
    obtain ⟨c1, h1, h⟩ := bind_ok h
    obtain ⟨c0, r⟩ := compilePairs_mentions P entries c c1 x h1 hm
    exact ⟨c0, by simp only [Expression.refersAt]; exact r⟩
  | .IndexExpression left idx, c, c', x, h, hm => by
    simp only [Expression.mentions] at hm
    simp only [compileExpression] at h
    obtain ⟨c1, h1, h⟩ := bind_ok h
    obtain ⟨c2, h2, h⟩ := bind_ok h
    rcases hm with hm | hm
    · obtain ⟨c0, r⟩ := compileExpression_mentions P left c c1 x h1 hm
      exact ⟨c0, by simp only [Expression.refersAt]; exact Or.inl r⟩
    · obtain ⟨c0, r⟩ := compileExpression_mentions P idx c1 c2 x h2 hm
      exact ⟨c0, by simp only [Expression.refersAt]; exact Or.inr ⟨c1, h1, r⟩⟩
/-- An identifier that occurs in a statement that compiles is compiled. -/
theorem compileStatement_mentions (P : Params) : ∀ (s : Statement) (c c' : Compiler)
    (x : String), compileStatement P s c = .ok c' → s.mentions x →
    ∃ c0, s.refersAt P c x c0
  | .LetStatement name value, c, c', x, h, hm => by
    simp only [Statement.mentions] at hm
    simp only [compileStatement] at h
    obtain ⟨c1, h1, h⟩ := bind_ok h
    obtain ⟨c0, r⟩ := compileExpression_mentions P value _ c1 x h1 hm
    exact ⟨c0, by simp only [Statement.refersAt]; exact r⟩
  | .ReturnStatement v, c, c', x, h, hm => by
    simp only [Statement.mentions] at hm
    simp only [compileStatement] at h
    obtain ⟨c1, h1, h⟩ := bind_ok h
    obtain ⟨c0, r⟩ := compileExpression_mentions P v c c1 x h1 hm
    exact ⟨c0, by simp only [Statement.refersAt]; exact r⟩
  | .ExpressionStatement e, c, c', x, h, hm => by
    simp only [Statement.mentions] at hm
    simp only [compileStatement] at h
    obtain ⟨c1, h1, h⟩ := bind_ok h
    obtain ⟨c0, r⟩ := compileExpression_mentions P e c c1 x h1 hm
    exact ⟨c0, by simp only [Statement.refersAt]; exact r⟩
/-- An identifier that occurs in a block that compiles is compiled. -/
theorem compileBlock_mentions (P : Params) : ∀ (b : Block) (c c' : Compiler)
    (x : String), compileBlock P b c = .ok c' → b.mentions x →
    ∃ c0, b.refersAt P c x c0
  | .nil, c, c', x, h, hm => by
    simp only [Block.mentions] at hm
    cases hm
  | .cons s rest, c, c', x, h, hm => by
    simp only [Block.mentions] at hm
    simp only [compileBlock] at h
    obtain ⟨c1, h1, h⟩ := bind_ok h
    rcases hm with hm | hm
    · obtain ⟨c0, r⟩ := compileStatement_mentions P s c c1 x h1 hm
      exact ⟨c0, by simp only [Block.refersAt]; exact Or.inl r⟩
    · obtain ⟨c0, r⟩ := compileBlock_mentions P rest c1 c' x h hm
      exact ⟨c0, by simp only [Block.refersAt]; exact Or.inr ⟨c1, h1, r⟩⟩
/-- An identifier that occurs in an else branch that compiles is compiled. -/
theorem compileAlternative_mentions (P : Params) : ∀ (a : Alternative) (c c' : Compiler)
    (x : String), compileAlternative P a c = .ok c' → a.mentions x →
    ∃ c0, a.refersAt P c x c0
  | .none, c, c', x, h, hm => by
    simp only [Alternative.mentions] at hm
    cases hm
  | .some b, c, c', x, h, hm => by
    simp only [Alternative.mentions] at hm
    simp only [compileAlternative] at h
    obtain ⟨c1, h1, h⟩ := bind_ok h
    obtain ⟨c0, r⟩ := compileBlock_mentions P b c c1 x h1 hm
    exact ⟨c0, by simp only [Alternative.refersAt]; exact r⟩
/-- An identifier that occurs in expressions that compile is compiled. -/
theorem compileExpressions_mentions (P : Params) : ∀ (es : Expressions) (c c' : Compiler)
    (x : String), compileExpressions P es c = .ok c' → es.mentions x →
    ∃ c0, es.refersAt P c x c0
  | .nil, c, c', x, h, hm => by
    simp only [Expressions.mentions] at hm
    cases hm
  | .cons e rest, c, c', x, h, hm => by
    simp only [Expressions.mentions] at hm
    simp only [compileExpressions] at h
    obtain ⟨c1, h1, h⟩ := bind_ok h
    rcases hm with hm | hm
    · obtain ⟨c0, r⟩ := compileExpression_mentions P e c c1 x h1 hm
      exact ⟨c0, by simp only [Expressions.refersAt]; exact Or.inl r⟩
    · obtain ⟨c0, r⟩ := compileExpressions_mentions P rest c1 c' x h hm
      exact ⟨c0, by simp only [Expressions.refersAt]; exact Or.inr ⟨c1, h1, r⟩⟩
/-- An identifier that occurs in the entries of a hash literal that compile is compiled. -/
theorem compilePairs_mentions (P : Params) : ∀ (ps : Pairs) (c c' : Compiler)
    (x : String), compilePairs P ps c = .ok c' → ps.mentions x →
    ∃ c0, ps.refersAt P c x c0
  | .nil, c, c', x, h, hm => by
    simp only [Pairs.mentions] at hm
    cases hm
  | .cons k v rest, c, c', x, h, hm => by
    simp only [Pairs.mentions] at hm
    simp only [compilePairs] at h
    obtain ⟨c1, h1, h⟩ := bind_ok h
    obtain ⟨c2, h2, h⟩ := bind_ok h
    rcases hm with hm | hm | hm
    · obtain ⟨c0, r⟩ := compileExpression_mentions P k c c1 x h1 hm
      exact ⟨c0, by simp only [Pairs.refersAt]; exact Or.inl r⟩
    · obtain ⟨c0, r⟩ := compileExpression_mentions P v c1 c2 x h2 hm
      exact ⟨c0, by simp only [Pairs.refersAt]; exact Or.inr ⟨c1, h1, Or.inl r⟩⟩
    · obtain ⟨c0, r⟩ := compilePairs_mentions P rest c2 c' x h hm
      exact ⟨c0, by simp only [Pairs.refersAt]; exact Or.inr ⟨c1, h1, Or.inr ⟨c2, h2, r⟩⟩⟩
end

theorem defineAll_params (params : List String) : ∀ (c : Compiler) (o : SymbolTable)
    (s : List (String × Symbol)) (n : Nat) (f : List Symbol) (known : List String),
    c.symbolTable = .enclosed o s n f →
    (∀ p ∈ known, ∃ i, lookupSymbol s p = some ⟨p, .LocalScope, i⟩) →
    ∀ p ∈ known ++ params, ∃ i, lookupSymbol (params.foldl (fun (c : Compiler) p =>
      { c with symbolTable := (c.symbolTable.Define p).2 }) c).symbolTable.store p
        = some ⟨p, .LocalScope, i⟩ := by
  induction params with
  | nil =>
    intro c o s n f known h hk p hp
    rw [List.append_nil] at hp
    obtain ⟨i, hi⟩ := hk p hp
    exact ⟨i, by show lookupSymbol c.symbolTable.store p = _; rw [h]; exact hi⟩
  | cons q rest ih =>
    intro c o s n f known h hk p hp
    have hp' : p ∈ (known ++ [q]) ++ rest := by simpa using hp
    refine ih _ o ((q, ⟨q, .LocalScope, n⟩) :: s) (n + 1) f (known ++ [q]) ?_ ?_ p hp'
    · show (c.symbolTable.Define q).2 = _
      rw [h]
      rfl
    · intro r hr
      rw [lookupSymbol_cons]
      by_cases e : q = r
      · subst e
        exact ⟨n, by rw [if_pos rfl]⟩
      · rw [if_neg e]
        have : r ∈ known := by
          rcases List.mem_append.1 hr with h1 | h1
          · exact h1
          · simp at h1
            exact absurd h1.symm e
        exact hk r this

/-- On entry to a function literal every parameter is a Local symbol of the function. -/
theorem enterFunction_params (c : Compiler) (name : String) (params : List String) :
    ∀ p ∈ params, ∃ i, lookupSymbol (c.enterFunction name params).symbolTable.store p
      = some ⟨p, .LocalScope, i⟩ := by
  intro p hp
  unfold Compiler.enterFunction
  dsimp only
  split
  · exact defineAll_params params _ c.symbolTable [] 0 [] [] rfl
      (by intro q hq; cases hq) p (by simpa using hp)
  · exact defineAll_params params _ c.symbolTable [(name, ⟨name, .FunctionScope, 0⟩)] 0 [] [] rfl
      (by intro q hq; cases hq) p (by simpa using hp)

/-- C31: free symbols and closure emission of the compiler, for every function literal
`fn name(params) { body }` that compiles, from every compiler state.
(1) The symbol table: in a function scope, the first reference to a name that the
enclosing scopes resolve to a symbol that is neither Global nor Builtin gives a Free
symbol whose index is the number of free symbols collected so far, and appends the
resolved original to `FreeSymbols`; a later reference gives the same Free symbol and
collects nothing; a Global or Builtin symbol is returned as it is.  (2) A name defined
in a function scope is a Local symbol.  (3) An identifier is compiled to the load of the
symbol it resolves to, and (4) the loads are `OpGetFree i`, `OpGetLocal i`,
`OpGetGlobal i`, `OpGetBuiltin i`.
(5) The function literal: with `cb` the compiler state after the body, the enclosing
scope gets one load per free symbol of the function, in the order of `FreeSymbols` (the
load at position `i` is the load of `FreeSymbols[i]`, as the enclosing scope resolved
it: `OpGetLocal` for its own local, `OpGetFree` for a name that is free there too),
followed by `OpClosure` with the constant index of the function and the number of free
symbols.  On entry to the body every parameter is a Local symbol of the function.
Every identifier `x` that occurs in the body outside nested function literals is
compiled, and for each such reference, compiled in the state `c0`, the scope of the body
gets the load of the symbol `sym` that the table of the function resolves `x` to.  If
the function has not bound `x` yet and the enclosing scopes resolve it to `obj`, then
`sym` is `obj` itself when `obj` is Global or Builtin (`OpGetGlobal`, `OpGetBuiltin`),
and otherwise `sym` is the Free symbol whose index is the number `free.length` of free
symbols collected before this first reference (`OpGetFree`), and at the end of the body
`FreeSymbols[free.length]` is `obj`.  If the function has bound `x`, `sym` is that
binding: a parameter or local (`OpGetLocal`) or the Free symbol of an earlier reference,
whose index still points to the collected symbol named `x`.  The free symbols collected
before the reference keep their positions to the end of the body.
(6) The bytecode of two programs of `TestClosures`. -/
theorem C31_free_symbols (P : Params) (name : String) (params : List String) (body : Block)
    (c c' : Compiler) (outer : List CompilationScope) (cur : CompilationScope)
    (hs : c.inScope outer cur)
    (h : compileExpression P (.FunctionLiteral name params body) c = .ok c') :
    (∀ (o o' : SymbolTable) (store : List (String × Symbol)) (n : Nat) (free : List Symbol)
      (x : String) (obj : Symbol),
      lookupSymbol store x = none → o.Resolve x = some (obj, o') → obj.Name = x →
      (obj.Scope = .GlobalScope ∨ obj.Scope = .BuiltinScope →
        (SymbolTable.enclosed o store n free).Resolve x
          = some (obj, .enclosed o' store n free)) ∧
      (obj.Scope ≠ .GlobalScope → obj.Scope ≠ .BuiltinScope →
        ∃ t', (SymbolTable.enclosed o store n free).Resolve x
            = some (⟨x, .FreeScope, free.length⟩, t') ∧
          t'.FreeSymbols = free ++ [obj] ∧ t'.numDefinitions = n ∧
          t'.Resolve x = some (⟨x, .FreeScope, free.length⟩, t'))) ∧
    (∀ (o : SymbolTable) (store : List (String × Symbol)) (n : Nat) (free : List Symbol)
      (x : String),
      ((SymbolTable.enclosed o store n free).Define x).1 = ⟨x, .LocalScope, n⟩ ∧
      ((SymbolTable.enclosed o store n free).Define x).2.Resolve x
        = some (⟨x, .LocalScope, n⟩, ((SymbolTable.enclosed o store n free).Define x).2)) ∧
    (∀ (c0 : Compiler) (x : String) (sym : Symbol) (t : SymbolTable),
      c0.symbolTable.Resolve x = some (sym, t) →
      compileExpression P (.Identifier x) c0 = .ok (Compiler.emit P { c0 with symbolTable := t }
        (loadInstruction sym).1 (loadInstruction sym).2).2) ∧
    (∀ x i, loadInstruction ⟨x, .FreeScope, i⟩ = (.OpGetFree, [i]) ∧
      loadInstruction ⟨x, .LocalScope, i⟩ = (.OpGetLocal, [i]) ∧
      loadInstruction ⟨x, .GlobalScope, i⟩ = (.OpGetGlobal, [i]) ∧
      loadInstruction ⟨x, .BuiltinScope, i⟩ = (.OpGetBuiltin, [i])) ∧
    (∃ cb cur', compileBlock P body (c.enterFunction name params) = .ok cb ∧
      c'.inScope outer cur' ∧
      cur'.instructions = cur.instructions ++ loadBytes P cb.symbolTable.FreeSymbols ++
        Make P .OpClosure [cb.constants.length, cb.symbolTable.FreeSymbols.length] ∧
      (∃ fn, c'.constants = cb.constants ++ [.CompiledFunction fn]) ∧
      (∀ s ss, loadBytes P (s :: ss) =
        Make P (loadInstruction s).1 (loadInstruction s).2 ++ loadBytes P ss) ∧
      loadBytes P [] = [] ∧
      (∀ i obj, cb.symbolTable.FreeSymbols[i]? = some obj →
        loadBytes P cb.symbolTable.FreeSymbols =
          loadBytes P (cb.symbolTable.FreeSymbols.take i) ++
            Make P (loadInstruction obj).1 (loadInstruction obj).2 ++
            loadBytes P (cb.symbolTable.FreeSymbols.drop (i + 1))) ∧
      (∀ p ∈ params, ∃ i,
        lookupSymbol (c.enterFunction name params).symbolTable.store p
          = some ⟨p, .LocalScope, i⟩) ∧
      (∀ x : String, body.mentions x →
        ∃ c0, body.refersAt P (c.enterFunction name params) x c0) ∧
      (∀ (x : String) (c0 : Compiler), body.refersAt P (c.enterFunction name params) x c0 →
        ∃ (o : SymbolTable) (store : List (String × Symbol)) (n : Nat) (free : List Symbol)
          (cur0 cur0' : CompilationScope) (sym : Symbol) (t0 : SymbolTable) (c0' : Compiler),
          c0.symbolTable = .enclosed o store n free ∧ c0.inScope (outer ++ [cur]) cur0 ∧
          c0.symbolTable.Resolve x = some (sym, t0) ∧
          compileExpression P (.Identifier x) c0 = .ok c0' ∧ c0'.symbolTable = t0 ∧
          c0'.inScope (outer ++ [cur]) cur0' ∧
          cur0'.instructions = cur0.instructions ++
            Make P (loadInstruction sym).1 (loadInstruction sym).2 ∧
          free <+: cb.symbolTable.FreeSymbols ∧
          (∀ s, lookupSymbol store x = some s → sym = s ∧
            (s.Scope = .FreeScope →
              ∃ obj, cb.symbolTable.FreeSymbols[s.Index]? = some obj ∧ obj.Name = x)) ∧
          (lookupSymbol store x = none → ∃ obj o', o.Resolve x = some (obj, o') ∧
            ((obj.Scope = .GlobalScope ∨ obj.Scope = .BuiltinScope) → sym = obj) ∧
            (obj.Scope ≠ .GlobalScope → obj.Scope ≠ .BuiltinScope →
              sym = ⟨obj.Name, .FreeScope, free.length⟩ ∧
              cb.symbolTable.FreeSymbols[free.length]? = some obj)))) ∧
    compiled (Compile tableParams closureProgram) = some
      (Make tableParams .OpClosure [1, 0] ++ Make tableParams .OpPop [],
        [Make tableParams .OpGetFree [0] ++ Make tableParams .OpGetLocal [0] ++ Make tableParams .OpAdd [] ++
          Make tableParams .OpReturnValue [],
         Make tableParams .OpGetLocal [0] ++ Make tableParams .OpClosure [0, 1] ++ Make tableParams .OpReturnValue []]) ∧
    compiled (Compile tableParams nestedProgram) = some
      (Make tableParams .OpConstant [0] ++ Make tableParams .OpSetGlobal [0] ++ Make tableParams .OpClosure [6, 0] ++
        Make tableParams .OpPop [],
        [Make tableParams .OpConstant [3] ++ Make tableParams .OpSetLocal [0] ++ Make tableParams .OpGetGlobal [0] ++
          Make tableParams .OpGetFree [0] ++ Make tableParams .OpAdd [] ++ Make tableParams .OpGetFree [1] ++
          Make tableParams .OpAdd [] ++ Make tableParams .OpGetLocal [0] ++ Make tableParams .OpAdd [] ++
          Make tableParams .OpReturnValue [],
         Make tableParams .OpConstant [2] ++ Make tableParams .OpSetLocal [0] ++ Make tableParams .OpGetFree [0] ++
          Make tableParams .OpGetLocal [0] ++ Make tableParams .OpClosure [4, 2] ++ Make tableParams .OpReturnValue [],
         Make tableParams .OpConstant [1] ++ Make tableParams .OpSetLocal [0] ++ Make tableParams .OpGetLocal [0] ++
          Make tableParams .OpClosure [5, 1] ++ Make tableParams .OpReturnValue []]) := by
  refine ⟨?_, ?_, ?_, ?_, ?_, ?_, ?_⟩
  · intro o o' store n free x obj hlook hres hname
    constructor
    · intro hg
      simp only [SymbolTable.Resolve, hlook, hres]
      rw [if_pos hg]
    · intro h1 h2
      have hne : ¬ (obj.Scope = .GlobalScope ∨ obj.Scope = .BuiltinScope) := by
        intro hh; rcases hh with e | e
        · exact h1 e
        · exact h2 e
      refine ⟨.enclosed o' ((x, ⟨x, .FreeScope, free.length⟩) :: store) n (free ++ [obj]),
        ?_, rfl, rfl, ?_⟩
      · simp only [SymbolTable.Resolve, hlook, hres]
        rw [if_neg hne]
        simp only [SymbolTable.defineFree, SymbolTable.rebuild, SymbolTable.FreeSymbols,
          SymbolTable.store, SymbolTable.numDefinitions, hname]
      · simp only [SymbolTable.Resolve, lookupSymbol_cons_same]
  · intro o store n free x
    refine ⟨rfl, ?_⟩
    simp only [SymbolTable.Define, SymbolTable.rebuild, SymbolTable.store,
      SymbolTable.numDefinitions, SymbolTable.FreeSymbols, SymbolTable.Resolve,
      lookupSymbol_cons_same]
  · intro c0 x sym t hres
    simp only [compileExpression, hres]
    rfl
  · intro x i
    exact ⟨rfl, rfl, rfl, rfl⟩
  · simp only [compileExpression] at h
    obtain ⟨cb, hb, h⟩ := bind_ok h
    cases h
    have he := inScope_enterFunction hs name params
    obtain ⟨curb, hsb⟩ := compileBlock_inScope P body _ cb (outer ++ [cur]) emptyScope he hb
    obtain ⟨cure, hse⟩ := inScope_endFunction P hsb
    obtain ⟨hconst, cur', hin, hins⟩ := closeFunction_eq P hse params.length
    have hk := endFunction_constants P cb
    rw [hk.1, hk.2] at hins
    rw [hk.1] at hconst
    exact ⟨cb, cur', hb, hin, hins, ⟨_, hconst⟩, fun s ss => by simp [loadBytes],
      by simp [loadBytes], fun i obj hi => loadBytes_at P _ i obj hi,
      enterFunction_params c name params,
      fun x hm => compileBlock_mentions P body _ cb x hb hm,
      fun x c0 hr => body_reference P name params body c cb outer cur hs hb x c0 hr⟩
  · decide!
  · decide!

/-- C31, the example of `TestClosures`: `fn(a) { fn(b) { return a + b; } }`: in the
body of the outer function, compiling the inner function literal emits the load
`OpGetLocal 0` of the one free symbol `a` and then `OpClosure 0 1`; the reference to `a`
in the inner body is its first free symbol, the local `a` of the outer function. -/
theorem C31_witness :
    ∃ c c' cur' cb, compileExpression tableParams fnInner c = .ok c' ∧
      c'.inScope [emptyScope] cur' ∧
      cur'.instructions = Make tableParams .OpGetLocal [0] ++ Make tableParams .OpClosure [0, 1] ∧
      compileBlock tableParams (.cons (.ReturnStatement
        (.InfixExpression (.Identifier "a") "+" (.Identifier "b"))) .nil)
        (c.enterFunction "" ["b"]) = .ok cb ∧
      cb.symbolTable.FreeSymbols[0]? = some ⟨"a", .LocalScope, 0⟩ := by
  have hc : (Compiler.New.enterFunction "" ["a"]).inScope ([] ++ [emptyScope]) emptyScope :=
    inScope_enterFunction New_inScope "" ["a"]
  have hex : ∃ c', compileExpression tableParams fnInner (Compiler.New.enterFunction "" ["a"])
      = .ok c' ∧ c'.currentInstructions =
        Make tableParams .OpGetLocal [0] ++ Make tableParams .OpClosure [0, 1] :=
    ⟨_, rfl, rfl⟩
  obtain ⟨c', h, hi⟩ := hex
  obtain ⟨_, _, _, _, ⟨cb, cur', hb, hin, _, _, _, _, _, _, _, href⟩, _⟩ := C31_free_symbols tableParams
    "" ["b"]
    (.cons (.ReturnStatement (.InfixExpression (.Identifier "a") "+" (.Identifier "b"))) .nil)
    (Compiler.New.enterFunction "" ["a"]) c' ([] ++ [emptyScope]) emptyScope hc h
  refine ⟨_, c', cur', cb, h, hin, ?_, hb, ?_⟩
  · rw [← hi]
    unfold Compiler.currentInstructions
    rw [inScope_currentScope hin]
  · obtain ⟨o, store, n, free, cur0, cur0', sym, t0, c0', e0, _, _, _, _, _, _, _, _, hout⟩ :=
      href "a" ((Compiler.New.enterFunction "" ["a"]).enterFunction "" ["b"])
        (by simp [Block.refersAt, Statement.refersAt, Expression.refersAt])
    have e : ((Compiler.New.enterFunction "" ["a"]).enterFunction "" ["b"]).symbolTable =
        .enclosed (Compiler.New.enterFunction "" ["a"]).symbolTable
          [("b", ⟨"b", .LocalScope, 0⟩)] 1 [] := rfl
    rw [e] at e0
    cases e0
    obtain ⟨obj, o', hres, _, hfree⟩ := hout rfl
    have hobj : obj = ⟨"a", .LocalScope, 0⟩ := by
      have hr : (Compiler.New.enterFunction "" ["a"]).symbolTable.Resolve "a" =
          some (⟨"a", .LocalScope, 0⟩, (Compiler.New.enterFunction "" ["a"]).symbolTable) := rfl
      rw [hr] at hres
      cases hres
      rfl
    subst hobj
    exact (hfree (by decide) (by decide)).2

end Monkey
